import Mathlib

/-!
# Not-So-TinyBASIC (`tbasic.c`, `host.c`): program store, evaluator, statements

A shallow embedding of the interpreter.  The arena `memory[MEMSIZE]` is a
function from addresses to bytes (`0..255`); every C pointer into the arena is
the offset from `memory`.  `uchar` is `typedef char uchar` (host.h) and plain
`char` is signed on the targets the source names (the `SIGNCONV` macro exists
for that reason), so a byte read as a number goes through `schar`.
`short int` values are integers in `-32768..32767` (`toShort` after every
operation), `unsigned short` values are naturals below `65536`.
Loops that the C code leaves unbounded take fuel; `none` stands for a run that
does not return or that leaves the arena.
-/

namespace TBasic

/-! ## Constants of `host.h` and `tbasic.c` -/

def MEMSIZE : Nat := 32768
def MAXLINENUM : Nat := 65000

def PROCLINE_EOF : Nat := 0
def PROCLINE_OKAY : Nat := 1
def PROCLINE_DIRECT : Nat := 2
def PROCLINE_BADLINE : Nat := 3
def PROCLINE_DELETE : Nat := 4
def PROCLINE_EMPTY : Nat := 5

def NL : Nat := 10
def CR : Nat := 13
def EOFC : Nat := 26
def TAB : Nat := 9
def BELL : Nat := 8
def DEL : Nat := 127
def SPACE : Nat := 32
def CTRLC : Nat := 3
def CTRLH : Nat := 8

def NUM_VAR : Nat := 27
def VAR_SIZE : Nat := 2

/-- Offsets fixed by the source's `initialize()`: `variables_table = memory`. -/
def variables_table : Nat := 0
/-- Offset `array_table = memory + NUM_VAR*VAR_SIZE`. -/
def array_table : Nat := NUM_VAR * VAR_SIZE
/-- Offset `array_sz = array_table + NUM_VAR*VAR_SIZE`. -/
def array_sz : Nat := array_table + NUM_VAR * VAR_SIZE
/-- Offset `pgm_start = array_sz + NUM_VAR*VAR_SIZE`. -/
def pgm_start : Nat := array_sz + NUM_VAR * VAR_SIZE

/-- The arena: address to byte. -/
abbrev Mem := Nat → Nat

/-- Store one byte: `*p = v`. -/
def wr (m : Mem) (p v : Nat) : Mem := fun a => if a = p then v else m a

/-- A byte read as a (signed) `char`. -/
def schar (b : Nat) : Int := if b < 128 then (b : Int) else (b : Int) - 256

/-- Conversion of an `int` to `char` (wraps into `-128..127`). -/
def toSChar (x : Int) : Int := (x + 128) % 256 - 128

/-- Conversion of an `int` to `short int` (wraps into `-32768..32767`). -/
def toShort (x : Int) : Int := (x + 32768) % 65536 - 32768

/-- Conversion of a `char` value to the byte that is stored. -/
def byteOf (x : Int) : Nat := (x % 256).toNat

/-- The globals of `tbasic.c` together with the host's streams (`host.c`).
`inp` is what `getch` will still deliver, `out` what `putch` has written,
`r_file` tells whether `getch` reads a file (`r_file != NULL`), `feof` is the
end-of-file indicator of that file, `linux` is the build macro `LINUX`. -/
@[ext] structure State where
  mem : Mem
  txtpos : Nat
  list_line : Nat
  exp_error : Nat
  tempsp : Nat
  stack_limit : Nat
  pgm_end : Nat
  current_line : Nat
  sp : Nat
  top_sp : Nat
  table_index : Nat
  linenum : Nat
  lecho : Nat
  seed : Int
  inp : List Nat
  out : List Nat
  r_file : Bool
  feof : Bool
  linux : Bool

/-! ## Host (`host.c`) -/

/-- Host `putch`. -/
def putch (c : Nat) (st : State) : State := { st with out := st.out ++ [c] }

/-- Host `put_nl`: `CR` only when `LINUX` is not defined. -/
def put_nl (st : State) : State :=
  { st with out := st.out ++ (if st.linux then [NL] else [CR, NL]) }

/-- Host `getch`: from a file, `EOFC` once the end-of-file indicator is set;
`fgetc`/`getchar` at the end of the data return `EOF`, which is the byte 255
as a `char`. -/
def getch (st : State) : Nat × State :=
  if st.r_file then
    if st.feof then (EOFC, st)
    else match st.inp with
      | [] => (255, { st with feof := true })
      | c :: cs => (c, { st with inp := cs })
  else match st.inp with
    | [] => (255, st)
    | c :: cs => (c, { st with inp := cs })

/-- The source's `printnnl` on a message given as bytes. -/
def printnnl (msg : List Nat) (st : State) : State := { st with out := st.out ++ msg }

/-- The source's `printmsg`. -/
def printmsg (msg : List Nat) (st : State) : State := put_nl (printnnl msg st)

def backspacemsg : List Nat := [8, 32, 8]

/-! ## Scanner -/

/-- Loop of `ignore_blanks`; the fuel is the distance to the end of the arena. -/
def ignoreBlanksLoop (m : Mem) : Nat → Nat → Nat
  | 0, p => p
  | f + 1, p => if m p = SPACE ∨ m p = TAB then ignoreBlanksLoop m f (p + 1) else p

/-- The source's `ignore_blanks`. -/
def ignore_blanks (st : State) : State :=
  { st with txtpos := ignoreBlanksLoop st.mem (MEMSIZE - st.txtpos) st.txtpos }

/-- The source's `encode_linenum`. -/
def encode_linenum (m : Mem) (s linenum : Nat) : Mem :=
  wr (wr m s ((linenum / 256) % 256)) (s + 1) (linenum % 256)

/-- The source's `decode_linenum` (`SIGNCONV` makes both bytes non-negative). -/
def decode_linenum (m : Mem) (s : Nat) : Nat :=
  (m s % 256 * 256 + m (s + 1) % 256) % 65536

/-- Loop of `testnum`: `(num, txtpos)`. -/
def testnumLoop (m : Mem) : Nat → Nat → Nat → Nat × Nat
  | 0, num, p => (num, p)
  | f + 1, num, p =>
    if 48 ≤ m p ∧ m p ≤ 57 then
      if num ≥ MAXLINENUM then (65535, p)
      else testnumLoop m f ((num * 10 + m p - 48) % 65536) (p + 1)
    else (num, p)

/-- The source's `testnum`. -/
def testnum (st : State) : Nat × State :=
  let st1 := ignore_blanks st
  let r := testnumLoop st1.mem (MEMSIZE - st1.txtpos) 0 st1.txtpos
  (r.1, { st1 with txtpos := r.2 })

/-! ## Line input -/

/-- One turn of the `while(1)` of `getln` on the character `c`: `some r` when
`getln` returns `r`. -/
def getlnChar (c : Nat) (st : State) : Option Nat × State :=
  if c = EOFC ∨ c = CR ∨ c = NL then
    (some 1, { st with out := if st.lecho ≠ 0 then (put_nl st).out else st.out,
                       mem := wr st.mem st.txtpos NL })
  else if c = CTRLC then (some 0, st)
  else if c = CTRLH ∨ c = DEL then
    if st.txtpos = st.pgm_end then (none, st)
    else (none, printnnl backspacemsg { st with txtpos := st.txtpos - 1 })
  else if st.txtpos + 2 = st.sp then (none, putch BELL st)
  else
    (none, { st with mem := wr st.mem st.txtpos c, txtpos := st.txtpos + 1,
                     out := if st.lecho ≠ 0 then st.out ++ [c] else st.out })

/-- The `while(1)` of `getln`. -/
def getlnLoop : Nat → State → Option (Nat × State)
  | 0, _ => none
  | f + 1, st =>
    let r := getch st
    match getlnChar r.1 r.2 with
    | (some v, st1) => some (v, st1)
    | (none, st1) => getlnLoop f st1

/-- The source's `getln`.  From a file the loop ends at the latest two turns
after the data; from the keyboard at the end of the data it never ends. -/
def getln (prompt : Nat) (st : State) : Option (Nat × State) :=
  let st1 := if prompt ≠ 0 then putch prompt st else st
  getlnLoop (st.inp.length + 2) { st1 with txtpos := st1.pgm_end + 2 }

/-- Loop of `toUppercaseBuffer`: `c` is the cursor, `quote` the open quote. -/
def toUpperLoop : Nat → Mem → Nat → Nat → Option Mem
  | 0, _, _, _ => none
  | f + 1, m, c, quote =>
    if m c = NL then some m
    else if m c = quote then toUpperLoop f m (c + 1) 0
    else if m c = 34 ∨ m c = 39 then toUpperLoop f m (c + 1) (m c)
    else if quote = 0 ∧ 97 ≤ m c ∧ m c ≤ 122 then toUpperLoop f (wr m c (m c - 32)) (c + 1) quote
    else toUpperLoop f m (c + 1) quote

/-- The source's `toUppercaseBuffer`. -/
def toUppercaseBuffer (st : State) : Option State :=
  (toUpperLoop (MEMSIZE - (st.pgm_end + 2)) st.mem (st.pgm_end + 2) 0).map
    (fun m => { st with mem := m })

/-! ## Program store -/

/-- Loop of `findline`. -/
def findlineLoop (m : Mem) (pgm_end linenum : Nat) : Nat → Nat → Option Nat
  | 0, _ => none
  | f + 1, line =>
    if line = pgm_end then some line
    else if decode_linenum m line ≥ linenum then some line
    else
      let nxt : Int := (line : Int) + schar (m (line + 2))
      if nxt < 0 then none else findlineLoop m pgm_end linenum f nxt.toNat

/-- The source's `findline` (reads the global `linenum`). -/
def findline (st : State) : Option Nat :=
  findlineLoop st.mem st.pgm_end st.linenum MEMSIZE pgm_start

/-- First loop of `procline`: the end of the entered line, `(linelen, txtpos)`. -/
def lineEndLoop (m : Mem) : Nat → Int → Nat → Option (Int × Nat)
  | 0, _, _ => none
  | f + 1, linelen, p =>
    if m p = NL then some (linelen, p) else lineEndLoop m f (toSChar (linelen + 1)) (p + 1)

/-- The copy `while(1)` of `procline` to the top of the free space: `n` is
`txtpos - (pgm_end+2)` on entry, the result is the memory and the final `dest`. -/
def moveLineLoop : Nat → Mem → Nat → Nat → Mem × Nat
  | 0, m, dest, p => (wr m dest (m p), dest)
  | n + 1, m, dest, p => moveLineLoop n (wr m dest (m p)) (dest - 1) (p - 1)

/-- Second length loop of `procline`: `while(txtpos[linelen] != NL) linelen++`
with `linelen` a `char`; 256 turns visit every value of `linelen`. -/
def bodyLenLoop (m : Mem) (txtpos : Nat) : Nat → Int → Option Int
  | 0, _ => none
  | f + 1, linelen =>
    if m ((txtpos : Int) + linelen).toNat = NL then some linelen
    else bodyLenLoop m txtpos f (toSChar (linelen + 1))

/-- Ascending copy `*dest = *from; from++; dest++` done `n` times. -/
def copyUpward : Nat → Mem → Nat → Nat → Mem
  | 0, m, _, _ => m
  | n + 1, m, dest, src => copyUpward n (wr m dest (m src)) (dest + 1) (src + 1)

/-- Descending copy `from--; dest--; *dest = *from` done `n` times. -/
def copyDownward : Nat → Mem → Nat → Nat → Mem
  | 0, m, _, _ => m
  | n + 1, m, dest, src => copyDownward n (wr m (dest - 1) (m (src - 1))) (dest - 1) (src - 1)

/-- The `while(linelen > 0)` of `procline`: `(memory, pgm_end, txtpos)`.
A pass that can make no room (`txtpos == pgm_end`) repeats for ever; with
`txtpos` below `pgm_end` the unsigned difference exceeds `linelen`. -/
def insertLoop : Nat → Mem → Nat → Nat → Nat → Nat → Option (Mem × Nat × Nat)
  | 0, m, _, txtpos, pgm_end, linelen => if linelen = 0 then some (m, pgm_end, txtpos) else none
  | f + 1, m, start, txtpos, pgm_end, linelen =>
    if linelen = 0 then some (m, pgm_end, txtpos)
    else if txtpos = pgm_end ∨ pgm_end < start then none
    else
      let space_to_make := if txtpos < pgm_end then linelen else min (txtpos - pgm_end) linelen
      let newEnd := pgm_end + space_to_make
      let m1 := copyDownward (pgm_end - start) m newEnd pgm_end
      let m2 := copyUpward space_to_make m1 start txtpos
      insertLoop f m2 (start + space_to_make) (txtpos + space_to_make) newEnd
        (linelen - space_to_make)

/-- Part of `procline`: "Find the end of the freshly entered line" and "Move it
to the end of program_memory"; `txtpos` ends on the first byte of the copy. -/
def stageLine (st2 : State) : Option State :=
  match lineEndLoop st2.mem (MEMSIZE - (st2.pgm_end + 2)) 0 (st2.pgm_end + 2) with
  | none => none
  | some (linelen, tp) =>
    let dest := if linelen % 2 = 0 then st2.sp - 1 - 1 else st2.sp - 1
    let mv := moveLineLoop (tp - (st2.pgm_end + 2)) st2.mem dest tp
    some { st2 with mem := mv.1, txtpos := mv.2 }

/-- Part of `procline`: "If a line with that number exists, then remove it". -/
def removeLine (st5 : State) (start : Nat) : Option State :=
  if start ≠ st5.pgm_end ∧ decode_linenum st5.mem start = st5.linenum then
    let src : Int := (start : Int) + schar (st5.mem (start + 2))
    if src < 0 ∨ (st5.pgm_end : Int) < src then none
    else
      let tomove := st5.pgm_end - src.toNat
      some { st5 with mem := copyUpward tomove st5.mem start src.toNat,
                      pgm_end := start + tomove }
  else some st5

/-- Part of `procline`: from "Find the length of what is left" to the end;
`txtpos` is on the first byte after the line number and the blanks. -/
def storeLine (st4 : State) : Option (Nat × State) :=
  match bodyLenLoop st4.mem st4.txtpos 256 0 with
  | none => none
  | some l0 =>
    let linelen := toSChar (toSChar (l0 + 1) + 3)
    if st4.txtpos < 3 then none
    else
      let tp := st4.txtpos - 3
      let m5 := wr (encode_linenum st4.mem tp st4.linenum) (tp + 2) (byteOf linelen)
      let st5 := { st4 with mem := m5, txtpos := tp }
      match findline st5 with
      | none => none
      | some start =>
        match removeLine st5 start with
        | none => none
        | some st6 =>
          if st6.mem (st6.txtpos + 3) = NL then some (PROCLINE_DELETE, st6)
          else
            match insertLoop linelen.toNat st6.mem start st6.txtpos st6.pgm_end
                linelen.toNat with
            | none => none
            | some (m7, pe, tp7) =>
              some (PROCLINE_OKAY, { st6 with mem := m7, pgm_end := pe, txtpos := tp7 })

/-- The source's `procline`: the return value and the state. -/
def procline (st : State) : Option (Nat × State) :=
  match getln 0 st with
  | none => none
  | some (0, st1) => some (PROCLINE_EOF, st1)
  | some (_, st1) =>
    match toUppercaseBuffer st1 with
    | none => none
    | some st2 =>
      match stageLine st2 with
      | none => none
      | some st3 =>
        let tn := testnum st3
        let st4 := ignore_blanks { tn.2 with linenum := tn.1 }
        if st4.linenum = 0 then
          if st4.mem st4.txtpos = NL ∨ st4.mem st4.txtpos = CR then some (PROCLINE_EMPTY, st4)
          else some (PROCLINE_DIRECT, st4)
        else if st4.linenum = 65535 then some (PROCLINE_BADLINE, st4)
        else storeLine st4

/-- Loop of `loadpgm`. -/
def loadpgmLoop : Nat → State → Option State
  | 0, _ => none
  | f + 1, st =>
    match procline st with
    | none => none
    | some (res, st1) =>
      if res ≠ PROCLINE_OKAY ∧ res ≠ PROCLINE_EMPTY then some st1 else loadpgmLoop f st1

/-- The source's `loadpgm`.  Every turn of the loop takes input until the
end-of-file indicator is set, and one more turn shows whether the loop ends. -/
def loadpgm (st : State) : Option State :=
  (loadpgmLoop (st.inp.length + 2) { st with lecho := 0, pgm_end := pgm_start }).map
    (fun s => { s with lecho := st.lecho })

/-! ## Printing -/

/-- The source's `pushb`. -/
def pushb (b : Nat) (st : State) : State :=
  { st with sp := st.sp - 1, mem := wr st.mem (st.sp - 1) b }

/-- The source's `popb`. -/
def popb (st : State) : Nat × State := (st.mem st.sp, { st with sp := st.sp + 1 })

/-- The `do ... while (num > 0)` of `printnum`: the digit count and the state. -/
def printnumPush : Nat → Nat → Nat → State → Nat × State
  | 0, _, digits, st => (digits, st)
  | f + 1, num, digits, st =>
    let st1 := pushb (num % 10 + 48) st
    if num / 10 > 0 then printnumPush f (num / 10) (digits + 1) st1 else (digits + 1, st1)

/-- The `while (digits > 0)` of `printnum`. -/
def printnumPop : Nat → State → State
  | 0, st => st
  | d + 1, st => printnumPop d (putch (popb st).1 (popb st).2)

/-- The source's `printnum` (`num` is an `int`). -/
def printnum (num : Int) (st : State) : State :=
  let st1 := { st with out := if num < 0 then st.out ++ [45] else st.out }
  let n := (if num < 0 then -num else num).toNat
  let r := printnumPush (n + 1) n 0 st1
  printnumPop r.1 r.2

/-- The `while(*list_line != NL)` of `printline`: the final `list_line` and the state. -/
def printBodyLoop : Nat → Nat → State → Option (Nat × State)
  | 0, _, _ => none
  | f + 1, p, st =>
    if st.mem p = NL then some (p, st) else printBodyLoop f (p + 1) (putch (st.mem p) st)

/-- The source's `printline`. -/
def printline (st : State) : Option State :=
  let line_num := decode_linenum st.mem st.list_line
  let st2 := putch 32 (printnum line_num { st with list_line := st.list_line + 3 })
  match printBodyLoop (MEMSIZE - st2.list_line) st2.list_line st2 with
  | none => none
  | some (p, st3) => some (put_nl { st3 with list_line := p + 1 })

/-- The `while(list_line != pgm_end)` of `printpgm`. -/
def printpgmLoop : Nat → State → Option State
  | 0, _ => none
  | f + 1, st =>
    if st.list_line = st.pgm_end then some st
    else match printline st with
      | none => none
      | some st1 => printpgmLoop f st1

/-- The source's `printpgm`: the parameter `linestart` is not used in the
body, `findline()` reads the global `linenum`. -/
def printpgm (_linestart : Nat) (st : State) : Option State :=
  match findline st with
  | none => none
  | some l => printpgmLoop MEMSIZE { st with list_line := l }

/-- The source's `clear`. -/
def clearLoop : Nat → Mem → Mem
  | 0, m => m
  | n + 1, m =>
    let m0 := clearLoop n m
    let z := fun (m : Mem) (base : Nat) => wr (wr m (base + 2 * n) 0) (base + 2 * n + 1) 0
    z (z (z m0 variables_table) array_table) array_sz

/-- The source's `clear`. -/
def clear (st : State) : State :=
  { st with mem := clearLoop 26 st.mem, top_sp := MEMSIZE, sp := MEMSIZE }

/-- The state that `initialize()` leaves in a fresh process (static storage is
zero), reading the keyboard. -/
def initState : State :=
  { mem := fun _ => 0, txtpos := 0, list_line := 0, exp_error := 0, tempsp := 0,
    stack_limit := 0, pgm_end := pgm_start, current_line := 0, sp := MEMSIZE,
    top_sp := MEMSIZE, table_index := 0, linenum := 0, lecho := 0, seed := 1,
    inp := [], out := [], r_file := false, feof := false, linux := true }

/-- Bytes `m a, .., m (a+n-1)`. -/
def rd (m : Mem) (a : Nat) : Nat → List Nat
  | 0 => []
  | n + 1 => m a :: rd m (a + 1) n

/-- The bytes of a text. -/
def str (s : String) : List Nat := s.toList.map Char.toNat

/-- The list `xs` stands in memory from address `a` on. -/
def Holds (m : Mem) : Nat → List Nat → Prop
  | _, [] => True
  | a, x :: xs => m a = x ∧ Holds m (a + 1) xs


/-! ## Cells of 16 bits

A `short int` occupies two bytes, low byte first.  `int` and `unsigned int`
are wider than 16 bits, as in the Linux build. -/

/-- The cell `*(short int *)(memory + a)`. -/
def rd16 (m : Mem) (a : Nat) : Int :=
  toShort (((m a % 256 + m (a + 1) % 256 * 256 : Nat) : Int))

/-- The store `*(short int *)(memory + a) = v`. -/
def wr16 (m : Mem) (a : Nat) (v : Int) : Mem :=
  wr (wr m a (byteOf v)) (a + 1) (byteOf (v / 256))

/-- Conversion of a `short int` to `unsigned int`. -/
def toUInt (x : Int) : Nat := (x % 4294967296).toNat

/-- Conversion of an `int` to `unsigned short`. -/
def toUShort (x : Int) : Nat := (x % 65536).toNat

/-! ## Keyword tables -/

/-- A keyword as the tables hold it: the last character has `0x80` added. -/
def kw (s : String) : List Nat :=
  match (str s).reverse with
  | [] => []
  | c :: cs => (cs.reverse ++ [c + 128])

/-- The table `keywords`. -/
def keywords : List Nat :=
  kw "LIST" ++ kw "LOAD" ++ kw "NEW" ++ kw "RUN" ++ kw "SAVE" ++ kw "NEXT" ++ kw "LET" ++
  kw "IF" ++ kw "GOTO" ++ kw "GOSUB" ++ kw "RETURN" ++ kw "REM" ++ kw "FOR" ++ kw "INPUT" ++
  kw "PRINT" ++ kw "POKE" ++ kw "STOP" ++ kw "BYE" ++ kw "SYSTEM" ++ kw "OUT" ++ kw "SLEEP" ++
  kw "CLEAR" ++ kw "DIM" ++ kw "END" ++ [0]

def KW_LIST : Nat := 0
def KW_LOAD : Nat := 1
def KW_NEW : Nat := 2
def KW_RUN : Nat := 3
def KW_SAVE : Nat := 4
def KW_NEXT : Nat := 5
def KW_LET : Nat := 6
def KW_IF : Nat := 7
def KW_GOTO : Nat := 8
def KW_GOSUB : Nat := 9
def KW_RETURN : Nat := 10
def KW_REM : Nat := 11
def KW_FOR : Nat := 12
def KW_INPUT : Nat := 13
def KW_PRINT : Nat := 14
def KW_POKE : Nat := 15
def KW_STOP : Nat := 16
def KW_BYE : Nat := 17
def KW_SYSTEM : Nat := 18
def KW_OUT : Nat := 19
def KW_SLEEP : Nat := 20
def KW_CLEAR : Nat := 21
def KW_DIM : Nat := 22
def KW_END : Nat := 23
def KW_DEFAULT : Nat := 24

/-- The table `func_tab`. -/
def func_tab : List Nat :=
  kw "PEEK" ++ kw "ABS" ++ kw "HIGH" ++ kw "LOW" ++ kw "INP" ++ kw "FRE" ++ kw "RAND" ++ [0]

def FUNC_PEEK : Nat := 0
def FUNC_ABS : Nat := 1
def FUNC_HIGH : Nat := 2
def FUNC_LOW : Nat := 3
def FUNC_INP : Nat := 4
def FUNC_FRE : Nat := 5
def FUNC_RAND : Nat := 6
def FUNC_UNKNOWN : Nat := 7

/-- The table `to_tab`. -/
def to_tab : List Nat := kw "TO" ++ [0]

/-- The table `step_tab`. -/
def step_tab : List Nat := kw "STEP" ++ [0]

/-- The table `relop_tab`. -/
def relop_tab : List Nat := kw ">=" ++ kw "<>" ++ kw ">" ++ kw "=" ++ kw "<=" ++ kw "<" ++ [0]

def RELOP_GE : Nat := 0
def RELOP_NE : Nat := 1
def RELOP_GT : Nat := 2
def RELOP_EQ : Nat := 3
def RELOP_LE : Nat := 4
def RELOP_LT : Nat := 5
def RELOP_UNKNOWN : Nat := 6

/-- The `while(1)` of `scantable`: `table` is what is left of the table from the
table pointer on, `i` the index into the text; the result is the number of
bytes of the keyword found (`none` when the table ran out) and `table_index`.
`txtpos[i] == table[0]` compares two `char`; `txtpos[i]+0x80` is an `int`. -/
def scantableLoop (m : Mem) (txtpos : Nat) : Nat → List Nat → Nat → Nat → Option Nat × Nat
  | 0, _, _, idx => (none, idx)
  | f + 1, table, i, idx =>
    match table with
    | [] => (none, idx)
    | t :: rest =>
      if t = 0 then (none, idx)
      else if m (txtpos + i) % 256 = t then scantableLoop m txtpos f rest (i + 1) idx
      else if schar (m (txtpos + i)) + 128 = (t : Int) then (some (i + 1), idx)
      else scantableLoop m txtpos f ((table.dropWhile (fun x => x < 128)).tail) 0 (idx + 1)

/-- The source's `scantable`. -/
def scantable (table : List Nat) (st : State) : State :=
  let st1 := ignore_blanks st
  let r := scantableLoop st1.mem st1.txtpos (table.length + 1) table 0 0
  match r.1 with
  | none => { st1 with table_index := r.2 % 256 }
  | some n => ignore_blanks { st1 with txtpos := st1.txtpos + n, table_index := r.2 % 256 }

/-- The source's `check_statement_end`. -/
def check_statement_end (st : State) : Bool × State :=
  let st1 := ignore_blanks st
  (st1.mem st1.txtpos = NL ∨ st1.mem st1.txtpos = 58, st1)

/-! ## Host functions of the evaluator -/

/-- One hexadecimal digit in upper case. -/
def hexDigit (d : Nat) : Nat := if d < 10 then 48 + d else 55 + d

/-- The digits of `n` in base 16, most significant first (`fuel` digits at most). -/
def hexDigits : Nat → Nat → List Nat
  | 0, _ => []
  | f + 1, n => if n < 16 then [hexDigit n] else hexDigits f (n / 16) ++ [hexDigit (n % 16)]

/-- What `printf("%02X", n)` writes for an `unsigned int`. -/
def fmt02X (n : Nat) : List Nat := if n < 16 then [48, hexDigit n] else hexDigits 8 n

/-- Host `inp` of the Linux build: it reports the port and returns `0x33`.  The
port routines of the other build are assembly that is not among the sources;
there the model has no result. -/
def inp (x : Nat) (st : State) : Option (Int × State) :=
  if st.linux then
    some (51, printnnl (str "<INP " ++ fmt02X x ++ str " -> 0x33>") st)
  else none

/-- Host `outp` of the Linux build (`y` is a `char`, printed as an `int`). -/
def outp (x : Nat) (y : Int) (st : State) : Option State :=
  if st.linux then
    some (printnnl (str "<OUTP " ++ fmt02X x ++ str ", " ++ fmt02X (toUInt y) ++ str ">") st)
  else none

/-- Host `peek`: `memory[x]`, a `char`; no result outside the arena. -/
def peek (x : Nat) (st : State) : Option Int :=
  if x < MEMSIZE then some (schar (st.mem x)) else none

/-- Host `poke`: `memory[x] = y`; no result outside the arena. -/
def poke (x : Nat) (y : Int) (st : State) : Option State :=
  if x < MEMSIZE then some { st with mem := wr st.mem x (byteOf y) } else none

/-- Host `rand`: the new seed and `seed % amount` as an `unsigned short`; the
remainder by zero has no result. -/
def rand (amount : Nat) (st : State) : Option (Nat × State) :=
  let hi := Int.tdiv st.seed 127773
  let lo := Int.tmod st.seed 127773
  let test := 16807 * lo - 2836 * hi
  let seed1 := if test > 0 then test else test + 2147483647
  if amount = 0 then none
  else some (toUShort (Int.tmod seed1 (amount : Int)), { st with seed := seed1 })

/-! ## Expressions -/

/-- The `do ... while` of the decimal literal in `expr4`: `(a, txtpos)`. -/
def decLoop (m : Mem) : Nat → Int → Nat → Int × Nat
  | 0, a, p => (a, p)
  | f + 1, a, p =>
    let a1 := toShort (a * 10 + schar (m p) - 48)
    if 48 ≤ m (p + 1) ∧ m (p + 1) ≤ 57 then decLoop m f a1 (p + 1) else (a1, p + 1)

/-- The `do ... while (1)` of the hexadecimal literal in `expr4`: `(a, txtpos)`. -/
def hexLoop (m : Mem) : Nat → Int → Nat → Int × Nat
  | 0, a, p => (a, p)
  | f + 1, a, p =>
    if 97 ≤ m p ∧ m p ≤ 102 then hexLoop m f (toShort (a * 16 + (m p : Int) - 97 + 10)) (p + 1)
    else if 65 ≤ m p ∧ m p ≤ 70 then hexLoop m f (toShort (a * 16 + (m p : Int) - 65 + 10)) (p + 1)
    else if 48 ≤ m p ∧ m p ≤ 57 then hexLoop m f (toShort (a * 16 + (m p : Int) - 48)) (p + 1)
    else (a, p)

/-- The label `success` of `expr4`. -/
def expr4Success (a : Int) (st : State) : Option (Int × State) := some (a, ignore_blanks st)

/-- The label `expr4_error` of `expr4`, which runs on into `success`. -/
def expr4Error (a : Int) (st : State) : Option (Int × State) :=
  some (a, ignore_blanks { st with exp_error := 1 })

def boundsmsg : List Nat := str "Bounds error"

/-- The array reference of `expr4`: the cursor is on the letter, `(` follows. -/
def expr4Array (expression : State → Option (Int × State)) (st : State) :
    Option (Int × State) :=
  let name := st.mem st.txtpos - 65
  let arr_ofs := toUInt (rd16 st.mem (array_table + 2 * name))
  let arr_siz := toUInt (rd16 st.mem (array_sz + 2 * name))
  match expression { st with txtpos := st.txtpos + 1 } with
  | none => none
  | some (v, st1) =>
    let index := toUInt v
    if index ≥ arr_siz then expr4Error 0 (printmsg boundsmsg st1)
    else if arr_ofs + 2 * index + 1 < MEMSIZE then
      expr4Success (rd16 st1.mem (arr_ofs + 2 * index)) st1
    else none

/-- The function call of `expr4`: the cursor is on a letter that a letter follows. -/
def expr4Func (expression : State → Option (Int × State)) (st : State) :
    Option (Int × State) :=
  let st1 := scantable func_tab st
  let f := st1.table_index
  if f = FUNC_UNKNOWN then expr4Error 0 st1
  else if f = FUNC_HIGH then expr4Success 1 st1
  else if f = FUNC_LOW then expr4Success 0 st1
  else if st1.mem st1.txtpos ≠ 40 then expr4Error 0 st1
  else
    match expression { st1 with txtpos := st1.txtpos + 1 } with
    | none => none
    | some (a, st2) =>
      if st2.mem st2.txtpos ≠ 41 then expr4Error a st2
      else
        let st3 := { st2 with txtpos := st2.txtpos + 1 }
        if f = FUNC_PEEK then
          match peek (toUShort a) st3 with
          | none => none
          | some v => expr4Success v st3
        else if f = FUNC_ABS then expr4Success (if a < 0 then toShort (-a) else a) st3
        else if f = FUNC_INP then
          match inp (toUShort a) st3 with
          | none => none
          | some (v, st4) => expr4Success (schar (byteOf v)) st4
        else if f = FUNC_FRE then expr4Success (toShort ((st3.sp : Int) - st3.pgm_end)) st3
        else
          match rand (toUShort a) st3 with
          | none => none
          | some (v, st4) => expr4Success (toShort v) st4

/-- The source's `expr4`; `expression` is the evaluator it calls for what
stands in parentheses. -/
def expr4 (expression : State → Option (Int × State)) (st0 : State) : Option (Int × State) :=
  let st := ignore_blanks st0
  let c := st.mem st.txtpos
  let c1 := st.mem (st.txtpos + 1)
  if c = 48 then expr4Success 0 { st with txtpos := st.txtpos + 1 }
  else if 49 ≤ c ∧ c ≤ 57 then
    let r := decLoop st.mem (MEMSIZE - st.txtpos) 0 st.txtpos
    expr4Success r.1 { st with txtpos := r.2 }
  else if (c = 38 ∧ c1 = 72) ∨ schar c + 1 = 104 then
    let r := hexLoop st.mem (MEMSIZE - st.txtpos) 0 (st.txtpos + 2)
    expr4Success r.1 { st with txtpos := r.2 }
  else if 65 ≤ c ∧ c ≤ 90 then
    if c1 = 40 then expr4Array expression st
    else if schar c1 < 65 ∨ schar c1 > 90 then
      expr4Success (rd16 st.mem (variables_table + 2 * (c - 65))) { st with txtpos := st.txtpos + 1 }
    else expr4Func expression st
  else if c = 40 then
    match expression { st with txtpos := st.txtpos + 1 } with
    | none => none
    | some (a, st1) =>
      if st1.mem st1.txtpos ≠ 41 then expr4Error a st1
      else expr4Success a { st1 with txtpos := st1.txtpos + 1 }
  else expr4Error 0 st

/-- The `while(1)` of `expr3`.  `a % b` with `b` zero has no result. -/
def expr3Loop (e4 : State → Option (Int × State)) : Nat → Int → State → Option (Int × State)
  | 0, _, _ => none
  | f + 1, a, st =>
    let c := st.mem st.txtpos
    if c = 42 then
      match e4 { st with txtpos := st.txtpos + 1 } with
      | none => none
      | some (b, st1) => expr3Loop e4 f (toShort (a * b)) st1
    else if c = 47 then
      match e4 { st with txtpos := st.txtpos + 1 } with
      | none => none
      | some (b, st1) =>
        if b ≠ 0 then expr3Loop e4 f (toShort (Int.tdiv a b)) st1
        else expr3Loop e4 f a { st1 with exp_error := 1 }
    else if c = 77 ∧ st.mem (st.txtpos + 1) = 79 ∧ st.mem (st.txtpos + 2) = 68 then
      match e4 { st with txtpos := st.txtpos + 3 } with
      | none => none
      | some (b, st1) => if b = 0 then none else expr3Loop e4 f (toShort (Int.tmod a b)) st1
    else some (a, st)

/-- The source's `expr3`. -/
def expr3 (e4 : State → Option (Int × State)) (st : State) : Option (Int × State) :=
  match e4 st with
  | none => none
  | some (a, st1) => expr3Loop e4 MEMSIZE a st1

/-- The `while(1)` of `expr2`. -/
def expr2Loop (e3 : State → Option (Int × State)) : Nat → Int → State → Option (Int × State)
  | 0, _, _ => none
  | f + 1, a, st =>
    let c := st.mem st.txtpos
    if c = 45 then
      match e3 { st with txtpos := st.txtpos + 1 } with
      | none => none
      | some (b, st1) => expr2Loop e3 f (toShort (a - b)) st1
    else if c = 43 then
      match e3 { st with txtpos := st.txtpos + 1 } with
      | none => none
      | some (b, st1) => expr2Loop e3 f (toShort (a + b)) st1
    else some (a, st)

/-- The source's `expr2`. -/
def expr2 (e3 : State → Option (Int × State)) (st : State) : Option (Int × State) :=
  if st.mem st.txtpos = 45 ∨ st.mem st.txtpos = 43 then expr2Loop e3 MEMSIZE 0 st
  else
    match e3 st with
    | none => none
    | some (a, st1) => expr2Loop e3 MEMSIZE a st1

/-- The `switch(table_index)` of `expression`. -/
def relop (idx : Nat) (a b : Int) : Bool :=
  if idx = RELOP_GE then a ≥ b
  else if idx = RELOP_NE then a ≠ b
  else if idx = RELOP_GT then a > b
  else if idx = RELOP_EQ then a = b
  else if idx = RELOP_LE then a ≤ b
  else if idx = RELOP_LT then a < b
  else false

/-- The body of the source's `expression` over its `expr2`. -/
def expressionBody (e2 : State → Option (Int × State)) (st : State) : Option (Int × State) :=
  match e2 st with
  | none => none
  | some (a, st1) =>
    if st1.exp_error ≠ 0 then some (a, st1)
    else
      let st2 := scantable relop_tab st1
      if st2.table_index = RELOP_UNKNOWN then some (a, st2)
      else
        match e2 st2 with
        | none => none
        | some (b, st3) => some (if relop st2.table_index a b then 1 else 0, st3)

/-- The evaluator with `d` levels of nested calls of `expression` left (a pair
of parentheses, an array index or a function argument takes one level). -/
def expressionD : Nat → State → Option (Int × State)
  | 0, _ => none
  | d + 1, st => expressionBody (expr2 (expr3 (expr4 (expressionD d)))) st

/-- The source's `expr2`, as the statements call it. -/
def expr2D (d : Nat) (st : State) : Option (Int × State) :=
  expr2 (expr3 (expr4 (expressionD d))) st

/-- The source's `expression`, as the statements call it: the nesting of a
text within the arena is below `MEMSIZE`. -/
def expression (st : State) : Option (Int × State) := expressionD MEMSIZE st

/-- Place a text at the cursor: an arena that holds `xs` from `a` on. -/
def withText (st : State) (a : Nat) (xs : List Nat) : State :=
  { st with mem := fun i => if a ≤ i ∧ i < a + xs.length then xs.getD (i - a) 0 else st.mem i,
            txtpos := a }

/-! ## Messages -/

def iomsg : List Nat := str "IO Error"
def okmsg : List Nat := str "OK"
def badlinemsg : List Nat := str "Invalid line number"
def invalidexprmsg : List Nat := str "Invalid expression"
def syntaxmsg : List Nat := str "Syntax Error"
def badinputmsg : List Nat := str "\nBad number"
def nomemmsg : List Nat := str "Not enough memory!"
def breakmsg : List Nat := str "break!"
def stackstuffedmsg : List Nat := str "Stack is stuffed!\n"
def unimplimentedmsg : List Nat := str "Unimplemented"

/-! ## Arrays -/

/-- The loop `for (i=0; i<size; i++) ((short int *)(memory+arr_start))[i] = 0`
of `dim`, cell after cell. -/
def dimClearLoop : Nat → Mem → Nat → Mem
  | 0, m, _ => m
  | n + 1, m, arr_start => wr16 (dimClearLoop n m arr_start) (arr_start + 2 * n) 0

/-- What that loop leaves: zero in the `2*size` bytes from `arr_start` on.
`dim` is stated with this form, which `dimClearLoop_eq` shows to be the loop. -/
def zeroCells (m : Mem) (arr_start size : Nat) : Mem :=
  fun a => if arr_start ≤ a ∧ a < arr_start + 2 * size then 0 else m a

/-- The source's `dim` (`name` is the letter's index, `size` an `unsigned
short`).  There is no test of the room that is left; only a `top_sp` that
would leave the arena has no result. -/
def dim (name size : Nat) (st : State) : Option State :=
  if rd16 st.mem (array_sz + 2 * name) ≥ (size : Int) then
    let arr_start := toUShort (rd16 st.mem (array_table + 2 * name))
    some { st with mem := wr16 (wr16 (zeroCells st.mem arr_start size)
                            (array_table + 2 * name) arr_start) (array_sz + 2 * name) size }
  else if st.top_sp < size * VAR_SIZE then none
  else
    let arr_start := st.top_sp - size * VAR_SIZE
    some { st with mem := wr16 (wr16 (zeroCells st.mem arr_start size)
                            (array_table + 2 * name) arr_start) (array_sz + 2 * name) size,
                   top_sp := arr_start, sp := arr_start }

/-! ## Control stack

The frames are laid out as on the 64-bit Linux build that the model follows
(pointers of eight bytes aligned to eight, `short int` of two bytes): `struct
stack_for_frame` is `frame_type` (offset 0), `for_var` (1), `terminal` (2),
`step` (4), two bytes of padding, `sff_current_line` (8) and `sff_txtpos` (16),
24 bytes in all; `struct stack_gosub_frame` is `frame_type` (0), seven bytes of
padding, `sgf_current_line` (8) and `sgf_txtpos` (16), 24 bytes in all.  A
pointer cell holds an address, low byte first: the address of `memory[i]` is
`memory_addr + i`, the null pointer is 0. -/

/-- Size `sizeof(struct stack_for_frame)`. -/
def SFF_SIZE : Nat := 24
/-- Size `sizeof(struct stack_gosub_frame)`. -/
def SGF_SIZE : Nat := 24
/-- Offset of `sff_current_line` and of `sgf_current_line` in their frames. -/
def FRAME_LINE : Nat := 8
/-- Offset of `sff_txtpos` and of `sgf_txtpos` in their frames. -/
def FRAME_TXTPOS : Nat := 16
def STACK_GOSUB_FLAG : Nat := 71
def STACK_FOR_FLAG : Nat := 70

/-- The address of `memory` in the process.  The loader chooses it; the model
fixes one value (that of a position-independent executable loaded at its
default base). -/
@[irreducible] def memory_addr : Nat := 93824992247904

/-- The `n` bytes from `a` on read as a number, low byte first. -/
def rdBytes (m : Mem) : Nat → Nat → Nat
  | 0, _ => 0
  | n + 1, a => m a % 256 + 256 * rdBytes m n (a + 1)

/-- The number `v` stored in the `n` bytes from `a` on, low byte first. -/
def wrBytes : Nat → Mem → Nat → Nat → Mem
  | 0, m, _, _ => m
  | n + 1, m, a, v => wrBytes n (wr m a (v % 256)) (a + 1) (v / 256)

/-- The store of the pointer `txtpos` (which points into `memory`) in a frame. -/
def wrTxtpos (m : Mem) (a txtpos : Nat) : Mem := wrBytes 8 m a (memory_addr + txtpos)

/-- The store of the pointer `current_line` in a frame (0 is the null pointer
of direct mode). -/
def wrLine (m : Mem) (a current_line : Nat) : Mem :=
  wrBytes 8 m a (if current_line = 0 then 0 else memory_addr + current_line)

/-- A stored `txtpos` read back: its offset in `memory`.  A pointer that does
not point into `memory` has no result: the code goes on to dereference it. -/
def rdTxtpos (m : Mem) (a : Nat) : Option Nat :=
  if memory_addr ≤ rdBytes m 8 a ∧ rdBytes m 8 a < memory_addr + MEMSIZE then
    some (rdBytes m 8 a - memory_addr)
  else none

/-- A stored `current_line` read back: 0 for the null pointer, else its offset
in `memory`; a pointer to anything else has no result. -/
def rdLine (m : Mem) (a : Nat) : Option Nat :=
  if rdBytes m 8 a = 0 then some 0
  else if memory_addr < rdBytes m 8 a ∧ rdBytes m 8 a < memory_addr + MEMSIZE then
    some (rdBytes m 8 a - memory_addr)
  else none

/-- The labels of `loop` that control passes through. -/
inductive Lbl
  | warmstart | prompt | unimplemented | badline | invalidexpr | ioerror | syntaxerror
  | stackstuffed | nomem | run_next_statement | direct | interperateAtTxtpos
  | execnextline | execline | exit
  deriving DecidableEq, Repr

/-- The loop `while(*txtpos == ':') txtpos++`. -/
def skipColons (m : Mem) : Nat → Nat → Nat
  | 0, p => p
  | f + 1, p => if m p = 58 then skipColons m f (p + 1) else p

/-- Label `run_next_statement`. -/
def run_next_statement (st : State) : Lbl × State :=
  let st1 := ignore_blanks { st with txtpos := skipColons st.mem (MEMSIZE - st.txtpos) st.txtpos }
  if st1.mem st1.txtpos = NL then (Lbl.execnextline, st1) else (Lbl.interperateAtTxtpos, st1)

/-- Label `execnextline` (`current_line[sizeof(LINENUM)]` is a `char`). -/
def execnextline (st : State) : Option (Lbl × State) :=
  if st.current_line = 0 then some (Lbl.prompt, st)
  else
    let nxt : Int := (st.current_line : Int) + schar (st.mem (st.current_line + 2))
    if nxt < 0 then none else some (Lbl.execline, { st with current_line := nxt.toNat })

/-- Label `execline`. -/
def execline (st : State) : Lbl × State :=
  if st.current_line = st.pgm_end then (Lbl.warmstart, st)
  else (Lbl.interperateAtTxtpos, { st with txtpos := st.current_line + 3 })

/-- Label `syntaxerror`. -/
def syntaxerror (st : State) : Option (Lbl × State) :=
  let st1 := printmsg syntaxmsg st
  if st1.current_line ≠ 0 then
    let tmp := st1.mem st1.txtpos
    let m1 := if tmp ≠ NL then wr st1.mem st1.txtpos 94 else st1.mem
    match printline { st1 with mem := m1, list_line := st1.current_line } with
    | none => none
    | some st2 => some (Lbl.prompt, put_nl { st2 with mem := wr st2.mem st2.txtpos tmp })
  else some (Lbl.prompt, put_nl st1)

/-! ## Statements -/

/-- The scan for the closing delimiter in `print_quoted_string`: the index of
the delimiter, or `none` when a `NL` comes first. -/
def findDelim (m : Mem) (delim : Nat) : Nat → Nat → Option (Option Nat)
  | 0, _ => none
  | f + 1, p =>
    if m p = delim then some (some p)
    else if m p = NL then some none
    else findDelim m delim f (p + 1)

/-- The source's `print_quoted_string`. -/
def print_quoted_string (st : State) : Option (Bool × State) :=
  let delim := st.mem st.txtpos
  if delim ≠ 34 ∧ delim ≠ 39 then some (false, st)
  else
    let st1 := { st with txtpos := st.txtpos + 1 }
    match findDelim st1.mem delim (MEMSIZE - st1.txtpos) st1.txtpos with
    | none => none
    | some none => some (false, st1)
    | some (some e) =>
      some (true, ignore_blanks { st1 with out := st1.out ++ rd st1.mem st1.txtpos (e - st1.txtpos),
                                           txtpos := e + 1 })

/-- One item of the label `print`: a quoted string or an expression; the
label is the error that the item ends in, if any. -/
def printItem (st : State) : Option (Option Lbl × State) :=
  match print_quoted_string st with
  | none => none
  | some (true, st2) => some (none, st2)
  | some (false, st2) =>
    if st2.mem st2.txtpos = 34 ∨ st2.mem st2.txtpos = 39 then some (some Lbl.syntaxerror, st2)
    else
      match expression { st2 with exp_error := 0 } with
      | none => none
      | some (e, st3) =>
        if st3.exp_error ≠ 0 then some (some Lbl.invalidexpr, st3)
        else some (none, printnum e st3)

/-- The `while(1)` of the label `print`. -/
def printLoop : Nat → State → Option (Lbl × State)
  | 0, _ => none
  | f + 1, st =>
    match printItem (ignore_blanks st) with
    | none => none
    | some (some l, st1) => some (l, st1)
    | some (none, st4) =>
      if st4.mem st4.txtpos = 44 then printLoop f { st4 with txtpos := st4.txtpos + 1 }
      else if st4.mem st4.txtpos = 59 ∧
          (st4.mem (st4.txtpos + 1) = NL ∨ st4.mem (st4.txtpos + 1) = 58) then
        some (Lbl.run_next_statement, { st4 with txtpos := st4.txtpos + 1 })
      else
        let ce := check_statement_end st4
        if ce.1 then some (Lbl.run_next_statement, put_nl ce.2)
        else some (Lbl.syntaxerror, ce.2)

/-- Label `print`. -/
def print (st : State) : Option (Lbl × State) :=
  if st.mem st.txtpos = 58 then
    some (Lbl.run_next_statement, { put_nl st with txtpos := st.txtpos + 1 })
  else if st.mem st.txtpos = NL then some (Lbl.execnextline, st)
  else printLoop (MEMSIZE - st.txtpos + 1) st

/-- The `do ... while` of the label `input`, which works in the cell of the
variable: `(memory, txtpos)`. -/
def inputDigits (var : Nat) : Nat → Mem → Nat → Mem × Nat
  | 0, m, p => (m, p)
  | f + 1, m, p =>
    let m1 := wr16 m var (toShort (rd16 m var * 10 + schar (m p) - 48))
    if 48 ≤ m1 (p + 1) ∧ m1 (p + 1) ≤ 57 then inputDigits var f m1 (p + 1) else (m1, p + 1)

/-- The label `again` of `input`: `isneg` is set once and never cleared. -/
def inputAgain (var : Nat) : Nat → Bool → State → Option (Lbl × State)
  | 0, _, _ => none
  | f + 1, isneg, st =>
    match getln 63 st with
    | none => none
    | some (0, st1) => some (Lbl.warmstart, st1)
    | some (_, st1) =>
      let tp := st1.pgm_end + 2
      let neg := st1.mem tp = 45
      let isneg1 := isneg || decide neg
      let r := inputDigits var (MEMSIZE - tp) (wr16 st1.mem var 0) (if neg then tp + 1 else tp)
      let st2 := ignore_blanks { st1 with mem := r.1, txtpos := r.2 }
      if st2.mem st2.txtpos ≠ NL then inputAgain var f isneg1 (printmsg badinputmsg st2)
      else
        some (Lbl.run_next_statement,
          { st2 with mem := if isneg1 then wr16 st2.mem var (toShort (-(rd16 st2.mem var)))
                            else st2.mem })

/-- Label `input`. -/
def input (st0 : State) : Option (Lbl × State) :=
  let st := ignore_blanks st0
  let c := st.mem st.txtpos
  if c < 65 ∨ c > 90 then some (Lbl.syntaxerror, st)
  else
    let ce := check_statement_end { st with txtpos := st.txtpos + 1 }
    if ce.1 = false then some (Lbl.syntaxerror, ce.2)
    else inputAgain (variables_table + 2 * (c - 65)) (ce.2.inp.length + 2) false ce.2

/-- The frame push of the label `forloop`. -/
def pushFor (var : Nat) (initial terminal step : Int) (st : State) : Option (Lbl × State) :=
  if st.sp + SFF_SIZE < st.stack_limit then some (Lbl.nomem, st)
  else if st.sp < SFF_SIZE then none
  else
    let f := st.sp - SFF_SIZE
    let m1 := wr16 st.mem (variables_table + 2 * (var - 65)) initial
    let m2 := wr (wr m1 f STACK_FOR_FLAG) (f + 1) var
    let m3 := wr16 (wr16 m2 (f + 2) terminal) (f + 4) step
    let m4 := wrLine (wrTxtpos m3 (f + FRAME_TXTPOS) st.txtpos) (f + FRAME_LINE) st.current_line
    some (Lbl.run_next_statement, { st with sp := f, mem := m4 })

/-- Label `forloop`. -/
def forloop (st : State) : Option (Lbl × State) :=
  let var := st.mem st.txtpos
  if var < 65 ∨ var > 90 then some (Lbl.syntaxerror, st)
  else
    let st1 := scantable relop_tab { st with txtpos := st.txtpos + 1 }
    if st1.table_index ≠ RELOP_EQ then some (Lbl.syntaxerror, st1)
    else
      match expression { st1 with exp_error := 0 } with
      | none => none
      | some (initial, st2) =>
        if st2.exp_error ≠ 0 then some (Lbl.invalidexpr, st2)
        else
          let st3 := scantable to_tab st2
          if st3.table_index ≠ 0 then some (Lbl.syntaxerror, st3)
          else
            match expression st3 with
            | none => none
            | some (terminal, st4) =>
              if st4.exp_error ≠ 0 then some (Lbl.invalidexpr, st4)
              else
                let st5 := scantable step_tab st4
                let stepped : Option (Int × State) :=
                  if st5.table_index = 0 then expression st5 else some (1, st5)
                match stepped with
                | none => none
                | some (step, st6) =>
                  if st6.exp_error ≠ 0 then some (Lbl.invalidexpr, st6)
                  else
                    let ce := check_statement_end st6
                    if ce.1 = false then some (Lbl.syntaxerror, ce.2)
                    else if ce.2.exp_error = 0 ∧ ce.2.mem ce.2.txtpos = NL then
                      pushFor var initial terminal step ce.2
                    else some (Lbl.syntaxerror, ce.2)

/-- Label `gosub`. -/
def gosub (st : State) : Option (Lbl × State) :=
  match expression { st with exp_error := 0 } with
  | none => none
  | some (v, st1) =>
    let st2 := { st1 with linenum := toUShort v }
    if st2.exp_error ≠ 0 then some (Lbl.invalidexpr, st2)
    else if st2.mem st2.txtpos = NL then
      if st2.sp + SGF_SIZE < st2.stack_limit then some (Lbl.nomem, st2)
      else if st2.sp < SGF_SIZE then none
      else
        let f := st2.sp - SGF_SIZE
        let m1 := wr st2.mem f STACK_GOSUB_FLAG
        let m2 := wrLine (wrTxtpos m1 (f + FRAME_TXTPOS) st2.txtpos) (f + FRAME_LINE)
          st2.current_line
        let st3 := { st2 with sp := f, mem := m2 }
        match findline st3 with
        | none => none
        | some l => some (Lbl.execline, { st3 with current_line := l })
    else some (Lbl.syntaxerror, st2)

/-- The frame walk of the label `gosub_return`, from `tempsp` on.  The bound
of the loop is the end of `memory`; a frame whose fields would be read beyond
that end has no result. -/
def frameWalk : Nat → State → Option (Lbl × State)
  | 0, _ => none
  | f + 1, st =>
    if st.tempsp < MEMSIZE - 1 then
      let t := st.mem st.tempsp
      if t = STACK_GOSUB_FLAG then
        if st.table_index = KW_RETURN then
          if st.tempsp + SGF_SIZE > MEMSIZE then none
          else
            match rdLine st.mem (st.tempsp + FRAME_LINE),
                rdTxtpos st.mem (st.tempsp + FRAME_TXTPOS) with
            | some line, some tp =>
              some (Lbl.run_next_statement,
                { st with current_line := line, txtpos := tp, sp := st.sp + SGF_SIZE })
            | _, _ => none
        else frameWalk f { st with tempsp := st.tempsp + SGF_SIZE }
      else if t = STACK_FOR_FLAG then
        if st.table_index = KW_NEXT ∧ st.mem (st.txtpos - 1) % 256 = st.mem (st.tempsp + 1) % 256 then
          if schar (st.mem (st.txtpos - 1)) < 65 then none
          else if st.tempsp + SFF_SIZE > MEMSIZE then none
          else
            let varaddr := variables_table + 2 * (st.mem (st.txtpos - 1) - 65)
            let v := toShort (rd16 st.mem varaddr + rd16 st.mem (st.tempsp + 4))
            let m1 := wr16 st.mem varaddr v
            let step1 := rd16 m1 (st.tempsp + 4)
            let terminal1 := rd16 m1 (st.tempsp + 2)
            let v1 := rd16 m1 varaddr
            if (step1 > 0 ∧ v1 ≤ terminal1) ∨ (step1 < 0 ∧ v1 ≥ terminal1) then
              match rdLine m1 (st.tempsp + FRAME_LINE), rdTxtpos m1 (st.tempsp + FRAME_TXTPOS) with
              | some line, some tp =>
                some (Lbl.run_next_statement,
                  { st with mem := m1, txtpos := tp, current_line := line, sp := st.tempsp })
              | _, _ => none
            else
              some (Lbl.run_next_statement, { st with mem := m1, sp := st.tempsp + SFF_SIZE })
        else frameWalk f { st with tempsp := st.tempsp + SFF_SIZE }
      else some (Lbl.stackstuffed, st)
    else some (Lbl.syntaxerror, st)

/-- Label `gosub_return`. -/
def gosub_return (st : State) : Option (Lbl × State) :=
  frameWalk MEMSIZE { st with tempsp := st.sp }

/-- Label `next`. -/
def next (st0 : State) : Option (Lbl × State) :=
  let st := ignore_blanks st0
  let c := st.mem st.txtpos
  if c < 65 ∨ c > 90 then some (Lbl.syntaxerror, st)
  else
    let ce := check_statement_end { st with txtpos := st.txtpos + 1 }
    if ce.1 = false then some (Lbl.syntaxerror, ce.2) else gosub_return ce.2

/-- The label `asg_var` of `assignment`: `var` is the address of the cell. -/
def asg_var (var : Nat) (st0 : State) : Option (Lbl × State) :=
  let st := ignore_blanks st0
  if st.mem st.txtpos ≠ 61 then some (Lbl.syntaxerror, st)
  else
    match expression { ignore_blanks { st with txtpos := st.txtpos + 1 } with exp_error := 0 } with
    | none => none
    | some (value, st1) =>
      if st1.exp_error ≠ 0 then some (Lbl.invalidexpr, st1)
      else
        let ce := check_statement_end st1
        if ce.1 = false then some (Lbl.syntaxerror, ce.2)
        else if var + 1 < MEMSIZE then
          some (Lbl.run_next_statement, { ce.2 with mem := wr16 ce.2.mem var value })
        else none

/-- Label `assignment`. -/
def assignment (st : State) : Option (Lbl × State) :=
  let c := st.mem st.txtpos
  if c < 65 ∨ c > 90 then some (Lbl.syntaxerror, st)
  else if st.mem (st.txtpos + 1) = 40 then
    let arr_ofs := toUInt (rd16 st.mem (array_table + 2 * (c - 65)))
    let arr_siz := toUInt (rd16 st.mem (array_sz + 2 * (c - 65)))
    match expr2D MEMSIZE { st with txtpos := st.txtpos + 1 } with
    | none => none
    | some (v, st1) =>
      let index := toUInt v
      if index ≥ arr_siz then some (Lbl.invalidexpr, printmsg boundsmsg st1)
      else asg_var (arr_ofs + index * VAR_SIZE) st1
  else asg_var (variables_table + 2 * (c - 65)) { st with txtpos := st.txtpos + 1 }

/-- Label `do_dim`: the result of `expression` is not tested for an error. -/
def do_dim (st : State) : Option (Lbl × State) :=
  let c := st.mem st.txtpos
  if c < 65 ∨ c > 90 then some (Lbl.syntaxerror, st)
  else
    let st1 := ignore_blanks { st with txtpos := st.txtpos + 1 }
    if st1.mem st1.txtpos ≠ 40 then some (Lbl.syntaxerror, st1)
    else
      match expression st1 with
      | none => none
      | some (v, st2) =>
        match dim (c - 65) ((toUInt v + 1) % 65536) st2 with
        | none => none
        | some st3 =>
          let ce := check_statement_end st3
          if ce.1 = false then some (Lbl.syntaxerror, ce.2)
          else some (Lbl.run_next_statement, ce.2)

/-- Labels `do_poke` and `do_outp`: `store` is `poke` or `outp`. -/
def pokeLike (store : Nat → Int → State → Option State) (st : State) : Option (Lbl × State) :=
  match expression { st with exp_error := 0 } with
  | none => none
  | some (address, st1) =>
    if st1.exp_error ≠ 0 then some (Lbl.invalidexpr, st1)
    else
      let st2 := ignore_blanks st1
      if st2.mem st2.txtpos ≠ 44 then some (Lbl.syntaxerror, st2)
      else
        match expression { ignore_blanks { st2 with txtpos := st2.txtpos + 1 } with
                             exp_error := 0 } with
        | none => none
        | some (value, st3) =>
          if st3.exp_error ≠ 0 then some (Lbl.invalidexpr, st3)
          else
            match store (toUShort address) (toSChar value) st3 with
            | none => none
            | some st4 =>
              let ce := check_statement_end st4
              if ce.1 = false then some (Lbl.syntaxerror, ce.2)
              else some (Lbl.run_next_statement, ce.2)

/-- Label `sleep`. -/
def sleep (st : State) : Option (Lbl × State) :=
  match expression { st with exp_error := 0 } with
  | none => none
  | some (_, st1) =>
    if st1.exp_error ≠ 0 then some (Lbl.invalidexpr, st1)
    else some (Lbl.run_next_statement, st1)

/-- Label `list`. -/
def list (st : State) : Option (Lbl × State) :=
  let tn := testnum st
  let st1 := { tn.2 with linenum := tn.1 }
  if st1.mem st1.txtpos ≠ NL then some (Lbl.syntaxerror, st1)
  else (printpgm st1.linenum st1).map (fun s => (Lbl.warmstart, s))

/-- Label `interperateAtTxtpos`.  `breakcheck()` is 0, because `kbhit()` of
`host.c` returns 0.  `SAVE` and `LOAD` open a file of the host by name, which
is outside this model: they have no result here and are settled on
`printpgm` and `loadpgm`. -/
def interperateAtTxtpos (st0 : State) : Option (Lbl × State) :=
  let st := ignore_blanks (scantable keywords st0)
  let k := st.table_index
  if k = KW_LIST then list st
  else if k = KW_LOAD ∨ k = KW_SAVE then none
  else if k = KW_NEW then
    if st.mem st.txtpos ≠ NL then some (Lbl.syntaxerror, st)
    else some (Lbl.prompt, clear { st with pgm_end := pgm_start })
  else if k = KW_RUN then some (Lbl.execline, { st with current_line := pgm_start })
  else if k = KW_NEXT then next st
  else if k = KW_LET then assignment st
  else if k = KW_IF then
    match expression { st with exp_error := 0 } with
    | none => none
    | some (val, st1) =>
      if st1.exp_error ≠ 0 ∨ st1.mem st1.txtpos = NL then some (Lbl.invalidexpr, st1)
      else if val ≠ 0 then some (Lbl.interperateAtTxtpos, st1)
      else some (Lbl.execnextline, st1)
  else if k = KW_GOTO then
    match expression { st with exp_error := 0 } with
    | none => none
    | some (v, st1) =>
      let st2 := { st1 with linenum := toUShort v }
      if st2.exp_error ≠ 0 ∨ st2.mem st2.txtpos ≠ NL then some (Lbl.invalidexpr, st2)
      else
        match findline st2 with
        | none => none
        | some l => some (Lbl.execline, { st2 with current_line := l })
  else if k = KW_GOSUB then gosub st
  else if k = KW_RETURN then gosub_return st
  else if k = KW_REM then some (Lbl.execnextline, st)
  else if k = KW_FOR then forloop st
  else if k = KW_INPUT then input st
  else if k = KW_PRINT then print st
  else if k = KW_POKE then pokeLike poke st
  else if k = KW_STOP ∨ k = KW_END then
    let st1 := if k = KW_STOP then printmsg breakmsg st else st
    if st1.mem st1.txtpos ≠ NL then some (Lbl.syntaxerror, st1)
    else some (Lbl.execline, { st1 with current_line := st1.pgm_end })
  else if k = KW_BYE ∨ k = KW_SYSTEM then some (Lbl.exit, st)
  else if k = KW_OUT then pokeLike outp st
  else if k = KW_SLEEP then sleep st
  else if k = KW_CLEAR then some (Lbl.run_next_statement, clear st)
  else if k = KW_DIM then do_dim st
  else if k = KW_DEFAULT then assignment st
  else execnextline st

/-- One passage of `loop` from a label to the next `goto`. -/
def step (autorun : Bool) (l : Lbl) (st : State) : Option (Lbl × State) :=
  match l with
  | Lbl.warmstart =>
    if autorun then some (Lbl.exit, st)
    else some (Lbl.prompt, printmsg okmsg { st with current_line := 0, sp := st.top_sp })
  | Lbl.prompt => some (Lbl.prompt, st)
  | Lbl.exit => some (Lbl.exit, st)
  | Lbl.unimplemented => some (Lbl.prompt, printmsg unimplimentedmsg st)
  | Lbl.badline => some (Lbl.prompt, printmsg badlinemsg st)
  | Lbl.invalidexpr => some (Lbl.prompt, printmsg invalidexprmsg st)
  | Lbl.ioerror => some (Lbl.prompt, printmsg iomsg st)
  | Lbl.syntaxerror => syntaxerror st
  | Lbl.stackstuffed => some (Lbl.warmstart, printmsg stackstuffedmsg st)
  | Lbl.nomem => some (Lbl.warmstart, printmsg nomemmsg st)
  | Lbl.run_next_statement => some (run_next_statement st)
  | Lbl.direct =>
    let st1 := { st with txtpos := st.pgm_end + 2 }
    if st1.mem st1.txtpos = NL then some (Lbl.prompt, st1)
    else some (Lbl.interperateAtTxtpos, st1)
  | Lbl.interperateAtTxtpos => interperateAtTxtpos st
  | Lbl.execnextline => execnextline st
  | Lbl.execline => some (execline st)

/-- Run `loop` from a label until control is at `prompt` (where `procline`
waits for a line) or the function returns. -/
def run (autorun : Bool) : Nat → Lbl → State → Option (Lbl × State)
  | 0, _, _ => none
  | f + 1, l, st =>
    if l = Lbl.prompt ∨ l = Lbl.exit then some (l, st)
    else
      match step autorun l st with
      | none => none
      | some (l1, st1) => run autorun f l1 st1

/-- The label `prompt`: one `procline()` and what `loop(0)` does with the line,
until control is back at `prompt` or the function returns. -/
def command (fuel : Nat) (st : State) : Option (Lbl × State) :=
  match procline st with
  | none => none
  | some (r, st1) =>
    if r = PROCLINE_BADLINE then run false fuel Lbl.badline st1
    else if r = PROCLINE_DIRECT then run false fuel Lbl.direct st1
    else some (Lbl.prompt, st1)

/-- The first `n` lines of the input entered at the prompt of `loop(0)`. -/
def session (fuel : Nat) : Nat → State → Option (Lbl × State)
  | 0, st => some (Lbl.prompt, st)
  | n + 1, st =>
    match command fuel st with
    | none => none
    | some (l, st1) => if l = Lbl.exit then some (l, st1) else session fuel n st1

/-- A session of `n` lines typed into a fresh interpreter: what it writes. -/
def sessionOut (n : Nat) (text : String) : Option (List Nat) :=
  (session 100000 n { initState with inp := str text }).map (fun r => r.2.out)
/-! ## The entered line as a list of bytes -/

/-- A line typed without editing keys: none of its bytes is one that `getln`
acts on (`NL`, `CR`, `EOFC`, `CTRLC`, `CTRLH`, `DEL`). -/
def PlainLine (ln : List Nat) : Prop :=
  ∀ c ∈ ln, c ≠ NL ∧ c ≠ CR ∧ c ≠ EOFC ∧ c ≠ CTRLC ∧ c ≠ CTRLH ∧ c ≠ DEL

instance (ln : List Nat) : Decidable (PlainLine ln) := by
  unfold PlainLine; infer_instance

/-- What the loop of `toUppercaseBuffer` leaves of a line (`q` is the open quote). -/
def upList : Nat → List Nat → List Nat
  | _, [] => []
  | q, c :: cs =>
    if c = q then c :: upList 0 cs
    else if c = 34 ∨ c = 39 then c :: upList c cs
    else if q = 0 ∧ 97 ≤ c ∧ c ≤ 122 then (c - 32) :: upList q cs
    else c :: upList q cs

/-- What `ignore_blanks` leaves of a text. -/
def skipBlanks : List Nat → List Nat
  | [] => []
  | c :: cs => if c = SPACE ∨ c = TAB then skipBlanks cs else c :: cs

/-- The digit loop of `testnum` on a text: the number and the rest. -/
def numL : Nat → List Nat → Nat × List Nat
  | num, [] => (num, [])
  | num, c :: cs =>
    if 48 ≤ c ∧ c ≤ 57 then
      if num ≥ MAXLINENUM then (65535, c :: cs)
      else numL ((num * 10 + c - 48) % 65536) cs
    else (num, c :: cs)

/-- Line number and body that `procline` reads from an entered line. -/
def lineParts (ln : List Nat) : Nat × List Nat :=
  let r := numL 0 (skipBlanks (upList 0 ln))
  (r.1, skipBlanks r.2)

/-- Address of the staged copy of a line of length `n`: its `NL` lands on
`sp-1`, or on `sp-2` when `n` is even. -/
def stagedAt (sp n : Nat) : Nat := if n % 2 = 0 then sp - 1 - 1 - n else sp - 1 - n

/-! ## The program region as a list of records -/

/-- The bytes of the record of line `r.1` with body `r.2` (the bytes before
the newline): number (big-endian), length, body, newline. -/
def encodeRec (r : Nat × List Nat) : List Nat :=
  [r.1 / 256 % 256, r.1 % 256, r.2.length + 4] ++ r.2 ++ [NL]

/-- The bytes of a program. -/
def progBytes : List (Nat × List Nat) → List Nat
  | [] => []
  | r :: rs => encodeRec r ++ progBytes rs

/-- A record that `findline` can step over: a 16-bit number and a length that
the (signed) length byte holds. -/
def RecOK (r : Nat × List Nat) : Prop := r.1 < 65536 ∧ r.2.length + 4 ≤ 127

instance (r : Nat × List Nat) : Decidable (RecOK r) := by unfold RecOK; infer_instance

/-- The region `[pgm_start, pe)` of `m` is the tight concatenation of the
records `recs`, sorted by strictly increasing line number. -/
def WFm (m : Mem) (pe : Nat) (recs : List (Nat × List Nat)) : Prop :=
  (∀ r ∈ recs, RecOK r) ∧ (recs.map Prod.fst).Pairwise (· < ·) ∧
  pe = pgm_start + (progBytes recs).length ∧ Holds m pgm_start (progBytes recs)

/-- The program region of a state is well formed and sorted, and lies in an
arena whose stack pointer is inside `memory`. -/
def WF (st : State) (recs : List (Nat × List Nat)) : Prop :=
  WFm st.mem st.pgm_end recs ∧ st.sp ≤ MEMSIZE

/-- The records with a number other than `n`. -/
def delRec (n : Nat) (recs : List (Nat × List Nat)) : List (Nat × List Nat) :=
  recs.filter (fun r => r.1 < n) ++ recs.filter (fun r => n < r.1)

/-- The records with a number other than `n`, and the record `(n, b)` at its
sorted position. -/
def putRec (n : Nat) (b : List Nat) (recs : List (Nat × List Nat)) : List (Nat × List Nat) :=
  recs.filter (fun r => r.1 < n) ++ (n, b) :: recs.filter (fun r => n < r.1)

/-- What `procline` makes of an entered line `ln` in a program `recs`: the
return value and the program afterwards.  A body of 124 to 127 bytes has a
record length that the `char` variable `linelen` holds as a negative number. -/
def absProcline (recs : List (Nat × List Nat)) (ln : List Nat) : Nat × List (Nat × List Nat) :=
  let p := lineParts ln
  if p.1 = 0 then (if p.2 = [] then PROCLINE_EMPTY else PROCLINE_DIRECT, recs)
  else if p.1 = 65535 then (PROCLINE_BADLINE, recs)
  else if p.2 = [] then (PROCLINE_DELETE, delRec p.1 recs)
  else if p.2.length ≤ 123 then (PROCLINE_OKAY, putRec p.1 p.2 recs)
  else (PROCLINE_OKAY, delRec p.1 recs)

/-- Decimal digits of `n`, most significant first, as ASCII codes (`fuel`
bounds the number of digits). -/
def decimalF : Nat → Nat → List Nat
  | 0, _ => []
  | f + 1, n => if n < 10 then [48 + n] else decimalF f (n / 10) ++ [48 + n % 10]

/-- The decimal numeral of `n`. -/
def decimal (n : Nat) : List Nat := decimalF (n + 1) n

/-- `Holds` is decidable (it is a finite conjunction of equations). -/
def decHolds (m : Mem) : (a : Nat) → (xs : List Nat) → Decidable (Holds m a xs)
  | _, [] => isTrue trivial
  | a, x :: xs =>
    match Nat.decEq (m a) x, decHolds m (a + 1) xs with
    | isTrue h1, isTrue h2 => isTrue ⟨h1, h2⟩
    | isFalse h1, _ => isFalse (fun h => h1 h.1)
    | _, isFalse h2 => isFalse (fun h => h2 h.2)

instance (m : Mem) (a : Nat) (xs : List Nat) : Decidable (Holds m a xs) := decHolds m a xs

instance (m : Mem) (pe : Nat) (recs : List (Nat × List Nat)) : Decidable (WFm m pe recs) := by
  unfold WFm; infer_instance

instance (st : State) (recs : List (Nat × List Nat)) : Decidable (WF st recs) := by
  unfold WF; infer_instance

/-- What can be seen of a `procline` call: the return value, `pgm_end` and the
bytes of the program region. -/
def view (r : Option (Nat × State)) : Option (Nat × Nat × List Nat) :=
  r.map (fun x => (x.1, x.2.pgm_end, rd x.2.mem pgm_start (x.2.pgm_end - pgm_start)))

/-- An arena that holds `xs` from address `a` on and zero elsewhere. -/
def memOf (a : Nat) (xs : List Nat) : Mem := fun i => if a ≤ i then xs.getD (i - a) 0 else 0

/-- The record walk that `findline`, `printpgm` and the statement loop make:
from `line`, add the length byte (offset 2, a `char`) until `pgm_end` is met.
The result lists the line numbers of the records met; there is none when the
walk steps past `pgm_end`, meets a length that is zero or negative, or does not
end. -/
def walk (m : Mem) (pe : Nat) : Nat → Nat → Option (List Nat)
  | 0, _ => none
  | f + 1, line =>
    if line = pe then some []
    else if pe < line then none
    else if schar (m (line + 2)) ≤ 0 then none
    else (walk m pe f ((line : Int) + schar (m (line + 2))).toNat).map
      (fun ns => decode_linenum m line :: ns)

/-- States reached from `NEW` (which sets `pgm_end = pgm_start` and leaves the
stack pointer at the top of the arena) by lines entered through `procline`,
each free of editing bytes, fitting the line buffer and with at most 127 bytes
after its line number; the host may supply further input at any time. -/
inductive Reach : State → Prop
  | new (st : State) : st.pgm_end = pgm_start → st.sp ≤ MEMSIZE → Reach st
  | line (st st2 : State) (ln rest : List Nat) (t code : Nat) :
      Reach st → PlainLine ln → (t = EOFC ∨ t = CR ∨ t = NL) → st.inp = ln ++ t :: rest →
      (st.r_file = true → st.feof = false) → st.pgm_end + 2 + ln.length + 2 ≤ st.sp →
      (lineParts ln).2.length ≤ 127 → procline st = some (code, st2) → Reach st2
  | host (st : State) (i o : List Nat) (rf fe : Bool) :
      Reach st → Reach { st with inp := i, out := o, r_file := rf, feof := fe }

/-- A program of two lines below a stack pointer that leaves 14 free bytes,
with the line `20 goto 10` waiting in the input. -/
def putExample : State :=
  { initState with
      mem := memOf pgm_start (progBytes [(10, str "PRINT 1"), (30, str "END")]),
      pgm_end := pgm_start + 18, sp := pgm_start + 18 + 14, inp := str "20 goto 10\n" }

/-- The same program with the line `10` followed by two blanks waiting. -/
def delExample : State :=
  { initState with
      mem := memOf pgm_start (progBytes [(10, str "PRINT 1"), (30, str "END")]),
      pgm_end := pgm_start + 18, sp := pgm_start + 18 + 14, inp := str "10  \n" }

/-- The state after `NEW` with one line waiting in the input. -/
def lineExample : State := { initState with inp := str "10 print \"hi\"\n" }

/-- What `procline` returns on `lineExample`. -/
def afterLineExample : Nat × State := (procline lineExample).getD (0, lineExample)

/-- The dispatch of `procline` once the line number has been read. -/
def proclineDispatch (st4 : State) : Option (Nat × State) :=
  if st4.linenum = 0 then
    if st4.mem st4.txtpos = NL ∨ st4.mem st4.txtpos = CR then some (PROCLINE_EMPTY, st4)
    else some (PROCLINE_DIRECT, st4)
  else if st4.linenum = 65535 then some (PROCLINE_BADLINE, st4)
  else storeLine st4

/-- The number of letters of `longLine`. -/
def longN : Nat := 16300

/-- The line `1` followed by 16300 letters `X`. -/
def longLine : List Nat := 49 :: List.replicate longN 88

/-- The state of a fresh process (as after `NEW`) with `longLine` waiting. -/
def longExample : State := { initState with inp := longLine ++ [NL] }

/-- The line numbers that the loop of `findline` decodes on its way: from
`line`, add the length byte until `pgm_end` is met (at most `fuel` records). -/
def visited (m : Mem) (pe : Nat) : Nat → Nat → List Nat
  | 0, _ => []
  | f + 1, line =>
    if line = pe then []
    else decode_linenum m line :: visited m pe f ((line : Int) + schar (m (line + 2))).toNat

/-- The end of line that `put_nl` writes. -/
def nlSeq (linux : Bool) : List Nat := if linux then [NL] else [CR, NL]

/-- The text of one listed line: the number in decimal, one space, the body,
the end of line. -/
def lineText (linux : Bool) (r : Nat × List Nat) : List Nat :=
  decimal r.1 ++ [SPACE] ++ r.2 ++ nlSeq linux

/-- The text of a listed program. -/
def listing (linux : Bool) : List (Nat × List Nat) → List Nat
  | [] => []
  | r :: rs => lineText linux r ++ listing linux rs

/-- A record as `procline` stores it: a number in `1..65534` and a non-empty
body free of editing bytes that starts with no blank and has no lower-case
letter outside quotes. -/
def StoredForm (r : Nat × List Nat) : Prop :=
  1 ≤ r.1 ∧ r.1 ≤ 65534 ∧ PlainLine r.2 ∧ r.2 ≠ [] ∧ skipBlanks (upList 0 r.2) = r.2

instance (r : Nat × List Nat) : Decidable (StoredForm r) := by unfold StoredForm; infer_instance


/-! ## Examples for listing and loading -/

/-- The state after `10 print "hi"` with the direct line `save` waiting. -/
def saveReady : State :=
  { afterLineExample.2 with inp := str "save\n", out := [], r_file := false, feof := false }

/-- What `procline` returns on `saveReady`: the line is a direct one and the
global `linenum` is 0 when its statement runs. -/
def afterSaveLine : Nat × State := (procline saveReady).getD (0, saveReady)

/-- An arena whose stack pointer lies 14 bytes above `pgm_start` (as after
`DIM A(16295)`), with two lines waiting in the input. -/
def tightExample : State :=
  { initState with sp := pgm_start + 14, top_sp := pgm_start + 14, inp := str "1000 X\n1 X\n" }

/-- The state after the two lines of `tightExample` have been entered. -/
def tightProgram : State :=
  (((procline tightExample).bind (fun r => procline r.2)).getD (0, tightExample)).2

/-! ## Texts of expressions

Atoms, products and sums as texts, with the values that 16-bit arithmetic
gives them; the theorems on the evaluator relate the two. -/

/-- An atom: a variable (by the index of its letter), a decimal literal (by
its value, written without leading zeros) or a hexadecimal literal (by its
digits, written after `&H` in upper case). -/
inductive Atom
  | var (i : Nat)
  | num (n : Nat)
  | hex (ds : List Nat)

/-- The text of an atom. -/
def Atom.text : Atom → List Nat
  | Atom.var i => [65 + i]
  | Atom.num n => decimal n
  | Atom.hex ds => [38, 72] ++ ds.map hexDigit

/-- The value of a digit string in base `b`, each step reduced to a `short int`. -/
def digitsVal (b : Int) : Int → List Nat → Int
  | a, [] => a
  | a, d :: ds => digitsVal b (toShort (a * b + d)) ds

/-- The value of an atom. -/
def Atom.val (m : Mem) : Atom → Int
  | Atom.var i => rd16 m (variables_table + 2 * i)
  | Atom.num n => toShort n
  | Atom.hex ds => digitsVal 16 0 ds

/-- An atom is well formed: a letter `A..Z`, or hexadecimal digits below 16. -/
def Atom.ok : Atom → Prop
  | Atom.var i => i < 26
  | Atom.num _ => True
  | Atom.hex ds => ∀ d ∈ ds, d < 16

instance (x : Atom) : Decidable x.ok := by
  cases x <;> unfold Atom.ok <;> infer_instance

/-- The operators of `expr3`. -/
inductive MulOp
  | mul | div | mod
  deriving DecidableEq

/-- The text of an operator of `expr3`; `MOD` stands between blanks. -/
def MulOp.text : MulOp → List Nat
  | MulOp.mul => [42]
  | MulOp.div => [47]
  | MulOp.mod => [32, 77, 79, 68, 32]

/-- What `expr3` computes for one operator (`a op b` as `int`, stored in a
`short int`). -/
def MulOp.val : MulOp → Int → Int → Int
  | MulOp.mul, a, b => toShort (a * b)
  | MulOp.div, a, b => toShort (Int.tdiv a b)
  | MulOp.mod, a, b => toShort (Int.tmod a b)

/-- A product: an atom and the operators and atoms that follow it. -/
abbrev Product := Atom × List (MulOp × Atom)

def Product.text (t : Product) : List Nat :=
  t.1.text ++ (t.2.map (fun o => o.1.text ++ o.2.text)).flatten

/-- Left to right. -/
def Product.val (m : Mem) (t : Product) : Int :=
  t.2.foldl (fun a o => o.1.val a (o.2.val m)) (t.1.val m)

/-- All atoms are well formed and no divisor is zero. -/
def Product.ok (m : Mem) (t : Product) : Prop :=
  t.1.ok ∧ ∀ o ∈ t.2, o.2.ok ∧ (o.1 ≠ MulOp.mul → o.2.val m ≠ 0)

/-- The operators of `expr2`: `true` is `+`, `false` is `-`. -/
def addText (plus : Bool) : List Nat := if plus then [43] else [45]

def addVal (plus : Bool) (a b : Int) : Int := if plus then toShort (a + b) else toShort (a - b)

/-- A sum: a product and the signs and products that follow it. -/
abbrev SumOf := Product × List (Bool × Product)

def SumOf.text (s : SumOf) : List Nat :=
  s.1.text ++ (s.2.map (fun o => addText o.1 ++ o.2.text)).flatten

/-- Left to right. -/
def SumOf.val (m : Mem) (s : SumOf) : Int :=
  s.2.foldl (fun a o => addVal o.1 a (o.2.val m)) (s.1.val m)

def SumOf.ok (m : Mem) (s : SumOf) : Prop := s.1.ok m ∧ ∀ o ∈ s.2, o.2.ok m

/-- A byte that ends an atom: below `A`, no digit and no `(`. -/
def Follow (c : Nat) : Prop := c < 65 ∧ ¬ (48 ≤ c ∧ c ≤ 57) ∧ c ≠ 40

instance (c : Nat) : Decidable (Follow c) := by unfold Follow; infer_instance

/-- A byte that ends a product: it ends an atom and is no blank, `*` or `/`. -/
def TermEnd (c : Nat) : Prop := Follow c ∧ c ≠ 32 ∧ c ≠ 9 ∧ c ≠ 42 ∧ c ≠ 47

instance (c : Nat) : Decidable (TermEnd c) := by unfold TermEnd; infer_instance

/-- A byte that ends a sum: it ends a product and is no sign. -/
def SumEnd (c : Nat) : Prop := TermEnd c ∧ c ≠ 43 ∧ c ≠ 45

instance (c : Nat) : Decidable (SumEnd c) := by unfold SumEnd; infer_instance

/-- The text of the operators and atoms that follow the first atom of a product. -/
def opsText (ops : List (MulOp × Atom)) : List Nat :=
  (ops.map (fun o => o.1.text ++ o.2.text)).flatten

/-- The text of the signs and products that follow the first product of a sum. -/
def termsText (ts : List (Bool × Product)) : List Nat :=
  (ts.map (fun o => addText o.1 ++ Product.text o.2)).flatten

/-- The relational operators, in the order of `relop_tab`. -/
inductive RelOp
  | ge | ne | gt | eq | le | lt
  deriving DecidableEq

/-- The text of a relational operator. -/
def RelOp.text : RelOp → List Nat
  | RelOp.ge => [62, 61]
  | RelOp.ne => [60, 62]
  | RelOp.gt => [62]
  | RelOp.eq => [61]
  | RelOp.le => [60, 61]
  | RelOp.lt => [60]

/-- The index of a relational operator in `relop_tab`. -/
def RelOp.index : RelOp → Nat
  | RelOp.ge => RELOP_GE
  | RelOp.ne => RELOP_NE
  | RelOp.gt => RELOP_GT
  | RelOp.eq => RELOP_EQ
  | RelOp.le => RELOP_LE
  | RelOp.lt => RELOP_LT

/-- The relation between two integers that an operator stands for. -/
def RelOp.holds : RelOp → Int → Int → Prop
  | RelOp.ge, a, b => a ≥ b
  | RelOp.ne, a, b => a ≠ b
  | RelOp.gt, a, b => a > b
  | RelOp.eq, a, b => a = b
  | RelOp.le, a, b => a ≤ b
  | RelOp.lt, a, b => a < b

instance (op : RelOp) (a b : Int) : Decidable (op.holds a b) := by
  cases op <;> unfold RelOp.holds <;> infer_instance

/-- A fresh interpreter in which `A` holds `a` and `B` holds `b`, with a text
at address 1000 and the cursor on it. -/
def abExample (a b : Int) (text : String) : State :=
  withText { initState with mem := wr16 (wr16 initState.mem variables_table a)
                                     (variables_table + 2) b } 1000 (str text)

/-- The number that a list of digits denotes in base `b`. -/
def natVal (b : Nat) (ds : List Nat) : Nat := ds.foldl (fun a d => a * b + d) 0

/-- A hexadecimal digit as a byte of text, in either case. -/
def IsHexChar (c : Nat) : Prop := (48 ≤ c ∧ c ≤ 57) ∨ (65 ≤ c ∧ c ≤ 70) ∨ (97 ≤ c ∧ c ≤ 102)

instance (c : Nat) : Decidable (IsHexChar c) := by unfold IsHexChar; infer_instance

/-- The value of a hexadecimal digit. -/
def hexVal (c : Nat) : Nat := if 97 ≤ c then c - 87 else if 65 ≤ c then c - 55 else c - 48

/-- A fresh interpreter with the text `A(0)` under the cursor, as when `DIM`
has been read. -/
def dimExample : State := withText initState 1000 (str "A(0)\n")

/-- An interpreter in which `DIM A(0)` has been run (one cell at 32766), with
a text at address 1000 and the cursor on it. -/
def arrExample (text : String) : State :=
  withText { initState with mem := wr16 (wr16 initState.mem array_table 32766) array_sz 1,
                            top_sp := 32766, sp := 32766 } 1000 (str text)

/-! ## Examples for listing, line input and the frame walk -/

/-- The state after the lines `10 GOTO 30`, `20 PRINT 2`, `30 END` and `RUN`
have been entered: the program has run through its `GOTO 30`, which leaves the
global `linenum` at 30, as it is while line 30 is executing. -/
def gotoProgram : State :=
  ((session 100000 4 { initState with inp := str "10 GOTO 30\n20 PRINT 2\n30 END\nRUN\n" }).getD
    (Lbl.exit, initState)).2

/-- The records of `gotoProgram`. -/
def gotoRecords : List (Nat × List Nat) :=
  [(10, str "GOTO 30"), (20, str "PRINT 2"), (30, str "END")]

/-- Passages of `loop` from label to label, `n` of them. -/
def stepN (autorun : Bool) : Nat → Lbl × State → Option (Lbl × State)
  | 0, r => some r
  | n + 1, r => (step autorun r.1 r.2).bind (stepN autorun n)

/-- The state after the lines `10 GOTO 30`, `20 PRINT 2` and `30 SAVE "F"` have
been entered, with `RUN` waiting in the input. -/
def saveProgram : State :=
  ((session 100000 3
      { initState with inp := str "10 GOTO 30\n20 PRINT 2\n30 SAVE \"F\"\nRUN\n" }).getD
    (Lbl.exit, initState)).2

/-- The program of `saveProgram` five passages after `RUN` has been read:
`RUN` has started line 10, `GOTO 30` has been executed, and control is at
`interperateAtTxtpos` with the cursor on the `SAVE` of line 30. -/
def atSave : Lbl × State :=
  ((procline saveProgram).bind (fun r => stepN false 5 (Lbl.direct, r.2))).getD
    (Lbl.exit, initState)

/-- The records of `saveProgram`. -/
def saveRecords : List (Nat × List Nat) :=
  [(10, str "GOTO 30"), (20, str "PRINT 2"), (30, str "SAVE \"F\"")]

/-! ## Keyword tables as lists of words -/

/-- A word as a keyword table holds it: `0x80` is added to its last byte. -/
def kwBytes : List Nat → List Nat
  | [] => []
  | [c] => [c + 128]
  | c :: d :: cs => c :: kwBytes (d :: cs)

/-- The table of a list of words: the words one after the other, then a 0. -/
def tableOf : List (List Nat) → List Nat
  | [] => [0]
  | k :: ks => kwBytes k ++ tableOf ks

/-- The words of the table `keywords`, in table order. -/
def statementWords : List (List Nat) :=
  [str "LIST", str "LOAD", str "NEW", str "RUN", str "SAVE", str "NEXT", str "LET", str "IF",
   str "GOTO", str "GOSUB", str "RETURN", str "REM", str "FOR", str "INPUT", str "PRINT",
   str "POKE", str "STOP", str "BYE", str "SYSTEM", str "OUT", str "SLEEP", str "CLEAR",
   str "DIM", str "END"]

/-- The words of the table `func_tab`. -/
def functionWords : List (List Nat) :=
  [str "PEEK", str "ABS", str "HIGH", str "LOW", str "INP", str "FRE", str "RAND"]

/-- The words of the table `relop_tab`. -/
def relopWords : List (List Nat) := [str ">=", str "<>", str ">", str "=", str "<=", str "<"]

/-- The five keyword tables of the source, each with its list of words. -/
def keywordTables : List (List Nat × List (List Nat)) :=
  [(keywords, statementWords), (func_tab, functionWords), (to_tab, [str "TO"]),
   (step_tab, [str "STEP"]), (relop_tab, relopWords)]

/-- The `KW_` constants in the order of their statement keywords. -/
def statementConstants : List Nat :=
  [KW_LIST, KW_LOAD, KW_NEW, KW_RUN, KW_SAVE, KW_NEXT, KW_LET, KW_IF, KW_GOTO, KW_GOSUB,
   KW_RETURN, KW_REM, KW_FOR, KW_INPUT, KW_PRINT, KW_POKE, KW_STOP, KW_BYE, KW_SYSTEM, KW_OUT,
   KW_SLEEP, KW_CLEAR, KW_DIM, KW_END]

/-! ## Purity of the evaluator -/

/-- Two states agree on everything the evaluator reads: the arena, the
cursor, the error flag, `sp`, `pgm_end`, the seed and the build. -/
def Agree (a b : State) : Prop :=
  a.mem = b.mem ∧ a.txtpos = b.txtpos ∧ a.exp_error = b.exp_error ∧ a.sp = b.sp ∧
  a.pgm_end = b.pgm_end ∧ a.seed = b.seed ∧ a.linux = b.linux

/-- The state `b` has the arena of `a`, its `pgm_end`, `sp` and `top_sp`, and
every other variable of `a` that the evaluator has no business with: only the
cursor, the error flag, `table_index`, the output and the seed may differ. -/
def Keeps (a b : State) : Prop :=
  b.mem = a.mem ∧ b.pgm_end = a.pgm_end ∧ b.sp = a.sp ∧ b.top_sp = a.top_sp ∧
  b.list_line = a.list_line ∧ b.tempsp = a.tempsp ∧ b.stack_limit = a.stack_limit ∧
  b.current_line = a.current_line ∧ b.linenum = a.linenum ∧ b.lecho = a.lecho ∧
  b.inp = a.inp ∧ b.r_file = a.r_file ∧ b.feof = a.feof ∧ b.linux = a.linux

/-- Two results of an evaluation from states that agree: both have no result,
or the values are equal, the final states agree, and the first final state
keeps what the evaluator has no business with. -/
def SameResult (a : State) (ra rb : Option (Int × State)) : Prop :=
  (ra = none ∧ rb = none) ∨
  ∃ v a1 b1, ra = some (v, a1) ∧ rb = some (v, b1) ∧ Agree a1 b1 ∧ Keeps a a1

/-- An evaluator function that depends only on what `Agree` compares and
keeps what `Keeps` lists. -/
def Respects (f : State → Option (Int × State)) : Prop :=
  ∀ a b, Agree a b → SameResult a (f a) (f b)

/-! ## Entered lines and executed statements -/

/-- States reached from `NEW` by lines entered through `procline` (each free of
editing bytes, fitting the line buffer and with at most 127 bytes after its line
number) and, in between, by anything that is executed or that the host does,
as long as it leaves `pgm_end` and the bytes of the program region as they are
and the stack pointer inside the arena. -/
inductive ReachRun : State → Prop
  | new (st : State) : st.pgm_end = pgm_start → st.sp ≤ MEMSIZE → ReachRun st
  | line (st st2 : State) (ln rest : List Nat) (t code : Nat) :
      ReachRun st → PlainLine ln → (t = EOFC ∨ t = CR ∨ t = NL) → st.inp = ln ++ t :: rest →
      (st.r_file = true → st.feof = false) → st.pgm_end + 2 + ln.length + 2 ≤ st.sp →
      (lineParts ln).2.length ≤ 127 → procline st = some (code, st2) → ReachRun st2
  | run (st st2 : State) :
      ReachRun st → st2.pgm_end = st.pgm_end →
      (∀ a, a < st.pgm_end → pgm_start ≤ a → st2.mem a = st.mem a) → st2.sp ≤ MEMSIZE →
      ReachRun st2

/-- A fresh interpreter with two program lines and a direct statement waiting. -/
def twoLines0 : State := { initState with inp := str "10 PRINT 1\n20 PRINT 2\nPRINT 3\n" }

/-- The state after the first line has been entered. -/
def twoLines1 : Nat × State := (procline twoLines0).getD (0, twoLines0)

/-- The state after the second line has been entered. -/
def twoLines2 : Nat × State := (procline twoLines1.2).getD (0, twoLines1.2)

/-- The state after the direct statement `PRINT 3` has been executed. -/
def twoLines3 : State := ((command 1000 twoLines2.2).getD (Lbl.exit, twoLines2.2)).2

/-- The state after `10 PRINT 1` has been entered and `POKE 164,0` executed:
the length byte of the record is zero. -/
def pokeStall : State :=
  ((session 1000 2 { initState with inp := str "10 PRINT 1\nPOKE 164,0\n" }).getD
    (Lbl.exit, initState)).2

/-- The state after `10 PRINT 1` and `20 PRINT 2` have been entered and
`POKE 163,30` executed: the first record has the number 30. -/
def pokeSwap : State :=
  ((session 1000 3 { initState with inp := str "10 PRINT 1\n20 PRINT 2\nPOKE 163,30\n" }).getD
    (Lbl.exit, initState)).2

/-- The state after `DIM A(16294)`, `10 YY` and `1 X` have been entered, with
the line `10` waiting: the stack pointer is 5 bytes above `pgm_end`, so the
line buffer takes one byte before the bell. -/
def tightDelete : State :=
  ((session 1000 3 { initState with inp := str "DIM A(16294)\n10 YY\n1 X\n10\n" }).getD
    (Lbl.exit, initState)).2

/-! ## A loop with an empty range -/

/-- The state after the lines `10 FOR I=1 TO 0`, `20 PRINT I` and `30 NEXT I`
have been entered, with `RUN` waiting in the input. -/
def forProgram : State :=
  ((session 100000 3
      { initState with inp := str "10 FOR I=1 TO 0\n20 PRINT I\n30 NEXT I\nRUN\n" }).getD
    (Lbl.exit, initState)).2

/-- The program of `forProgram` three passages after `RUN` has been read:
control is at `interperateAtTxtpos` with the cursor on the `FOR` of line 10. -/
def atFor : Lbl × State :=
  ((procline forProgram).bind (fun r => stepN false 3 (Lbl.direct, r.2))).getD
    (Lbl.exit, initState)

/-- Four passages later: control is at the `PRINT` of line 20. -/
def atBody : Lbl × State := (stepN false 4 atFor).getD (Lbl.exit, initState)

/-- Four more passages later: control is at the `NEXT` of line 30. -/
def atNext : Lbl × State := (stepN false 4 atBody).getD (Lbl.exit, initState)

/-! ## Statements on one line -/

/-- A fresh interpreter with the text `SLEEP 1:B=2` at the cursor. -/
def sleepExample : State := withText initState 1000 (str "SLEEP 1:B=2\n")

/-- A fresh interpreter with the text `FOR I=1 TO 3: PRINT I` at the cursor. -/
def forColonExample : State := withText initState 1000 (str "FOR I=1 TO 3: PRINT I\n")
/-! ## Memory lemmas -/

theorem wr_same (m : Mem) (p v : Nat) : wr m p v p = v := by simp [wr]

theorem wr_other (m : Mem) (p v a : Nat) (h : a ≠ p) : wr m p v a = m a := by simp [wr, h]

theorem holds_nil (m : Mem) (a : Nat) : Holds m a [] := trivial

theorem holds_cons (m : Mem) (a x : Nat) (xs : List Nat) :
    Holds m a (x :: xs) ↔ m a = x ∧ Holds m (a + 1) xs := Iff.rfl

theorem holds_append (m : Mem) (xs ys : List Nat) (a : Nat) :
    Holds m a (xs ++ ys) ↔ Holds m a xs ∧ Holds m (a + xs.length) ys := by
  induction xs generalizing a with
  | nil => simp [Holds]
  | cons x xs ih =>
    rw [List.cons_append, holds_cons, holds_cons, ih, List.length_cons,
      show a + 1 + xs.length = a + (xs.length + 1) by omega]
    tauto

theorem holds_iff_get (m : Mem) (xs : List Nat) (a : Nat) :
    Holds m a xs ↔ ∀ i, i < xs.length → m (a + i) = xs.getD i 0 := by
  induction xs generalizing a with
  | nil => simp [Holds]
  | cons x xs ih =>
    simp only [Holds, ih, List.length_cons]
    constructor
    · rintro ⟨h0, h⟩ i hi
      cases i with
      | zero => simpa using h0
      | succ j =>
        have := h j (by omega)
        simpa [Nat.add_assoc, Nat.add_comm 1 j] using this
    · intro h
      refine ⟨by simpa using h 0 (by omega), fun i hi => ?_⟩
      have := h (i + 1) (by omega)
      simpa [Nat.add_assoc, Nat.add_comm 1 i] using this

theorem holds_congr (m m2 : Mem) (xs : List Nat) (a : Nat)
    (h : ∀ i, a ≤ i → i < a + xs.length → m2 i = m i) (hx : Holds m a xs) : Holds m2 a xs := by
  rw [holds_iff_get] at hx ⊢
  intro i hi
  rw [h (a + i) (by omega) (by omega)]
  exact hx i hi

theorem holds_rd (m : Mem) (xs : List Nat) (a : Nat) : Holds m a xs ↔ rd m a xs.length = xs := by
  induction xs generalizing a with
  | nil => simp [Holds, rd]
  | cons x xs ih => simp [Holds, rd, ih]

theorem rd_length (m : Mem) (a n : Nat) : (rd m a n).length = n := by
  induction n generalizing a with
  | zero => rfl
  | succ n ih => simp [rd, ih]

theorem holds_rd_self (m : Mem) (a n : Nat) : Holds m a (rd m a n) := by
  rw [holds_rd, rd_length]

theorem holds_unique (m : Mem) (xs ys : List Nat) (a : Nat) (h : xs.length = ys.length)
    (hx : Holds m a xs) (hy : Holds m a ys) : xs = ys := by
  rw [holds_rd] at hx hy
  rw [← hx, ← hy, h]

/-! ### The three copy loops -/

theorem copyUpward_frame (n : Nat) (m : Mem) (dest src a : Nat) (h : a < dest ∨ dest + n ≤ a) :
    copyUpward n m dest src a = m a := by
  induction n generalizing m dest src with
  | zero => rfl
  | succ n ih =>
    rw [copyUpward, ih _ _ _ (by omega), wr_other _ _ _ _ (by omega)]

theorem copyUpward_get (n : Nat) (m : Mem) (dest src i : Nat) (hds : dest ≤ src) (hi : i < n) :
    copyUpward n m dest src (dest + i) = m (src + i) := by
  induction n generalizing m dest src i with
  | zero => omega
  | succ n ih =>
    rw [copyUpward]
    cases i with
    | zero =>
      rw [copyUpward_frame _ _ _ _ _ (by omega)]
      simp [wr]
    | succ j =>
      have := ih (wr m dest (m src)) (dest + 1) (src + 1) j (by omega) (by omega)
      rw [show dest + (j + 1) = dest + 1 + j by omega, this, wr_other _ _ _ _ (by omega)]
      congr 1; omega

theorem copyUpward_holds (m : Mem) (xs : List Nat) (dest src : Nat) (hds : dest ≤ src)
    (hx : Holds m src xs) : Holds (copyUpward xs.length m dest src) dest xs := by
  rw [holds_iff_get] at hx ⊢
  intro i hi
  rw [copyUpward_get _ _ _ _ _ hds hi, hx i hi]

theorem copyDownward_frame (n : Nat) (m : Mem) (dest src a : Nat) (hn : n ≤ dest)
    (h : a < dest - n ∨ dest ≤ a) : copyDownward n m dest src a = m a := by
  induction n generalizing m dest src with
  | zero => rfl
  | succ n ih =>
    rw [copyDownward, ih _ _ _ (by omega) (by omega), wr_other _ _ _ _ (by omega)]

theorem copyDownward_get (n : Nat) (m : Mem) (dest src i : Nat) (hsd : src ≤ dest) (hn : n ≤ src)
    (hi : i < n) : copyDownward n m dest src (dest - 1 - i) = m (src - 1 - i) := by
  induction n generalizing m dest src i with
  | zero => omega
  | succ n ih =>
    rw [copyDownward]
    cases i with
    | zero =>
      rw [copyDownward_frame _ _ _ _ _ (by omega) (by omega)]
      simp [wr]
    | succ j =>
      have := ih (wr m (dest - 1) (m (src - 1))) (dest - 1) (src - 1) j (by omega) (by omega)
        (by omega)
      rw [show dest - 1 - (j + 1) = dest - 1 - 1 - j by omega, this, wr_other _ _ _ _ (by omega)]
      congr 1; omega

/-- Shifting a block up: the block `xs` at `src` stands at `src + k` afterwards. -/
theorem copyDownward_holds (m : Mem) (xs : List Nat) (src k : Nat) (hx : Holds m src xs) :
    Holds (copyDownward xs.length m (src + xs.length + k) (src + xs.length)) (src + k) xs := by
  rw [holds_iff_get] at hx ⊢
  intro i hi
  have := copyDownward_get xs.length m (src + xs.length + k) (src + xs.length)
    (xs.length - 1 - i) (by omega) (by omega) (by omega)
  rw [show src + xs.length + k - 1 - (xs.length - 1 - i) = src + k + i by omega,
    show src + xs.length - 1 - (xs.length - 1 - i) = src + i by omega] at this
  rw [this, hx i hi]

theorem moveLineLoop_snd (n : Nat) (m : Mem) (dest p : Nat) :
    (moveLineLoop n m dest p).2 = dest - n := by
  induction n generalizing m dest p with
  | zero => rfl
  | succ n ih => rw [moveLineLoop, ih]; omega

theorem moveLineLoop_frame (n : Nat) (m : Mem) (dest p a : Nat) (hn : n ≤ dest)
    (h : a < dest - n ∨ dest < a) : (moveLineLoop n m dest p).1 a = m a := by
  induction n generalizing m dest p with
  | zero => simp only [moveLineLoop]; rw [wr_other _ _ _ _ (by omega)]
  | succ n ih =>
    rw [moveLineLoop, ih _ _ _ (by omega) (by omega), wr_other _ _ _ _ (by omega)]

theorem moveLineLoop_get (n : Nat) (m : Mem) (dest p i : Nat) (hpd : p ≤ dest) (hn : n ≤ p)
    (hi : i ≤ n) : (moveLineLoop n m dest p).1 (dest - i) = m (p - i) := by
  induction n generalizing m dest p i with
  | zero =>
    have : i = 0 := by omega
    subst this
    simp [moveLineLoop, wr]
  | succ n ih =>
    rw [moveLineLoop]
    cases i with
    | zero =>
      rw [moveLineLoop_frame _ _ _ _ _ (by omega) (by omega)]
      simp [wr]
    | succ j =>
      have := ih (wr m dest (m p)) (dest - 1) (p - 1) j (by omega) (by omega) (by omega)
      rw [show dest - (j + 1) = dest - 1 - j by omega, this, wr_other _ _ _ _ (by omega)]
      congr 1; omega

/-- The staged copy: the `n+1` bytes `xs` ending at `p` stand ending at `dest`. -/
theorem moveLineLoop_holds (m : Mem) (xs : List Nat) (dest p n : Nat) (hlen : xs.length = n + 1)
    (hpd : p ≤ dest) (hn : n ≤ p) (hx : Holds m (p - n) xs) :
    Holds (moveLineLoop n m dest p).1 (dest - n) xs := by
  rw [holds_iff_get] at hx ⊢
  intro i hi
  have := moveLineLoop_get n m dest p (n - i) hpd hn (by omega)
  rw [show dest - (n - i) = dest - n + i by omega, show p - (n - i) = p - n + i by omega] at this
  rw [this, hx i hi]

/-! ## Line input, case folding and staging -/

theorem toSChar_add (x y : Int) : toSChar (toSChar x + y) = toSChar (x + y) := by
  unfold toSChar; omega

theorem toSChar_id (x : Int) (h1 : -128 ≤ x) (h2 : x ≤ 127) : toSChar x = x := by
  unfold toSChar; omega

theorem toSChar_even (n : Nat) : toSChar (n : Int) % 2 = 0 ↔ n % 2 = 0 := by
  unfold toSChar; omega

theorem plain_cons (c : Nat) (cs : List Nat) :
    PlainLine (c :: cs) ↔ (c ≠ NL ∧ c ≠ CR ∧ c ≠ EOFC ∧ c ≠ CTRLC ∧ c ≠ CTRLH ∧ c ≠ DEL) ∧
      PlainLine cs := by
  simp [PlainLine]

theorem plain_no_nl (ln : List Nat) (h : PlainLine ln) : NL ∉ ln := fun hm => (h NL hm).1 rfl

theorem getch_cons (st : State) (c : Nat) (cs : List Nat) (hinp : st.inp = c :: cs)
    (hf : st.r_file = true → st.feof = false) : getch st = (c, { st with inp := cs }) := by
  unfold getch
  cases hr : st.r_file with
  | true => simp [hf hr, hinp]
  | false => simp [hinp]

theorem getlnChar_term (t : Nat) (st : State) (ht : t = EOFC ∨ t = CR ∨ t = NL) :
    getlnChar t st = (some 1, { st with out := if st.lecho ≠ 0 then (put_nl st).out else st.out,
                                        mem := wr st.mem st.txtpos NL }) := by
  unfold getlnChar
  rw [if_pos ht]

theorem getlnChar_plain (c : Nat) (st : State)
    (hc : c ≠ NL ∧ c ≠ CR ∧ c ≠ EOFC ∧ c ≠ CTRLC ∧ c ≠ CTRLH ∧ c ≠ DEL)
    (hbell : st.txtpos + 2 ≠ st.sp) :
    getlnChar c st = (none, { st with mem := wr st.mem st.txtpos c, txtpos := st.txtpos + 1,
                                      out := if st.lecho ≠ 0 then st.out ++ [c] else st.out }) := by
  obtain ⟨h1, h2, h3, h4, h5, h6⟩ := hc
  unfold getlnChar
  rw [if_neg (by simp [h1, h2, h3]), if_neg h4, if_neg (by simp [h5, h6]), if_neg hbell]

theorem getlnLoop_plain (t : Nat) (rest : List Nat) (ht : t = EOFC ∨ t = CR ∨ t = NL)
    (ln : List Nat) (hp : PlainLine ln) (fuel : Nat) (st : State)
    (hinp : st.inp = ln ++ t :: rest) (hf : st.r_file = true → st.feof = false)
    (hroom : st.txtpos + ln.length + 2 ≤ st.sp) (hfuel : ln.length < fuel) :
    ∃ m2 o2, getlnLoop fuel st = some (1,
        { st with mem := m2, txtpos := st.txtpos + ln.length, inp := rest, out := o2 }) ∧
      Holds m2 st.txtpos (ln ++ [NL]) ∧
      (∀ a, a < st.txtpos ∨ st.txtpos + ln.length < a → m2 a = st.mem a) := by
  induction ln generalizing fuel st with
  | nil =>
    obtain ⟨f, rfl⟩ : ∃ f, fuel = f + 1 := ⟨fuel - 1, by simp at hfuel; omega⟩
    refine ⟨wr st.mem st.txtpos NL, if st.lecho ≠ 0 then (put_nl st).out else st.out, ?_, ?_, ?_⟩
    · rw [getlnLoop, getch_cons st t rest hinp hf]
      dsimp only
      rw [getlnChar_term _ _ ht]
      rfl
    · simp [Holds, wr]
    · intro a ha
      rw [wr_other]
      simp at ha; omega
  | cons c cs ih =>
    obtain ⟨f, rfl⟩ : ∃ f, fuel = f + 1 := ⟨fuel - 1, by simp at hfuel; omega⟩
    rw [plain_cons] at hp
    obtain ⟨hc, hcs⟩ := hp
    simp only [List.length_cons] at hroom hfuel
    have hbell : st.txtpos + 2 ≠ st.sp := by omega
    rw [getlnLoop, getch_cons st c (cs ++ t :: rest) hinp hf]
    dsimp only
    rw [getlnChar_plain c { st with inp := cs ++ t :: rest } hc hbell]
    dsimp only
    obtain ⟨m2, o2, hrun, hh, hfr⟩ := ih hcs f
      { st with inp := cs ++ t :: rest, mem := wr st.mem st.txtpos c, txtpos := st.txtpos + 1,
                out := if st.lecho ≠ 0 then st.out ++ [c] else st.out }
      rfl hf (by dsimp only; omega) (by omega)
    dsimp only at hrun hh hfr
    refine ⟨m2, o2, ?_, ?_, ?_⟩
    · rw [hrun]
      congr 3
      simp only [List.length_cons]; omega
    · rw [List.cons_append, holds_cons]
      refine ⟨?_, hh⟩
      rw [hfr _ (by omega), wr_same]
    · intro a ha
      simp only [List.length_cons] at ha
      rw [hfr a (by omega), wr_other]
      omega

theorem getln_plain (t : Nat) (rest ln : List Nat) (ht : t = EOFC ∨ t = CR ∨ t = NL)
    (hp : PlainLine ln) (st : State) (hinp : st.inp = ln ++ t :: rest)
    (hf : st.r_file = true → st.feof = false) (hroom : st.pgm_end + 2 + ln.length + 2 ≤ st.sp) :
    ∃ m2 o2, getln 0 st = some (1,
        { st with mem := m2, txtpos := st.pgm_end + 2 + ln.length, inp := rest, out := o2 }) ∧
      Holds m2 (st.pgm_end + 2) (ln ++ [NL]) ∧
      (∀ a, a < st.pgm_end + 2 ∨ st.pgm_end + 2 + ln.length < a → m2 a = st.mem a) := by
  unfold getln
  rw [if_neg (by simp)]
  obtain ⟨m2, o2, h1, h2, h3⟩ := getlnLoop_plain t rest ht ln hp (st.inp.length + 2)
    { st with txtpos := st.pgm_end + 2 } hinp hf hroom (by rw [hinp]; simp; omega)
  exact ⟨m2, o2, h1, h2, h3⟩

theorem upList_length (ln : List Nat) (q : Nat) : (upList q ln).length = ln.length := by
  induction ln generalizing q with
  | nil => rfl
  | cons c cs ih =>
    unfold upList
    split_ifs <;> simp [ih]

theorem toUpperLoop_spec (ln : List Nat) (hnl : NL ∉ ln) (fuel : Nat) (m : Mem) (c q : Nat)
    (hh : Holds m c (ln ++ [NL])) (hfuel : ln.length < fuel) :
    ∃ m2, toUpperLoop fuel m c q = some m2 ∧ Holds m2 c (upList q ln ++ [NL]) ∧
      (∀ a, a < c ∨ c + ln.length ≤ a → m2 a = m a) := by
  induction ln generalizing fuel m c q with
  | nil =>
    obtain ⟨f, rfl⟩ : ∃ f, fuel = f + 1 := ⟨fuel - 1, by simp at hfuel; omega⟩
    refine ⟨m, ?_, hh, fun _ _ => rfl⟩
    rw [toUpperLoop, if_pos hh.1]
  | cons x xs ih =>
    obtain ⟨f, rfl⟩ : ∃ f, fuel = f + 1 := ⟨fuel - 1, by simp at hfuel; omega⟩
    simp only [List.length_cons] at hfuel
    rw [List.cons_append, holds_cons] at hh
    obtain ⟨hx, hxs⟩ := hh
    have hxnl : x ≠ NL := fun h => hnl (by simp [h])
    have hnl2 : NL ∉ xs := fun h => hnl (by simp [h])
    rw [toUpperLoop, hx, if_neg hxnl]
    unfold upList
    by_cases h1 : x = q
    · rw [if_pos h1, if_pos h1]
      obtain ⟨m2, e, h, fr⟩ := ih hnl2 f m (c + 1) 0 hxs (by omega)
      refine ⟨m2, e, ?_, fun a ha => fr a (by simp only [List.length_cons] at ha; omega)⟩
      rw [List.cons_append, holds_cons]
      exact ⟨by rw [fr c (by omega), hx], h⟩
    · rw [if_neg h1, if_neg h1]
      by_cases h2 : x = 34 ∨ x = 39
      · rw [if_pos h2, if_pos h2]
        obtain ⟨m2, e, h, fr⟩ := ih hnl2 f m (c + 1) x hxs (by omega)
        refine ⟨m2, e, ?_, fun a ha => fr a (by simp only [List.length_cons] at ha; omega)⟩
        rw [List.cons_append, holds_cons]
        exact ⟨by rw [fr c (by omega), hx], h⟩
      · rw [if_neg h2, if_neg h2]
        by_cases h3 : q = 0 ∧ 97 ≤ x ∧ x ≤ 122
        · rw [if_pos h3, if_pos h3]
          obtain ⟨m2, e, h, fr⟩ := ih hnl2 f (wr m c (x - 32)) (c + 1) q
            (holds_congr m _ _ _ (fun i hi _ => wr_other _ _ _ _ (by omega)) hxs) (by omega)
          refine ⟨m2, e, ?_, fun a ha => ?_⟩
          · rw [List.cons_append, holds_cons]
            exact ⟨by rw [fr c (by omega), wr_same], h⟩
          · simp only [List.length_cons] at ha
            rw [fr a (by omega), wr_other _ _ _ _ (by omega)]
        · rw [if_neg h3, if_neg h3]
          obtain ⟨m2, e, h, fr⟩ := ih hnl2 f m (c + 1) q hxs (by omega)
          refine ⟨m2, e, ?_, fun a ha => fr a (by simp only [List.length_cons] at ha; omega)⟩
          rw [List.cons_append, holds_cons]
          exact ⟨by rw [fr c (by omega), hx], h⟩

theorem upList_no_nl (ln : List Nat) (q : Nat) (h : NL ∉ ln) : NL ∉ upList q ln := by
  induction ln generalizing q with
  | nil => simp [upList]
  | cons c cs ih =>
    have hc : c ≠ NL := fun e => h (by simp [e])
    have hcs : NL ∉ cs := fun e => h (by simp [e])
    unfold upList
    split_ifs with h1 h2 h3
    · simp [Ne.symm hc, ih 0 hcs]
    · simp [Ne.symm hc, ih c hcs]
    · have : NL ≠ c - 32 := by unfold NL; omega
      simp [this, ih q hcs]
    · simp [Ne.symm hc, ih q hcs]

theorem lineEndLoop_spec (ln : List Nat) (hnl : NL ∉ ln) (fuel : Nat) (m : Mem) (p : Nat) (l : Int)
    (hl : toSChar l = l) (hh : Holds m p (ln ++ [NL])) (hfuel : ln.length < fuel) :
    lineEndLoop m fuel l p = some (toSChar (l + ln.length), p + ln.length) := by
  induction ln generalizing fuel p l with
  | nil =>
    obtain ⟨f, rfl⟩ : ∃ f, fuel = f + 1 := ⟨fuel - 1, by simp at hfuel; omega⟩
    rw [lineEndLoop, if_pos hh.1]
    simp [hl]
  | cons x xs ih =>
    obtain ⟨f, rfl⟩ : ∃ f, fuel = f + 1 := ⟨fuel - 1, by simp at hfuel; omega⟩
    simp only [List.length_cons] at hfuel
    rw [List.cons_append, holds_cons] at hh
    obtain ⟨hx, hxs⟩ := hh
    have hxnl : x ≠ NL := fun h => hnl (by simp [h])
    have hnl2 : NL ∉ xs := fun h => hnl (by simp [h])
    rw [lineEndLoop, hx, if_neg hxnl, ih hnl2 f (p + 1) _ (by unfold toSChar; omega) hxs (by omega),
      toSChar_add]
    simp only [List.length_cons, Nat.cast_add, Nat.cast_one]
    congr 2
    · congr 1; omega
    · omega

theorem stageLine_spec (u : List Nat) (hnl : NL ∉ u) (st : State)
    (hh : Holds st.mem (st.pgm_end + 2) (u ++ [NL]))
    (hroom : st.pgm_end + 2 + u.length + 2 ≤ st.sp) (hsp : st.sp ≤ MEMSIZE) :
    ∃ m3, stageLine st = some { st with mem := m3, txtpos := stagedAt st.sp u.length } ∧
      Holds m3 (stagedAt st.sp u.length) (u ++ [NL]) ∧
      (∀ a, a < stagedAt st.sp u.length → m3 a = st.mem a) := by
  unfold stageLine
  rw [lineEndLoop_spec u hnl _ st.mem (st.pgm_end + 2) 0 (by unfold toSChar; omega) hh
    (by omega)]
  dsimp only
  rw [show st.pgm_end + 2 + u.length - (st.pgm_end + 2) = u.length by omega]
  simp only [zero_add, toSChar_even]
  have hsrc : Holds st.mem (st.pgm_end + 2 + u.length - u.length) (u ++ [NL]) := by
    rw [show st.pgm_end + 2 + u.length - u.length = st.pgm_end + 2 by omega]; exact hh
  unfold stagedAt
  by_cases he : u.length % 2 = 0
  · simp only [if_pos he]
    refine ⟨(moveLineLoop u.length st.mem (st.sp - 1 - 1) (st.pgm_end + 2 + u.length)).1, ?_,
      ?_, ?_⟩
    · rw [moveLineLoop_snd]
    · exact moveLineLoop_holds _ _ _ _ _ (by simp) (by omega) (by omega) hsrc
    · intro a ha
      exact moveLineLoop_frame _ _ _ _ _ (by omega) (by omega)
  · simp only [if_neg he]
    refine ⟨(moveLineLoop u.length st.mem (st.sp - 1) (st.pgm_end + 2 + u.length)).1, ?_,
      ?_, ?_⟩
    · rw [moveLineLoop_snd]
    · exact moveLineLoop_holds _ _ _ _ _ (by simp) (by omega) (by omega) hsrc
    · intro a ha
      exact moveLineLoop_frame _ _ _ _ _ (by omega) (by omega)

/-! ## Scanning the staged line -/

theorem ignoreBlanksLoop_spec (xs : List Nat) (fuel : Nat) (m : Mem) (p : Nat)
    (hh : Holds m p (xs ++ [NL])) (hfuel : xs.length < fuel) :
    ∃ q, ignoreBlanksLoop m fuel p = q ∧ q + (skipBlanks xs).length = p + xs.length ∧
      Holds m q (skipBlanks xs ++ [NL]) := by
  induction xs generalizing fuel p with
  | nil =>
    obtain ⟨f, rfl⟩ : ∃ f, fuel = f + 1 := ⟨fuel - 1, by simp at hfuel; omega⟩
    refine ⟨p, ?_, rfl, hh⟩
    rw [ignoreBlanksLoop, hh.1, if_neg (by decide)]
  | cons x xs ih =>
    obtain ⟨f, rfl⟩ : ∃ f, fuel = f + 1 := ⟨fuel - 1, by simp at hfuel; omega⟩
    simp only [List.length_cons] at hfuel
    have hh2 := hh
    rw [List.cons_append, holds_cons] at hh2
    obtain ⟨hx, hxs⟩ := hh2
    rw [ignoreBlanksLoop, hx]
    unfold skipBlanks
    by_cases hb : x = SPACE ∨ x = TAB
    · rw [if_pos hb, if_pos hb]
      obtain ⟨q, e1, e2, e3⟩ := ih f (p + 1) hxs (by omega)
      exact ⟨q, e1, by simp only [List.length_cons]; omega, e3⟩
    · rw [if_neg hb, if_neg hb]
      exact ⟨p, rfl, rfl, hh⟩

theorem testnumLoop_spec (xs : List Nat) (fuel : Nat) (m : Mem) (num p : Nat)
    (hh : Holds m p (xs ++ [NL])) (hfuel : xs.length < fuel) :
    ∃ q, testnumLoop m fuel num p = ((numL num xs).1, q) ∧
      q + (numL num xs).2.length = p + xs.length ∧ Holds m q ((numL num xs).2 ++ [NL]) := by
  induction xs generalizing fuel p num with
  | nil =>
    obtain ⟨f, rfl⟩ : ∃ f, fuel = f + 1 := ⟨fuel - 1, by simp at hfuel; omega⟩
    refine ⟨p, ?_, rfl, hh⟩
    rw [testnumLoop, hh.1, if_neg (by decide)]
    rfl
  | cons x xs ih =>
    obtain ⟨f, rfl⟩ : ∃ f, fuel = f + 1 := ⟨fuel - 1, by simp at hfuel; omega⟩
    simp only [List.length_cons] at hfuel
    have hh2 := hh
    rw [List.cons_append, holds_cons] at hh2
    obtain ⟨hx, hxs⟩ := hh2
    rw [testnumLoop, hx]
    unfold numL
    by_cases hd : 48 ≤ x ∧ x ≤ 57
    · rw [if_pos hd, if_pos hd]
      by_cases ho : num ≥ MAXLINENUM
      · rw [if_pos ho, if_pos ho]
        exact ⟨p, rfl, rfl, hh⟩
      · rw [if_neg ho, if_neg ho]
        obtain ⟨q, e1, e2, e3⟩ := ih f ((num * 10 + x - 48) % 65536) (p + 1) hxs (by omega)
        exact ⟨q, e1, by simp only [List.length_cons]; omega, e3⟩
    · rw [if_neg hd, if_neg hd]
      exact ⟨p, rfl, rfl, hh⟩

theorem skipBlanks_length_le (xs : List Nat) : (skipBlanks xs).length ≤ xs.length := by
  induction xs with
  | nil => simp [skipBlanks]
  | cons x xs ih => unfold skipBlanks; split_ifs <;> simp; omega

theorem numL_length_le (xs : List Nat) (num : Nat) : (numL num xs).2.length ≤ xs.length := by
  induction xs generalizing num with
  | nil => simp [numL]
  | cons x xs ih =>
    unfold numL; split_ifs
    · simp
    · have := ih ((num * 10 + x - 48) % 65536); simp; omega
    · simp

theorem bodyLenLoop_spec (b : List Nat) (hnl : NL ∉ b) (m : Mem) (t : Nat) (fuel k : Nat)
    (hk : k + b.length ≤ 127) (hh : Holds m (t + k) (b ++ [NL])) (hfuel : b.length < fuel) :
    bodyLenLoop m t fuel (k : Int) = some ((k + b.length : Nat) : Int) := by
  induction b generalizing fuel k with
  | nil =>
    obtain ⟨f, rfl⟩ : ∃ f, fuel = f + 1 := ⟨fuel - 1, by simp at hfuel; omega⟩
    rw [bodyLenLoop]
    have : ((t : Int) + (k : Int)).toNat = t + k := by omega
    rw [this, if_pos hh.1]
    simp
  | cons x xs ih =>
    obtain ⟨f, rfl⟩ : ∃ f, fuel = f + 1 := ⟨fuel - 1, by simp at hfuel; omega⟩
    simp only [List.length_cons] at hfuel hk
    rw [List.cons_append, holds_cons] at hh
    obtain ⟨hx, hxs⟩ := hh
    have hxnl : x ≠ NL := fun h => hnl (by simp [h])
    have hnl2 : NL ∉ xs := fun h => hnl (by simp [h])
    rw [bodyLenLoop]
    have : ((t : Int) + (k : Int)).toNat = t + k := by omega
    rw [this, hx, if_neg hxnl]
    have e : toSChar ((k : Int) + 1) = ((k + 1 : Nat) : Int) := by
      unfold toSChar; push_cast; omega
    rw [e, ih hnl2 f (k + 1) (by omega) (by rw [show t + (k + 1) = t + k + 1 by omega]; exact hxs)
      (by omega)]
    simp only [List.length_cons]
    congr 2; omega

/-! ## `findline` on a well-formed region -/

theorem encodeRec_length (r : Nat × List Nat) : (encodeRec r).length = r.2.length + 4 := by
  simp [encodeRec]

theorem progBytes_append (xs ys : List (Nat × List Nat)) :
    progBytes (xs ++ ys) = progBytes xs ++ progBytes ys := by
  induction xs with
  | nil => rfl
  | cons x xs ih => simp [progBytes, ih]

theorem holds_encodeRec (m : Mem) (a : Nat) (r : Nat × List Nat) (h : Holds m a (encodeRec r)) :
    m a = r.1 / 256 % 256 ∧ m (a + 1) = r.1 % 256 ∧ m (a + 2) = r.2.length + 4 ∧
      Holds m (a + 3) (r.2 ++ [NL]) := by
  unfold encodeRec at h
  simp only [List.cons_append, List.nil_append, holds_cons, List.append_assoc] at h
  exact ⟨h.1, h.2.1, h.2.2.1, h.2.2.2⟩

theorem decode_encodeRec (m : Mem) (a : Nat) (r : Nat × List Nat) (h : Holds m a (encodeRec r))
    (hr : r.1 < 65536) : decode_linenum m a = r.1 := by
  obtain ⟨h0, h1, _, _⟩ := holds_encodeRec m a r h
  unfold decode_linenum
  rw [h0, h1]; omega

theorem findlineLoop_spec (recs : List (Nat × List Nat)) (m : Mem) (pe n fuel line : Nat)
    (hok : ∀ r ∈ recs, RecOK r) (hh : Holds m line (progBytes recs))
    (hpe : pe = line + (progBytes recs).length) (hfuel : recs.length < fuel) :
    findlineLoop m pe n fuel line =
      some (line + (progBytes (recs.takeWhile (fun r => r.1 < n))).length) := by
  induction recs generalizing fuel line with
  | nil =>
    obtain ⟨f, rfl⟩ : ∃ f, fuel = f + 1 := ⟨fuel - 1, by simp at hfuel; omega⟩
    rw [findlineLoop, if_pos (by simpa [progBytes] using hpe.symm)]
    simp [progBytes]
  | cons r rs ih =>
    obtain ⟨f, rfl⟩ : ∃ f, fuel = f + 1 := ⟨fuel - 1, by simp at hfuel; omega⟩
    simp only [List.length_cons] at hfuel
    have hr : RecOK r := hok r (by simp)
    rw [progBytes, holds_append] at hh
    obtain ⟨hrec, hrest⟩ := hh
    have hlen := encodeRec_length r
    rw [progBytes, List.length_append, hlen] at hpe
    rw [findlineLoop, if_neg (by omega), decode_encodeRec m line r hrec hr.1]
    by_cases hn : r.1 ≥ n
    · rw [if_pos hn]
      have : ¬ (r.1 < n) := by omega
      simp [List.takeWhile, this, progBytes]
    · rw [if_neg hn]
      have hlt : r.1 < n := by omega
      obtain ⟨_, _, h2, _⟩ := holds_encodeRec m line r hrec
      have hs : schar (m (line + 2)) = ((r.2.length + 4 : Nat) : Int) := by
        rw [h2]; unfold schar; rw [if_pos (by have := hr.2; omega)]
      dsimp only
      rw [hs, if_neg (by omega)]
      have : ((line : Int) + ((r.2.length + 4 : Nat) : Int)).toNat = line + (r.2.length + 4) := by
        omega
      rw [this, ih f (line + (r.2.length + 4)) (fun x hx => hok x (by simp [hx]))
        (by rw [← hlen]; exact hrest) (by omega) (by omega)]
      simp [List.takeWhile, hlt, progBytes, hlen]
      omega

/-! ## Sorted record lists -/

theorem takeWhile_eq_filter_sorted (recs : List (Nat × List Nat)) (n : Nat)
    (hs : (recs.map Prod.fst).Pairwise (· < ·)) :
    recs.takeWhile (fun r => r.1 < n) = recs.filter (fun r => r.1 < n) := by
  induction recs with
  | nil => rfl
  | cons r rs ih =>
    simp only [List.map_cons, List.pairwise_cons] at hs
    by_cases h : r.1 < n
    · simp [List.takeWhile, List.filter, h, ih hs.2]
    · simp only [List.takeWhile, List.filter, h, decide_False]
      symm
      rw [List.filter_eq_nil_iff]
      intro x hx
      have := hs.1 x.1 (List.mem_map_of_mem _ hx)
      simp; omega

theorem dropWhile_sorted (recs : List (Nat × List Nat)) (n : Nat)
    (hs : (recs.map Prod.fst).Pairwise (· < ·)) :
    (recs.dropWhile (fun r => r.1 < n) = recs.filter (fun r => n < r.1) ∧
      ∀ r ∈ recs, r.1 ≠ n) ∨
    ∃ b, recs.dropWhile (fun r => r.1 < n) = (n, b) :: recs.filter (fun r => n < r.1) := by
  induction recs with
  | nil => left; simp
  | cons r rs ih =>
    simp only [List.map_cons, List.pairwise_cons] at hs
    have hall : ∀ x ∈ rs, r.1 < x.1 := fun x hx => hs.1 x.1 (List.mem_map_of_mem _ hx)
    by_cases h : r.1 < n
    · have hn : ¬ n < r.1 := by omega
      rcases ih hs.2 with ⟨h1, h2⟩ | ⟨b, h1⟩
      · left
        refine ⟨by simp [List.dropWhile, List.filter, h, hn, h1], ?_⟩
        intro x hx
        rcases List.mem_cons.1 hx with rfl | hx
        · omega
        · exact h2 x hx
      · right
        exact ⟨b, by simp [List.dropWhile, List.filter, h, hn, h1]⟩
    · have hf : rs.filter (fun x => n < x.1) = rs := by
        rw [List.filter_eq_self]
        intro x hx
        have := hall x hx
        simp; omega
      by_cases hn : n < r.1
      · left
        refine ⟨by simp [List.dropWhile, List.filter, h, hn, hf], ?_⟩
        intro x hx
        rcases List.mem_cons.1 hx with rfl | hx
        · omega
        · have := hall x hx; omega
      · right
        have e : r.1 = n := by omega
        refine ⟨r.2, ?_⟩
        simp only [List.dropWhile, h, decide_False, List.filter, hn, hf]
        rw [← e]

theorem pairwise_putRec (recs : List (Nat × List Nat)) (n : Nat) (b : List Nat)
    (hs : (recs.map Prod.fst).Pairwise (· < ·)) :
    ((putRec n b recs).map Prod.fst).Pairwise (· < ·) := by
  unfold putRec
  rw [List.map_append, List.map_cons, List.pairwise_append]
  refine ⟨(hs.sublist ((List.filter_sublist _).map _)), ?_, ?_⟩
  · rw [List.pairwise_cons]
    refine ⟨?_, hs.sublist ((List.filter_sublist _).map _)⟩
    intro a ha
    obtain ⟨x, hx, rfl⟩ := List.mem_map.1 ha
    simpa using (List.mem_filter.1 hx).2
  · intro a ha c hc
    obtain ⟨x, hx, rfl⟩ := List.mem_map.1 ha
    have h1 : x.1 < n := by simpa using (List.mem_filter.1 hx).2
    rcases List.mem_cons.1 hc with rfl | hc
    · exact h1
    · obtain ⟨y, hy, rfl⟩ := List.mem_map.1 hc
      have h2 : n < y.1 := by simpa using (List.mem_filter.1 hy).2
      omega

theorem pairwise_delRec (recs : List (Nat × List Nat)) (n : Nat)
    (hs : (recs.map Prod.fst).Pairwise (· < ·)) :
    ((delRec n recs).map Prod.fst).Pairwise (· < ·) := by
  have := pairwise_putRec recs n [] hs
  unfold putRec at this
  unfold delRec
  rw [List.map_append, List.map_cons, List.pairwise_append] at this
  rw [List.map_append, List.pairwise_append]
  refine ⟨this.1, (List.pairwise_cons.1 this.2.1).2, ?_⟩
  intro a ha c hc
  have h1 := this.2.2 a ha n (by simp)
  have h2 := (List.pairwise_cons.1 this.2.1).1 c hc
  omega

theorem delRec_of_not_mem (recs : List (Nat × List Nat)) (n : Nat)
    (hs : (recs.map Prod.fst).Pairwise (· < ·)) (h : ∀ r ∈ recs, r.1 ≠ n) : delRec n recs = recs := by
  unfold delRec
  rw [← takeWhile_eq_filter_sorted recs n hs]
  rcases dropWhile_sorted recs n hs with ⟨h1, _⟩ | ⟨b, h1⟩
  · rw [← h1, List.takeWhile_append_dropWhile]
  · exfalso
    have : (n, b) ∈ recs.dropWhile (fun r => r.1 < n) := by rw [h1]; simp
    exact h (n, b) ((List.dropWhile_suffix _).subset this) rfl

/-! ## Removing and inserting a record -/

theorem removeLine_hit (st : State) (pre post : List (Nat × List Nat)) (r : Nat × List Nat)
    (hr : RecOK r) (hh : Holds st.mem pgm_start (progBytes (pre ++ r :: post)))
    (hpe : st.pgm_end = pgm_start + (progBytes (pre ++ r :: post)).length)
    (hn : r.1 = st.linenum) :
    ∃ m2, removeLine st (pgm_start + (progBytes pre).length) =
        some { st with mem := m2, pgm_end := pgm_start + (progBytes (pre ++ post)).length } ∧
      Holds m2 pgm_start (progBytes (pre ++ post)) ∧ (∀ a, st.pgm_end ≤ a → m2 a = st.mem a) := by
  rw [progBytes_append, holds_append, progBytes, holds_append] at hh
  obtain ⟨hpre, hrec, hpost⟩ := hh
  have hlen := encodeRec_length r
  simp only [progBytes_append, progBytes, List.length_append, hlen] at hpe
  obtain ⟨_, _, h2, _⟩ := holds_encodeRec _ _ r hrec
  have hs : schar (st.mem (pgm_start + (progBytes pre).length + 2)) =
      ((r.2.length + 4 : Nat) : Int) := by
    rw [h2]; unfold schar; rw [if_pos (by have := hr.2; omega)]
  unfold removeLine
  rw [if_pos ⟨by omega, by rw [decode_encodeRec _ _ r hrec hr.1, hn]⟩]
  dsimp only
  rw [hs, if_neg (by omega)]
  have e1 : ((pgm_start + (progBytes pre).length : Nat) + ((r.2.length + 4 : Nat) : Int)).toNat
      = pgm_start + (progBytes pre).length + (r.2.length + 4) := by omega
  rw [e1]
  have e2 : st.pgm_end - (pgm_start + (progBytes pre).length + (r.2.length + 4))
      = (progBytes post).length := by omega
  rw [e2]
  rw [hlen] at hpost
  refine ⟨copyUpward (progBytes post).length st.mem (pgm_start + (progBytes pre).length)
    (pgm_start + (progBytes pre).length + (r.2.length + 4)), ?_, ?_, ?_⟩
  · congr 2
    simp only [progBytes_append, List.length_append]; omega
  · rw [progBytes_append, holds_append]
    refine ⟨holds_congr _ _ _ _ (fun i _ hi => copyUpward_frame _ _ _ _ _ (by omega)) hpre, ?_⟩
    exact copyUpward_holds _ _ _ _ (by omega) hpost
  · intro a ha
    exact copyUpward_frame _ _ _ _ _ (by omega)

theorem removeLine_miss (st : State) (pre post : List (Nat × List Nat))
    (hok : ∀ r ∈ post, RecOK r) (hh : Holds st.mem pgm_start (progBytes (pre ++ post)))
    (hpe : st.pgm_end = pgm_start + (progBytes (pre ++ post)).length)
    (hn : ∀ r ∈ post.head?, r.1 ≠ st.linenum) :
    removeLine st (pgm_start + (progBytes pre).length) = some st := by
  unfold removeLine
  rw [if_neg]
  rintro ⟨h1, h2⟩
  cases post with
  | nil => simp [progBytes_append, progBytes] at hpe; omega
  | cons r rs =>
    rw [progBytes_append, holds_append, progBytes, holds_append] at hh
    rw [decode_encodeRec _ _ r hh.2.1 (hok r (by simp)).1] at h2
    exact hn r (by simp) h2

theorem insertLoop_spec (fuel : Nat) (todo post : List Nat) (m : Mem) (start txtpos pe : Nat)
    (hfuel : todo.length ≤ fuel) (hpost : Holds m start post) (hpe : pe = start + post.length)
    (htodo : Holds m txtpos todo) (hgap : pe < txtpos) :
    ∃ m2, insertLoop fuel m start txtpos pe todo.length =
        some (m2, pe + todo.length, txtpos + todo.length) ∧
      Holds m2 start (todo ++ post) ∧ (∀ a, a < start → m2 a = m a) := by
  induction fuel generalizing todo m start txtpos pe with
  | zero =>
    have : todo = [] := List.eq_nil_of_length_eq_zero (by omega)
    subst this
    exact ⟨m, by simp [insertLoop], by simpa using hpost, fun _ _ => rfl⟩
  | succ f ih =>
    by_cases h0 : todo.length = 0
    · have : todo = [] := List.eq_nil_of_length_eq_zero h0
      subst this
      exact ⟨m, by simp [insertLoop], by simpa using hpost, fun _ _ => rfl⟩
    · rw [insertLoop, if_neg h0, if_neg (by omega), if_neg (by omega)]
      dsimp only
      generalize hs : min (txtpos - pe) todo.length = s
      have hs1 : 1 ≤ s := by omega
      have hs2 : s ≤ todo.length := by omega
      have hs3 : pe + s ≤ txtpos := by omega
      have hsplit : todo = todo.take s ++ todo.drop s := (List.take_append_drop s todo).symm
      have htl : (todo.take s).length = s := by simp; omega
      have hdl : (todo.drop s).length = todo.length - s := by simp
      rw [hsplit, holds_append, htl] at htodo
      obtain ⟨htake, hdrop⟩ := htodo
      -- the shift
      have hshift := copyDownward_holds m post start s hpost
      rw [show start + post.length + s = pe + s by omega, show start + post.length = pe by omega]
        at hshift
      have hfr1 : ∀ a, a < start + s ∨ pe + s ≤ a →
          copyDownward post.length m (pe + s) pe a = m a := fun a ha =>
        copyDownward_frame _ _ _ _ _ (by omega) (by omega)
      rw [show pe - start = post.length by omega]
      -- the copy
      have htake1 : Holds (copyDownward post.length m (pe + s) pe) txtpos (todo.take s) :=
        holds_congr _ _ _ _ (fun i h1 _ => hfr1 i (by omega)) htake
      have hcopy := copyUpward_holds _ _ start txtpos (by omega) htake1
      rw [htl] at hcopy
      have hfr2 : ∀ a, a < start ∨ start + s ≤ a →
          copyUpward s (copyDownward post.length m (pe + s) pe) start txtpos a =
            copyDownward post.length m (pe + s) pe a := fun a ha =>
        copyUpward_frame _ _ _ _ _ ha
      obtain ⟨m2, e, hh, fr⟩ := ih (todo.drop s)
        (copyUpward s (copyDownward post.length m (pe + s) pe) start txtpos)
        (start + s) (txtpos + s) (pe + s) (by omega)
        (holds_congr _ _ _ _ (fun i h1 _ => hfr2 i (by omega)) hshift) (by omega)
        (holds_congr _ _ _ _ (fun i h1 _ => by rw [hfr2 i (by omega), hfr1 i (by omega)]) hdrop)
        (by omega)
      rw [hdl] at e
      refine ⟨m2, ?_, ?_, ?_⟩
      · rw [e, show pe + s + (todo.length - s) = pe + todo.length by omega,
          show txtpos + s + (todo.length - s) = txtpos + todo.length by omega]
      · rw [hsplit, List.append_assoc, holds_append, htl]
        exact ⟨holds_congr _ _ _ _ (fun i _ h2 => fr i (by omega)) hcopy, hh⟩
      · intro a ha
        rw [fr a (by omega), hfr2 a (by omega), hfr1 a (by omega)]

/-! ## `procline` on a well-formed region -/

theorem progBytes_length_ge (recs : List (Nat × List Nat)) :
    4 * recs.length ≤ (progBytes recs).length := by
  induction recs with
  | nil => simp [progBytes]
  | cons r rs ih => simp [progBytes, encodeRec_length]; omega

theorem wfm_delRec (m : Mem) (pe n : Nat) (recs : List (Nat × List Nat))
    (hok : ∀ r ∈ recs, RecOK r) (hs : (recs.map Prod.fst).Pairwise (· < ·))
    (hpe : pe = pgm_start + (progBytes (delRec n recs)).length)
    (hh : Holds m pgm_start (progBytes (delRec n recs))) : WFm m pe (delRec n recs) := by
  refine ⟨?_, pairwise_delRec recs n hs, hpe, hh⟩
  intro r hr
  unfold delRec at hr
  rcases List.mem_append.1 hr with h | h <;> exact hok r (List.mem_filter.1 h).1

theorem wfm_putRec (m : Mem) (pe n : Nat) (b : List Nat) (recs : List (Nat × List Nat))
    (hok : ∀ r ∈ recs, RecOK r) (hs : (recs.map Prod.fst).Pairwise (· < ·))
    (hn : n < 65536) (hb : b.length + 4 ≤ 127)
    (hpe : pe = pgm_start + (progBytes (putRec n b recs)).length)
    (hh : Holds m pgm_start (progBytes (putRec n b recs))) : WFm m pe (putRec n b recs) := by
  refine ⟨?_, pairwise_putRec recs n b hs, hpe, hh⟩
  intro r hr
  unfold putRec at hr
  rcases List.mem_append.1 hr with h | h
  · exact hok r (List.mem_filter.1 h).1
  · rcases List.mem_cons.1 h with rfl | h
    · exact ⟨hn, hb⟩
    · exact hok r (List.mem_filter.1 h).1

/-- The header that `procline` writes in front of the staged body. -/
theorem header_holds (m : Mem) (t n : Nat) (l : Nat) (body : List Nat) (ht : 3 ≤ t)
    (hb : Holds m t (body ++ [NL])) :
    Holds (wr (encode_linenum m (t - 3) n) (t - 3 + 2) l) (t - 3)
      ([n / 256 % 256, n % 256, l] ++ body ++ [NL]) := by
  simp only [List.cons_append, List.nil_append, holds_cons, List.append_assoc]
  unfold encode_linenum
  refine ⟨by simp [wr], by simp [wr], by simp [wr], ?_⟩
  rw [show t - 3 + 1 + 1 + 1 = t by omega]
  refine holds_congr _ _ _ _ (fun i hi _ => ?_) hb
  rw [wr_other _ _ _ _ (by omega), wr_other _ _ _ _ (by omega), wr_other _ _ _ _ (by omega)]

theorem header_frame (m : Mem) (t n l a : Nat) (ht : 3 ≤ t) (ha : a + 3 < t ∨ t ≤ a) :
    wr (encode_linenum m (t - 3) n) (t - 3 + 2) l a = m a := by
  unfold encode_linenum
  rw [wr_other _ _ _ _ (by omega), wr_other _ _ _ _ (by omega), wr_other _ _ _ _ (by omega)]

theorem storeLine_spec (st : State) (recs : List (Nat × List Nat)) (body : List Nat)
    (hwf : WFm st.mem st.pgm_end recs) (hn : st.linenum < 65536)
    (hnl : NL ∉ body) (hlen : body.length ≤ 127)
    (hb : Holds st.mem st.txtpos (body ++ [NL]))
    (ht : st.pgm_end + 3 ≤ st.txtpos) (htm : st.txtpos ≤ MEMSIZE) :
    (∃ m2 pe2 tp2, storeLine st = some
        ((if body = [] then PROCLINE_DELETE else PROCLINE_OKAY),
          { st with mem := m2, pgm_end := pe2, txtpos := tp2 }) ∧
      WFm m2 pe2 (if body = [] ∨ 123 < body.length then delRec st.linenum recs
        else putRec st.linenum body recs)) ∨
    (storeLine st = none ∧ st.txtpos = st.pgm_end + 3 ∧ body ≠ [] ∧ body.length ≤ 123 ∧
      ∀ r ∈ recs, r.1 ≠ st.linenum) := by
  obtain ⟨hok, hs, hpe, hh⟩ := hwf
  have hcnt := progBytes_length_ge recs
  unfold storeLine
  have hbl := bodyLenLoop_spec body hnl st.mem st.txtpos 256 0 (by omega)
    (by simpa using hb) (by omega)
  simp only [Nat.cast_zero, zero_add] at hbl
  rw [hbl]
  dsimp only
  rw [if_neg (by omega), toSChar_add]
  generalize hL : toSChar ((body.length : Int) + 1 + 3) = linelen
  -- the header
  have hrec := header_holds st.mem st.txtpos st.linenum (byteOf linelen) body (by omega) hb
  have hfr5 := fun a => header_frame st.mem st.txtpos st.linenum (byteOf linelen) a (by omega)
  generalize hm5 : wr (encode_linenum st.mem (st.txtpos - 3) st.linenum) (st.txtpos - 3 + 2)
    (byteOf linelen) = m5 at hrec hfr5
  have hh5 : Holds m5 pgm_start (progBytes recs) :=
    holds_congr _ _ _ _ (fun i _ hi => hfr5 i (by omega)) hh
  -- findline
  have hfind : findline { st with mem := m5, txtpos := st.txtpos - 3 } =
      some (pgm_start + (progBytes (recs.filter (fun r => r.1 < st.linenum))).length) := by
    unfold findline
    rw [← takeWhile_eq_filter_sorted recs _ hs]
    exact findlineLoop_spec recs m5 st.pgm_end st.linenum MEMSIZE pgm_start hok hh5 hpe
      (by unfold MEMSIZE at *; omega)
  rw [hfind]
  dsimp only
  have hsplit : recs = recs.filter (fun r => r.1 < st.linenum) ++
      recs.dropWhile (fun r => r.1 < st.linenum) := by
    rw [← takeWhile_eq_filter_sorted recs _ hs, List.takeWhile_append_dropWhile]
  generalize hpre : recs.filter (fun r => r.1 < st.linenum) = pre at hsplit
  generalize hpost : recs.filter (fun r => st.linenum < r.1) = post
  have hdel : delRec st.linenum recs = pre ++ post := by unfold delRec; rw [hpre, hpost]
  have hput : putRec st.linenum body recs = pre ++ (st.linenum, body) :: post := by
    unfold putRec; rw [hpre, hpost]
  -- removal
  have hrem : ∃ m6 pe6, removeLine { st with mem := m5, txtpos := st.txtpos - 3 }
        (pgm_start + (progBytes pre).length) =
        some { st with mem := m6, txtpos := st.txtpos - 3, pgm_end := pe6 } ∧
      pe6 = pgm_start + (progBytes (pre ++ post)).length ∧
      Holds m6 pgm_start (progBytes (pre ++ post)) ∧
      (∀ a, st.pgm_end ≤ a → m6 a = m5 a) ∧ pe6 ≤ st.pgm_end ∧
      (pe6 = st.pgm_end → ∀ r ∈ recs, r.1 ≠ st.linenum) := by
    rcases dropWhile_sorted recs st.linenum hs with ⟨h1, h2⟩ | ⟨b0, h1⟩
    · rw [h1, hpost] at hsplit
      refine ⟨m5, st.pgm_end, ?_, by rw [hpe, hsplit], by rw [← hsplit]; exact hh5,
        fun _ _ => rfl, le_refl _, fun _ => h2⟩
      have := removeLine_miss { st with mem := m5, txtpos := st.txtpos - 3 } pre post
        (fun r hr => hok r (by rw [hsplit]; simp [hr])) (by rw [← hsplit]; exact hh5)
        (by rw [← hsplit]; exact hpe)
        (fun r hr => h2 r (by
          rw [hsplit]
          exact List.mem_append_right _ (List.mem_of_mem_head? hr)))
      rw [this]
    · rw [h1, hpost] at hsplit
      have hr0 : RecOK (st.linenum, b0) := hok _ (by rw [hsplit]; simp)
      obtain ⟨m6, e, h6, fr6⟩ := removeLine_hit { st with mem := m5, txtpos := st.txtpos - 3 }
        pre post (st.linenum, b0) hr0 (by rw [← hsplit]; exact hh5) (by rw [← hsplit]; exact hpe)
        rfl
      refine ⟨m6, pgm_start + (progBytes (pre ++ post)).length, e, rfl, h6, fr6, ?_, ?_⟩
      · rw [hpe]
        conv_rhs => rw [hsplit]
        simp only [progBytes_append, progBytes, List.length_append]; omega
      · intro habs
        exfalso
        rw [hpe] at habs
        conv_rhs at habs => rw [hsplit]
        simp only [progBytes_append, progBytes, List.length_append, encodeRec_length] at habs
        omega
  obtain ⟨m6, pe6, e6, hpe6, hh6, hfr6, hle6, hmiss⟩ := hrem
  rw [e6]
  dsimp only
  have hrec6 : Holds m6 (st.txtpos - 3) ([st.linenum / 256 % 256, st.linenum % 256,
      byteOf linelen] ++ body ++ [NL]) :=
    holds_congr _ _ _ _ (fun i hi _ => hfr6 i (by omega)) hrec
  have hb6 : Holds m6 (st.txtpos - 3 + 3) (body ++ [NL]) := by
    simp only [List.cons_append, List.nil_append, holds_cons, List.append_assoc] at hrec6
    exact hrec6.2.2.2
  cases body with
  | nil =>
    left
    rw [if_pos hb6.1]
    refine ⟨m6, pe6, st.txtpos - 3, by simp, ?_⟩
    simp only [true_or, if_true]
    rw [hdel]
    exact hdel ▸ wfm_delRec m6 pe6 st.linenum recs hok hs (by rw [hdel]; exact hpe6)
      (by rw [hdel]; exact hh6)
  | cons x xs =>
    have hx : x ≠ NL := fun h => hnl (by simp [h])
    rw [if_neg (by rw [hb6.1]; exact hx)]
    simp only [List.length_cons] at hlen hL
    by_cases hbig : 123 < xs.length + 1
    · -- the length byte is negative: nothing is inserted
      left
      have hneg : linelen.toNat = 0 := by
        rw [← hL]; unfold toSChar; omega
      rw [hneg]
      refine ⟨m6, pe6, st.txtpos - 3, by simp [insertLoop], ?_⟩
      simp only [List.length_cons, hbig, or_true, if_true]
      exact wfm_delRec m6 pe6 st.linenum recs hok hs (by rw [hdel]; exact hpe6)
        (by rw [hdel]; exact hh6)
    · have hLv : linelen = ((xs.length + 1 + 4 : Nat) : Int) := by
        rw [← hL]; unfold toSChar; push_cast; omega
      have hbyte : byteOf linelen = xs.length + 1 + 4 := by
        rw [hLv]; unfold byteOf; omega
      have htn : linelen.toNat = xs.length + 1 + 4 := by rw [hLv]; omega
      rw [hbyte] at hrec6
      have hrl : ([st.linenum / 256 % 256, st.linenum % 256, xs.length + 1 + 4] ++ (x :: xs)
          ++ [NL]) = encodeRec (st.linenum, x :: xs) := by
        simp [encodeRec]
      rw [hrl] at hrec6
      have hel := encodeRec_length (st.linenum, x :: xs)
      simp only [List.length_cons] at hel
      rw [htn, ← hel]
      rw [progBytes_append, holds_append] at hh6
      by_cases hgap : pe6 < st.txtpos - 3
      · left
        obtain ⟨m7, e7, h7, fr7⟩ := insertLoop_spec (encodeRec (st.linenum, x :: xs)).length
          (encodeRec (st.linenum, x :: xs)) (progBytes post) m6
          (pgm_start + (progBytes pre).length) (st.txtpos - 3) pe6 (le_refl _) hh6.2
          (by rw [hpe6, progBytes_append, List.length_append]; omega) hrec6 hgap
        rw [e7]
        refine ⟨m7, pe6 + (encodeRec (st.linenum, x :: xs)).length,
          st.txtpos - 3 + (encodeRec (st.linenum, x :: xs)).length, by simp, ?_⟩
        have hnb : ¬ (x :: xs = [] ∨ 123 < (x :: xs).length) := by
          simp only [List.length_cons]; simp; omega
        rw [if_neg hnb]
        refine wfm_putRec m7 _ st.linenum (x :: xs) recs hok hs hn
          (by simp only [List.length_cons]; omega) ?_ ?_
        · rw [hput, hpe6]
          simp only [progBytes_append, progBytes, List.length_append]; omega
        · rw [hput, progBytes_append, holds_append, progBytes]
          exact ⟨holds_congr _ _ _ _ (fun i _ hi => fr7 i (by omega)) hh6.1, h7⟩
      · right
        have hpeq : pe6 = st.pgm_end := by omega
        refine ⟨?_, by omega, by simp, by simp only [List.length_cons]; omega, hmiss hpeq⟩
        rw [hel]
        rw [insertLoop, if_neg (by omega), if_pos (Or.inl (by omega))]

theorem skipBlanks_suffix (xs : List Nat) : skipBlanks xs <:+ xs := by
  induction xs with
  | nil => simp [skipBlanks]
  | cons x xs ih =>
    unfold skipBlanks
    split_ifs
    · exact ih.trans (List.suffix_cons x xs)
    · exact List.suffix_refl _

theorem numL_suffix (xs : List Nat) (num : Nat) : (numL num xs).2 <:+ xs := by
  induction xs generalizing num with
  | nil => simp [numL]
  | cons x xs ih =>
    unfold numL
    split_ifs
    · exact List.suffix_refl _
    · exact (ih _).trans (List.suffix_cons x xs)
    · exact List.suffix_refl _

theorem numL_consumes (xs : List Nat) (h : (numL 0 xs).1 ≠ 0) :
    (numL 0 xs).2.length < xs.length := by
  cases xs with
  | nil => simp [numL] at h
  | cons x xs =>
    unfold numL at h ⊢
    by_cases hd : 48 ≤ x ∧ x ≤ 57
    · rw [if_pos hd, if_neg (by unfold MAXLINENUM; omega)]
      have := numL_length_le xs ((0 * 10 + x - 48) % 65536)
      simp only [List.length_cons]; omega
    · rw [if_neg hd] at h; simp at h

theorem numL_lt (xs : List Nat) (num : Nat) (h : num < 65536) : (numL num xs).1 < 65536 := by
  induction xs generalizing num with
  | nil => simpa [numL] using h
  | cons x xs ih =>
    unfold numL
    split_ifs
    · simp
    · exact ih _ (Nat.mod_lt _ (by omega))
    · exact h

theorem mem_upList (ln : List Nat) (q x : Nat) (h : x ∈ upList q ln) :
    x ∈ ln ∨ (65 ≤ x ∧ x ≤ 90) := by
  induction ln generalizing q with
  | nil => simp [upList] at h
  | cons c cs ih =>
    unfold upList at h
    split_ifs at h with h1 h2 h3 <;> rcases List.mem_cons.1 h with rfl | h
    · simp
    · rcases ih _ h with h | h <;> simp [h]
    · simp
    · rcases ih _ h with h | h <;> simp [h]
    · right; omega
    · rcases ih _ h with h | h <;> simp [h]
    · simp
    · rcases ih _ h with h | h <;> simp [h]

theorem lineParts_suffix (ln : List Nat) : (lineParts ln).2 <:+ upList 0 ln := by
  unfold lineParts
  exact (skipBlanks_suffix _).trans ((numL_suffix _ _).trans (skipBlanks_suffix _))

theorem lineParts_mem (ln : List Nat) (x : Nat) (h : x ∈ (lineParts ln).2) :
    x ∈ ln ∨ (65 ≤ x ∧ x ≤ 90) :=
  mem_upList ln 0 x ((lineParts_suffix ln).subset h)

/-- `testnum` and the `ignore_blanks` after it, on a staged line `u`. -/
theorem parse_spec (st : State) (u : List Nat) (hh : Holds st.mem st.txtpos (u ++ [NL]))
    (hm : st.txtpos + u.length < MEMSIZE) :
    ∃ t, ignore_blanks { (testnum st).2 with linenum := (testnum st).1 } =
        { st with txtpos := t, linenum := (numL 0 (skipBlanks u)).1 } ∧
      t + (skipBlanks (numL 0 (skipBlanks u)).2).length = st.txtpos + u.length ∧
      Holds st.mem t (skipBlanks (numL 0 (skipBlanks u)).2 ++ [NL]) := by
  obtain ⟨q1, e1, l1, h1⟩ := ignoreBlanksLoop_spec u (MEMSIZE - st.txtpos) st.mem st.txtpos hh
    (by omega)
  have := skipBlanks_length_le u
  obtain ⟨q2, e2, l2, h2⟩ := testnumLoop_spec (skipBlanks u) (MEMSIZE - q1) st.mem 0 q1 h1
    (by omega)
  have := numL_length_le (skipBlanks u) 0
  obtain ⟨q3, e3, l3, h3⟩ := ignoreBlanksLoop_spec (numL 0 (skipBlanks u)).2 (MEMSIZE - q2)
    st.mem q2 h2 (by omega)
  refine ⟨q3, ?_, by omega, h3⟩
  unfold testnum ignore_blanks
  dsimp only
  rw [e1, e2]
  dsimp only
  rw [e3]

/-- `procline` up to the dispatch on the line number, for a line `ln` that
`getln` has put into the line buffer: the line is folded, staged at
`stagedAt sp |ln|` and scanned; nothing below the line buffer changes. -/
theorem procline_core (st st1 : State) (ln : List Nat) (hnl : NL ∉ ln)
    (eg : getln 0 st = some (1, st1))
    (h1 : Holds st1.mem (st1.pgm_end + 2) (ln ++ [NL]))
    (hroom : st1.pgm_end + 2 + ln.length + 2 ≤ st1.sp) (hsp : st1.sp ≤ MEMSIZE) :
    ∃ m3 tp, procline st = proclineDispatch
        { st1 with mem := m3, txtpos := tp, linenum := (lineParts ln).1 } ∧
      tp + (lineParts ln).2.length = stagedAt st1.sp ln.length + ln.length ∧
      Holds m3 tp ((lineParts ln).2 ++ [NL]) ∧
      Holds m3 (stagedAt st1.sp ln.length) (upList 0 ln ++ [NL]) ∧
      (∀ a, a < st1.pgm_end + 2 → m3 a = st1.mem a) ∧
      (∀ a, st1.pgm_end + 2 + ln.length ≤ a → a < stagedAt st1.sp ln.length →
        m3 a = st1.mem a) ∧
      (∀ i, i < ln.length → st1.pgm_end + 2 + i < stagedAt st1.sp ln.length →
        m3 (st1.pgm_end + 2 + i) = (upList 0 ln).getD i 0) := by
  -- toUppercaseBuffer
  obtain ⟨m2, eu, h2, fr2⟩ := toUpperLoop_spec ln hnl (MEMSIZE - (st1.pgm_end + 2)) st1.mem
    (st1.pgm_end + 2) 0 h1 (by omega)
  have hunl := upList_no_nl ln 0 hnl
  have hul := upList_length ln 0
  -- staging
  obtain ⟨m3, es, h3, fr3⟩ := stageLine_spec (upList 0 ln) hunl
    { st1 with mem := m2 } h2 (by dsimp only; omega) hsp
  dsimp only at es h3 fr3
  rw [hul] at es h3 fr3
  have hS : st1.pgm_end + 2 ≤ stagedAt st1.sp ln.length ∧
      stagedAt st1.sp ln.length + ln.length < st1.sp := by
    unfold stagedAt; split_ifs <;> omega
  -- the number
  obtain ⟨tp, ep, lp, h4⟩ := parse_spec
    { st1 with mem := m3, txtpos := stagedAt st1.sp ln.length }
    (upList 0 ln) h3 (by dsimp only; omega)
  dsimp only at ep lp h4
  rw [hul] at lp
  refine ⟨m3, tp, ?_, lp, h4, h3, ?_, ?_, ?_⟩
  · unfold procline
    rw [eg]
    dsimp only
    unfold toUppercaseBuffer
    rw [eu]
    dsimp only [Option.map]
    rw [es]
    dsimp only
    rw [ep]
    rfl
  · intro a ha
    rw [fr3 a (by omega), fr2 a (by omega)]
  · intro a ha1 ha2
    rw [fr3 a ha2, fr2 a (by omega)]
  · intro i hi1 hi2
    rw [fr3 _ hi2]
    rw [holds_append, holds_iff_get] at h2
    exact h2.1 i (by omega)

/-- `procline` on a well-formed region, for a line `ln` that `getln` has put
into the line buffer. -/
theorem procline_store (st st1 : State) (recs : List (Nat × List Nat)) (ln : List Nat)
    (hwf : WF st recs) (hp : PlainLine ln)
    (eg : getln 0 st = some (1, st1)) (hpe1 : st1.pgm_end = st.pgm_end) (hsp1 : st1.sp = st.sp)
    (h1 : Holds st1.mem (st.pgm_end + 2) (ln ++ [NL]))
    (fr1 : ∀ a, a < st.pgm_end + 2 → st1.mem a = st.mem a)
    (hroom : st.pgm_end + 2 + ln.length + 2 ≤ st.sp) (hlen : (lineParts ln).2.length ≤ 127) :
    (∃ m2 tp2 pe2, procline st = some ((absProcline recs ln).1,
        { st1 with mem := m2, txtpos := tp2, pgm_end := pe2, linenum := (lineParts ln).1 }) ∧
      WFm m2 pe2 (absProcline recs ln).2) ∨
    (procline st = none ∧ (lineParts ln).2.length + 1 = ln.length ∧
      stagedAt st.sp ln.length = st.pgm_end + 2 ∧ (lineParts ln).2 ≠ [] ∧
      (lineParts ln).2.length ≤ 123 ∧ (lineParts ln).1 ≠ 0 ∧ (lineParts ln).1 ≠ 65535 ∧
      ∀ r ∈ recs, r.1 ≠ (lineParts ln).1) := by
  obtain ⟨⟨hok, hs, hpe, hh⟩, hsp⟩ := hwf
  have hnl := plain_no_nl ln hp
  have hunl := upList_no_nl ln 0 hnl
  have hul := upList_length ln 0
  obtain ⟨m3, tp, hstart, lp, h4, h3, fr3, -, -⟩ :=
    procline_core st st1 ln hnl eg (by rw [hpe1]; exact h1) (by rw [hpe1, hsp1]; exact hroom)
      (by rw [hsp1]; exact hsp)
  rw [hpe1] at fr3
  rw [hsp1] at lp h3
  have hS : st.pgm_end + 2 ≤ stagedAt st.sp ln.length ∧
      stagedAt st.sp ln.length + ln.length < st.sp := by
    unfold stagedAt; split_ifs <;> omega
  have hprog3 : Holds m3 pgm_start (progBytes recs) :=
    holds_congr _ _ _ _ (fun i _ hi => by rw [fr3 i (by omega), fr1 i (by omega)]) hh
  rw [hstart]
  unfold proclineDispatch
  dsimp only
  have hbody : (lineParts ln).2 = skipBlanks (numL 0 (skipBlanks (upList 0 ln))).2 := rfl
  have hnum : (lineParts ln).1 = (numL 0 (skipBlanks (upList 0 ln))).1 := rfl
  unfold absProcline
  dsimp only
  by_cases hz : (lineParts ln).1 = 0
  · left
    rw [if_pos hz, if_pos hz]
    refine ⟨m3, tp, st.pgm_end, ?_, hok, hs, hpe, hprog3⟩
    have hst : ({ st1 with mem := m3, txtpos := tp, linenum := (lineParts ln).1 } : State) =
        { st1 with mem := m3, txtpos := tp, pgm_end := st.pgm_end,
                   linenum := (lineParts ln).1 } := by rw [← hpe1]
    rw [← hst]
    cases hb : (lineParts ln).2 with
    | nil =>
      rw [hb] at h4
      rw [if_pos (Or.inl h4.1)]
      simp
    | cons x xs =>
      rw [hb] at h4
      have hx := lineParts_mem ln x (by rw [hb]; simp)
      have hx1 : x ≠ NL ∧ x ≠ CR := by
        rcases hx with hx | hx
        · exact ⟨(hp x hx).1, (hp x hx).2.1⟩
        · unfold NL CR; omega
      rw [if_neg (by rw [h4.1]; simp [hx1.1, hx1.2])]
      simp
  · rw [if_neg hz, if_neg hz]
    by_cases hbad : (lineParts ln).1 = 65535
    · left
      rw [if_pos hbad, if_pos hbad]
      refine ⟨m3, tp, st.pgm_end, ?_, hok, hs, hpe, hprog3⟩
      rw [← hpe1]
    · rw [if_neg hbad, if_neg hbad]
      have hcons := numL_consumes (skipBlanks (upList 0 ln)) (by rw [← hnum]; exact hz)
      have hsk1 := skipBlanks_length_le (upList 0 ln)
      have hsk2 := skipBlanks_length_le (numL 0 (skipBlanks (upList 0 ln))).2
      rw [hul] at hsk1
      rw [← hbody] at hsk2
      have hbnl : NL ∉ (lineParts ln).2 := fun h => hunl ((lineParts_suffix ln).subset h)
      have hnlt : (lineParts ln).1 < 65536 := numL_lt _ 0 (by omega)
      have hS1 := hS.1
      have hS2 := hS.2
      have htp1 : st.pgm_end + 3 ≤ tp := by omega
      have htp2 : tp ≤ MEMSIZE := by omega
      rcases storeLine_spec
        { st1 with mem := m3, txtpos := tp, linenum := (lineParts ln).1 }
        recs (lineParts ln).2 ⟨hok, hs, by dsimp only; rw [hpe1]; exact hpe, hprog3⟩ hnlt hbnl
        hlen h4 (by dsimp only; rw [hpe1]; exact htp1) htp2 with
        ⟨m7, pe7, tp7, e7, hw7⟩ | ⟨e7, h7⟩
      · left
        dsimp only at e7 hw7
        refine ⟨m7, tp7, pe7, ?_, ?_⟩
        · rw [e7]
          by_cases hb : (lineParts ln).2 = []
          · simp [hb]
          · simp only [hb, if_false]
            split_ifs <;> rfl
        · by_cases hb : (lineParts ln).2 = []
          · simpa [hb] using hw7
          · simp only [hb, false_or, if_false] at hw7 ⊢
            by_cases h123 : (lineParts ln).2.length ≤ 123
            · rw [if_pos h123]; rw [if_neg (by omega)] at hw7; exact hw7
            · rw [if_neg h123]; rw [if_pos (by omega)] at hw7; exact hw7
      · right
        dsimp only at e7 h7
        rw [hpe1] at h7
        exact ⟨e7, by omega, by omega, h7.2.1, h7.2.2.1, hz, hbad, h7.2.2.2⟩

theorem procline_spec (st : State) (recs : List (Nat × List Nat)) (ln rest : List Nat) (t : Nat)
    (ht : t = EOFC ∨ t = CR ∨ t = NL) (hwf : WF st recs) (hp : PlainLine ln)
    (hinp : st.inp = ln ++ t :: rest) (hf : st.r_file = true → st.feof = false)
    (hroom : st.pgm_end + 2 + ln.length + 2 ≤ st.sp) (hlen : (lineParts ln).2.length ≤ 127) :
    (∃ m2 tp2 pe2 o2, procline st = some ((absProcline recs ln).1,
        { st with mem := m2, txtpos := tp2, pgm_end := pe2, linenum := (lineParts ln).1,
                  inp := rest, out := o2 }) ∧
      WFm m2 pe2 (absProcline recs ln).2) ∨
    (procline st = none ∧ (lineParts ln).2.length + 1 = ln.length ∧
      stagedAt st.sp ln.length = st.pgm_end + 2 ∧ (lineParts ln).2 ≠ [] ∧
      (lineParts ln).2.length ≤ 123 ∧ (lineParts ln).1 ≠ 0 ∧ (lineParts ln).1 ≠ 65535 ∧
      ∀ r ∈ recs, r.1 ≠ (lineParts ln).1) := by
  obtain ⟨m1, o1, eg, h1, fr1⟩ := getln_plain t rest ln ht hp st hinp hf hroom
  rcases procline_store st _ recs ln hwf hp eg rfl rfl h1 (fun a ha => fr1 a (Or.inl ha))
    hroom hlen with ⟨m2, tp2, pe2, e, hw⟩ | h
  · exact Or.inl ⟨m2, tp2, pe2, o1, e, hw⟩
  · exact Or.inr h

/-! ## Lines of the form number, blanks, body -/

theorem numL_decimalF (f n : Nat) (rest : List Nat) (hf : n < f) (hn : n < 65536) :
    numL 0 (decimalF f n ++ rest) = numL n rest := by
  induction f generalizing n rest with
  | zero => omega
  | succ f ih =>
    unfold decimalF
    by_cases h : n < 10
    · rw [if_pos h]
      simp only [List.singleton_append]
      rw [numL, if_pos (by omega), if_neg (by unfold MAXLINENUM; omega)]
      congr 1; omega
    · rw [if_neg h, List.append_assoc, ih (n / 10) _ (by omega) (by omega)]
      simp only [List.singleton_append]
      rw [numL, if_pos (by omega), if_neg (by unfold MAXLINENUM; omega)]
      congr 1; omega

theorem decimalF_digits (f n : Nat) : ∀ d ∈ decimalF f n, 48 ≤ d ∧ d ≤ 57 := by
  induction f generalizing n with
  | zero => simp [decimalF]
  | succ f ih =>
    unfold decimalF
    intro d hd
    by_cases h : n < 10
    · rw [if_pos h] at hd; simp at hd; omega
    · rw [if_neg h] at hd
      rcases List.mem_append.1 hd with hd | hd
      · exact ih _ d hd
      · simp at hd; omega

theorem decimalF_ne_nil (f n : Nat) : decimalF (f + 1) n ≠ [] := by
  unfold decimalF; split_ifs <;> simp

theorem decimal_digits (n : Nat) : ∀ d ∈ decimal n, 48 ≤ d ∧ d ≤ 57 := decimalF_digits _ n

theorem decimal_ne_nil (n : Nat) : decimal n ≠ [] := decimalF_ne_nil _ n

theorem numL_decimal (n : Nat) (rest : List Nat) (hn : n < 65536) :
    numL 0 (decimal n ++ rest) = numL n rest := numL_decimalF _ n rest (by omega) hn

theorem upList_inert (ds xs : List Nat)
    (hd : ∀ d ∈ ds, d ≠ 0 ∧ d ≠ 34 ∧ d ≠ 39 ∧ ¬ (97 ≤ d ∧ d ≤ 122)) :
    upList 0 (ds ++ xs) = ds ++ upList 0 xs := by
  induction ds with
  | nil => rfl
  | cons d ds ih =>
    obtain ⟨h1, h2, h3, h4⟩ := hd d (by simp)
    rw [List.cons_append, upList, if_neg h1, if_neg (by simp [h2, h3]), if_neg (by tauto),
      ih (fun x hx => hd x (by simp [hx]))]
    rfl

theorem skipBlanks_blanks (bs xs : List Nat) (hb : ∀ c ∈ bs, c = SPACE ∨ c = TAB) :
    skipBlanks (bs ++ xs) = skipBlanks xs := by
  induction bs with
  | nil => rfl
  | cons c cs ih =>
    rw [List.cons_append, skipBlanks, if_pos (hb c (by simp)), ih (fun x hx => hb x (by simp [hx]))]

theorem skipBlanks_digit (d : Nat) (xs : List Nat) (hd : 48 ≤ d ∧ d ≤ 57) :
    skipBlanks (d :: xs) = d :: xs := by
  rw [skipBlanks, if_neg (by unfold SPACE TAB; omega)]

theorem numL_stop (n : Nat) (xs : List Nat) (h : ∀ c ∈ xs.head?, ¬ (48 ≤ c ∧ c ≤ 57)) :
    numL n xs = (n, xs) := by
  cases xs with
  | nil => rfl
  | cons c cs => rw [numL, if_neg (h c (by simp))]

/-- The line number and body that `procline` reads from the numeral of `n`,
blanks (at least one unless the body is empty or starts with no digit) and `b`. -/
theorem lineParts_numbered (n : Nat) (bs b : List Nat) (hn : n < 65536)
    (hbs : ∀ c ∈ bs, c = SPACE ∨ c = TAB) (hsep : bs = [] → ∀ c ∈ b.head?, ¬ (48 ≤ c ∧ c ≤ 57) ∧
      ¬ (97 ≤ c ∧ c ≤ 122)) :
    lineParts (decimal n ++ bs ++ b) = (n, skipBlanks (upList 0 b)) := by
  have hdig := decimal_digits n
  unfold lineParts
  dsimp only
  rw [List.append_assoc, upList_inert (decimal n) _ (fun d hd => by have := hdig d hd; omega)]
  have hbs2 : ∀ d ∈ bs, d ≠ 0 ∧ d ≠ 34 ∧ d ≠ 39 ∧ ¬ (97 ≤ d ∧ d ≤ 122) := by
    intro d hd; have := hbs d hd; unfold SPACE TAB at this; omega
  rw [upList_inert bs _ hbs2]
  obtain ⟨d, ds, hds⟩ : ∃ d ds, decimal n = d :: ds := by
    cases h : decimal n with
    | nil => exact absurd h (decimal_ne_nil n)
    | cons d ds => exact ⟨d, ds, rfl⟩
  have hsk : skipBlanks (decimal n ++ (bs ++ upList 0 b)) = decimal n ++ (bs ++ upList 0 b) := by
    rw [hds, List.cons_append, skipBlanks_digit d _ (hdig d (by rw [hds]; simp))]
  rw [hsk, numL_decimal n _ hn]
  have hstop : numL n (bs ++ upList 0 b) = (n, bs ++ upList 0 b) := by
    apply numL_stop
    cases bs with
    | nil =>
      cases b with
      | nil => simp [upList]
      | cons c cs =>
        have := (hsep rfl c (by simp))
        intro x hx
        simp only [List.nil_append] at hx
        unfold upList at hx
        split_ifs at hx <;> simp at hx <;> omega
    | cons c cs =>
      intro x hx
      simp at hx
      have := hbs c (by simp)
      unfold SPACE TAB at this; omega
  rw [hstop]
  dsimp only
  rw [skipBlanks_blanks bs _ hbs]

/-! ## Claims about the program store -/

theorem lineParts_body_le (ln : List Nat) : (lineParts ln).2.length ≤ ln.length := by
  have := (lineParts_suffix ln).length_le
  rwa [upList_length] at this

theorem skipBlanks_upList_le (b : List Nat) : (skipBlanks (upList 0 b)).length ≤ b.length := by
  have := skipBlanks_length_le (upList 0 b)
  rwa [upList_length] at this

theorem plain_append (xs ys : List Nat) (hx : PlainLine xs) (hy : PlainLine ys) :
    PlainLine (xs ++ ys) := by
  intro c hc
  rcases List.mem_append.1 hc with h | h
  · exact hx c h
  · exact hy c h

theorem plain_decimal (n : Nat) : PlainLine (decimal n) := by
  intro c hc
  have := decimal_digits n c hc
  unfold NL CR EOFC CTRLC CTRLH DEL
  omega

theorem plain_blanks (bs : List Nat) (hbs : ∀ c ∈ bs, c = SPACE ∨ c = TAB) : PlainLine bs := by
  intro c hc
  have := hbs c hc
  unfold SPACE TAB at this
  unfold NL CR EOFC CTRLC CTRLH DEL
  omega

/-- Program-store put for every line number that `testnum` lets through
(`1..65534`) and every separator of blanks. -/
theorem procline_put (st : State) (recs : List (Nat × List Nat)) (n : Nat) (b rest : List Nat)
    (hwf : WF st recs) (hn : 1 ≤ n ∧ n ≤ 65534) (hp : PlainLine b)
    (hb : skipBlanks (upList 0 b) ≠ []) (hlen : (skipBlanks (upList 0 b)).length + 4 ≤ 127)
    (hinp : st.inp = decimal n ++ [SPACE] ++ b ++ NL :: rest)
    (hf : st.r_file = true → st.feof = false)
    (hroom : st.pgm_end + 2 + (decimal n ++ [SPACE] ++ b).length + 2 ≤ st.sp) :
    ∃ st2, procline st = some (PROCLINE_OKAY, st2) ∧
      WF st2 (putRec n (skipBlanks (upList 0 b)) recs) ∧ st2.inp = rest ∧ st2.sp = st.sp := by
  have hparts := lineParts_numbered n [SPACE] b (by omega) (by simp) (by simp)
  have hdl : 1 ≤ (decimal n).length := by
    have := decimal_ne_nil n
    cases h : decimal n with
    | nil => exact absurd h this
    | cons _ _ => simp
  have hle := skipBlanks_upList_le b
  rcases procline_spec st recs (decimal n ++ [SPACE] ++ b) rest NL (Or.inr (Or.inr rfl)) hwf
    (plain_append _ _ (plain_append _ _ (plain_decimal n) (plain_blanks _ (by simp))) hp)
    hinp hf hroom (by rw [hparts]; dsimp only; omega) with ⟨m2, tp2, pe2, o2, e, hw⟩ | ⟨_, h1, _⟩
  · unfold absProcline at e hw
    rw [hparts] at e hw
    dsimp only at e hw
    rw [if_neg (by omega), if_neg (by omega), if_neg hb, if_pos (by omega)] at e hw
    exact ⟨_, e, ⟨hw, hwf.2⟩, rfl, rfl⟩
  · rw [hparts] at h1
    simp only [List.length_append, List.length_singleton] at h1
    omega

/-- C1 (amended): for every well-formed sorted program region, every line number
`n` in `1..65000` and every body `b` free of editing bytes, entering the line
`n b` (it must fit the line buffer, which leaves a gap of at least one byte in
front of the staged record) returns `PROCLINE_OKAY` and leaves exactly the
records with a number other than `n`, unchanged and in their order, and the
record `(n, length, b' newline)` at its sorted position, where the stored body
`b'` is `b` without its leading blanks and with the letters outside quotes in
upper case, provided `b'` is not empty and the record length `|b'| + 4` is at
most 127. -/
theorem C1_procline_put (st : State) (recs : List (Nat × List Nat)) (n : Nat) (b rest : List Nat)
    (hwf : WF st recs) (hn : 1 ≤ n ∧ n ≤ 65000) (hp : PlainLine b)
    (hb : skipBlanks (upList 0 b) ≠ []) (hlen : (skipBlanks (upList 0 b)).length + 4 ≤ 127)
    (hinp : st.inp = decimal n ++ [SPACE] ++ b ++ NL :: rest)
    (hf : st.r_file = true → st.feof = false)
    (hroom : st.pgm_end + 2 + (decimal n ++ [SPACE] ++ b).length + 2 ≤ st.sp) :
    ∃ st2, procline st = some (PROCLINE_OKAY, st2) ∧
      WF st2 (putRec n (skipBlanks (upList 0 b)) recs) ∧ st2.inp = rest ∧ st2.sp = st.sp :=
  procline_put st recs n b rest hwf ⟨hn.1, by omega⟩ hp hb hlen hinp hf hroom

set_option maxRecDepth 100000 in
/-- C1, witness: `20 goto 10` entered between the lines 10 and 30 with a gap of
two bytes in front of the staged record (the record has eleven). -/
theorem C1_procline_put_witness :
    ∃ st2, procline putExample = some (PROCLINE_OKAY, st2) ∧
      WF st2 (putRec 20 (skipBlanks (upList 0 (str "goto 10")))
        [(10, str "PRINT 1"), (30, str "END")]) ∧ st2.inp = [] ∧ st2.sp = putExample.sp :=
  C1_procline_put putExample [(10, str "PRINT 1"), (30, str "END")] 20 (str "goto 10") []
    (by decide!) (by decide) (by decide!) (by decide!) (by decide!) (by decide!) (by decide!)
    (by decide!)

set_option maxRecDepth 100000 in
/-- C1, counterexample: the body `print 1` is stored as `PRINT 1`, not as
entered; and the line `1 ` followed by 124 letters, whose record of 128 bytes
fits a byte, returns `PROCLINE_OKAY` and stores nothing. -/
theorem C1_counterexample :
    (view (procline { initState with inp := str "10 print 1\n" }) =
        some (PROCLINE_OKAY, pgm_start + 11, encodeRec (10, str "PRINT 1")) ∧
      encodeRec (10, str "PRINT 1") ≠ encodeRec (10, str "print 1")) ∧
    (view (procline { initState with inp := str "1 " ++ List.replicate 124 88 ++ [NL] }) =
        some (PROCLINE_OKAY, pgm_start, []) ∧
      (encodeRec (1, List.replicate 124 88)).length ≤ 255) := by
  decide!

theorem mem_sorted_unique (recs : List (Nat × List Nat)) (n : Nat) (b b0 : List Nat)
    (hs : (recs.map Prod.fst).Pairwise (· < ·)) (h1 : (n, b) ∈ recs) (h2 : (n, b0) ∈ recs) :
    b = b0 := by
  induction recs with
  | nil => simp at h1
  | cons r rs ih =>
    simp only [List.map_cons, List.pairwise_cons] at hs
    rcases List.mem_cons.1 h1 with e1 | m1 <;> rcases List.mem_cons.1 h2 with e2 | m2
    · rw [← e1] at e2; exact (Prod.mk.inj e2).2.symm ▸ rfl
    · have := hs.1 n (List.mem_map_of_mem Prod.fst m2); rw [← e1] at this; simp at this
    · have := hs.1 n (List.mem_map_of_mem Prod.fst m1); rw [← e2] at this; simp at this
    · exact ih hs.2 m1 m2

theorem progBytes_delRec_length (recs : List (Nat × List Nat)) (n : Nat) (b : List Nat)
    (hs : (recs.map Prod.fst).Pairwise (· < ·)) (h : (n, b) ∈ recs) :
    (progBytes (delRec n recs)).length + (b.length + 4) = (progBytes recs).length := by
  have hsplit : recs = recs.filter (fun r => r.1 < n) ++ recs.dropWhile (fun r => r.1 < n) := by
    rw [← takeWhile_eq_filter_sorted recs _ hs, List.takeWhile_append_dropWhile]
  rcases dropWhile_sorted recs n hs with ⟨_, h2⟩ | ⟨b0, h1⟩
  · exact absurd rfl (h2 _ h)
  · rw [h1] at hsplit
    have hb : b = b0 := mem_sorted_unique recs n b b0 hs h (by rw [hsplit]; simp)
    subst hb
    conv_rhs => rw [hsplit]
    unfold delRec
    simp only [progBytes_append, progBytes, List.length_append, encodeRec_length]
    omega

/-- C4 (amended): for every well-formed program and line number `n` in
`1..65000`, entering `n` followed only by blanks, when the line fits the line
buffer below the stack pointer (and a file that is read is not at its end),
returns `PROCLINE_DELETE` and leaves the program without the record numbered
`n`, the other records unchanged and in order, `pgm_end` lowered by that
record's length; when there is no record `n`, `pgm_end` and the bytes of the
program region are unchanged. -/
theorem C4_procline_delete (st : State) (recs : List (Nat × List Nat)) (n : Nat)
    (bs rest : List Nat) (hwf : WF st recs) (hn : 1 ≤ n ∧ n ≤ 65000)
    (hbs : ∀ c ∈ bs, c = SPACE ∨ c = TAB) (hinp : st.inp = decimal n ++ bs ++ NL :: rest)
    (hf : st.r_file = true → st.feof = false)
    (hroom : st.pgm_end + 2 + (decimal n ++ bs).length + 2 ≤ st.sp) :
    ∃ st2, procline st = some (PROCLINE_DELETE, st2) ∧ WF st2 (delRec n recs) ∧
      (∀ b, (n, b) ∈ recs → st2.pgm_end + (b.length + 4) = st.pgm_end) ∧
      ((∀ r ∈ recs, r.1 ≠ n) → st2.pgm_end = st.pgm_end ∧
        rd st2.mem pgm_start (st2.pgm_end - pgm_start) =
          rd st.mem pgm_start (st.pgm_end - pgm_start)) := by
  have hparts := lineParts_numbered n bs [] (by omega) hbs (by simp)
  have hnil : skipBlanks (upList 0 []) = [] := rfl
  rw [List.append_nil, hnil] at hparts
  rcases procline_spec st recs (decimal n ++ bs) rest NL (Or.inr (Or.inr rfl)) hwf
    (plain_append _ _ (plain_decimal n) (plain_blanks _ hbs))
    hinp hf hroom (by rw [hparts]; simp) with ⟨m2, tp2, pe2, o2, e, hw⟩ | ⟨_, _, _, h1, _⟩
  · unfold absProcline at e hw
    rw [hparts] at e hw
    dsimp only at e hw
    rw [if_neg (by omega), if_neg (by omega), if_pos rfl] at e hw
    dsimp only at hw
    refine ⟨_, e, ⟨hw, hwf.2⟩, ?_, ?_⟩
    · intro b hb
      have e1 := hw.2.2.1
      have e2 := hwf.1.2.2.1
      have := progBytes_delRec_length recs n b hwf.1.2.1 hb
      show pe2 + (b.length + 4) = st.pgm_end
      omega
    · intro hno
      have hd := delRec_of_not_mem recs n hwf.1.2.1 hno
      rw [hd] at hw
      dsimp only
      have e1 : pe2 = st.pgm_end := by rw [hw.2.2.1, hwf.1.2.2.1]
      refine ⟨e1, ?_⟩
      rw [e1, hwf.1.2.2.1, Nat.add_sub_cancel_left, (holds_rd _ _ _).1 hw.2.2.2,
        (holds_rd _ _ _).1 hwf.1.2.2.2]
  · rw [hparts] at h1
    exact absurd rfl h1

set_option maxRecDepth 100000 in
/-- C4, witness: `10` and two blanks entered into the program of lines 10 and 30. -/
theorem C4_procline_delete_witness :
    ∃ st2, procline delExample = some (PROCLINE_DELETE, st2) ∧
      WF st2 (delRec 10 [(10, str "PRINT 1"), (30, str "END")]) ∧
      (∀ b, (10, b) ∈ [(10, str "PRINT 1"), (30, str "END")] →
        st2.pgm_end + (b.length + 4) = delExample.pgm_end) ∧
      ((∀ r ∈ [(10, str "PRINT 1"), (30, str "END")], r.1 ≠ 10) →
        st2.pgm_end = delExample.pgm_end ∧
        rd st2.mem pgm_start (st2.pgm_end - pgm_start) =
          rd delExample.mem pgm_start (delExample.pgm_end - pgm_start)) :=
  C4_procline_delete delExample [(10, str "PRINT 1"), (30, str "END")] 10 [SPACE, SPACE] []
    (by decide!) (by decide) (by decide) (by decide!) (by decide!) (by decide!)

set_option maxRecDepth 100000 in
/-- C4, counterexample: after `DIM A(16294)`, `10 YY` and `1 X` the program is
well formed and the line buffer has room for one byte.  Of the typed line `10`
the `0` is answered with the bell and dropped (`getln` keeps two bytes below
the stack pointer free), so `procline` reads the line `1`: it returns
`PROCLINE_DELETE`, removes the record 1 and keeps the record 10. -/
theorem C4_counterexample :
    WF tightDelete [(1, str "X"), (10, str "YY")] ∧ tightDelete.inp = str "10\n" ∧
    tightDelete.sp = tightDelete.pgm_end + 5 ∧
    (procline tightDelete).map (fun r => (r.1, r.2.out, r.2.pgm_end,
        rd r.2.mem pgm_start (r.2.pgm_end - pgm_start))) =
      some (PROCLINE_DELETE, [BELL], pgm_start + 6, progBytes [(10, str "YY")]) ∧
    delRec 10 [(1, str "X"), (10, str "YY")] = [(1, str "X")] := by
  decide!

set_option maxRecDepth 100000 in
/-- C6 (the code at the failing input): the line `65001 X` entered after `NEW`
returns `PROCLINE_OKAY` and the program region holds the record numbered 65001. -/
theorem C6_line_65001_is_stored :
    view (procline { initState with inp := str "65001 X\n" }) =
      some (PROCLINE_OKAY, pgm_start + 5, encodeRec (65001, str "X")) := by
  decide!

/-! ## The walk and the order of the records -/

theorem walk_wf (recs : List (Nat × List Nat)) (m : Mem) (pe fuel line : Nat)
    (hok : ∀ r ∈ recs, RecOK r) (hh : Holds m line (progBytes recs))
    (hpe : pe = line + (progBytes recs).length) (hfuel : recs.length < fuel) :
    walk m pe fuel line = some (recs.map Prod.fst) := by
  induction recs generalizing fuel line with
  | nil =>
    obtain ⟨f, rfl⟩ : ∃ f, fuel = f + 1 := ⟨fuel - 1, by simp at hfuel; omega⟩
    rw [walk, if_pos (by simpa [progBytes] using hpe.symm)]
    rfl
  | cons r rs ih =>
    obtain ⟨f, rfl⟩ : ∃ f, fuel = f + 1 := ⟨fuel - 1, by simp at hfuel; omega⟩
    simp only [List.length_cons] at hfuel
    have hr : RecOK r := hok r (by simp)
    rw [progBytes, holds_append] at hh
    obtain ⟨hrec, hrest⟩ := hh
    have hlen := encodeRec_length r
    rw [progBytes, List.length_append, hlen] at hpe
    obtain ⟨_, _, h2, _⟩ := holds_encodeRec m line r hrec
    have hs : schar (m (line + 2)) = ((r.2.length + 4 : Nat) : Int) := by
      rw [h2]; unfold schar; rw [if_pos (by have := hr.2; omega)]
    rw [walk, if_neg (by omega), if_neg (by omega), hs, if_neg (by omega),
      decode_encodeRec m line r hrec hr.1]
    have : ((line : Int) + ((r.2.length + 4 : Nat) : Int)).toNat = line + (r.2.length + 4) := by
      omega
    rw [this, ih f (line + (r.2.length + 4)) (fun x hx => hok x (by simp [hx]))
      (by rw [← hlen]; exact hrest) (by omega) (by omega)]
    rfl

theorem reach_wf (st : State) (h : Reach st) : ∃ recs, WF st recs := by
  induction h with
  | new st hpe hsp => exact ⟨[], ⟨by simp, by simp, by simpa [progBytes] using hpe, trivial⟩, hsp⟩
  | line st st2 ln rest t code _ hp ht hinp hf hroom hlen hrun ih =>
    obtain ⟨recs, hwf⟩ := ih
    rcases procline_spec st recs ln rest t ht hwf hp hinp hf hroom hlen with
      ⟨m2, tp2, pe2, o2, e, hw⟩ | ⟨e, _⟩
    · rw [e] at hrun
      have := (Prod.mk.inj (Option.some.inj hrun)).2
      subst this
      exact ⟨_, hw, hwf.2⟩
    · rw [e] at hrun; cases hrun
  | host st i o rf fe _ ih =>
    obtain ⟨recs, hwf⟩ := ih
    exact ⟨recs, hwf⟩

theorem wf_walk (st : State) (recs : List (Nat × List Nat)) (hwf : WF st recs) :
    walk st.mem st.pgm_end (recs.length + 1) pgm_start = some (recs.map Prod.fst) :=
  walk_wf recs st.mem st.pgm_end _ pgm_start hwf.1.1 hwf.1.2.2.2 hwf.1.2.2.1 (by omega)

set_option maxRecDepth 100000 in
theorem reach_lineExample : Reach afterLineExample.2 := by
  have h : (procline lineExample).isSome = true := by decide!
  have e : procline lineExample = some (afterLineExample.1, afterLineExample.2) := by
    unfold afterLineExample
    cases hp : procline lineExample with
    | none => rw [hp] at h; cases h
    | some r => rfl
  exact Reach.line lineExample afterLineExample.2 (str "10 print \"hi\"") [] NL
    afterLineExample.1 (Reach.new lineExample rfl (by decide)) (by decide!)
    (Or.inr (Or.inr rfl)) (by decide!) (by decide) (by decide!) (by decide!) e

theorem reachRun_wf (st : State) (h : ReachRun st) : ∃ recs, WF st recs := by
  induction h with
  | new st hpe hsp => exact ⟨[], ⟨by simp, by simp, by simpa [progBytes] using hpe, trivial⟩, hsp⟩
  | line st st2 ln rest t code _ hp ht hinp hf hroom hlen hrun ih =>
    obtain ⟨recs, hwf⟩ := ih
    rcases procline_spec st recs ln rest t ht hwf hp hinp hf hroom hlen with
      ⟨m2, tp2, pe2, o2, e, hw⟩ | ⟨e, _⟩
    · rw [e] at hrun
      have := (Prod.mk.inj (Option.some.inj hrun)).2
      subst this
      exact ⟨_, hw, hwf.2⟩
    · rw [e] at hrun; cases hrun
  | run st st2 _ hpe hmem hsp ih =>
    obtain ⟨recs, ⟨hok, hs, hp, hh⟩, _⟩ := ih
    refine ⟨recs, ⟨hok, hs, by rw [hpe]; exact hp, ?_⟩, hsp⟩
    exact holds_congr _ _ _ _ (fun i _ hi => hmem i (by omega) (by omega)) hh

set_option maxRecDepth 100000 in
theorem reachRun_twoLines : ReachRun twoLines3 := by
  have h1 : (procline twoLines0).isSome = true := by decide!
  have e1 : procline twoLines0 = some (twoLines1.1, twoLines1.2) := by
    unfold twoLines1
    cases hp : procline twoLines0 with
    | none => rw [hp] at h1; cases h1
    | some r => rfl
  have h2 : (procline twoLines1.2).isSome = true := by decide!
  have e2 : procline twoLines1.2 = some (twoLines2.1, twoLines2.2) := by
    unfold twoLines2
    cases hp : procline twoLines1.2 with
    | none => rw [hp] at h2; cases h2
    | some r => rfl
  have r1 : ReachRun twoLines1.2 :=
    ReachRun.line twoLines0 twoLines1.2 (str "10 PRINT 1") (str "20 PRINT 2\nPRINT 3\n") NL
      twoLines1.1 (ReachRun.new twoLines0 rfl (by decide)) (by decide!)
      (Or.inr (Or.inr rfl)) (by decide!) (by decide) (by decide!) (by decide!) e1
  have r2 : ReachRun twoLines2.2 :=
    ReachRun.line twoLines1.2 twoLines2.2 (str "20 PRINT 2") (str "PRINT 3\n") NL
      twoLines2.1 r1 (by decide!) (Or.inr (Or.inr rfl)) (by decide!) (by decide!) (by decide!)
      (by decide!) e2
  exact ReachRun.run twoLines2.2 twoLines3 r2 (by decide!) (by decide!) (by decide!)

/-- C2 (amended): in every state reached from `NEW` by entered lines that are
free of editing bytes, fit the line buffer and have at most 127 bytes after
their line number, with anything executed in between that leaves `pgm_end` and
the bytes of the program region as they are, the walk from `pgm_start` by
length bytes lands exactly on `pgm_end` after finitely many steps, never past
it and never on a length that is zero or negative. -/
theorem C2_walk_reaches_pgm_end (st : State) (h : ReachRun st) :
    ∃ fuel ns, walk st.mem st.pgm_end fuel pgm_start = some ns := by
  obtain ⟨recs, hwf⟩ := reachRun_wf st h
  exact ⟨_, _, wf_walk st recs hwf⟩

/-- C3 (amended): in every such state the line numbers of the records met by
the walk are strictly increasing. -/
theorem C3_walk_sorted (st : State) (h : ReachRun st) :
    ∃ fuel ns, walk st.mem st.pgm_end fuel pgm_start = some ns ∧ ns.Pairwise (· < ·) := by
  obtain ⟨recs, hwf⟩ := reachRun_wf st h
  exact ⟨_, _, wf_walk st recs hwf, hwf.1.2.1⟩

set_option maxRecDepth 100000 in
/-- C2, witness: the lines `10 PRINT 1` and `20 PRINT 2` are entered and the
direct statement `PRINT 3` is executed; the walk takes two steps. -/
theorem C2_walk_reaches_pgm_end_witness :
    walk twoLines3.mem twoLines3.pgm_end 3 pgm_start = some [10, 20] ∧
    ∃ fuel ns, walk twoLines3.mem twoLines3.pgm_end fuel pgm_start = some ns :=
  ⟨by decide!, C2_walk_reaches_pgm_end twoLines3 reachRun_twoLines⟩

set_option maxRecDepth 100000 in
/-- C3, witness: in the same state the walk meets the numbers 10 and 20. -/
theorem C3_walk_sorted_witness :
    walk twoLines3.mem twoLines3.pgm_end 3 pgm_start = some [10, 20] ∧
    ∃ fuel ns, walk twoLines3.mem twoLines3.pgm_end fuel pgm_start = some ns ∧
      ns.Pairwise (· < ·) :=
  ⟨by decide!, C3_walk_sorted twoLines3 reachRun_twoLines⟩

set_option maxRecDepth 100000 in
/-- C2, counterexample: `10 PRINT 1` is entered and the direct statement
`POKE 164,0` is executed.  `POKE` writes any byte of the arena; the length byte
of the record is now zero and the walk stalls on it, whatever the number of
steps allowed. -/
theorem C2_counterexample :
    rd pokeStall.mem pgm_start 11 = [0, 10, 0] ++ str "PRINT 1\n" ∧
    pokeStall.pgm_end = pgm_start + 11 ∧
    ∀ fuel, walk pokeStall.mem pokeStall.pgm_end fuel pgm_start = none := by
  refine ⟨by decide!, by decide!, fun fuel => ?_⟩
  have h1 : pokeStall.pgm_end ≠ pgm_start := by decide!
  have h2 : ¬ pokeStall.pgm_end < pgm_start := by decide!
  have h3 : schar (pokeStall.mem (pgm_start + 2)) ≤ 0 := by decide!
  cases fuel with
  | zero => rfl
  | succ f => rw [walk, if_neg (fun h => h1 h.symm), if_neg h2, if_pos h3]

set_option maxRecDepth 100000 in
/-- C3, counterexample: `10 PRINT 1` and `20 PRINT 2` are entered and the
direct statement `POKE 163,30` is executed: the walk meets the numbers 30 and
20. -/
theorem C3_counterexample :
    walk pokeSwap.mem pokeSwap.pgm_end 3 pgm_start = some [30, 20] ∧
    ¬ [30, 20].Pairwise (· < ·) := by
  decide!
/-! ## A line that corrupts the program region -/

theorem bodyLenLoop_iter (m : Mem) (t : Nat) (k fuel : Nat) (l : Int) (hk : k < fuel)
    (hl : toSChar l = l)
    (hne : ∀ j : Nat, j < k → m ((t : Int) + toSChar (l + j)).toNat ≠ NL)
    (heq : m ((t : Int) + toSChar (l + k)).toNat = NL) :
    bodyLenLoop m t fuel l = some (toSChar (l + k)) := by
  induction k generalizing fuel l with
  | zero =>
    obtain ⟨f, rfl⟩ : ∃ f, fuel = f + 1 := ⟨fuel - 1, by omega⟩
    simp only [Nat.cast_zero, add_zero, hl] at heq ⊢
    rw [bodyLenLoop, if_pos heq]
  | succ k ih =>
    obtain ⟨f, rfl⟩ : ∃ f, fuel = f + 1 := ⟨fuel - 1, by omega⟩
    have h0 := hne 0 (by omega)
    simp only [Nat.cast_zero, add_zero, hl] at h0
    rw [bodyLenLoop, if_neg h0, ih f (toSChar (l + 1)) (by omega) (by unfold toSChar; omega)]
    · rw [toSChar_add]; congr 2; push_cast; ring
    · intro j hj
      have := hne (j + 1) (by omega)
      rw [toSChar_add]
      rwa [show l + ((j + 1 : Nat) : Int) = l + 1 + (j : Int) by push_cast; ring] at this
    · rw [toSChar_add]
      rwa [show l + ((k + 1 : Nat) : Int) = l + 1 + (k : Int) by push_cast; ring] at heq

/-- `storeLine` on an empty program when the length loop stops at `-2`: the
two bytes of the line number are inserted as a record. -/
theorem storeLine_wrap (st : State) (hpe : st.pgm_end = pgm_start) (htp : pgm_start + 5 ≤ st.txtpos)
    (hbl : bodyLenLoop st.mem st.txtpos 256 0 = some (-2)) (hb : st.mem st.txtpos ≠ NL) :
    ∃ m7, storeLine st = some (PROCLINE_OKAY,
        { st with mem := m7, pgm_end := pgm_start + 2, txtpos := st.txtpos - 3 + 2 }) ∧
      m7 pgm_start = st.linenum / 256 % 256 ∧ m7 (pgm_start + 1) = st.linenum % 256 ∧
      (∀ a, pgm_start + 2 ≤ a → a + 3 < st.txtpos ∨ st.txtpos ≤ a → m7 a = st.mem a) := by
  have hps : pgm_start = 162 := rfl
  unfold storeLine
  rw [hbl]
  dsimp only
  have e1 : toSChar (toSChar (-2 + 1) + 3) = 2 := by decide
  rw [e1, if_neg (by omega)]
  have hfind : findline { st with
      mem := wr (encode_linenum st.mem (st.txtpos - 3) st.linenum) (st.txtpos - 3 + 2) (byteOf 2),
      txtpos := st.txtpos - 3 } = some pgm_start := by
    unfold findline
    dsimp only
    rw [hpe]
    rfl
  rw [hfind]
  dsimp only
  have hrem : removeLine { st with
      mem := wr (encode_linenum st.mem (st.txtpos - 3) st.linenum) (st.txtpos - 3 + 2) (byteOf 2),
      txtpos := st.txtpos - 3 } pgm_start = some { st with
      mem := wr (encode_linenum st.mem (st.txtpos - 3) st.linenum) (st.txtpos - 3 + 2) (byteOf 2),
      txtpos := st.txtpos - 3 } := by
    unfold removeLine
    dsimp only
    rw [if_neg (by rw [hpe]; simp)]
  rw [hrem]
  dsimp only
  have hfr := fun a => header_frame st.mem st.txtpos st.linenum (byteOf 2) a (by omega)
  generalize hm5 : wr (encode_linenum st.mem (st.txtpos - 3) st.linenum) (st.txtpos - 3 + 2)
    (byteOf 2) = m5 at hfr
  have h50 : m5 (st.txtpos - 3) = st.linenum / 256 % 256 := by
    rw [← hm5]; unfold encode_linenum; simp [wr]
  have h51 : m5 (st.txtpos - 3 + 1) = st.linenum % 256 := by
    rw [← hm5]; unfold encode_linenum; simp [wr]
  rw [if_neg (by rw [show st.txtpos - 3 + 3 = st.txtpos by omega, hfr _ (Or.inr (le_refl _))]
                 exact hb)]
  have e2 : (2 : Int).toNat = 2 := rfl
  rw [e2, hpe]
  have hins : insertLoop 2 m5 pgm_start (st.txtpos - 3) pgm_start 2 =
      some (wr (wr m5 pgm_start (m5 (st.txtpos - 3))) (pgm_start + 1) (m5 (st.txtpos - 3 + 1)),
        pgm_start + 2, st.txtpos - 3 + 2) := by
    rw [insertLoop, if_neg (by omega), if_neg (by omega), if_neg (by omega)]
    dsimp only
    rw [show min (st.txtpos - 3 - pgm_start) 2 = 2 by omega]
    simp only [Nat.sub_self, copyDownward, copyUpward]
    rw [insertLoop, if_pos rfl]
    congr 3
    rw [wr_other _ _ _ _ (by omega)]
  rw [hins]
  refine ⟨wr (wr m5 pgm_start (m5 (st.txtpos - 3))) (pgm_start + 1) (m5 (st.txtpos - 3 + 1)),
    rfl, ?_, ?_, ?_⟩
  · rw [wr_other _ _ _ _ (by omega), wr_same, h50]
  · rw [wr_same, h51]
  · intro a ha1 ha2
    rw [wr_other _ _ _ _ (by omega), wr_other _ _ _ _ (by omega), hfr a ha2]

theorem longLine_length : longLine.length = 16301 := by
  simp only [longLine, List.length_cons, List.length_replicate]; rfl

theorem longLine_get (i : Nat) (h1 : 1 ≤ i) (h2 : i ≤ 16300) : longLine.getD i 0 = 88 := by
  have hN : longN = 16300 := rfl
  obtain ⟨j, rfl⟩ : ∃ j, i = j + 1 := ⟨i - 1, by omega⟩
  simp only [longLine, List.getD_cons_succ]
  rw [List.getD_eq_getElem _ _ (by simp only [List.length_replicate]; omega)]
  simp only [List.getElem_replicate]

theorem longLine_plain : PlainLine longLine := by
  intro c hc
  simp only [longLine, List.mem_cons, List.mem_replicate] at hc
  unfold NL CR EOFC CTRLC CTRLH DEL
  rcases hc with h | ⟨_, h⟩ <;> omega

theorem longLine_up : upList 0 longLine = longLine := by
  have := upList_inert longLine [] (fun d hd => by
    simp only [longLine, List.mem_cons, List.mem_replicate] at hd
    rcases hd with h | ⟨_, h⟩ <;> omega)
  rw [List.append_nil] at this
  rw [this]
  simp only [upList, List.append_nil]

theorem longLine_parts : lineParts longLine = (1, List.replicate longN 88) := by
  unfold lineParts
  rw [longLine_up]
  have e : List.replicate longN 88 = 88 :: List.replicate 16299 88 := by
    rw [show longN = 16299 + 1 from rfl, List.replicate_succ]
  have h1 : skipBlanks longLine = longLine := by
    unfold longLine; rw [skipBlanks, if_neg (by decide)]
  have h2 : numL 0 longLine = (1, List.replicate longN 88) := by
    unfold longLine
    rw [numL, if_pos (by decide), if_neg (by decide), e, numL, if_neg (by decide)]
  have h3 : skipBlanks (List.replicate longN 88) = List.replicate longN 88 := by
    conv_lhs => rw [e, skipBlanks, if_neg (by decide)]
    rw [e]
  dsimp only
  rw [h1, h2]
  dsimp only
  rw [h3]

/-- What `procline` leaves after `longLine`: a program region of two bytes,
followed by the bytes of the line buffer. -/
theorem longExample_result : ∃ st2, procline longExample = some (PROCLINE_OKAY, st2) ∧
    st2.pgm_end = 164 ∧ st2.mem 162 = 0 ∧ st2.mem 163 = 1 ∧ st2.mem 164 = 49 ∧
    (∀ i, 1 ≤ i → i ≤ 16000 → st2.mem (164 + i) = 88) := by
  have hps : pgm_start = 162 := rfl
  have hN : longN = 16300 := rfl
  have hL := longLine_length
  obtain ⟨m1, o1, eg, h1, fr1⟩ := getln_plain NL [] longLine (Or.inr (Or.inr rfl))
    longLine_plain longExample rfl (by intro h; cases h) (by rw [hL]; decide)
  have hS : stagedAt 32768 16301 = 16466 := by decide
  obtain ⟨m3, tp, hstart, lp, h4, h3, fr3a, fr3b, fr3c⟩ := procline_core longExample
    { longExample with mem := m1, txtpos := longExample.pgm_end + 2 + longLine.length,
                       inp := [], out := o1 } longLine
    (plain_no_nl _ longLine_plain) eg h1 (by dsimp only; rw [hL]; decide)
    (by dsimp only; decide)
  dsimp only at hstart lp h4 h3 fr3a fr3b fr3c
  have hpe : longExample.pgm_end = 162 := rfl
  have hsp : longExample.sp = 32768 := rfl
  rw [longLine_parts] at hstart lp h4
  rw [hL, hsp, hS] at lp h3 fr3b fr3c
  rw [hpe] at fr3a fr3b fr3c h1
  rw [longLine_up] at fr3c
  dsimp only at lp h4 hstart
  simp only [List.length_replicate] at lp
  have htp : tp = 16467 := by omega
  subst htp
  rw [holds_append, holds_iff_get] at h4
  simp only [List.length_replicate] at h4
  have h4a : ∀ i, i < 16300 → m3 (16467 + i) = 88 := by
    intro i hi
    rw [h4.1 i (by omega), List.getD_eq_getElem _ _ (by simp only [List.length_replicate]; omega)]
    simp only [List.getElem_replicate]
  have hnl1 : m1 (164 + 16301) = NL := by
    rw [holds_append, hL] at h1
    exact h1.2.1
  have h3c : ∀ i, 1 ≤ i → i ≤ 16300 → m3 (164 + i) = 88 := by
    intro i hi1 hi2
    rw [fr3c i (by omega) (by omega), longLine_get i hi1 hi2]
  have h3nl : m3 16465 = NL := by
    rw [fr3b 16465 (by omega) (by omega)]
    exact hnl1
  -- the length loop
  have hbl : bodyLenLoop m3 16467 256 0 = some (-2) := by
    have := bodyLenLoop_iter m3 16467 254 256 0 (by omega) (by decide) ?_ ?_
    · rw [this]; decide
    · intro j hj
      by_cases hj2 : j < 128
      · have e : toSChar (0 + (j : Int)) = j := by unfold toSChar; omega
        rw [e, show ((16467 : Nat) + (j : Int)).toNat = 16467 + j by omega, h4a j (by omega)]
        decide
      · have e : toSChar (0 + (j : Int)) = (j : Int) - 256 := by unfold toSChar; omega
        rw [e, show ((16467 : Nat) + ((j : Int) - 256)).toNat = 164 + (16047 + j) by omega,
          h3c _ (by omega) (by omega)]
        decide
    · have e : toSChar (0 + ((254 : Nat) : Int)) = -2 := by decide
      rw [e]
      exact h3nl
  obtain ⟨m7, e7, h70, h71, fr7⟩ := storeLine_wrap
    { longExample with mem := m3, txtpos := 16467, inp := [], out := o1, linenum := 1 }
    rfl (by dsimp only; decide) hbl (by dsimp only; rw [h4a 0 (by omega)]; decide)
  dsimp only at e7 h70 h71 fr7
  refine ⟨{ longExample with mem := m7, txtpos := 16467 - 3 + 2, inp := [], out := o1,
                             linenum := 1, pgm_end := pgm_start + 2 }, ?_, rfl, ?_, ?_, ?_, ?_⟩
  · rw [hstart]
    unfold proclineDispatch
    dsimp only
    rw [if_neg (by decide), if_neg (by decide)]
    exact e7
  · exact h70
  · exact h71
  · have e1 : m7 164 = m3 164 := fr7 164 (by omega) (by omega)
    have e2 : m3 164 = 49 := fr3c 0 (by omega) (by omega)
    show m7 164 = 49
    rw [e1, e2]
  · intro i hi1 hi2
    have e1 : m7 (164 + i) = m3 (164 + i) := fr7 _ (by omega) (by omega)
    show m7 (164 + i) = 88
    rw [e1, h3c i hi1 (by omega)]

/-- The over-long line and the walk: after the single line `longLine` entered
in a fresh process, `procline` has returned `PROCLINE_OKAY` and the walk from
`pgm_start` steps past `pgm_end` (whatever the number of steps allowed). -/
theorem longLine_walk_fails : ∃ st2, procline longExample = some (PROCLINE_OKAY, st2) ∧
    ∀ fuel, walk st2.mem st2.pgm_end fuel pgm_start = none := by
  obtain ⟨st2, e, hpe, _, _, h164, _⟩ := longExample_result
  refine ⟨st2, e, fun fuel => ?_⟩
  have hps : pgm_start = 162 := rfl
  have hs : schar (st2.mem (162 + 2)) = 49 := by rw [h164]; decide
  rw [hpe, hps]
  cases fuel with
  | zero => rfl
  | succ f =>
    rw [walk, if_neg (by omega), if_neg (by omega), hs, if_neg (by omega)]
    cases f with
    | zero => rfl
    | succ g =>
      rw [walk, if_neg (by omega), if_pos (by omega)]
      rfl

/-- The over-long line and the order: in that state the loop of `findline`
decodes the line numbers 1, 22616, 22616, which are not strictly increasing. -/
theorem longLine_order_fails : ∃ st2, procline longExample = some (PROCLINE_OKAY, st2) ∧
    visited st2.mem st2.pgm_end 3 pgm_start = [1, 22616, 22616] ∧
    ¬ (visited st2.mem st2.pgm_end 3 pgm_start).Pairwise (· < ·) := by
  obtain ⟨st2, e, hpe, h162, h163, h164, hx⟩ := longExample_result
  have hps : pgm_start = 162 := rfl
  have hv : visited st2.mem st2.pgm_end 3 pgm_start = [1, 22616, 22616] := by
    have h211 := hx 47 (by omega) (by omega)
    have h212 := hx 48 (by omega) (by omega)
    have h213 := hx 49 (by omega) (by omega)
    have h299 := hx 135 (by omega) (by omega)
    have h300 := hx 136 (by omega) (by omega)
    have h301 := hx 137 (by omega) (by omega)
    norm_num at h211 h212 h213 h299 h300 h301
    have s1 : schar (st2.mem (162 + 2)) = 49 := by rw [h164]; decide
    have s2 : schar (st2.mem (211 + 2)) = 88 := by rw [h213]; decide
    have s3 : schar (st2.mem (299 + 2)) = 88 := by rw [h301]; decide
    have d1 : decode_linenum st2.mem 162 = 1 := by
      unfold decode_linenum; rw [h162, h163]
    have d2 : decode_linenum st2.mem 211 = 22616 := by
      unfold decode_linenum; rw [h211, h212]
    have d3 : decode_linenum st2.mem 299 = 22616 := by
      unfold decode_linenum; rw [h299, h300]
    rw [hpe, hps, visited, if_neg (by omega), d1, s1]
    rw [show ((162 : Nat) + (49 : Int)).toNat = 211 by decide, visited, if_neg (by omega), d2, s2]
    rw [show ((211 : Nat) + (88 : Int)).toNat = 299 by decide, visited, if_neg (by omega), d3]
    rfl
  refine ⟨st2, e, hv, ?_⟩
  rw [hv]
  decide

/-! ## Printing the program -/

theorem decimalF_fuel (f g n : Nat) (hf : n < f) (hg : n < g) : decimalF f n = decimalF g n := by
  induction f generalizing g n with
  | zero => omega
  | succ f ih =>
    obtain ⟨g, rfl⟩ : ∃ k, g = k + 1 := ⟨g - 1, by omega⟩
    unfold decimalF
    by_cases h : n < 10
    · rw [if_pos h, if_pos h]
    · rw [if_neg h, if_neg h, ih g (n / 10) (by omega) (by omega)]

theorem decimal_small (n : Nat) (h : n < 10) : decimal n = [48 + n] := by
  unfold decimal; rw [decimalF, if_pos h]

theorem decimal_step (n : Nat) (h : ¬ n < 10) : decimal n = decimal (n / 10) ++ [48 + n % 10] := by
  unfold decimal
  rw [decimalF, if_neg h, decimalF_fuel n (n / 10 + 1) (n / 10) (by omega) (by omega)]

theorem decimal_length_le (n : Nat) (h : n < 100000) : (decimal n).length ≤ 5 := by
  by_cases h1 : n < 10
  · rw [decimal_small n h1]; simp
  rw [decimal_step n h1]
  by_cases h2 : n / 10 < 10
  · rw [decimal_small _ h2]; simp
  rw [decimal_step _ h2]
  by_cases h3 : n / 10 / 10 < 10
  · rw [decimal_small _ h3]; simp
  rw [decimal_step _ h3]
  by_cases h4 : n / 10 / 10 / 10 < 10
  · rw [decimal_small _ h4]; simp
  rw [decimal_step _ h4, decimal_small _ (by omega)]
  simp

theorem printnumPush_spec (fuel n digits : Nat) (st : State) (hf : n < fuel)
    (hsp : (decimal n).length ≤ st.sp) :
    ∃ m2, printnumPush fuel n digits st = (digits + (decimal n).length,
        { st with sp := st.sp - (decimal n).length, mem := m2 }) ∧
      Holds m2 (st.sp - (decimal n).length) (decimal n) ∧
      (∀ a, a < st.sp - (decimal n).length ∨ st.sp ≤ a → m2 a = st.mem a) := by
  induction fuel generalizing n digits st with
  | zero => omega
  | succ f ih =>
    rw [printnumPush]
    by_cases h : n < 10
    · rw [if_neg (by omega), decimal_small n h]
      rw [decimal_small n h] at hsp
      simp only [List.length_singleton] at hsp
      refine ⟨wr st.mem (st.sp - 1) (n % 10 + 48), ?_, ?_, ?_⟩
      · simp [pushb]
      · simp only [List.length_singleton]
        refine ⟨?_, trivial⟩
        rw [wr_same, Nat.mod_eq_of_lt h, Nat.add_comm]
      · intro a ha
        simp only [List.length_singleton] at ha
        rw [wr_other _ _ _ _ (by omega)]
    · rw [if_pos (by omega)]
      have hd := decimal_step n h
      rw [hd] at hsp ⊢
      simp only [List.length_append, List.length_singleton] at hsp ⊢
      obtain ⟨m2, e, hh, fr⟩ := ih (n / 10) (digits + 1) (pushb (n % 10 + 48) st) (by omega)
        (by simp only [pushb]; omega)
      simp only [pushb] at e hh fr
      refine ⟨m2, ?_, ?_, ?_⟩
      · simp only [pushb]
        rw [e]
        congr 1
        · omega
        · congr 1; omega
      · rw [holds_append]
        rw [show st.sp - ((decimal (n / 10)).length + 1) = st.sp - 1 - (decimal (n / 10)).length
          by omega]
        refine ⟨hh, ?_⟩
        rw [show st.sp - 1 - (decimal (n / 10)).length + (decimal (n / 10)).length = st.sp - 1
          by omega]
        refine ⟨?_, trivial⟩
        rw [fr _ (Or.inr (le_refl _)), wr_same, Nat.add_comm]
      · intro a ha
        rw [fr a (by omega), wr_other _ _ _ _ (by omega)]

theorem printnumPop_spec (xs : List Nat) (st : State) (hh : Holds st.mem st.sp xs) :
    printnumPop xs.length st = { st with sp := st.sp + xs.length, out := st.out ++ xs } := by
  induction xs generalizing st with
  | nil => simp [printnumPop]
  | cons x xs ih =>
    rw [List.length_cons, printnumPop]
    simp only [popb, putch]
    rw [ih _ hh.2]
    simp only [hh.1]
    congr 1
    · omega
    · simp

/-- `printnum` on a number that is not negative: the decimal numeral is
written, the stack pointer is back, only the bytes just below it are used. -/
theorem printnum_spec (n : Nat) (st : State) (hsp : (decimal n).length ≤ st.sp) :
    ∃ m2, printnum (n : Int) st = { st with mem := m2, out := st.out ++ decimal n } ∧
      (∀ a, a < st.sp - (decimal n).length ∨ st.sp ≤ a → m2 a = st.mem a) := by
  unfold printnum
  dsimp only
  rw [if_neg (by omega), if_neg (by omega)]
  simp only [Int.toNat_ofNat]
  obtain ⟨m2, e, hh, fr⟩ := printnumPush_spec (n + 1) n 0 { st with out := st.out } (by omega) hsp
  rw [e]
  dsimp only
  rw [zero_add, printnumPop_spec (decimal n) _ hh]
  refine ⟨m2, ?_, fr⟩
  dsimp only
  congr 1
  omega

theorem printBodyLoop_spec (b : List Nat) (hnl : NL ∉ b) (fuel p : Nat) (st : State)
    (hh : Holds st.mem p (b ++ [NL])) (hfuel : b.length < fuel) :
    printBodyLoop fuel p st = some (p + b.length, { st with out := st.out ++ b }) := by
  induction b generalizing fuel p st with
  | nil =>
    obtain ⟨f, rfl⟩ : ∃ f, fuel = f + 1 := ⟨fuel - 1, by simp at hfuel; omega⟩
    rw [printBodyLoop, if_pos hh.1]
    simp
  | cons x xs ih =>
    obtain ⟨f, rfl⟩ : ∃ f, fuel = f + 1 := ⟨fuel - 1, by simp at hfuel; omega⟩
    simp only [List.length_cons] at hfuel
    rw [List.cons_append, holds_cons] at hh
    have hxnl : x ≠ NL := fun h => hnl (by simp [h])
    have hnl2 : NL ∉ xs := fun h => hnl (by simp [h])
    rw [printBodyLoop, hh.1, if_neg hxnl, ih hnl2 f (p + 1) (putch x st) hh.2 (by omega)]
    simp only [putch, List.length_cons, List.append_assoc, List.singleton_append]
    congr 2
    omega

theorem put_nl_out (st : State) : put_nl st = { st with out := st.out ++ nlSeq st.linux } := rfl

theorem printline_spec (st : State) (r : Nat × List Nat) (hr : RecOK r) (hnl : NL ∉ r.2)
    (hh : Holds st.mem st.list_line (encodeRec r))
    (hroom : st.list_line + (encodeRec r).length + 5 ≤ st.sp) (hsp : st.sp ≤ MEMSIZE) :
    ∃ m2, printline st = some { st with mem := m2,
                                        list_line := st.list_line + (encodeRec r).length,
                                        out := st.out ++ lineText st.linux r } ∧
      (∀ a, a + 5 < st.sp ∨ st.sp ≤ a → m2 a = st.mem a) := by
  have hlen := encodeRec_length r
  have hdl := decimal_length_le r.1 (by have := hr.1; omega)
  obtain ⟨_, _, _, hb⟩ := holds_encodeRec _ _ r hh
  obtain ⟨m2, e, fr⟩ := printnum_spec r.1 { st with list_line := st.list_line + 3 }
    (by dsimp only; omega)
  dsimp only at e fr
  have hb2 : Holds m2 (st.list_line + 3) (r.2 ++ [NL]) :=
    holds_congr _ _ _ _ (fun i _ hi => fr i (Or.inl (by
      simp only [List.length_append, List.length_singleton] at hi; omega))) hb
  unfold printline
  dsimp only
  rw [decode_encodeRec _ _ r hh hr.1, e]
  simp only [putch]
  rw [printBodyLoop_spec r.2 hnl _ _ _ hb2 (by omega)]
  dsimp only
  refine ⟨m2, ?_, fun a ha => fr a (by omega)⟩
  rw [put_nl_out]
  dsimp only
  congr 2
  · omega
  · simp [lineText, SPACE]

theorem printpgmLoop_spec (recs : List (Nat × List Nat)) (st : State) (fuel : Nat)
    (hok : ∀ r ∈ recs, RecOK r) (hnl : ∀ r ∈ recs, NL ∉ r.2)
    (hh : Holds st.mem st.list_line (progBytes recs))
    (hpe : st.pgm_end = st.list_line + (progBytes recs).length)
    (hroom : st.pgm_end + 5 ≤ st.sp) (hsp : st.sp ≤ MEMSIZE) (hfuel : recs.length < fuel) :
    ∃ m2, printpgmLoop fuel st = some { st with mem := m2, list_line := st.pgm_end,
                                                out := st.out ++ listing st.linux recs } ∧
      (∀ a, a + 5 < st.sp ∨ st.sp ≤ a → m2 a = st.mem a) := by
  induction recs generalizing st fuel with
  | nil =>
    obtain ⟨f, rfl⟩ : ∃ f, fuel = f + 1 := ⟨fuel - 1, by simp at hfuel; omega⟩
    simp only [progBytes, List.length_nil, add_zero] at hpe
    refine ⟨st.mem, ?_, fun _ _ => rfl⟩
    rw [printpgmLoop, if_pos hpe.symm]
    congr 1
    apply State.ext <;> simp [listing, hpe]
  | cons r rs ih =>
    obtain ⟨f, rfl⟩ : ∃ f, fuel = f + 1 := ⟨fuel - 1, by simp at hfuel; omega⟩
    simp only [List.length_cons] at hfuel
    rw [progBytes, holds_append] at hh
    rw [progBytes, List.length_append] at hpe
    have hlen := encodeRec_length r
    obtain ⟨m2, e, fr⟩ := printline_spec st r (hok r (by simp)) (hnl r (by simp)) hh.1
      (by omega) hsp
    rw [printpgmLoop, if_neg (by omega), e]
    dsimp only
    obtain ⟨m3, e3, fr3⟩ := ih
      { st with mem := m2, list_line := st.list_line + (encodeRec r).length,
                out := st.out ++ lineText st.linux r } f
      (fun x hx => hok x (by simp [hx])) (fun x hx => hnl x (by simp [hx]))
      (holds_congr _ _ _ _ (fun i _ hi => fr i (Or.inl (by dsimp only at *; omega))) hh.2)
      (by dsimp only; omega) hroom hsp (by omega)
    dsimp only at e3 fr3
    refine ⟨m3, ?_, fun a ha => by rw [fr3 a ha, fr a ha]⟩
    rw [e3]
    simp [listing]

/-- `printpgm` with the global `linenum` at 0 (as after a direct command):
the whole program is listed and the program region is not touched. -/
theorem printpgm_spec (st : State) (recs : List (Nat × List Nat)) (x : Nat) (hwf : WF st recs)
    (hnl : ∀ r ∈ recs, NL ∉ r.2) (hln : st.linenum = 0) (hroom : st.pgm_end + 5 ≤ st.sp) :
    ∃ m2, printpgm x st = some { st with mem := m2, list_line := st.pgm_end,
                                         out := st.out ++ listing st.linux recs } ∧
      (∀ a, a + 5 < st.sp ∨ st.sp ≤ a → m2 a = st.mem a) := by
  obtain ⟨⟨hok, hs, hpe, hh⟩, hsp⟩ := hwf
  have hcnt := progBytes_length_ge recs
  have hfind : findline st = some pgm_start := by
    unfold findline
    have := findlineLoop_spec recs st.mem st.pgm_end st.linenum MEMSIZE pgm_start hok hh hpe
      (by unfold MEMSIZE at *; omega)
    rw [this, hln]
    simp [List.takeWhile_eq_nil_iff, progBytes]
    cases recs <;> simp [List.takeWhile, progBytes]
  unfold printpgm
  rw [hfind]
  dsimp only
  exact printpgmLoop_spec recs { st with list_line := pgm_start } MEMSIZE hok hnl hh hpe hroom hsp
    (by unfold MEMSIZE at *; omega)

/-! ## What `procline` stores -/

theorem upList_idem (xs : List Nat) (q : Nat) : upList q (upList q xs) = upList q xs := by
  induction xs generalizing q with
  | nil => rfl
  | cons c cs ih =>
    by_cases h1 : c = q
    · rw [upList, if_pos h1, upList, if_pos h1, ih]
    · by_cases h2 : c = 34 ∨ c = 39
      · rw [upList, if_neg h1, if_pos h2, upList, if_neg h1, if_pos h2, ih]
      · by_cases h3 : q = 0 ∧ 97 ≤ c ∧ c ≤ 122
        · rw [upList, if_neg h1, if_neg h2, if_pos h3, upList, if_neg (by omega),
            if_neg (by omega), if_neg (by omega), ih]
        · rw [upList, if_neg h1, if_neg h2, if_neg h3, upList, if_neg h1, if_neg h2, if_neg h3, ih]

theorem upList_fixed_tail (c : Nat) (xs : List Nat) (hc : c = SPACE ∨ c = TAB ∨ (48 ≤ c ∧ c ≤ 57))
    (h : upList 0 (c :: xs) = c :: xs) : upList 0 xs = xs := by
  unfold SPACE TAB at hc
  rw [upList, if_neg (by omega), if_neg (by omega), if_neg (by omega)] at h
  exact (List.cons.inj h).2

theorem upList_fixed_skipBlanks (xs : List Nat) (h : upList 0 xs = xs) :
    upList 0 (skipBlanks xs) = skipBlanks xs := by
  induction xs with
  | nil => exact h
  | cons c cs ih =>
    unfold skipBlanks
    by_cases hb : c = SPACE ∨ c = TAB
    · rw [if_pos hb]
      exact ih (upList_fixed_tail c cs (by tauto) h)
    · rw [if_neg hb]; exact h

theorem upList_fixed_numL (xs : List Nat) (n : Nat) (h : upList 0 xs = xs) :
    upList 0 (numL n xs).2 = (numL n xs).2 := by
  induction xs generalizing n with
  | nil => exact h
  | cons c cs ih =>
    unfold numL
    by_cases hd : 48 ≤ c ∧ c ≤ 57
    · rw [if_pos hd]
      split_ifs
      · exact h
      · exact ih _ (upList_fixed_tail c cs (by tauto) h)
    · rw [if_neg hd]; exact h

theorem skipBlanks_idem (xs : List Nat) : skipBlanks (skipBlanks xs) = skipBlanks xs := by
  induction xs with
  | nil => rfl
  | cons c cs ih =>
    by_cases hb : c = SPACE ∨ c = TAB
    · rw [skipBlanks, if_pos hb, ih]
    · rw [skipBlanks, if_neg hb, skipBlanks, if_neg hb]

/-- The body that `procline` takes from a line is in stored form. -/
theorem lineParts_stored (ln : List Nat) (hp : PlainLine ln) :
    PlainLine (lineParts ln).2 ∧ skipBlanks (upList 0 (lineParts ln).2) = (lineParts ln).2 := by
  constructor
  · intro c hc
    rcases lineParts_mem ln c hc with h | h
    · exact hp c h
    · unfold NL CR EOFC CTRLC CTRLH DEL; omega
  · have h1 : upList 0 (lineParts ln).2 = (lineParts ln).2 := by
      unfold lineParts
      dsimp only
      exact upList_fixed_skipBlanks _ (upList_fixed_numL _ _
        (upList_fixed_skipBlanks _ (upList_idem ln 0)))
    rw [h1]
    unfold lineParts
    dsimp only
    exact skipBlanks_idem _

theorem mem_delRec (n : Nat) (recs : List (Nat × List Nat)) (r : Nat × List Nat)
    (h : r ∈ delRec n recs) : r ∈ recs := by
  unfold delRec at h
  rcases List.mem_append.1 h with h | h <;> exact (List.mem_filter.1 h).1

theorem mem_putRec (n : Nat) (b : List Nat) (recs : List (Nat × List Nat)) (r : Nat × List Nat)
    (h : r ∈ putRec n b recs) : r ∈ recs ∨ r = (n, b) := by
  unfold putRec at h
  rcases List.mem_append.1 h with h | h
  · exact Or.inl (List.mem_filter.1 h).1
  · rcases List.mem_cons.1 h with h | h
    · exact Or.inr h
    · exact Or.inl (List.mem_filter.1 h).1

theorem absProcline_stored (recs : List (Nat × List Nat)) (ln : List Nat) (hp : PlainLine ln)
    (hs : ∀ r ∈ recs, StoredForm r) : ∀ r ∈ (absProcline recs ln).2, StoredForm r := by
  intro r hr
  unfold absProcline at hr
  dsimp only at hr
  have hlt : (lineParts ln).1 < 65536 := numL_lt _ 0 (by omega)
  by_cases h1 : (lineParts ln).1 = 0
  · rw [if_pos h1] at hr; exact hs r hr
  rw [if_neg h1] at hr
  by_cases h2 : (lineParts ln).1 = 65535
  · rw [if_pos h2] at hr; exact hs r hr
  rw [if_neg h2] at hr
  by_cases h3 : (lineParts ln).2 = []
  · rw [if_pos h3] at hr; exact hs r (mem_delRec _ _ _ hr)
  rw [if_neg h3] at hr
  by_cases h4 : (lineParts ln).2.length ≤ 123
  · rw [if_pos h4] at hr
    rcases mem_putRec _ _ _ _ hr with h | h
    · exact hs r h
    · subst h
      exact ⟨by dsimp only; omega, by dsimp only; omega, (lineParts_stored ln hp).1, h3,
        (lineParts_stored ln hp).2⟩
  · rw [if_neg h4] at hr; exact hs r (mem_delRec _ _ _ hr)

theorem reach_stored (st : State) (h : Reach st) :
    ∃ recs, WF st recs ∧ ∀ r ∈ recs, StoredForm r := by
  induction h with
  | new st hpe hsp =>
    exact ⟨[], ⟨⟨by simp, by simp, by simpa [progBytes] using hpe, trivial⟩, hsp⟩, by simp⟩
  | line st st2 ln rest t code _ hp ht hinp hf hroom hlen hrun ih =>
    obtain ⟨recs, hwf, hst⟩ := ih
    rcases procline_spec st recs ln rest t ht hwf hp hinp hf hroom hlen with
      ⟨m2, tp2, pe2, o2, e, hw⟩ | ⟨e, _⟩
    · rw [e] at hrun
      have := (Prod.mk.inj (Option.some.inj hrun)).2
      subst this
      exact ⟨_, ⟨hw, hwf.2⟩, absProcline_stored recs ln hp hst⟩
    · rw [e] at hrun; cases hrun
  | host st i o rf fe _ ih =>
    obtain ⟨recs, hwf, hst⟩ := ih
    exact ⟨recs, hwf, hst⟩

/-! ## Loading a listed program -/

theorem getln_eof (st : State) (hinp : st.inp = []) (hrf : st.r_file = true)
    (hfe : st.feof = false) (hle : st.lecho = 0) (hroom : st.pgm_end + 2 + 2 ≠ st.sp) :
    getln 0 st = some (1, { st with
      mem := wr (wr st.mem (st.pgm_end + 2) 255) (st.pgm_end + 2 + 1) NL,
      txtpos := st.pgm_end + 2 + 1, feof := true }) := by
  unfold getln
  rw [if_neg (by simp), hinp]
  simp only [List.length_nil, zero_add]
  rw [getlnLoop]
  have g1 : getch { st with txtpos := st.pgm_end + 2 } =
      (255, { st with txtpos := st.pgm_end + 2, feof := true }) := by
    unfold getch; simp [hrf, hfe, hinp]
  rw [g1]
  dsimp only
  rw [getlnChar_plain 255 _ (by decide) (by dsimp only; exact hroom)]
  dsimp only
  rw [getlnLoop]
  have g2 : getch { st with txtpos := st.pgm_end + 2 + 1, feof := true,
                            mem := wr st.mem (st.pgm_end + 2) 255,
                            out := if st.lecho ≠ 0 then st.out ++ [255] else st.out } =
      (EOFC, { st with txtpos := st.pgm_end + 2 + 1, feof := true,
                       mem := wr st.mem (st.pgm_end + 2) 255,
                       out := if st.lecho ≠ 0 then st.out ++ [255] else st.out }) := by
    unfold getch; simp [hrf]
  rw [g2]
  dsimp only
  rw [getlnChar_term EOFC _ (Or.inl rfl)]
  dsimp only
  congr 2
  apply State.ext <;> simp [hle, hinp]

theorem putRec_append (n : Nat) (b : List Nat) (done : List (Nat × List Nat))
    (h : ∀ x ∈ done, x.1 < n) : putRec n b done = done ++ [(n, b)] := by
  unfold putRec
  have h1 : done.filter (fun r => r.1 < n) = done := by
    rw [List.filter_eq_self]; intro x hx; simpa using h x hx
  have h2 : done.filter (fun r => n < r.1) = [] := by
    rw [List.filter_eq_nil_iff]; intro x hx; have := h x hx; simp; omega
  rw [h1, h2]

theorem listing_cons (linux : Bool) (r : Nat × List Nat) (rs : List (Nat × List Nat)) :
    listing linux (r :: rs) = decimal r.1 ++ [SPACE] ++ r.2 ++ nlSeq linux ++ listing linux rs := by
  simp [listing, lineText]

theorem loadpgmLoop_spec (linux : Bool) (todo done : List (Nat × List Nat)) (s : State)
    (fuel : Nat) (hsorted : ((done ++ todo).map Prod.fst).Pairwise (· < ·))
    (hst : ∀ r ∈ todo, StoredForm r ∧ RecOK r) (hwf : WF s done)
    (hinp : s.inp = listing linux todo) (hrf : s.r_file = true) (hfe : s.feof = false)
    (hle : s.lecho = 0)
    (hroom : pgm_start + (progBytes (done ++ todo)).length + 6 ≤ s.sp)
    (hfuel : 2 * todo.length + 1 ≤ fuel) :
    ∃ s2, loadpgmLoop fuel s = some s2 ∧ WF s2 (done ++ todo) := by
  induction todo generalizing done s fuel with
  | nil =>
    obtain ⟨f, rfl⟩ : ∃ f, fuel = f + 1 := ⟨fuel - 1, by omega⟩
    rw [List.append_nil] at hroom ⊢
    have hpe := hwf.1.2.2.1
    have eg := getln_eof s hinp hrf hfe hle (by omega)
    have hparts : lineParts [255] = (0, [255]) := by decide
    rcases procline_store s _ done [255] hwf (by decide) eg rfl rfl
      (by dsimp only; exact ⟨by rw [wr_other _ _ _ _ (by omega), wr_same],
        by rw [wr_same], trivial⟩)
      (fun a ha => by dsimp only; rw [wr_other _ _ _ _ (by omega), wr_other _ _ _ _ (by omega)])
      (by simp only [List.length_singleton]; omega) (by rw [hparts]; simp) with
      ⟨m2, tp2, pe2, e, hw⟩ | ⟨_, _, _, _, _, h0, _⟩
    · unfold absProcline at e hw
      rw [hparts] at e hw
      dsimp only at e hw
      rw [if_pos rfl, if_neg (by simp)] at e
      rw [if_pos rfl] at hw
      rw [loadpgmLoop, e]
      dsimp only
      rw [if_pos (by decide)]
      exact ⟨_, rfl, hw, hwf.2⟩
    · rw [hparts] at h0; exact absurd rfl h0
  | cons r rest ih =>
    obtain ⟨n, b⟩ := r
    obtain ⟨⟨hn1, hn2, hbp, hbne, hbs⟩, hbok⟩ := hst (n, b) (by simp)
    dsimp only at hn1 hn2 hbp hbne hbs
    have hpe := hwf.1.2.2.1
    have hlt : ∀ x ∈ done, x.1 < n := by
      intro x hx
      rw [List.map_append, List.map_cons, List.pairwise_append] at hsorted
      exact hsorted.2.2 x.1 (List.mem_map_of_mem _ hx) n (by simp)
    have hparts := lineParts_numbered n [SPACE] b (by omega) (by simp) (by simp)
    rw [hbs] at hparts
    have hdl := decimal_length_le n (by omega)
    have hdl1 : 1 ≤ (decimal n).length := by
      have := decimal_ne_nil n
      cases h : decimal n with
      | nil => exact absurd h this
      | cons _ _ => simp
    have hbl : b.length + 4 ≤ 127 := hbok.2
    have hpb : (progBytes (done ++ (n, b) :: rest)).length =
        (progBytes done).length + (b.length + 4) + (progBytes rest).length := by
      simp only [progBytes_append, progBytes, List.length_append, encodeRec_length]; omega
    have hplain : PlainLine (decimal n ++ [SPACE] ++ b) :=
      plain_append _ _ (plain_append _ _ (plain_decimal n) (plain_blanks _ (by simp))) hbp
    have habs : absProcline done (decimal n ++ [SPACE] ++ b) = (PROCLINE_OKAY, done ++ [(n, b)]) := by
      unfold absProcline
      rw [hparts]
      dsimp only
      rw [if_neg (by omega), if_neg (by omega), if_neg hbne, if_pos (by omega),
        putRec_append n b done hlt]
    have hlen' : (decimal n ++ [SPACE] ++ b).length = (decimal n).length + 1 + b.length := by
      simp; omega
    have hstep : ∀ (t : Nat) (rest2 : List Nat), (t = EOFC ∨ t = CR ∨ t = NL) →
        s.inp = decimal n ++ [SPACE] ++ b ++ t :: rest2 →
        ∃ m2 tp2 pe2 o2, procline s = some (PROCLINE_OKAY,
          { s with mem := m2, txtpos := tp2, pgm_end := pe2, linenum := n,
                   inp := rest2, out := o2 }) ∧ WFm m2 pe2 (done ++ [(n, b)]) := by
      intro t rest2 ht hi
      rcases procline_spec s done (decimal n ++ [SPACE] ++ b) rest2 t ht hwf hplain hi
        (fun _ => hfe) (by rw [hlen']; omega) (by rw [hparts]; dsimp only; omega) with
        ⟨m2, tp2, pe2, o2, e, hw⟩ | ⟨_, h1, _⟩
      · rw [habs, hparts] at e
        rw [habs] at hw
        exact ⟨m2, tp2, pe2, o2, e, hw⟩
      · rw [hparts, hlen'] at h1
        dsimp only at h1
        omega
    rw [listing_cons] at hinp
    dsimp only at hinp
    have hassoc : done ++ (n, b) :: rest = (done ++ [(n, b)]) ++ rest := by simp
    cases linux with
    | true =>
      obtain ⟨f, rfl⟩ : ∃ f, fuel = f + 1 := ⟨fuel - 1, by omega⟩
      obtain ⟨m2, tp2, pe2, o2, e, hw⟩ := hstep NL (listing true rest) (Or.inr (Or.inr rfl))
        (by rw [hinp]; simp [nlSeq])
      rw [loadpgmLoop, e]
      dsimp only
      rw [if_neg (by decide)]
      rw [hassoc] at hsorted hroom ⊢
      exact ih (done ++ [(n, b)]) _ f hsorted (fun x hx => hst x (by simp [hx])) ⟨hw, hwf.2⟩
        rfl hrf hfe hle hroom (by simp only [List.length_cons] at hfuel; omega)
    | false =>
      obtain ⟨f, rfl⟩ : ∃ f, fuel = f + 1 + 1 := ⟨fuel - 2, by
        simp only [List.length_cons] at hfuel; omega⟩
      obtain ⟨m2, tp2, pe2, o2, e, hw⟩ := hstep CR (NL :: listing false rest) (Or.inr (Or.inl rfl))
        (by rw [hinp]; simp [nlSeq])
      rw [loadpgmLoop, e]
      dsimp only
      rw [if_neg (by decide)]
      -- the newline that follows the carriage return is an empty line
      have hpe2 := hw.2.2.1
      have hparts0 : lineParts [] = (0, []) := by decide
      rcases procline_spec { s with mem := m2, txtpos := tp2, pgm_end := pe2, linenum := n,
                                    inp := NL :: listing false rest, out := o2 }
        (done ++ [(n, b)]) [] (listing false rest) NL (Or.inr (Or.inr rfl)) ⟨hw, hwf.2⟩
        (by decide) rfl (fun _ => hfe)
        (by
          dsimp only
          simp only [progBytes_append, progBytes, List.length_append, encodeRec_length,
            List.length_nil] at hpe2
          simp only [List.length_nil]
          omega)
        (by rw [hparts0]; simp) with ⟨m3, tp3, pe3, o3, e3, hw3⟩ | ⟨_, _, _, h1, _⟩
      · unfold absProcline at e3 hw3
        rw [hparts0] at e3 hw3
        dsimp only at e3 hw3
        rw [if_pos rfl, if_pos rfl] at e3
        rw [if_pos rfl] at hw3
        rw [loadpgmLoop, e3]
        dsimp only
        rw [if_neg (by decide)]
        rw [hassoc] at hsorted hroom ⊢
        exact ih (done ++ [(n, b)]) _ f hsorted (fun x hx => hst x (by simp [hx])) ⟨hw3, hwf.2⟩
          rfl hrf hfe hle hroom (by simp only [List.length_cons] at hfuel; omega)
      · rw [hparts0] at h1; exact absurd rfl h1

/-! ## The round trip of listing and loading -/

theorem storedForm_no_nl (r : Nat × List Nat) (h : StoredForm r) : NL ∉ r.2 := fun hm =>
  (h.2.2.1 NL hm).1 rfl

theorem listing_length_ge (linux : Bool) (recs : List (Nat × List Nat)) :
    2 * recs.length ≤ (listing linux recs).length := by
  induction recs with
  | nil => simp [listing]
  | cons r rs ih =>
    have h1 : 1 ≤ (nlSeq linux).length := by cases linux <;> simp [nlSeq]
    simp only [listing, lineText, List.length_append, List.length_cons, List.length_nil]
    omega

set_option maxRecDepth 100000 in
theorem reach_afterSaveLine : Reach afterSaveLine.2 := by
  have h : (procline saveReady).isSome = true := by decide!
  have e : procline saveReady = some (afterSaveLine.1, afterSaveLine.2) := by
    unfold afterSaveLine
    cases hp : procline saveReady with
    | none => rw [hp] at h; cases h
    | some r => rfl
  exact Reach.line saveReady afterSaveLine.2 (str "save") [] NL afterSaveLine.1
    (Reach.host afterLineExample.2 _ _ _ _ reach_lineExample) (by decide!)
    (Or.inr (Or.inr rfl)) (by decide!) (by decide) (by decide!) (by decide!) e

/-- C5 (amended): for every program built from `NEW` by entered lines that are
free of editing bytes, fit the line buffer and have at most 127 bytes after
their number, with at least 6 bytes free between program end and stack pointer
and the listing started at line 0: `printpgm(0)` emits a text, and `loadpgm`,
which starts from an empty program region and puts that text line by line
through `procline`, returns in an arena whose stack pointer is not lower with
`pgm_end` and every byte of the program region as they were. -/
theorem C5_save_load_roundtrip (st st0 : State) (hr : Reach st) (hln : st.linenum = 0)
    (hroom : st.pgm_end + 6 ≤ st.sp) (hsp : st.sp ≤ st0.sp) (hsp0 : st0.sp ≤ MEMSIZE) :
    ∃ st1 st2, printpgm 0 { st with out := [] } = some st1 ∧
      loadpgm { st0 with inp := st1.out, r_file := true, feof := false } = some st2 ∧
      st2.pgm_end = st.pgm_end ∧
      rd st2.mem pgm_start (st2.pgm_end - pgm_start) =
        rd st.mem pgm_start (st.pgm_end - pgm_start) := by
  obtain ⟨recs, hwf, hsf⟩ := reach_stored st hr
  obtain ⟨m2, hp, -⟩ := printpgm_spec { st with out := [] } recs 0
    ⟨hwf.1, hwf.2⟩ (fun r hx => storedForm_no_nl r (hsf r hx)) hln (by dsimp only; omega)
  dsimp only at hp
  rw [List.nil_append] at hp
  have hpe := hwf.1.2.2.1
  obtain ⟨s2, hl, hw2⟩ := loadpgmLoop_spec st.linux recs []
    { st0 with inp := listing st.linux recs, r_file := true, feof := false, lecho := 0,
               pgm_end := pgm_start }
    ((listing st.linux recs).length + 2) (by rw [List.nil_append]; exact hwf.1.2.1)
    (fun r hx => ⟨hsf r hx, hwf.1.1 r hx⟩)
    ⟨⟨by simp, by simp, by simp [progBytes], trivial⟩, hsp0⟩ rfl rfl rfl rfl
    (by dsimp only; rw [List.nil_append]; omega)
    (by have := listing_length_ge st.linux recs; omega)
  rw [List.nil_append] at hw2
  refine ⟨_, { s2 with lecho := st0.lecho }, hp, ?_, ?_, ?_⟩
  · unfold loadpgm
    dsimp only
    rw [hl]
    rfl
  · dsimp only
    rw [hw2.1.2.2.1, hpe]
  · dsimp only
    rw [hw2.1.2.2.1, hpe]
    simp only [Nat.add_sub_cancel_left]
    rw [(holds_rd _ _ _).1 hw2.1.2.2.2, (holds_rd _ _ _).1 hwf.1.2.2.2]

set_option maxRecDepth 100000 in
/-- C5, witness: the program `10 print "hi"` at the moment the direct line
`save` runs, loaded into the arena of a fresh interpreter. -/
theorem C5_save_load_roundtrip_witness :
    ∃ st1 st2, printpgm 0 { afterSaveLine.2 with out := [] } = some st1 ∧
      loadpgm { initState with inp := st1.out, r_file := true, feof := false } = some st2 ∧
      st2.pgm_end = afterSaveLine.2.pgm_end ∧
      rd st2.mem pgm_start (st2.pgm_end - pgm_start) =
        rd afterSaveLine.2.mem pgm_start (afterSaveLine.2.pgm_end - pgm_start) :=
  C5_save_load_roundtrip afterSaveLine.2 initState reach_afterSaveLine (by decide!) (by decide!)
    (by decide!) (by decide)

set_option maxRecDepth 100000 in
/-- C5, counterexample: in an arena whose stack pointer lies 14 bytes above
`pgm_start`, the lines `1000 X` and `1 X` are both inserted; `printpgm(0)`
emits the two lines; `loadpgm` of that text in the same arena, from an empty
program region, ends with the record of line 1 alone, because only `1000 `
fits the line buffer and the loop ends on the deletion it reads. -/
theorem C5_counterexample :
    (procline tightExample).map (fun r => r.1) = some PROCLINE_OKAY ∧
    view ((procline tightExample).bind (fun r => procline r.2)) =
      some (PROCLINE_OKAY, pgm_start + 10, encodeRec (1, str "X") ++ encodeRec (1000, str "X")) ∧
    (printpgm 0 { tightProgram with out := [] }).map (fun s => s.out) =
      some (str "1 X\n1000 X\n") ∧
    (loadpgm { tightExample with inp := str "1 X\n1000 X\n", r_file := true }).map
      (fun s => (s.pgm_end, rd s.mem pgm_start (s.pgm_end - pgm_start))) =
      some (pgm_start + 5, encodeRec (1, str "X")) := by
  decide!

/-! ## The evaluator on atoms -/

theorem ignoreBlanksLoop_stop (m : Mem) (f p : Nat) (h : ¬ (m p = SPACE ∨ m p = TAB)) :
    ignoreBlanksLoop m f p = p := by
  cases f with
  | zero => rfl
  | succ f => rw [ignoreBlanksLoop, if_neg h]

theorem ignore_blanks_stop (st : State) (h : ¬ (st.mem st.txtpos = SPACE ∨ st.mem st.txtpos = TAB)) :
    ignore_blanks st = st := by
  unfold ignore_blanks
  rw [ignoreBlanksLoop_stop _ _ _ h]

theorem ignoreBlanksLoop_end (m : Mem) (f p : Nat) :
    ignoreBlanksLoop m f p = p + f ∨
      ¬ (m (ignoreBlanksLoop m f p) = SPACE ∨ m (ignoreBlanksLoop m f p) = TAB) := by
  induction f generalizing p with
  | zero => left; rfl
  | succ f ih =>
    rw [ignoreBlanksLoop]
    by_cases h : m p = SPACE ∨ m p = TAB
    · rw [if_pos h]
      rcases ih (p + 1) with h1 | h1
      · left; omega
      · right; exact h1
    · rw [if_neg h]; right; exact h

theorem ignoreBlanksLoop_le (m : Mem) (f p : Nat) :
    p ≤ ignoreBlanksLoop m f p ∧ ignoreBlanksLoop m f p ≤ p + f := by
  induction f generalizing p with
  | zero => exact ⟨le_refl _, le_refl _⟩
  | succ f ih =>
    rw [ignoreBlanksLoop]
    split_ifs
    · have := ih (p + 1); omega
    · omega

theorem ignore_blanks_idem (st : State) : ignore_blanks (ignore_blanks st) = ignore_blanks st := by
  unfold ignore_blanks
  dsimp only
  rcases ignoreBlanksLoop_end st.mem (MEMSIZE - st.txtpos) st.txtpos with h | h
  · have hle := ignoreBlanksLoop_le st.mem (MEMSIZE - st.txtpos) st.txtpos
    by_cases hp : st.txtpos ≤ MEMSIZE
    · have h0 : MEMSIZE - ignoreBlanksLoop st.mem (MEMSIZE - st.txtpos) st.txtpos = 0 := by omega
      rw [h0]; rfl
    · have h0 : MEMSIZE - ignoreBlanksLoop st.mem (MEMSIZE - st.txtpos) st.txtpos = 0 := by omega
      rw [h0]; rfl
  · rw [ignoreBlanksLoop_stop _ _ _ h]

theorem ignore_blanks_skip (st : State) (h : st.mem st.txtpos = SPACE)
    (h1 : ¬ (st.mem (st.txtpos + 1) = SPACE ∨ st.mem (st.txtpos + 1) = TAB))
    (hroom : st.txtpos < MEMSIZE) :
    ignore_blanks st = { st with txtpos := st.txtpos + 1 } := by
  unfold ignore_blanks
  obtain ⟨f, hf⟩ : ∃ f, MEMSIZE - st.txtpos = f + 1 := ⟨MEMSIZE - st.txtpos - 1, by omega⟩
  rw [hf, ignoreBlanksLoop, if_pos (Or.inl h), ignoreBlanksLoop_stop _ _ _ h1]

theorem expr4_skip (e : State → Option (Int × State)) (st : State) :
    expr4 e (ignore_blanks st) = expr4 e st := by
  unfold expr4
  rw [ignore_blanks_idem]

/-! ### Digits -/

theorem toShort_toShort (x : Int) : toShort (toShort x) = toShort x := by
  unfold toShort; omega

theorem toShort_step (x b d : Int) : toShort (toShort x * b + d) = toShort (x * b + d) := by
  unfold toShort
  have h : (((x + 32768) % 65536 - 32768) * b + d + 32768) % 65536 = (x * b + d + 32768) % 65536 := by
    have e : ((x + 32768) % 65536 - 32768) * b + d + 32768
        = (x * b + d + 32768) + 65536 * (-((x + 32768) / 65536) * b) := by
      have := Int.emod_add_ediv (x + 32768) 65536
      have h2 : (x + 32768) % 65536 = (x + 32768) - 65536 * ((x + 32768) / 65536) := by omega
      rw [h2]; ring
    rw [e, Int.add_mul_emod_self_left]
  rw [h]

theorem digitsVal_snoc (b a : Int) (ds : List Nat) (d : Nat) :
    digitsVal b a (ds ++ [d]) = toShort (digitsVal b a ds * b + d) := by
  induction ds generalizing a with
  | nil => rfl
  | cons x xs ih => simp only [List.cons_append, digitsVal]; exact ih _

theorem digitsVal_toShort (b a : Int) (ds : List Nat) (h : ds ≠ []) :
    toShort (digitsVal b a ds) = digitsVal b a ds := by
  induction ds generalizing a with
  | nil => exact absurd rfl h
  | cons x xs ih =>
    cases xs with
    | nil => simp only [digitsVal]; exact toShort_toShort _
    | cons y ys => simp only [digitsVal]; exact ih _ (by simp)

theorem digitsVal_decimal (n : Nat) :
    digitsVal 10 0 ((decimal n).map (fun c => c - 48)) = toShort n := by
  induction n using Nat.strong_induction_on with
  | _ n ih =>
    by_cases h : n < 10
    · rw [decimal_small n h]
      simp [digitsVal]
    · rw [decimal_step n h, List.map_append, List.map_singleton, digitsVal_snoc,
        ih (n / 10) (by omega), toShort_step]
      congr 1
      have : 48 + n % 10 - 48 = n % 10 := by omega
      rw [this]
      push_cast
      omega

theorem decimal_head (n : Nat) (h : 1 ≤ n) :
    ∃ d ds, decimal n = d :: ds ∧ 49 ≤ d ∧ d ≤ 57 := by
  induction n using Nat.strong_induction_on with
  | _ n ih =>
    by_cases h1 : n < 10
    · exact ⟨48 + n, [], decimal_small n h1, by omega, by omega⟩
    · obtain ⟨d, ds, e, h2, h3⟩ := ih (n / 10) (by omega) (by omega)
      exact ⟨d, ds ++ [48 + n % 10], by rw [decimal_step n h1, e]; rfl, h2, h3⟩

theorem schar_small (b : Nat) (h : b < 128) : schar b = b := by
  unfold schar; rw [if_pos h]

theorem decLoop_spec (m : Mem) (ds : List Nat) (d c : Nat) (fuel : Nat) (a : Int) (p : Nat)
    (hh : Holds m p (d :: ds ++ [c])) (hd : ∀ x ∈ d :: ds, 48 ≤ x ∧ x ≤ 57)
    (hc : ¬ (48 ≤ c ∧ c ≤ 57)) (hfuel : ds.length < fuel) :
    decLoop m fuel a p =
      (digitsVal 10 a ((d :: ds).map (fun c => c - 48)), p + (ds.length + 1)) := by
  induction ds generalizing d fuel a p with
  | nil =>
    obtain ⟨f, rfl⟩ : ∃ f, fuel = f + 1 := ⟨fuel - 1, by simp at hfuel; omega⟩
    obtain ⟨h0, h1, -⟩ := hh
    have hd0 := hd d (by simp)
    rw [decLoop, h0, h1, if_neg hc, schar_small _ (by omega)]
    have e1 : a * 10 + (d : Int) - 48 = a * 10 + ((d - 48 : Nat) : Int) := by omega
    simp only [List.map_cons, List.map_nil, digitsVal, List.length_nil, zero_add]
    rw [e1]
  | cons x xs ih =>
    obtain ⟨f, rfl⟩ : ∃ f, fuel = f + 1 := ⟨fuel - 1, by simp at hfuel; omega⟩
    have hh2 := hh
    obtain ⟨h0, h1, -⟩ := hh2
    have hd0 := hd d (by simp)
    have hx := hd x (by simp)
    rw [decLoop, h0, h1, if_pos hx, schar_small _ (by omega)]
    rw [ih x f _ (p + 1) hh.2 (fun y hy => hd y (by simp at hy ⊢; tauto))
      (by simp only [List.length_cons] at hfuel; omega)]
    have e1 : a * 10 + (d : Int) - 48 = a * 10 + ((d - 48 : Nat) : Int) := by omega
    have e2 : p + 1 + (xs.length + 1) = p + (xs.length + 1 + 1) := by omega
    simp only [List.map_cons, digitsVal, List.length_cons]
    rw [e1, e2]

theorem hexDigit_val (d : Nat) (h : d < 16) :
    (d < 10 ∧ hexDigit d = 48 + d) ∨ (10 ≤ d ∧ hexDigit d = 55 + d) := by
  unfold hexDigit
  by_cases h1 : d < 10
  · left; rw [if_pos h1]; exact ⟨h1, rfl⟩
  · right; rw [if_neg h1]; exact ⟨by omega, rfl⟩

theorem hexLoop_spec (m : Mem) (ds : List Nat) (c : Nat) (fuel : Nat) (a : Int) (p : Nat)
    (hh : Holds m p (ds.map hexDigit ++ [c])) (hd : ∀ x ∈ ds, x < 16)
    (hc : c < 48 ∨ (57 < c ∧ c < 65)) (hfuel : ds.length < fuel) :
    hexLoop m fuel a p = (digitsVal 16 a ds, p + ds.length) := by
  induction ds generalizing fuel a p with
  | nil =>
    obtain ⟨f, rfl⟩ : ∃ f, fuel = f + 1 := ⟨fuel - 1, by simp at hfuel; omega⟩
    have h0 : m p = c := hh.1
    rw [hexLoop, h0, if_neg (by omega), if_neg (by omega), if_neg (by omega)]
    rfl
  | cons x xs ih =>
    obtain ⟨f, rfl⟩ : ∃ f, fuel = f + 1 := ⟨fuel - 1, by simp at hfuel; omega⟩
    have h0 : m p = hexDigit x := hh.1
    have hrec := ih f (toShort (a * 16 + x)) (p + 1) hh.2 (fun y hy => hd y (by simp [hy]))
      (by simp only [List.length_cons] at hfuel; omega)
    rcases hexDigit_val x (hd x (by simp)) with ⟨h1, e⟩ | ⟨h1, e⟩
    · rw [hexLoop, h0, e, if_neg (by omega), if_neg (by omega), if_pos (by omega)]
      have : ((48 + x : Nat) : Int) - 48 = x := by push_cast; omega
      rw [add_sub_assoc, this, hrec]
      simp only [digitsVal, List.length_cons]
      congr 1; omega
    · have hx := hd x (by simp)
      rw [hexLoop, h0, e, if_neg (by omega), if_pos (by omega)]
      have : (a * 16 + ((55 + x : Nat) : Int) - 65 + 10) = a * 16 + x := by push_cast; omega
      rw [this, hrec]
      simp only [digitsVal, List.length_cons]
      congr 1; omega

theorem expr4_atom (e : State → Option (Int × State)) (st : State) (x : Atom) (c : Nat)
    (hx : x.ok) (hc : Follow c) (hh : Holds st.mem st.txtpos (x.text ++ [c]))
    (hroom : st.txtpos + x.text.length < MEMSIZE) :
    expr4 e st = some (x.val st.mem,
      ignore_blanks { st with txtpos := st.txtpos + x.text.length }) := by
  obtain ⟨hc1, hc2, hc3⟩ := hc
  cases x with
  | var i =>
    have hi : i < 26 := hx
    obtain ⟨h0, h1, -⟩ := hh
    have hnb : ¬ (st.mem st.txtpos = SPACE ∨ st.mem st.txtpos = TAB) := by
      rw [h0]; unfold SPACE TAB; omega
    unfold expr4
    rw [ignore_blanks_stop st hnb]
    dsimp only
    rw [h0, h1, if_neg (by omega), if_neg (by omega), schar_small _ (by omega),
      if_neg (by omega), if_pos (by omega), if_neg hc3, schar_small _ (by omega),
      if_pos (by omega)]
    simp only [Atom.text, Atom.val, List.length_singleton, expr4Success, Nat.add_sub_cancel_left]
  | num n =>
    by_cases hn : n = 0
    · subst hn
      have e0 : decimal 0 = [48] := rfl
      simp only [Atom.text, e0] at hh hroom ⊢
      obtain ⟨h0, h1, -⟩ := hh
      have hnb : ¬ (st.mem st.txtpos = SPACE ∨ st.mem st.txtpos = TAB) := by
        rw [h0]; unfold SPACE TAB; omega
      unfold expr4
      rw [ignore_blanks_stop st hnb]
      dsimp only
      rw [h0, if_pos rfl]
      simp [Atom.val, expr4Success, toShort]
    · obtain ⟨d, ds, ed, hd1, hd2⟩ := decimal_head n (by omega)
      have hdig := decimal_digits n
      simp only [Atom.text] at hh hroom ⊢
      rw [ed] at hh hroom hdig
      have h0 : st.mem st.txtpos = d := hh.1
      have hnb : ¬ (st.mem st.txtpos = SPACE ∨ st.mem st.txtpos = TAB) := by
        rw [h0]; unfold SPACE TAB; omega
      simp only [List.length_cons] at hroom
      unfold expr4
      rw [ignore_blanks_stop st hnb]
      dsimp only
      rw [h0, if_neg (by omega), if_pos ⟨hd1, hd2⟩,
        decLoop_spec st.mem ds d c _ 0 _ hh hdig hc2 (by omega)]
      dsimp only
      rw [← ed, digitsVal_decimal, ed]
      simp only [Atom.val, expr4Success, List.length_cons]
  | hex ds =>
    have hd : ∀ d ∈ ds, d < 16 := hx
    simp only [Atom.text, List.length_append, List.length_cons, List.length_nil,
      List.length_map] at hh hroom ⊢
    have h0 : st.mem st.txtpos = 38 := hh.1
    have h1 : st.mem (st.txtpos + 1) = 72 := hh.2.1
    have h2 : Holds st.mem (st.txtpos + 2) (ds.map hexDigit ++ [c]) := hh.2.2
    have hnb : ¬ (st.mem st.txtpos = SPACE ∨ st.mem st.txtpos = TAB) := by
      rw [h0]; unfold SPACE TAB; omega
    unfold expr4
    rw [ignore_blanks_stop st hnb]
    dsimp only
    rw [h0, h1, if_neg (by omega), if_neg (by omega), if_pos (Or.inl ⟨rfl, rfl⟩),
      hexLoop_spec st.mem ds c _ 0 _ h2 hd (by omega) (by omega)]
    dsimp only
    simp only [Atom.val, expr4Success]
    have e : st.txtpos + 2 + ds.length = st.txtpos + (0 + 1 + 1 + ds.length) := by omega
    rw [e]


theorem letter_not_blank (m : Mem) (p i : Nat) (h : m p = 65 + i) :
    ¬ (m p = SPACE ∨ m p = TAB) := by
  rw [h]; unfold SPACE TAB; omega


/-! ## The evaluator on products and sums -/

theorem atom_head (x : Atom) (hx : x.ok) :
    ∃ h t, x.text = h :: t ∧ (h = 38 ∨ 48 ≤ h) := by
  cases x with
  | var i => exact ⟨65 + i, [], rfl, Or.inr (by omega)⟩
  | num n =>
    by_cases hn : n = 0
    · subst hn; exact ⟨48, [], rfl, Or.inr (le_refl _)⟩
    · obtain ⟨d, ds, e, h1, -⟩ := decimal_head n (by omega)
      exact ⟨d, ds, e, Or.inr (by omega)⟩
  | hex ds => exact ⟨38, 72 :: ds.map hexDigit, rfl, Or.inl rfl⟩

theorem mulop_head (o : MulOp) : ∃ h t, o.text = h :: t ∧ Follow h := by
  cases o
  · exact ⟨42, [], rfl, by decide⟩
  · exact ⟨47, [], rfl, by decide⟩
  · exact ⟨32, [77, 79, 68, 32], rfl, by decide⟩

theorem opsText_cons (o : MulOp × Atom) (ops : List (MulOp × Atom)) :
    opsText (o :: ops) = o.1.text ++ o.2.text ++ opsText ops := by
  simp [opsText]

theorem ops_head (ops : List (MulOp × Atom)) (c : Nat) (hc : Follow c) :
    ∃ h t, opsText ops ++ [c] = h :: t ∧ Follow h := by
  cases ops with
  | nil => exact ⟨c, [], rfl, hc⟩
  | cons o ops =>
    obtain ⟨h, t, e, hf⟩ := mulop_head o.1
    exact ⟨h, t ++ o.2.text ++ opsText ops ++ [c], by rw [opsText_cons, e]; simp, hf⟩

theorem expr3Loop_ops (e : State → Option (Int × State)) (st : State) (c : Nat)
    (hc : TermEnd c) (ops : List (MulOp × Atom)) :
    ∀ (P : Nat) (a : Int) (f : Nat), Holds st.mem P (opsText ops ++ [c]) →
      (∀ o ∈ ops, o.2.ok ∧ (o.1 ≠ MulOp.mul → o.2.val st.mem ≠ 0)) →
      P + (opsText ops).length < MEMSIZE → ops.length < f →
      expr3Loop (expr4 e) f a (ignore_blanks { st with txtpos := P }) =
        some (ops.foldl (fun a o => o.1.val a (o.2.val st.mem)) a,
          { st with txtpos := P + (opsText ops).length }) := by
  obtain ⟨⟨hc1, hc2, hc3⟩, hc4, hc5, hc6, hc7⟩ := hc
  induction ops with
  | nil =>
    intro P a f hh _ _ hf
    obtain ⟨f, rfl⟩ : ∃ k, f = k + 1 := ⟨f - 1, by simp at hf; omega⟩
    have h0 : st.mem P = c := hh.1
    rw [ignore_blanks_stop _ (by dsimp only; rw [h0]; unfold SPACE TAB; omega)]
    rw [expr3Loop]
    dsimp only
    rw [h0, if_neg hc6, if_neg hc7, if_neg (by omega)]
    rfl
  | cons o ops ih =>
    intro P a f hh hok hroom hf
    obtain ⟨f, rfl⟩ : ∃ k, f = k + 1 := ⟨f - 1, by omega⟩
    obtain ⟨op, y⟩ := o
    have hy := hok (op, y) (by simp)
    dsimp only at hy
    rw [opsText_cons] at hh hroom ⊢
    dsimp only at hh hroom ⊢
    simp only [List.length_append] at hroom
    rw [List.append_assoc, List.append_assoc, holds_append] at hh
    obtain ⟨hop, hrest⟩ := hh
    obtain ⟨h, t, eh, hfol⟩ := ops_head ops c ⟨hc1, hc2, hc3⟩
    have hatom : Holds st.mem (P + op.text.length) (y.text ++ [h]) := by
      rw [holds_append] at hrest ⊢
      refine ⟨hrest.1, ?_⟩
      have := hrest.2
      rw [eh] at this
      exact ⟨this.1, trivial⟩
    have hnext : Holds st.mem (P + op.text.length + y.text.length) (opsText ops ++ [c]) := by
      rw [holds_append] at hrest
      exact hrest.2
    have hrec := ih (P + op.text.length + y.text.length)
      (op.val a (y.val st.mem)) f hnext (fun o ho => hok o (by simp [ho])) (by omega)
      (by simp only [List.length_cons] at hf; omega)
    have hat := expr4_atom e { st with txtpos := P + op.text.length } y h hy.1 hfol hatom
      (by dsimp only; omega)
    dsimp only at hat
    have hlen : P + (op.text.length + y.text.length + (opsText ops).length)
        = P + op.text.length + y.text.length + (opsText ops).length := by omega
    simp only [List.foldl_cons, List.length_append]
    rw [hlen, ← hrec]
    cases op with
    | mul =>
      have h0 : st.mem P = 42 := hop.1
      rw [ignore_blanks_stop _ (by dsimp only; rw [h0]; decide)]
      rw [expr3Loop]
      dsimp only
      rw [h0, if_pos rfl]
      have e1 : P + 1 = P + MulOp.mul.text.length := rfl
      rw [e1, hat]
      rfl
    | div =>
      have h0 : st.mem P = 47 := hop.1
      rw [ignore_blanks_stop _ (by dsimp only; rw [h0]; decide)]
      rw [expr3Loop]
      dsimp only
      rw [h0, if_neg (by decide), if_pos rfl]
      have e1 : P + 1 = P + MulOp.div.text.length := rfl
      rw [e1, hat]
      dsimp only
      rw [if_pos (hy.2 (by decide))]
      rfl
    | mod =>
      obtain ⟨h0, h1, h2, h3, h4, -⟩ := hop
      obtain ⟨hh1, tt, et, hy0⟩ := atom_head y hy.1
      have h5 : st.mem (P + 5) = hh1 := by
        have := hatom
        rw [et] at this
        exact this.1
      simp only [MulOp.text, List.length_cons, List.length_nil] at hroom
      rw [ignore_blanks_skip _ h0 (by dsimp only; rw [h1]; decide) (by dsimp only; omega)]
      rw [expr3Loop]
      dsimp only
      rw [h1, if_neg (by decide), if_neg (by decide), if_pos ⟨rfl, h2, h3⟩]
      rw [← expr4_skip, ignore_blanks_skip _ h4
        (by dsimp only; rw [h5]; unfold SPACE TAB; omega) (by dsimp only; omega)]
      have e1 : P + 1 + 3 + 1 = P + MulOp.mod.text.length := rfl
      dsimp only
      rw [e1, hat]
      dsimp only
      rw [if_neg (hy.2 (by decide))]
      rfl



theorem relop_tab_eq : relop_tab = [62, 189, 60, 190, 190, 189, 60, 189, 188, 0] := by decide

theorem scantableLoop_skip (m : Mem) (tp f t : Nat) (rest : List Nat) (i idx : Nat)
    (ht : t ≠ 0) (h1 : m (tp + i) % 256 ≠ t) (h2 : schar (m (tp + i)) + 128 ≠ (t : Int)) :
    scantableLoop m tp (f + 1) (t :: rest) i idx =
      scantableLoop m tp f (((t :: rest).dropWhile (fun x => x < 128)).tail) 0 (idx + 1) := by
  rw [scantableLoop]
  rw [if_neg ht, if_neg h1, if_neg h2]

theorem scantableLoop_match (m : Mem) (tp f t : Nat) (rest : List Nat) (i idx : Nat)
    (ht : t ≠ 0) (h1 : m (tp + i) % 256 = t) :
    scantableLoop m tp (f + 1) (t :: rest) i idx = scantableLoop m tp f rest (i + 1) idx := by
  rw [scantableLoop]
  rw [if_neg ht, if_pos h1]

theorem scantableLoop_last (m : Mem) (tp f t : Nat) (rest : List Nat) (i idx : Nat)
    (ht : t ≠ 0) (h1 : m (tp + i) % 256 ≠ t) (h2 : schar (m (tp + i)) + 128 = (t : Int)) :
    scantableLoop m tp (f + 1) (t :: rest) i idx = (some (i + 1), idx) := by
  rw [scantableLoop]
  rw [if_neg ht, if_neg h1, if_pos h2]

theorem scantable_relop_none (st : State) (c : Nat) (h0 : st.mem st.txtpos = c)
    (hc : c < 128 ∧ c ≠ 32 ∧ c ≠ 9 ∧ c ≠ 60 ∧ c ≠ 61 ∧ c ≠ 62) :
    scantable relop_tab st = { st with table_index := RELOP_UNKNOWN } := by
  obtain ⟨h1, h2, h3, h4, h5, h6⟩ := hc
  unfold scantable
  rw [ignore_blanks_stop st (by rw [h0]; unfold SPACE TAB; omega), relop_tab_eq]
  have hs : schar (st.mem (st.txtpos + 0)) = c := by rw [Nat.add_zero, h0]; exact schar_small c h1
  have hm : st.mem (st.txtpos + 0) % 256 = c := by rw [Nat.add_zero, h0]; exact Nat.mod_eq_of_lt (by omega)
  have e : scantableLoop st.mem st.txtpos ([62, 189, 60, 190, 190, 189, 60, 189, 188, 0].length + 1)
      [62, 189, 60, 190, 190, 189, 60, 189, 188, 0] 0 0 = (none, 6) := by
    show scantableLoop st.mem st.txtpos (10 + 1) _ 0 0 = _
    rw [scantableLoop_skip _ _ _ _ _ _ _ (by decide) (by rw [hm]; omega) (by rw [hs]; omega)]
    show scantableLoop st.mem st.txtpos (9 + 1) [60, 190, 190, 189, 60, 189, 188, 0] 0 1 = _
    rw [scantableLoop_skip _ _ _ _ _ _ _ (by decide) (by rw [hm]; omega) (by rw [hs]; omega)]
    show scantableLoop st.mem st.txtpos (8 + 1) [190, 189, 60, 189, 188, 0] 0 2 = _
    rw [scantableLoop_skip _ _ _ _ _ _ _ (by decide) (by rw [hm]; omega) (by rw [hs]; omega)]
    show scantableLoop st.mem st.txtpos (7 + 1) [189, 60, 189, 188, 0] 0 3 = _
    rw [scantableLoop_skip _ _ _ _ _ _ _ (by decide) (by rw [hm]; omega) (by rw [hs]; omega)]
    show scantableLoop st.mem st.txtpos (6 + 1) [60, 189, 188, 0] 0 4 = _
    rw [scantableLoop_skip _ _ _ _ _ _ _ (by decide) (by rw [hm]; omega) (by rw [hs]; omega)]
    show scantableLoop st.mem st.txtpos (5 + 1) [188, 0] 0 5 = _
    rw [scantableLoop_skip _ _ _ _ _ _ _ (by decide) (by rw [hm]; omega) (by rw [hs]; omega)]
    rfl
  dsimp only
  rw [e]
  rfl



theorem atom_text_pos (x : Atom) (hx : x.ok) : 1 ≤ x.text.length := by
  obtain ⟨h, t, e, -⟩ := atom_head x hx
  rw [e]; simp

theorem opsText_length_ge (ops : List (MulOp × Atom)) : ops.length ≤ (opsText ops).length := by
  induction ops with
  | nil => simp [opsText]
  | cons o ops ih =>
    rw [opsText_cons]
    obtain ⟨h, t, e, -⟩ := mulop_head o.1
    simp only [List.length_append, List.length_cons, e]
    omega

theorem product_text_eq (t : Product) : Product.text t = t.1.text ++ opsText t.2 := rfl

theorem expr3_product (e : State → Option (Int × State)) (st : State) (t : Product) (c : Nat)
    (hc : TermEnd c) (hh : Holds st.mem st.txtpos (Product.text t ++ [c]))
    (hok : Product.ok st.mem t) (hroom : st.txtpos + (Product.text t).length < MEMSIZE) :
    expr3 (expr4 e) st = some (Product.val st.mem t,
      { st with txtpos := st.txtpos + (Product.text t).length }) := by
  obtain ⟨x, ops⟩ := t
  rw [product_text_eq] at hh hroom ⊢
  dsimp only at hh hroom ⊢
  simp only [List.length_append] at hroom
  rw [List.append_assoc, holds_append] at hh
  obtain ⟨h, tl, eh, hfol⟩ := ops_head ops c hc.1
  have hatom : Holds st.mem st.txtpos (x.text ++ [h]) := by
    rw [holds_append]
    refine ⟨hh.1, ?_⟩
    have := hh.2
    rw [eh] at this
    exact ⟨this.1, trivial⟩
  have hlen := opsText_length_ge ops
  unfold expr3
  rw [expr4_atom e st x h hok.1 hfol hatom (by omega)]
  dsimp only
  rw [expr3Loop_ops e st c hc ops _ _ MEMSIZE hh.2 hok.2 (by omega) (by omega)]
  simp only [Product.val, List.length_append, Nat.add_assoc]

theorem termsText_cons (o : Bool × Product) (ts : List (Bool × Product)) :
    termsText (o :: ts) = addText o.1 ++ Product.text o.2 ++ termsText ts := by
  simp [termsText]

theorem addText_eq (b : Bool) : ∃ h, addText b = [h] ∧ (h = 43 ∨ h = 45) := by
  cases b
  · exact ⟨45, rfl, Or.inr rfl⟩
  · exact ⟨43, rfl, Or.inl rfl⟩

theorem terms_head (ts : List (Bool × Product)) (c : Nat) (hc : TermEnd c) :
    ∃ h t, termsText ts ++ [c] = h :: t ∧ TermEnd h := by
  cases ts with
  | nil => exact ⟨c, [], rfl, hc⟩
  | cons o ts =>
    obtain ⟨h, e, hv⟩ := addText_eq o.1
    refine ⟨h, Product.text o.2 ++ termsText ts ++ [c], by rw [termsText_cons, e]; simp, ?_⟩
    rcases hv with rfl | rfl <;> decide

theorem product_text_pos (t : Product) (hx : t.1.ok) : 1 ≤ (Product.text t).length := by
  rw [product_text_eq, List.length_append]
  have := atom_text_pos t.1 hx
  omega

theorem expr2Loop_terms (e : State → Option (Int × State)) (st : State) (c : Nat)
    (hc : SumEnd c) (ts : List (Bool × Product)) :
    ∀ (P : Nat) (a : Int) (f : Nat), Holds st.mem P (termsText ts ++ [c]) →
      (∀ o ∈ ts, Product.ok st.mem o.2) →
      P + (termsText ts).length < MEMSIZE → ts.length < f →
      expr2Loop (expr3 (expr4 e)) f a { st with txtpos := P } =
        some (ts.foldl (fun a o => addVal o.1 a (Product.val st.mem o.2)) a,
          { st with txtpos := P + (termsText ts).length }) := by
  obtain ⟨hc1, hc2, hc3⟩ := hc
  induction ts with
  | nil =>
    intro P a f hh _ _ hf
    obtain ⟨f, rfl⟩ : ∃ k, f = k + 1 := ⟨f - 1, by simp at hf; omega⟩
    have h0 : st.mem P = c := hh.1
    rw [expr2Loop]
    dsimp only
    rw [h0, if_neg hc3, if_neg hc2]
    rfl
  | cons o ts ih =>
    intro P a f hh hok hroom hf
    obtain ⟨f, rfl⟩ : ∃ k, f = k + 1 := ⟨f - 1, by omega⟩
    obtain ⟨plus, t⟩ := o
    have ht := hok (plus, t) (by simp)
    dsimp only at ht
    rw [termsText_cons] at hh hroom ⊢
    dsimp only at hh hroom ⊢
    obtain ⟨sg, esg, hsg⟩ := addText_eq plus
    rw [esg] at hh hroom ⊢
    simp only [List.length_append, List.length_singleton] at hroom
    rw [List.append_assoc, List.append_assoc, holds_append] at hh
    obtain ⟨hop, hrest⟩ := hh
    simp only [List.length_singleton] at hrest
    obtain ⟨h, tl, eh, hfol⟩ := terms_head ts c hc1
    have hterm : Holds st.mem (P + 1) (Product.text t ++ [h]) := by
      rw [holds_append] at hrest ⊢
      refine ⟨hrest.1, ?_⟩
      have := hrest.2
      rw [eh] at this
      exact ⟨this.1, trivial⟩
    have hnext : Holds st.mem (P + 1 + (Product.text t).length) (termsText ts ++ [c]) := by
      rw [holds_append] at hrest
      exact hrest.2
    have hrec := ih (P + 1 + (Product.text t).length)
      (addVal plus a (Product.val st.mem t)) f hnext (fun o ho => hok o (by simp [ho]))
      (by omega) (by simp only [List.length_cons] at hf; omega)
    have h3 := expr3_product e { st with txtpos := P + 1 } t h hfol hterm ht
      (by dsimp only; omega)
    dsimp only at h3
    have hlen : P + (1 + (Product.text t).length + (termsText ts).length)
        = P + 1 + (Product.text t).length + (termsText ts).length := by omega
    simp only [List.foldl_cons, List.length_append, List.length_singleton]
    rw [hlen, ← hrec]
    have h0 : st.mem P = sg := hop.1
    rw [expr2Loop]
    dsimp only
    cases plus with
    | true =>
      have : sg = 43 := by simpa [addText] using esg.symm
      subst this
      rw [h0, if_neg (by decide), if_pos rfl, h3]
      rfl
    | false =>
      have : sg = 45 := by simpa [addText] using esg.symm
      subst this
      rw [h0, if_pos rfl, h3]
      rfl

theorem termsText_length_ge (ts : List (Bool × Product)) : ts.length ≤ (termsText ts).length := by
  induction ts with
  | nil => simp [termsText]
  | cons o ts ih =>
    rw [termsText_cons]
    obtain ⟨h, e, -⟩ := addText_eq o.1
    simp only [List.length_append, List.length_cons, e]
    omega

theorem sum_text_eq (s : SumOf) : SumOf.text s = Product.text s.1 ++ termsText s.2 := rfl

theorem expr2_sum (e : State → Option (Int × State)) (st : State) (s : SumOf) (c : Nat)
    (hc : SumEnd c) (hh : Holds st.mem st.txtpos (SumOf.text s ++ [c]))
    (hok : SumOf.ok st.mem s) (hroom : st.txtpos + (SumOf.text s).length < MEMSIZE) :
    expr2 (expr3 (expr4 e)) st = some (SumOf.val st.mem s,
      { st with txtpos := st.txtpos + (SumOf.text s).length }) := by
  obtain ⟨t, ts⟩ := s
  rw [sum_text_eq] at hh hroom ⊢
  dsimp only at hh hroom ⊢
  simp only [List.length_append] at hroom
  rw [List.append_assoc, holds_append] at hh
  obtain ⟨h, tl, eh, hfol⟩ := terms_head ts c hc.1
  have hterm : Holds st.mem st.txtpos (Product.text t ++ [h]) := by
    rw [holds_append]
    refine ⟨hh.1, ?_⟩
    have := hh.2
    rw [eh] at this
    exact ⟨this.1, trivial⟩
  obtain ⟨a0, at0, ea, ha⟩ := atom_head t.1 hok.1.1
  have h0 : st.mem st.txtpos = a0 := by
    have := hh.1
    rw [product_text_eq, ea] at this
    exact this.1
  have hlen := termsText_length_ge ts
  unfold expr2
  rw [h0, if_neg (by omega), expr3_product e st t h hfol hterm hok.1 (by omega)]
  dsimp only
  rw [expr2Loop_terms e st c hc ts _ _ MEMSIZE hh.2 hok.2 (by omega) (by omega)]
  simp only [SumOf.val, List.length_append, Nat.add_assoc]

theorem expression_unfold (st : State) :
    expression st = expressionBody (expr2 (expr3 (expr4 (expressionD 32767)))) st := rfl

/-- The evaluator on a sum of products of atoms that a newline follows: the
value is the 16-bit value of the sum, computed left to right with products
before sums; the cursor ends on the newline, no error is flagged and the
arena is as it was. -/
theorem expression_sum (st : State) (s : SumOf)
    (hh : Holds st.mem st.txtpos (SumOf.text s ++ [NL])) (hok : SumOf.ok st.mem s)
    (he : st.exp_error = 0) (hroom : st.txtpos + (SumOf.text s).length < MEMSIZE) :
    expression st = some (SumOf.val st.mem s,
      { st with txtpos := st.txtpos + (SumOf.text s).length, table_index := RELOP_UNKNOWN }) := by
  rw [expression_unfold]
  unfold expressionBody
  rw [expr2_sum _ st s NL (by decide) hh hok hroom]
  dsimp only
  rw [if_neg (by rw [he]; decide)]
  have hnl : st.mem (st.txtpos + (SumOf.text s).length) = NL := by
    rw [holds_append] at hh
    exact hh.2.1
  rw [scantable_relop_none _ NL hnl (by decide)]
  dsimp only
  rw [if_pos rfl]



/-! ## Relational operators -/

theorem scantableLoop_relop (m : Mem) (tp : Nat) (op : RelOp) (d : Nat)
    (hd : d < 128 ∧ d ≠ 60 ∧ d ≠ 61 ∧ d ≠ 62) (hh : Holds m tp (op.text ++ [d])) :
    scantableLoop m tp 11 [62, 189, 60, 190, 190, 189, 60, 189, 188, 0] 0 0 =
      (some op.text.length, op.index) := by
  obtain ⟨hd0, hd1, hd2, hd3⟩ := hd
  have key : ∀ (c0 c1 : Nat), c0 < 128 → c1 < 128 → m tp = c0 → m (tp + 1) = c1 →
      (m (tp + 0) % 256 = c0 ∧ schar (m (tp + 0)) = c0) ∧
      (m (tp + 1) % 256 = c1 ∧ schar (m (tp + 1)) = c1) := by
    intro c0 c1 h0 h1 e0 e1
    rw [Nat.add_zero, e0, e1, schar_small _ h0, schar_small _ h1,
      Nat.mod_eq_of_lt (by omega), Nat.mod_eq_of_lt (by omega)]
    exact ⟨⟨rfl, rfl⟩, rfl, rfl⟩
  cases op with
  | ge =>
    obtain ⟨⟨hm0, hs0⟩, hm1, hs1⟩ := key 62 61 (by decide) (by decide) hh.1 hh.2.1
    show scantableLoop m tp (10 + 1) _ 0 0 = _
    rw [scantableLoop_match _ _ _ _ _ _ _ (by decide) hm0]
    show scantableLoop m tp (9 + 1) _ (0 + 1) 0 = _
    rw [scantableLoop_last _ _ _ _ _ _ _ (by decide) (by rw [Nat.zero_add, hm1]; decide)
      (by rw [Nat.zero_add, hs1]; decide)]
    rfl
  | ne =>
    obtain ⟨⟨hm0, hs0⟩, hm1, hs1⟩ := key 60 62 (by decide) (by decide) hh.1 hh.2.1
    show scantableLoop m tp (10 + 1) _ 0 0 = _
    rw [scantableLoop_skip _ _ _ _ _ _ _ (by decide) (by rw [hm0]; decide) (by rw [hs0]; decide)]
    show scantableLoop m tp (9 + 1) [60, 190, 190, 189, 60, 189, 188, 0] 0 1 = _
    rw [scantableLoop_match _ _ _ _ _ _ _ (by decide) hm0]
    show scantableLoop m tp (8 + 1) _ (0 + 1) 1 = _
    rw [scantableLoop_last _ _ _ _ _ _ _ (by decide) (by rw [Nat.zero_add, hm1]; decide)
      (by rw [Nat.zero_add, hs1]; decide)]
    rfl
  | gt =>
    obtain ⟨⟨hm0, hs0⟩, hm1, hs1⟩ := key 62 d (by decide) hd0 hh.1 hh.2.1
    show scantableLoop m tp (10 + 1) _ 0 0 = _
    rw [scantableLoop_match _ _ _ _ _ _ _ (by decide) hm0]
    show scantableLoop m tp (9 + 1) _ (0 + 1) 0 = _
    rw [scantableLoop_skip _ _ _ _ _ _ _ (by decide) (by rw [Nat.zero_add, hm1]; omega)
      (by rw [Nat.zero_add, hs1]; omega)]
    show scantableLoop m tp (8 + 1) [60, 190, 190, 189, 60, 189, 188, 0] 0 1 = _
    rw [scantableLoop_skip _ _ _ _ _ _ _ (by decide) (by rw [hm0]; decide) (by rw [hs0]; decide)]
    show scantableLoop m tp (7 + 1) [190, 189, 60, 189, 188, 0] 0 2 = _
    rw [scantableLoop_last _ _ _ _ _ _ _ (by decide) (by rw [hm0]; decide) (by rw [hs0]; decide)]
    rfl
  | eq =>
    obtain ⟨⟨hm0, hs0⟩, -⟩ := key 61 d (by decide) hd0 hh.1 hh.2.1
    show scantableLoop m tp (10 + 1) _ 0 0 = _
    rw [scantableLoop_skip _ _ _ _ _ _ _ (by decide) (by rw [hm0]; decide) (by rw [hs0]; decide)]
    show scantableLoop m tp (9 + 1) [60, 190, 190, 189, 60, 189, 188, 0] 0 1 = _
    rw [scantableLoop_skip _ _ _ _ _ _ _ (by decide) (by rw [hm0]; decide) (by rw [hs0]; decide)]
    show scantableLoop m tp (8 + 1) [190, 189, 60, 189, 188, 0] 0 2 = _
    rw [scantableLoop_skip _ _ _ _ _ _ _ (by decide) (by rw [hm0]; decide) (by rw [hs0]; decide)]
    show scantableLoop m tp (7 + 1) [189, 60, 189, 188, 0] 0 3 = _
    rw [scantableLoop_last _ _ _ _ _ _ _ (by decide) (by rw [hm0]; decide) (by rw [hs0]; decide)]
    rfl
  | le =>
    obtain ⟨⟨hm0, hs0⟩, hm1, hs1⟩ := key 60 61 (by decide) (by decide) hh.1 hh.2.1
    show scantableLoop m tp (10 + 1) _ 0 0 = _
    rw [scantableLoop_skip _ _ _ _ _ _ _ (by decide) (by rw [hm0]; decide) (by rw [hs0]; decide)]
    show scantableLoop m tp (9 + 1) [60, 190, 190, 189, 60, 189, 188, 0] 0 1 = _
    rw [scantableLoop_match _ _ _ _ _ _ _ (by decide) hm0]
    show scantableLoop m tp (8 + 1) _ (0 + 1) 1 = _
    rw [scantableLoop_skip _ _ _ _ _ _ _ (by decide) (by rw [Nat.zero_add, hm1]; decide)
      (by rw [Nat.zero_add, hs1]; decide)]
    show scantableLoop m tp (7 + 1) [190, 189, 60, 189, 188, 0] 0 2 = _
    rw [scantableLoop_skip _ _ _ _ _ _ _ (by decide) (by rw [hm0]; decide) (by rw [hs0]; decide)]
    show scantableLoop m tp (6 + 1) [189, 60, 189, 188, 0] 0 3 = _
    rw [scantableLoop_skip _ _ _ _ _ _ _ (by decide) (by rw [hm0]; decide) (by rw [hs0]; decide)]
    show scantableLoop m tp (5 + 1) [60, 189, 188, 0] 0 4 = _
    rw [scantableLoop_match _ _ _ _ _ _ _ (by decide) hm0]
    show scantableLoop m tp (4 + 1) _ (0 + 1) 4 = _
    rw [scantableLoop_last _ _ _ _ _ _ _ (by decide) (by rw [Nat.zero_add, hm1]; decide)
      (by rw [Nat.zero_add, hs1]; decide)]
    rfl
  | lt =>
    obtain ⟨⟨hm0, hs0⟩, hm1, hs1⟩ := key 60 d (by decide) hd0 hh.1 hh.2.1
    show scantableLoop m tp (10 + 1) _ 0 0 = _
    rw [scantableLoop_skip _ _ _ _ _ _ _ (by decide) (by rw [hm0]; decide) (by rw [hs0]; decide)]
    show scantableLoop m tp (9 + 1) [60, 190, 190, 189, 60, 189, 188, 0] 0 1 = _
    rw [scantableLoop_match _ _ _ _ _ _ _ (by decide) hm0]
    show scantableLoop m tp (8 + 1) _ (0 + 1) 1 = _
    rw [scantableLoop_skip _ _ _ _ _ _ _ (by decide) (by rw [Nat.zero_add, hm1]; omega)
      (by rw [Nat.zero_add, hs1]; omega)]
    show scantableLoop m tp (7 + 1) [190, 189, 60, 189, 188, 0] 0 2 = _
    rw [scantableLoop_skip _ _ _ _ _ _ _ (by decide) (by rw [hm0]; decide) (by rw [hs0]; decide)]
    show scantableLoop m tp (6 + 1) [189, 60, 189, 188, 0] 0 3 = _
    rw [scantableLoop_skip _ _ _ _ _ _ _ (by decide) (by rw [hm0]; decide) (by rw [hs0]; decide)]
    show scantableLoop m tp (5 + 1) [60, 189, 188, 0] 0 4 = _
    rw [scantableLoop_match _ _ _ _ _ _ _ (by decide) hm0]
    show scantableLoop m tp (4 + 1) _ (0 + 1) 4 = _
    rw [scantableLoop_skip _ _ _ _ _ _ _ (by decide) (by rw [Nat.zero_add, hm1]; omega)
      (by rw [Nat.zero_add, hs1]; omega)]
    show scantableLoop m tp (3 + 1) [188, 0] 0 5 = _
    rw [scantableLoop_last _ _ _ _ _ _ _ (by decide) (by rw [hm0]; decide) (by rw [hs0]; decide)]
    rfl



theorem relop_head (op : RelOp) : ∃ h t, op.text = h :: t ∧ (h = 60 ∨ h = 61 ∨ h = 62) := by
  cases op
  · exact ⟨62, [61], rfl, by decide⟩
  · exact ⟨60, [62], rfl, by decide⟩
  · exact ⟨62, [], rfl, by decide⟩
  · exact ⟨61, [], rfl, by decide⟩
  · exact ⟨60, [61], rfl, by decide⟩
  · exact ⟨60, [], rfl, by decide⟩

theorem atom_head_class (x : Atom) (hx : x.ok) :
    ∃ h t, x.text = h :: t ∧ (h = 38 ∨ (48 ≤ h ∧ h ≤ 57) ∨ (65 ≤ h ∧ h ≤ 90)) := by
  cases x with
  | var i =>
    have hi : i < 26 := hx
    exact ⟨65 + i, [], rfl, Or.inr (Or.inr (by omega))⟩
  | num n =>
    by_cases hn : n = 0
    · subst hn; exact ⟨48, [], rfl, Or.inr (Or.inl (by decide))⟩
    · obtain ⟨d, ds, e, h1, h2⟩ := decimal_head n (by omega)
      exact ⟨d, ds, e, Or.inr (Or.inl (by omega))⟩
  | hex ds => exact ⟨38, 72 :: ds.map hexDigit, rfl, Or.inl rfl⟩

theorem scantable_relop_op (st : State) (op : RelOp) (d : Nat)
    (hd : d < 128 ∧ d ≠ 60 ∧ d ≠ 61 ∧ d ≠ 62) (hnb : d ≠ 32 ∧ d ≠ 9)
    (hh : Holds st.mem st.txtpos (op.text ++ [d])) :
    scantable relop_tab st =
      { st with txtpos := st.txtpos + op.text.length, table_index := op.index } := by
  obtain ⟨h, t, eh, hv⟩ := relop_head op
  have h0 : st.mem st.txtpos = h := by
    have := hh; rw [eh] at this; exact this.1
  have hdd : st.mem (st.txtpos + op.text.length) = d := by
    rw [holds_append] at hh; exact hh.2.1
  unfold scantable
  rw [ignore_blanks_stop st (by rw [h0]; unfold SPACE TAB; omega), relop_tab_eq]
  dsimp only
  have e := scantableLoop_relop st.mem st.txtpos op d hd hh
  have e2 : [62, 189, 60, 190, 190, 189, 60, 189, 188, 0].length + 1 = 11 := rfl
  rw [e2, e]
  dsimp only
  rw [ignore_blanks_stop _ (by dsimp only; rw [hdd]; unfold SPACE TAB; omega)]
  have : op.index % 256 = op.index := by cases op <;> rfl
  rw [this]

theorem relop_index (op : RelOp) (a b : Int) : relop op.index a b = decide (op.holds a b) := by
  cases op <;> simp [relop, RelOp.index, RelOp.holds, RELOP_GE, RELOP_NE, RELOP_GT, RELOP_EQ,
    RELOP_LE, RELOP_LT]

theorem relop_index_ne (op : RelOp) : op.index ≠ RELOP_UNKNOWN := by
  cases op <;> decide



/-! ## Wraparound -/

theorem toShort_range (x : Int) :
    -32768 ≤ toShort x ∧ toShort x ≤ 32767 ∧ (toShort x - x) % 65536 = 0 := by
  unfold toShort; omega

theorem expression_neg (st : State) (x : Atom) (hh : Holds st.mem st.txtpos (45 :: x.text ++ [NL]))
    (hx : x.ok) (he : st.exp_error = 0) (hroom : st.txtpos + (x.text.length + 1) < MEMSIZE) :
    expression st = some (toShort (0 - x.val st.mem),
      { st with txtpos := st.txtpos + (x.text.length + 1), table_index := RELOP_UNKNOWN }) := by
  have h0 : st.mem st.txtpos = 45 := hh.1
  have hts : 45 :: x.text ++ [NL] = termsText [(false, (x, []))] ++ [NL] := by
    simp [termsText, addText, Product.text]
  have hl : (termsText [(false, (x, []))]).length = x.text.length + 1 := by
    simp [termsText, addText, Product.text]
  rw [hts] at hh
  have h2 := expr2Loop_terms (expressionD 32767) st NL (by decide) [(false, (x, []))]
    st.txtpos 0 MEMSIZE hh (by simp [Product.ok, hx]) (by rw [hl]; exact hroom)
    (by unfold MEMSIZE; simp)
  rw [hl] at h2
  have hnl : st.mem (st.txtpos + (x.text.length + 1)) = NL := by
    rw [holds_append, hl] at hh
    exact hh.2.1
  rw [expression_unfold]
  unfold expressionBody expr2
  rw [h0, if_pos (Or.inl rfl)]
  have est : st = { st with txtpos := st.txtpos } := rfl
  rw [est, h2]
  dsimp only
  rw [if_neg (by rw [he]; decide), scantable_relop_none _ NL hnl (by decide)]
  dsimp only
  rw [if_pos rfl]
  rfl



/-! ## Literals -/

theorem digitsVal_natVal_aux (b : Nat) (ds : List Nat) (a : Nat) :
    digitsVal b (toShort a) ds = toShort ((ds.foldl (fun a d => a * b + d) a : Nat)) := by
  induction ds generalizing a with
  | nil => simp only [digitsVal, List.foldl]
  | cons d ds ih =>
    simp only [digitsVal, List.foldl]
    rw [toShort_step, ← ih]
    push_cast
    rfl

theorem digitsVal_natVal (b : Nat) (ds : List Nat) :
    digitsVal b 0 ds = toShort (natVal b ds) := by
  have := digitsVal_natVal_aux b ds 0
  rw [show toShort ((0 : Nat) : Int) = 0 from by decide] at this
  exact this

theorem digitsVal_natVal10 (ds : List Nat) : digitsVal 10 0 ds = toShort (natVal 10 ds) := by
  exact_mod_cast digitsVal_natVal 10 ds

theorem digitsVal_natVal16 (ds : List Nat) : digitsVal 16 0 ds = toShort (natVal 16 ds) := by
  exact_mod_cast digitsVal_natVal 16 ds

theorem hexLoop_chars (m : Mem) (cs : List Nat) (c : Nat) (fuel : Nat) (a : Int) (p : Nat)
    (hh : Holds m p (cs ++ [c])) (hd : ∀ x ∈ cs, IsHexChar x) (hc : ¬ IsHexChar c)
    (hfuel : cs.length < fuel) :
    hexLoop m fuel a p = (digitsVal 16 a (cs.map hexVal), p + cs.length) := by
  unfold IsHexChar at hc
  induction cs generalizing fuel a p with
  | nil =>
    obtain ⟨f, rfl⟩ : ∃ f, fuel = f + 1 := ⟨fuel - 1, by simp at hfuel; omega⟩
    have h0 : m p = c := hh.1
    rw [hexLoop, h0, if_neg (by omega), if_neg (by omega), if_neg (by omega)]
    rfl
  | cons x xs ih =>
    obtain ⟨f, rfl⟩ : ∃ f, fuel = f + 1 := ⟨fuel - 1, by simp at hfuel; omega⟩
    have h0 : m p = x := hh.1
    have hrec := ih f (toShort (a * 16 + hexVal x)) (p + 1) hh.2 (fun y hy => hd y (by simp [hy]))
      (by simp only [List.length_cons] at hfuel; omega)
    have hx := hd x (by simp)
    unfold IsHexChar at hx
    have e2 : p + 1 + xs.length = p + (xs.length + 1) := by omega
    simp only [List.map_cons, digitsVal, List.length_cons]
    rw [← e2, ← hrec, hexLoop, h0]
    unfold hexVal
    rcases hx with hx | hx | hx
    · rw [if_neg (by omega), if_neg (by omega), if_pos hx, if_neg (by omega), if_neg (by omega)]
      congr 2
      omega
    · rw [if_neg (by omega), if_pos hx, if_neg (by omega), if_pos (by omega)]
      congr 2
      omega
    · rw [if_pos hx, if_pos (by omega)]
      congr 2
      omega



/-! ## Cells -/

theorem byteOf_lt (x : Int) : byteOf x < 256 := by
  unfold byteOf; omega

theorem rd16_wr16_same (m : Mem) (a : Nat) (v : Int) : rd16 (wr16 m a v) a = toShort v := by
  unfold rd16 wr16
  rw [wr_same, wr_other _ _ _ _ (by omega), wr_same]
  unfold byteOf toShort
  omega

theorem rd16_wr16_other (m : Mem) (a b : Nat) (v : Int) (h : b + 1 < a ∨ a + 1 < b) :
    rd16 (wr16 m a v) b = rd16 m b := by
  unfold rd16 wr16
  rw [wr_other _ _ _ _ (by omega), wr_other _ _ _ _ (by omega), wr_other _ _ _ _ (by omega),
    wr_other _ _ _ _ (by omega)]

theorem rd16_zeroCells_in (m : Mem) (start size k : Nat) (h : k < size) :
    rd16 (zeroCells m start size) (start + 2 * k) = 0 := by
  unfold rd16 zeroCells
  rw [if_pos (by omega), if_pos (by omega)]
  decide

theorem rd16_zeroCells_out (m : Mem) (start size b : Nat) (h : b + 1 < start ∨ start + 2 * size ≤ b) :
    rd16 (zeroCells m start size) b = rd16 m b := by
  unfold rd16 zeroCells
  rw [if_neg (by omega), if_neg (by omega)]

theorem dimClearLoop_eq (n : Nat) (m : Mem) (start : Nat) :
    dimClearLoop n m start = zeroCells m start n := by
  induction n with
  | zero => funext a; unfold dimClearLoop zeroCells; rw [if_neg (by omega)]
  | succ n ih =>
    funext a
    rw [dimClearLoop, ih]
    unfold wr16 wr zeroCells
    have e0 : byteOf 0 = 0 := by decide
    have e1 : byteOf (0 / 256) = 0 := by decide
    rw [e0, e1]
    by_cases h1 : a = start + 2 * n + 1
    · rw [if_pos h1, if_pos (by omega)]
    · rw [if_neg h1]
      by_cases h2 : a = start + 2 * n
      · rw [if_pos h2, if_pos (by omega)]
      · rw [if_neg h2]
        by_cases h3 : start ≤ a ∧ a < start + 2 * n
        · rw [if_pos h3, if_pos (by omega)]
        · rw [if_neg h3, if_neg (by omega)]

theorem toShort_id (v : Int) (h : -32768 ≤ v ∧ v ≤ 32767) : toShort v = v := by
  unfold toShort; omega

theorem rd16_range (m : Mem) (a : Nat) : -32768 ≤ rd16 m a ∧ rd16 m a ≤ 32767 := by
  unfold rd16 toShort; omega

/-- The descriptor that `dim` writes for a new array that fits above the
tables: `size` cells, all zero, at the new `top_sp`. -/
theorem dim_new (st : State) (name size : Nat) (hname : name < 26)
    (hsz : rd16 st.mem (array_sz + 2 * name) < size) (hs : 1 ≤ size ∧ size ≤ 32767)
    (hfit : pgm_start + 2 * size ≤ st.top_sp) (htop : st.top_sp ≤ MEMSIZE) :
    ∃ st2, dim name size st = some st2 ∧ st2.top_sp + 2 * size = st.top_sp ∧
      st2.sp = st2.top_sp ∧ rd16 st2.mem (array_sz + 2 * name) = size ∧
      rd16 st2.mem (array_table + 2 * name) = st2.top_sp ∧
      (∀ k, k < size → rd16 st2.mem (st2.top_sp + 2 * k) = 0) ∧
      (∀ j, j < 26 → j ≠ name → rd16 st2.mem (array_sz + 2 * j) = rd16 st.mem (array_sz + 2 * j)
        ∧ rd16 st2.mem (array_table + 2 * j) = rd16 st.mem (array_table + 2 * j)) ∧
      (∀ j, j < 26 → rd16 st2.mem (variables_table + 2 * j) =
        rd16 st.mem (variables_table + 2 * j)) := by
  have hps : pgm_start = 162 := rfl
  have hat : array_table = 54 := rfl
  have has : array_sz = 108 := rfl
  have hvt : variables_table = 0 := rfl
  have hvs : VAR_SIZE = 2 := rfl
  have hms : MEMSIZE = 32768 := rfl
  unfold dim
  rw [if_neg (by omega), if_neg (by rw [hvs]; omega), hvs]
  have e2 : size * 2 = 2 * size := by omega
  rw [e2]
  refine ⟨_, rfl, ?_, rfl, ?_, ?_, ?_, ?_, ?_⟩
  · dsimp only; omega
  · dsimp only
    rw [rd16_wr16_same]
    exact toShort_id _ (by omega)
  · dsimp only
    rw [rd16_wr16_other _ _ _ _ (by omega), rd16_wr16_same]
    exact toShort_id _ (by omega)
  · intro k hk
    dsimp only
    rw [rd16_wr16_other _ _ _ _ (by omega), rd16_wr16_other _ _ _ _ (by omega),
      rd16_zeroCells_in _ _ _ _ hk]
  · intro j hj hne
    dsimp only
    constructor
    · rw [rd16_wr16_other _ _ _ _ (by omega), rd16_wr16_other _ _ _ _ (by omega),
        rd16_zeroCells_out _ _ _ _ (by omega)]
    · rw [rd16_wr16_other _ _ _ _ (by omega), rd16_wr16_other _ _ _ _ (by omega),
        rd16_zeroCells_out _ _ _ _ (by omega)]
  · intro j hj
    dsimp only
    rw [rd16_wr16_other _ _ _ _ (by omega), rd16_wr16_other _ _ _ _ (by omega),
      rd16_zeroCells_out _ _ _ _ (by omega)]

theorem toUInt_nonneg (v : Int) (h : 0 ≤ v) (h2 : v ≤ 32767) : toUInt v = v.toNat := by
  unfold toUInt; omega

theorem toUInt_neg (v : Int) (h : v < 0) (h2 : -32768 ≤ v) : 32768 ≤ toUInt v := by
  unfold toUInt; omega

/-- The test `index >= arr_siz` of the two array paths, made on `unsigned
int`: for a size in `0..32767` it fails exactly for the indices `0..size-1`. -/
theorem bounds_test (v siz : Int) (hv : -32768 ≤ v ∧ v ≤ 32767) (hs : 0 ≤ siz ∧ siz ≤ 32767) :
    toUInt v ≥ toUInt siz ↔ ¬ (0 ≤ v ∧ v < siz) := by
  unfold toUInt; omega

/-! ## Pointer cells -/

theorem wrBytes_other (n : Nat) (m : Mem) (a v b : Nat) (h : b < a ∨ a + n ≤ b) :
    wrBytes n m a v b = m b := by
  induction n generalizing m a v with
  | zero => rfl
  | succ n ih =>
    rw [wrBytes, ih _ _ _ (by omega), wr_other _ _ _ _ (by omega)]

theorem rdBytes_congr (n : Nat) (m1 m2 : Mem) (a : Nat) (h : ∀ i, i < n → m1 (a + i) = m2 (a + i)) :
    rdBytes m1 n a = rdBytes m2 n a := by
  induction n generalizing a with
  | zero => rfl
  | succ n ih =>
    rw [rdBytes, rdBytes, ih (a + 1) (fun i hi => by
      have := h (i + 1) (by omega)
      rw [show a + 1 + i = a + (i + 1) by omega]; exact this)]
    have := h 0 (by omega)
    rw [Nat.add_zero] at this
    rw [this]

theorem rdBytes_wrBytes_same (n : Nat) (m : Mem) (a v : Nat) (h : v < 256 ^ n) :
    rdBytes (wrBytes n m a v) n a = v := by
  induction n generalizing m a v with
  | zero => simp at h; subst h; rfl
  | succ n ih =>
    rw [rdBytes, wrBytes, wrBytes_other _ _ _ _ _ (by omega), wr_same,
      ih _ _ _ (by rw [pow_succ] at h; omega)]
    omega

theorem rd16_wrBytes_other (n : Nat) (m : Mem) (a v b : Nat) (h : b + 1 < a ∨ a + n ≤ b) :
    rd16 (wrBytes n m a v) b = rd16 m b := by
  unfold rd16
  rw [wrBytes_other _ _ _ _ _ (by omega), wrBytes_other _ _ _ _ _ (by omega)]

theorem rdBytes_wr16_other (n : Nat) (m : Mem) (a b : Nat) (v : Int) (h : b + 1 < a ∨ a + n ≤ b) :
    rdBytes (wr16 m b v) n a = rdBytes m n a := by
  apply rdBytes_congr
  intro i hi
  unfold wr16
  rw [wr_other _ _ _ _ (by omega), wr_other _ _ _ _ (by omega)]

theorem rdBytes_wrBytes_other (n k : Nat) (m : Mem) (a b v : Nat) (h : b + k ≤ a ∨ a + n ≤ b) :
    rdBytes (wrBytes k m b v) n a = rdBytes m n a := by
  apply rdBytes_congr
  intro i hi
  rw [wrBytes_other _ _ _ _ _ (by omega)]

theorem memory_addr_small (x : Nat) (h : x < MEMSIZE) : memory_addr + x < 256 ^ 8 := by
  have hms : MEMSIZE = 32768 := rfl
  have hma : memory_addr = 93824992247904 := by unfold memory_addr; rfl
  rw [hma]
  rw [hms] at h
  norm_num
  omega

theorem memory_addr_pos : 0 < memory_addr := by unfold memory_addr; norm_num

theorem rdTxtpos_wrTxtpos (m : Mem) (a tp : Nat) (h : tp < MEMSIZE) :
    rdTxtpos (wrTxtpos m a tp) a = some tp := by
  unfold rdTxtpos wrTxtpos
  rw [rdBytes_wrBytes_same _ _ _ _ (memory_addr_small tp h),
    if_pos ⟨Nat.le_add_right _ _, Nat.add_lt_add_left h _⟩, Nat.add_sub_cancel_left]

theorem rdLine_wrLine (m : Mem) (a line : Nat) (h : line < MEMSIZE) :
    rdLine (wrLine m a line) a = some line := by
  unfold rdLine wrLine
  by_cases h0 : line = 0
  · rw [if_pos h0, rdBytes_wrBytes_same _ _ _ _ (by norm_num), if_pos rfl, h0]
  · have hp := memory_addr_pos
    rw [if_neg h0, rdBytes_wrBytes_same _ _ _ _ (memory_addr_small line h),
      if_neg (by omega), if_pos ⟨by omega, Nat.add_lt_add_left h _⟩, Nat.add_sub_cancel_left]

theorem rdTxtpos_congr (m1 m2 : Mem) (a : Nat) (h : ∀ i, i < 8 → m1 (a + i) = m2 (a + i)) :
    rdTxtpos m1 a = rdTxtpos m2 a := by
  unfold rdTxtpos
  rw [rdBytes_congr 8 m1 m2 a h]

theorem rdLine_congr (m1 m2 : Mem) (a : Nat) (h : ∀ i, i < 8 → m1 (a + i) = m2 (a + i)) :
    rdLine m1 a = rdLine m2 a := by
  unfold rdLine
  rw [rdBytes_congr 8 m1 m2 a h]

theorem wr16_other (m : Mem) (a b : Nat) (v : Int) (h : b < a ∨ a + 2 ≤ b) :
    wr16 m a v b = m b := by
  unfold wr16
  rw [wr_other _ _ _ _ (by omega), wr_other _ _ _ _ (by omega)]


/-! ## `FOR` and `NEXT` -/

theorem to_tab_eq : to_tab = [84, 207, 0] := by decide

theorem step_tab_eq : step_tab = [83, 84, 69, 208, 0] := by decide

theorem scantable_to (st : State) (h : Nat) (hh : Holds st.mem st.txtpos [84, 79, 32, h])
    (hnb : h ≠ 32 ∧ h ≠ 9) (hroom : st.txtpos + 2 < MEMSIZE) :
    scantable to_tab st = { st with txtpos := st.txtpos + 3, table_index := 0 } := by
  obtain ⟨h0, h1, h2, h3, -⟩ := hh
  unfold scantable
  rw [ignore_blanks_stop st (by rw [h0]; decide), to_tab_eq]
  dsimp only
  have e : scantableLoop st.mem st.txtpos ([84, 207, 0].length + 1) [84, 207, 0] 0 0 =
      (some 2, 0) := by
    show scantableLoop st.mem st.txtpos (3 + 1) _ 0 0 = _
    rw [scantableLoop_match _ _ _ _ _ _ _ (by decide) (by rw [Nat.add_zero, h0])]
    show scantableLoop st.mem st.txtpos (2 + 1) _ (0 + 1) 0 = _
    rw [scantableLoop_last _ _ _ _ _ _ _ (by decide) (by rw [Nat.zero_add, h1]; decide)
      (by rw [Nat.zero_add, h1]; decide)]
  rw [e]
  dsimp only
  rw [ignore_blanks_skip _ (by dsimp only; exact h2)
    (by dsimp only; rw [h3]; unfold SPACE TAB; omega) (by dsimp only; omega)]

theorem scantable_step_nl (st : State) (h0 : st.mem st.txtpos = NL) :
    scantable step_tab st = { st with table_index := 1 } := by
  unfold scantable
  rw [ignore_blanks_stop st (by rw [h0]; decide), step_tab_eq]
  dsimp only
  have e : scantableLoop st.mem st.txtpos ([83, 84, 69, 208, 0].length + 1)
      [83, 84, 69, 208, 0] 0 0 = (none, 1) := by
    show scantableLoop st.mem st.txtpos (5 + 1) _ 0 0 = _
    rw [scantableLoop_skip _ _ _ _ _ _ _ (by decide) (by rw [Nat.add_zero, h0]; decide)
      (by rw [Nat.add_zero, h0]; decide)]
    rfl
  rw [e]
  rfl

/-- The evaluator on an atom that a blank and a byte `c` follow, where `c`
continues no expression. -/
theorem expression_atom_blank (st : State) (x : Atom) (c : Nat) (hx : x.ok)
    (hh : Holds st.mem st.txtpos (x.text ++ [32, c]))
    (hc : c < 128 ∧ c ≠ 32 ∧ c ≠ 9 ∧ c ≠ 42 ∧ c ≠ 47 ∧ c ≠ 43 ∧ c ≠ 45 ∧ c ≠ 77 ∧
      c ≠ 60 ∧ c ≠ 61 ∧ c ≠ 62)
    (he : st.exp_error = 0) (hroom : st.txtpos + x.text.length + 1 < MEMSIZE) :
    expression st = some (x.val st.mem,
      { st with txtpos := st.txtpos + x.text.length + 1, table_index := RELOP_UNKNOWN }) := by
  obtain ⟨c1, c2, c3, c4, c5, c6, c7, c8, c9, c10, c11⟩ := hc
  obtain ⟨a0, at0, ea, ha⟩ := atom_head x hx
  have h0 : st.mem st.txtpos = a0 := by
    have := hh; rw [ea] at this; exact this.1
  have hatom : Holds st.mem st.txtpos (x.text ++ [32]) := by
    rw [holds_append] at hh ⊢
    exact ⟨hh.1, hh.2.1, trivial⟩
  have hb : st.mem (st.txtpos + x.text.length) = 32 := by
    rw [holds_append] at hh; exact hh.2.1
  have hcc : st.mem (st.txtpos + x.text.length + 1) = c := by
    rw [holds_append] at hh; exact hh.2.2.1
  have hms : MEMSIZE = 32767 + 1 := rfl
  rw [expression_unfold]
  unfold expressionBody expr2 expr3
  rw [h0, if_neg (by omega), expr4_atom _ st x 32 hx (by decide) hatom (by omega)]
  dsimp only
  rw [ignore_blanks_skip _ (by dsimp only; exact hb)
    (by dsimp only; rw [hcc]; unfold SPACE TAB; omega) (by dsimp only; omega)]
  dsimp only
  rw [hms, expr3Loop]
  dsimp only
  rw [hcc, if_neg c4, if_neg c5, if_neg (by omega)]
  dsimp only
  rw [expr2Loop]
  dsimp only
  rw [hcc, if_neg c7, if_neg c6]
  dsimp only
  rw [if_neg (by rw [he]; decide),
    scantable_relop_none _ c (by dsimp only; exact hcc) ⟨c1, c2, c3, c9, c10, c11⟩]
  dsimp only
  rw [if_pos rfl]



theorem expression_atom_nl (st : State) (x : Atom) (hx : x.ok)
    (hh : Holds st.mem st.txtpos (x.text ++ [NL])) (he : st.exp_error = 0)
    (hroom : st.txtpos + x.text.length < MEMSIZE) :
    expression st = some (x.val st.mem,
      { st with txtpos := st.txtpos + x.text.length, table_index := RELOP_UNKNOWN }) := by
  have et : SumOf.text ((x, []), []) = x.text := by simp [SumOf.text, Product.text]
  have h := expression_sum st ((x, []), []) (by rw [et]; exact hh)
    (by simp [SumOf.ok, Product.ok, hx]) he (by rw [et]; exact hroom)
  rw [h, et]
  rfl

theorem check_statement_end_nl (st : State) (h0 : st.mem st.txtpos = NL) :
    check_statement_end st = (true, st) := by
  unfold check_statement_end
  rw [ignore_blanks_stop st (by rw [h0]; decide)]
  simp [h0]

/-- The text of `FOR` after the keyword: `V=x TO y` with atoms `x` and `y`. -/
theorem forloop_atoms (st : State) (V : Nat) (x y : Atom) (hV : 65 ≤ V ∧ V ≤ 90) (hx : x.ok)
    (hy : y.ok)
    (hh : Holds st.mem st.txtpos ([V, 61] ++ x.text ++ [32, 84, 79, 32] ++ y.text ++ [NL]))
    (hroom : st.txtpos + (x.text.length + y.text.length + 6) < MEMSIZE) :
    forloop st = pushFor V (x.val st.mem) (y.val st.mem) 1
      { st with txtpos := st.txtpos + (x.text.length + y.text.length + 6), exp_error := 0,
                table_index := 1 } := by
  obtain ⟨x0, xt, ex, hx0⟩ := atom_head_class x hx
  obtain ⟨y0, yt, ey, hy0⟩ := atom_head_class y hy
  have hh' := hh
  simp only [List.append_assoc, List.cons_append, List.nil_append] at hh'
  obtain ⟨h0, h1, hrest⟩ := hh'
  rw [holds_append] at hrest
  obtain ⟨hxs, hr2⟩ := hrest
  obtain ⟨hb1, hT, hO, hb2, hr3⟩ := hr2
  rw [holds_append] at hr3
  obtain ⟨hys, hnl, -⟩ := hr3
  have e1 : st.txtpos + 1 + 1 = st.txtpos + 2 := rfl
  rw [e1] at hxs hb1 hT hO hb2 hys hnl
  have hxh : st.mem (st.txtpos + 2) = x0 := by
    have := hxs; rw [ex] at this; exact this.1
  have hyh : st.mem (st.txtpos + 2 + x.text.length + 1 + 1 + 1 + 1) = y0 := by
    have := hys; rw [ey] at this; exact this.1
  -- the `=`
  have s1 := scantable_relop_op { st with txtpos := st.txtpos + 1 } RelOp.eq x0
    ⟨by omega, by omega, by omega, by omega⟩ (by omega) ⟨h1, hxh, trivial⟩
  -- the initial value
  have s2 := expression_atom_blank
    { st with txtpos := st.txtpos + 2, table_index := RELOP_EQ, exp_error := 0 } x 84 hx
    (by
      dsimp only
      rw [holds_append]
      exact ⟨hxs, hb1, hT, trivial⟩)
    (by decide) rfl (by dsimp only; omega)
  -- `TO`
  have s3 := scantable_to
    { st with txtpos := st.txtpos + 2 + x.text.length + 1, table_index := RELOP_UNKNOWN,
              exp_error := 0 } y0
    ⟨hT, hO, hb2, hyh, trivial⟩ (by omega) (by dsimp only; omega)
  -- the terminal value
  have s4 := expression_atom_nl
    { st with txtpos := st.txtpos + 2 + x.text.length + 1 + 3, table_index := 0,
              exp_error := 0 } y hy
    (by
      dsimp only
      rw [holds_append]
      exact ⟨hys, hnl, trivial⟩)
    rfl (by dsimp only; omega)
  -- no `STEP`
  have s5 := scantable_step_nl
    { st with txtpos := st.txtpos + 2 + x.text.length + 1 + 3 + y.text.length,
              table_index := RELOP_UNKNOWN, exp_error := 0 } hnl
  have s6 := check_statement_end_nl
    { st with txtpos := st.txtpos + 2 + x.text.length + 1 + 3 + y.text.length,
              table_index := 1, exp_error := 0 } hnl
  have s1' : scantable relop_tab { st with txtpos := st.txtpos + 1 } =
      { st with txtpos := st.txtpos + 2, table_index := RELOP_EQ } := s1
  dsimp only at s2 s3 s4 s5 s6
  have hv : ¬ (V < 65 ∨ V > 90) := by omega
  have e2 : st.txtpos + 2 + x.text.length + 1 + 3 + y.text.length =
      st.txtpos + (x.text.length + y.text.length + 6) := by omega
  unfold forloop
  simp only [h0, hv, if_false, s1', s2, s3, s4, s5, s6, ne_eq, not_true_eq_false,
    not_false_eq_true, if_true, hnl, and_self, reduceCtorEq, Bool.true_eq_false,
    OfNat.ofNat_ne_zero, one_ne_zero]
  rw [e2]



theorem pushFor_spec (V : Nat) (initial terminal step : Int) (st : State)
    (hsl : st.stack_limit = 0) (hsp : SFF_SIZE ≤ st.sp) :
    pushFor V initial terminal step st = some (Lbl.run_next_statement,
      { st with sp := st.sp - SFF_SIZE,
                mem := wrLine (wrTxtpos (wr16 (wr16 (wr (wr
                  (wr16 st.mem (variables_table + 2 * (V - 65)) initial)
                  (st.sp - SFF_SIZE) STACK_FOR_FLAG) (st.sp - SFF_SIZE + 1) V)
                  (st.sp - SFF_SIZE + 2) terminal) (st.sp - SFF_SIZE + 4) step)
                  (st.sp - SFF_SIZE + FRAME_TXTPOS) st.txtpos)
                  (st.sp - SFF_SIZE + FRAME_LINE) st.current_line }) := by
  unfold pushFor
  rw [if_neg (by rw [hsl]; omega), if_neg (by omega)]

/-- The memory that `pushFor` leaves: the cell of the variable, the frame, and
nothing else. -/
theorem pushFor_mem (V : Nat) (initial terminal step : Int) (m : Mem) (f tp line : Nat)
    (hV : 65 ≤ V ∧ V ≤ 90) (hf : pgm_start ≤ f) :
    let m2 := wrLine (wrTxtpos (wr16 (wr16 (wr (wr
      (wr16 m (variables_table + 2 * (V - 65)) initial) f STACK_FOR_FLAG) (f + 1) V)
      (f + 2) terminal) (f + 4) step) (f + FRAME_TXTPOS) tp) (f + FRAME_LINE) line
    m2 f = STACK_FOR_FLAG ∧ m2 (f + 1) = V ∧ rd16 m2 (f + 2) = toShort terminal ∧
    rd16 m2 (f + 4) = toShort step ∧
    rd16 m2 (variables_table + 2 * (V - 65)) = toShort initial ∧
    (∀ b, (b < f ∨ f + SFF_SIZE ≤ b) →
      (b < variables_table + 2 * (V - 65) ∨ variables_table + 2 * (V - 65) + 2 ≤ b) →
      m2 b = m b) := by
  have hps : pgm_start = 162 := rfl
  have hvt : variables_table = 0 := rfl
  have hsf : SFF_SIZE = 24 := rfl
  have hfl : FRAME_LINE = 8 := rfl
  have hft : FRAME_TXTPOS = 16 := rfl
  intro m2
  refine ⟨?_, ?_, ?_, ?_, ?_, ?_⟩
  · show wrLine _ _ _ f = _
    unfold wrLine wrTxtpos
    rw [wrBytes_other _ _ _ _ _ (by omega), wrBytes_other _ _ _ _ _ (by omega),
      wr16_other _ _ _ _ (by omega), wr16_other _ _ _ _ (by omega),
      wr_other _ _ _ _ (by omega), wr_same]
  · show wrLine _ _ _ (f + 1) = _
    unfold wrLine wrTxtpos
    rw [wrBytes_other _ _ _ _ _ (by omega), wrBytes_other _ _ _ _ _ (by omega),
      wr16_other _ _ _ _ (by omega), wr16_other _ _ _ _ (by omega), wr_same]
  · show rd16 (wrLine _ _ _) (f + 2) = _
    unfold wrLine wrTxtpos
    rw [rd16_wrBytes_other _ _ _ _ _ (by omega), rd16_wrBytes_other _ _ _ _ _ (by omega),
      rd16_wr16_other _ _ _ _ (by omega), rd16_wr16_same]
  · show rd16 (wrLine _ _ _) (f + 4) = _
    unfold wrLine wrTxtpos
    rw [rd16_wrBytes_other _ _ _ _ _ (by omega), rd16_wrBytes_other _ _ _ _ _ (by omega),
      rd16_wr16_same]
  · show rd16 (wrLine _ _ _) (variables_table + 2 * (V - 65)) = _
    unfold wrLine wrTxtpos
    rw [rd16_wrBytes_other _ _ _ _ _ (by omega), rd16_wrBytes_other _ _ _ _ _ (by omega),
      rd16_wr16_other _ _ _ _ (by omega), rd16_wr16_other _ _ _ _ (by omega)]
    unfold rd16
    rw [wr_other _ _ _ _ (by omega), wr_other _ _ _ _ (by omega),
      wr_other _ _ _ _ (by omega), wr_other _ _ _ _ (by omega)]
    exact rd16_wr16_same _ _ _
  · intro b hb hb2
    show wrLine _ _ _ b = _
    unfold wrLine wrTxtpos
    rw [wrBytes_other _ _ _ _ _ (by omega), wrBytes_other _ _ _ _ _ (by omega),
      wr16_other _ _ _ _ (by omega), wr16_other _ _ _ _ (by omega),
      wr_other _ _ _ _ (by omega), wr_other _ _ _ _ (by omega), wr16_other _ _ _ _ (by omega)]

/-- The label `next` on `V`, with the letter followed at once by the end of the
statement and the frame of `V` on top of the stack, when the variable has gone
past the terminal value: the variable keeps the new value, the frame is
dropped, the cursor stays after the letter. -/
theorem next_leave (st : State) (V : Nat) (hV : 65 ≤ V ∧ V ≤ 90)
    (h0 : st.mem st.txtpos = V) (h1 : st.mem (st.txtpos + 1) = NL ∨ st.mem (st.txtpos + 1) = 58)
    (hk : st.table_index = KW_NEXT) (hF : st.sp + SFF_SIZE ≤ MEMSIZE) (hlow : pgm_start ≤ st.sp)
    (hf0 : st.mem st.sp = STACK_FOR_FLAG) (hf1 : st.mem (st.sp + 1) = V)
    (hout : ¬ ((rd16 st.mem (st.sp + 4) > 0 ∧
        toShort (rd16 st.mem (variables_table + 2 * (V - 65)) + rd16 st.mem (st.sp + 4)) ≤
          rd16 st.mem (st.sp + 2)) ∨
      (rd16 st.mem (st.sp + 4) < 0 ∧
        toShort (rd16 st.mem (variables_table + 2 * (V - 65)) + rd16 st.mem (st.sp + 4)) ≥
          rd16 st.mem (st.sp + 2)))) :
    next st = some (Lbl.run_next_statement,
      { st with txtpos := st.txtpos + 1,
                mem := wr16 st.mem (variables_table + 2 * (V - 65))
                  (toShort (rd16 st.mem (variables_table + 2 * (V - 65)) +
                    rd16 st.mem (st.sp + 4))),
                sp := st.sp + SFF_SIZE, tempsp := st.sp }) := by
  have hps : pgm_start = 162 := rfl
  have hvt : variables_table = 0 := rfl
  have hsf : SFF_SIZE = 24 := rfl
  have hms : MEMSIZE = 32767 + 1 := rfl
  have hce : check_statement_end { st with txtpos := st.txtpos + 1 } =
      (true, { st with txtpos := st.txtpos + 1 }) := by
    unfold check_statement_end
    rw [ignore_blanks_stop _ (by dsimp only; rcases h1 with h | h <;> rw [h] <;> decide)]
    simp [h1]
  unfold next
  rw [ignore_blanks_stop st (letter_not_blank _ _ (V - 65) (by rw [h0]; omega))]
  dsimp only
  rw [h0, if_neg (by omega), hce]
  dsimp only
  rw [if_neg (by decide)]
  unfold gosub_return
  rw [hms, frameWalk]
  dsimp only
  rw [if_pos (by omega), hf0, if_neg (by decide), if_pos rfl, Nat.add_sub_cancel, h0, hf1,
    if_pos ⟨hk, rfl⟩, schar_small _ (by omega), if_neg (by omega), if_neg (by omega)]
  have r4 : ∀ v, rd16 (wr16 st.mem (variables_table + 2 * (V - 65)) v) (st.sp + 4) =
      rd16 st.mem (st.sp + 4) := fun v => rd16_wr16_other _ _ _ _ (by omega)
  have r2 : ∀ v, rd16 (wr16 st.mem (variables_table + 2 * (V - 65)) v) (st.sp + 2) =
      rd16 st.mem (st.sp + 2) := fun v => rd16_wr16_other _ _ _ _ (by omega)
  rw [r4, r2, rd16_wr16_same, toShort_toShort, if_neg hout]

/-- The label `next` on `V` in the same situation, when the variable has not
gone past the terminal value: the variable keeps the new value, the frame
stays, and the line and the cursor are those of the frame. -/
theorem next_loop (st : State) (V : Nat) (hV : 65 ≤ V ∧ V ≤ 90)
    (h0 : st.mem st.txtpos = V) (h1 : st.mem (st.txtpos + 1) = NL ∨ st.mem (st.txtpos + 1) = 58)
    (hk : st.table_index = KW_NEXT) (hF : st.sp + SFF_SIZE ≤ MEMSIZE) (hlow : pgm_start ≤ st.sp)
    (hf0 : st.mem st.sp = STACK_FOR_FLAG) (hf1 : st.mem (st.sp + 1) = V)
    (line tp : Nat) (hline : rdLine st.mem (st.sp + FRAME_LINE) = some line)
    (htp : rdTxtpos st.mem (st.sp + FRAME_TXTPOS) = some tp)
    (hin : (rd16 st.mem (st.sp + 4) > 0 ∧
        toShort (rd16 st.mem (variables_table + 2 * (V - 65)) + rd16 st.mem (st.sp + 4)) ≤
          rd16 st.mem (st.sp + 2)) ∨
      (rd16 st.mem (st.sp + 4) < 0 ∧
        toShort (rd16 st.mem (variables_table + 2 * (V - 65)) + rd16 st.mem (st.sp + 4)) ≥
          rd16 st.mem (st.sp + 2))) :
    next st = some (Lbl.run_next_statement,
      { st with txtpos := tp, current_line := line,
                mem := wr16 st.mem (variables_table + 2 * (V - 65))
                  (toShort (rd16 st.mem (variables_table + 2 * (V - 65)) +
                    rd16 st.mem (st.sp + 4))),
                tempsp := st.sp }) := by
  have hps : pgm_start = 162 := rfl
  have hvt : variables_table = 0 := rfl
  have hsf : SFF_SIZE = 24 := rfl
  have hfl : FRAME_LINE = 8 := rfl
  have hft : FRAME_TXTPOS = 16 := rfl
  have hms : MEMSIZE = 32767 + 1 := rfl
  have hce : check_statement_end { st with txtpos := st.txtpos + 1 } =
      (true, { st with txtpos := st.txtpos + 1 }) := by
    unfold check_statement_end
    rw [ignore_blanks_stop _ (by dsimp only; rcases h1 with h | h <;> rw [h] <;> decide)]
    simp [h1]
  unfold next
  rw [ignore_blanks_stop st (letter_not_blank _ _ (V - 65) (by rw [h0]; omega))]
  dsimp only
  rw [h0, if_neg (by omega), hce]
  dsimp only
  rw [if_neg (by decide)]
  unfold gosub_return
  rw [hms, frameWalk]
  dsimp only
  rw [if_pos (by omega), hf0, if_neg (by decide), if_pos rfl, Nat.add_sub_cancel, h0, hf1,
    if_pos ⟨hk, rfl⟩, schar_small _ (by omega), if_neg (by omega), if_neg (by omega)]
  have r4 : ∀ v, rd16 (wr16 st.mem (variables_table + 2 * (V - 65)) v) (st.sp + 4) =
      rd16 st.mem (st.sp + 4) := fun v => rd16_wr16_other _ _ _ _ (by omega)
  have r2 : ∀ v, rd16 (wr16 st.mem (variables_table + 2 * (V - 65)) v) (st.sp + 2) =
      rd16 st.mem (st.sp + 2) := fun v => rd16_wr16_other _ _ _ _ (by omega)
  have rl : ∀ v, rdLine (wr16 st.mem (variables_table + 2 * (V - 65)) v) (st.sp + FRAME_LINE) =
      rdLine st.mem (st.sp + FRAME_LINE) := fun v =>
    rdLine_congr _ _ _ (fun i hi => wr16_other _ _ _ _ (by omega))
  have rt : ∀ v, rdTxtpos (wr16 st.mem (variables_table + 2 * (V - 65)) v)
      (st.sp + FRAME_TXTPOS) = rdTxtpos st.mem (st.sp + FRAME_TXTPOS) := fun v =>
    rdTxtpos_congr _ _ _ (fun i hi => wr16_other _ _ _ _ (by omega))
  rw [r4, r2, rd16_wr16_same, toShort_toShort, if_pos hin, rl, rt, hline, htp]


/-! ## Statement sequencing -/

theorem asg_var_label (var : Nat) (st : State) (l : Lbl) (st2 : State)
    (h : asg_var var st = some (l, st2)) :
    l = Lbl.run_next_statement ∨ l = Lbl.syntaxerror ∨ l = Lbl.invalidexpr := by
  unfold asg_var at h
  dsimp only at h
  repeat' split at h
  all_goals first
    | (simp at h; done)
    | (simp at h; obtain ⟨h1, -⟩ := h; subst h1; simp)

theorem assignment_label (st : State) (l : Lbl) (st2 : State)
    (h : assignment st = some (l, st2)) :
    l = Lbl.run_next_statement ∨ l = Lbl.syntaxerror ∨ l = Lbl.invalidexpr := by
  unfold assignment at h
  dsimp only at h
  repeat' split at h
  all_goals first
    | exact asg_var_label _ _ _ _ h
    | (simp at h; done)
    | (simp at h; obtain ⟨h1, -⟩ := h; subst h1; simp)

theorem do_dim_label (st : State) (l : Lbl) (st2 : State) (h : do_dim st = some (l, st2)) :
    l = Lbl.run_next_statement ∨ l = Lbl.syntaxerror ∨ l = Lbl.invalidexpr := by
  unfold do_dim at h
  dsimp only at h
  repeat' split at h
  all_goals first
    | (simp at h; done)
    | (simp at h; obtain ⟨h1, -⟩ := h; subst h1; simp)

theorem pokeLike_label (store : Nat → Int → State → Option State) (st : State) (l : Lbl)
    (st2 : State) (h : pokeLike store st = some (l, st2)) :
    l = Lbl.run_next_statement ∨ l = Lbl.syntaxerror ∨ l = Lbl.invalidexpr := by
  unfold pokeLike at h
  dsimp only at h
  repeat' split at h
  all_goals first
    | (simp at h; done)
    | (simp at h; obtain ⟨h1, -⟩ := h; subst h1; simp)

theorem sleep_label (st : State) (l : Lbl) (st2 : State) (h : sleep st = some (l, st2)) :
    l = Lbl.run_next_statement ∨ l = Lbl.syntaxerror ∨ l = Lbl.invalidexpr := by
  unfold sleep at h
  repeat' split at h
  all_goals first
    | (simp at h; done)
    | (simp at h; obtain ⟨h1, -⟩ := h; subst h1; simp)

theorem printItem_label (st : State) (l : Lbl) (st2 : State)
    (h : printItem st = some (some l, st2)) : l = Lbl.syntaxerror ∨ l = Lbl.invalidexpr := by
  unfold printItem at h
  repeat' split at h
  all_goals first
    | (simp at h; done)
    | (simp at h; obtain ⟨h1, -⟩ := h; subst h1; simp)

theorem printLoop_label (f : Nat) (st : State) (l : Lbl) (st2 : State)
    (h : printLoop f st = some (l, st2)) :
    l = Lbl.run_next_statement ∨ l = Lbl.syntaxerror ∨ l = Lbl.invalidexpr := by
  induction f generalizing st with
  | zero => simp [printLoop] at h
  | succ f ih =>
    rw [printLoop] at h
    split at h
    · simp at h
    · rename_i l1 st1 heq
      simp at h
      have := printItem_label _ _ _ heq
      rw [← h.1]
      tauto
    · split at h
      · exact ih _ h
      · split at h
        · simp at h; simp [← h.1]
        · dsimp only at h
          split at h
          · simp at h; simp [← h.1]
          · simp at h; simp [← h.1]

theorem print_label (st : State) (l : Lbl) (st2 : State) (h : print st = some (l, st2)) :
    l = Lbl.run_next_statement ∨ l = Lbl.syntaxerror ∨ l = Lbl.invalidexpr ∨
      (l = Lbl.execnextline ∧ st.mem st.txtpos = NL) := by
  unfold print at h
  split at h
  · simp at h; simp [← h.1]
  · split at h
    · rename_i hnl
      simp at h; simp [← h.1, hnl]
    · have := printLoop_label _ _ _ _ h
      tauto

theorem forloop_at_nl (st : State) (st2 : State)
    (h : forloop st = some (Lbl.run_next_statement, st2)) :
    ∃ st0 var initial terminal step, st0.mem st0.txtpos = NL ∧
      pushFor var initial terminal step st0 = some (Lbl.run_next_statement, st2) := by
  unfold forloop at h
  dsimp only at h
  repeat' split at h
  all_goals first
    | (simp at h)
    | (rename_i hc; exact ⟨_, _, _, _, _, hc.2, h⟩)



theorem skipColons_stop (m : Mem) (f p : Nat) (h : m p ≠ 58) : skipColons m f p = p := by
  cases f with
  | zero => rfl
  | succ f => rw [skipColons, if_neg h]

theorem run_next_colon (st : State) (c : Nat) (h0 : st.mem st.txtpos = 58)
    (h1 : st.mem (st.txtpos + 1) = c) (hc : c ≠ 58 ∧ c ≠ 32 ∧ c ≠ 9 ∧ c ≠ NL)
    (hroom : st.txtpos < MEMSIZE) :
    run_next_statement st = (Lbl.interperateAtTxtpos, { st with txtpos := st.txtpos + 1 }) := by
  obtain ⟨f, hf⟩ : ∃ f, MEMSIZE - st.txtpos = f + 1 := ⟨MEMSIZE - st.txtpos - 1, by omega⟩
  unfold run_next_statement
  rw [hf, skipColons, if_pos h0, skipColons_stop _ _ _ (by rw [h1]; exact hc.1)]
  rw [ignore_blanks_stop _ (by dsimp only; rw [h1]; unfold SPACE TAB; omega)]
  dsimp only
  rw [h1, if_neg hc.2.2.2]

theorem run_next_colon_blank (st : State) (c : Nat) (h0 : st.mem st.txtpos = 58)
    (h1 : st.mem (st.txtpos + 1) = 32) (h2 : st.mem (st.txtpos + 2) = c)
    (hc : c ≠ 32 ∧ c ≠ 9 ∧ c ≠ NL) (hroom : st.txtpos + 1 < MEMSIZE) :
    run_next_statement st = (Lbl.interperateAtTxtpos, { st with txtpos := st.txtpos + 2 }) := by
  obtain ⟨f, hf⟩ : ∃ f, MEMSIZE - st.txtpos = f + 1 := ⟨MEMSIZE - st.txtpos - 1, by omega⟩
  unfold run_next_statement
  rw [hf, skipColons, if_pos h0, skipColons_stop _ _ _ (by rw [h1]; decide)]
  rw [ignore_blanks_skip _ (by dsimp only; exact h1)
    (by dsimp only; rw [h2]; unfold SPACE TAB; omega) (by dsimp only; omega)]
  dsimp only
  rw [h2, if_neg hc.2.2]

theorem interperate_clear (st : State) (h : (scantable keywords st).table_index = KW_CLEAR) :
    interperateAtTxtpos st =
      some (Lbl.run_next_statement, clear (ignore_blanks (scantable keywords st))) := by
  have hk : (ignore_blanks (scantable keywords st)).table_index = KW_CLEAR := h
  unfold interperateAtTxtpos
  dsimp only
  simp only [hk]
  rfl



/-! ## Precedence and associativity -/

theorem str_ops : str "+" = [43] ∧ str "-" = [45] ∧ str "*" = [42] ∧ str "/" = [47] ∧
    str " MOD " = [32, 77, 79, 68, 32] := by decide

/-- C10: for all atoms `x`, `y`, `z` (a variable, a decimal literal or a
hexadecimal literal) the evaluator takes `x+y*z` as `x+(y*z)`, `x*y+z` as
`(x*y)+z`, `x-y-z` as `(x-y)-z`, `x/y/z` as `(x/y)/z` and `x MOD y * z` as
`(x MOD y)*z`, each operation reduced to 16 bits with sign; when no divisor is
zero the result is returned with the cursor on the newline that ends the text,
the error flag still 0 and the arena unchanged. -/
theorem C10_precedence (st : State) (x y z : Atom) (hx : x.ok) (hy : y.ok) (hz : z.ok)
    (he : st.exp_error = 0) :
    (∀ t, t = x.text ++ str "+" ++ y.text ++ str "*" ++ z.text →
      Holds st.mem st.txtpos (t ++ [NL]) → st.txtpos + t.length < MEMSIZE →
      expression st = some (toShort (x.val st.mem + toShort (y.val st.mem * z.val st.mem)),
        { st with txtpos := st.txtpos + t.length, table_index := RELOP_UNKNOWN })) ∧
    (∀ t, t = x.text ++ str "*" ++ y.text ++ str "+" ++ z.text →
      Holds st.mem st.txtpos (t ++ [NL]) → st.txtpos + t.length < MEMSIZE →
      expression st = some (toShort (toShort (x.val st.mem * y.val st.mem) + z.val st.mem),
        { st with txtpos := st.txtpos + t.length, table_index := RELOP_UNKNOWN })) ∧
    (∀ t, t = x.text ++ str "-" ++ y.text ++ str "-" ++ z.text →
      Holds st.mem st.txtpos (t ++ [NL]) → st.txtpos + t.length < MEMSIZE →
      expression st = some (toShort (toShort (x.val st.mem - y.val st.mem) - z.val st.mem),
        { st with txtpos := st.txtpos + t.length, table_index := RELOP_UNKNOWN })) ∧
    (∀ t, t = x.text ++ str "/" ++ y.text ++ str "/" ++ z.text →
      Holds st.mem st.txtpos (t ++ [NL]) → st.txtpos + t.length < MEMSIZE →
      y.val st.mem ≠ 0 → z.val st.mem ≠ 0 →
      expression st = some
        (toShort (Int.tdiv (toShort (Int.tdiv (x.val st.mem) (y.val st.mem))) (z.val st.mem)),
        { st with txtpos := st.txtpos + t.length, table_index := RELOP_UNKNOWN })) ∧
    (∀ t, t = x.text ++ str " MOD " ++ y.text ++ str "*" ++ z.text →
      Holds st.mem st.txtpos (t ++ [NL]) → st.txtpos + t.length < MEMSIZE →
      y.val st.mem ≠ 0 →
      expression st = some
        (toShort (toShort (Int.tmod (x.val st.mem) (y.val st.mem)) * z.val st.mem),
        { st with txtpos := st.txtpos + t.length, table_index := RELOP_UNKNOWN })) := by
  obtain ⟨e1, e2, e3, e4, e5⟩ := str_ops
  refine ⟨?_, ?_, ?_, ?_, ?_⟩
  · intro t et hh hroom
    have ets : t = SumOf.text ((x, []), [(true, (y, [(MulOp.mul, z)]))]) := by
      rw [et, e1, e3]; simp [SumOf.text, Product.text, addText, MulOp.text]
    rw [ets] at hh hroom ⊢
    rw [expression_sum st _ hh ⟨⟨hx, by simp⟩, by simp [Product.ok, hy, hz]⟩ he hroom]
    rfl
  · intro t et hh hroom
    have ets : t = SumOf.text ((x, [(MulOp.mul, y)]), [(true, (z, []))]) := by
      rw [et, e1, e3]; simp [SumOf.text, Product.text, addText, MulOp.text]
    rw [ets] at hh hroom ⊢
    rw [expression_sum st _ hh ⟨⟨hx, by simp [hy]⟩, by simp [Product.ok, hz]⟩ he hroom]
    rfl
  · intro t et hh hroom
    have ets : t = SumOf.text ((x, []), [(false, (y, [])), (false, (z, []))]) := by
      rw [et, e2]; simp [SumOf.text, Product.text, addText]
    rw [ets] at hh hroom ⊢
    rw [expression_sum st _ hh ⟨⟨hx, by simp⟩, by simp [Product.ok, hy, hz]⟩ he hroom]
    rfl
  · intro t et hh hroom hy0 hz0
    have ets : t = SumOf.text ((x, [(MulOp.div, y), (MulOp.div, z)]), []) := by
      rw [et, e4]; simp [SumOf.text, Product.text, MulOp.text]
    rw [ets] at hh hroom ⊢
    rw [expression_sum st _ hh ⟨⟨hx, by simp [hy, hz, hy0, hz0]⟩, by simp⟩ he hroom]
    rfl
  · intro t et hh hroom hy0
    have ets : t = SumOf.text ((x, [(MulOp.mod, y), (MulOp.mul, z)]), []) := by
      rw [et, e5, e3]; simp [SumOf.text, Product.text, MulOp.text]
    rw [ets] at hh hroom ⊢
    rw [expression_sum st _ hh ⟨⟨hx, by simp [hy, hz, hy0]⟩, by simp⟩ he hroom]
    rfl

set_option maxRecDepth 100000 in
/-- C10, witness: `2+3*4` evaluates to 14. -/
theorem C10_precedence_witness :
    expression (withText initState 1000 (str "2+3*4\n")) =
      some (14, { withText initState 1000 (str "2+3*4\n") with
                    txtpos := 1005, table_index := RELOP_UNKNOWN }) :=
  (C10_precedence (withText initState 1000 (str "2+3*4\n")) (Atom.num 2) (Atom.num 3)
    (Atom.num 4) trivial trivial trivial rfl).1 (str "2+3*4") (by decide) (by decide!)
    (by decide)


/-! ## Relational operators -/

/-- C11: for all additive-level operands `s1`, `s2` (sums of products of atoms)
and each of the six operators, the evaluator returns 1 for `s1 op s2` when the
relation holds between the two 16-bit signed values and 0 otherwise; the
operator found is the whole one (`table_index` is its index in `relop_tab`);
and with no operator after `s1` the value of `s1` is returned unchanged. -/
theorem C11_relational (st : State) (s1 s2 : SumOf) (op : RelOp) (h1 : SumOf.ok st.mem s1)
    (h2 : SumOf.ok st.mem s2) (he : st.exp_error = 0) :
    (∀ t, t = SumOf.text s1 ++ op.text ++ SumOf.text s2 →
      Holds st.mem st.txtpos (t ++ [NL]) → st.txtpos + t.length < MEMSIZE →
      expression st = some (if op.holds (SumOf.val st.mem s1) (SumOf.val st.mem s2) then 1 else 0,
        { st with txtpos := st.txtpos + t.length, table_index := op.index })) ∧
    (Holds st.mem st.txtpos (SumOf.text s1 ++ [NL]) →
      st.txtpos + (SumOf.text s1).length < MEMSIZE →
      expression st = some (SumOf.val st.mem s1,
        { st with txtpos := st.txtpos + (SumOf.text s1).length,
                  table_index := RELOP_UNKNOWN })) := by
  refine ⟨?_, fun hh hroom => expression_sum st s1 hh h1 he hroom⟩
  intro t et hh hroom
  subst et
  simp only [List.length_append] at hroom
  obtain ⟨h, tl, eh, hv⟩ := relop_head op
  obtain ⟨a0, at0, ea, ha⟩ := atom_head_class s2.1.1 h2.1.1
  have es2 : SumOf.text s2 = a0 :: (at0 ++ opsText s2.1.2 ++ termsText s2.2) := by
    rw [sum_text_eq, product_text_eq, ea]; simp
  rw [List.append_assoc, List.append_assoc, holds_append] at hh
  obtain ⟨hs1, hh2⟩ := hh
  rw [holds_append] at hh2
  obtain ⟨hop, hs2⟩ := hh2
  have hh1 : Holds st.mem st.txtpos (SumOf.text s1 ++ [h]) := by
    rw [holds_append]
    refine ⟨hs1, ?_⟩
    rw [eh] at hop
    exact ⟨hop.1, trivial⟩
  have hhop : Holds st.mem (st.txtpos + (SumOf.text s1).length) (op.text ++ [a0]) := by
    rw [holds_append]
    refine ⟨hop, ?_⟩
    have := hs2
    rw [es2] at this
    exact ⟨this.1, trivial⟩
  rw [expression_unfold]
  unfold expressionBody
  rw [expr2_sum _ st s1 h (by rcases hv with rfl | rfl | rfl <;> decide) hh1 h1 (by omega)]
  dsimp only
  rw [if_neg (by rw [he]; decide)]
  rw [scantable_relop_op _ op a0 ⟨by omega, by omega, by omega, by omega⟩ (by omega) hhop]
  dsimp only
  rw [if_neg (relop_index_ne op)]
  rw [expr2_sum _ { st with txtpos := st.txtpos + (SumOf.text s1).length + op.text.length,
                            table_index := op.index } s2 NL (by decide) hs2 h2
    (by dsimp only; omega)]
  dsimp only
  rw [relop_index]
  simp only [decide_eq_true_eq, List.length_append, Nat.add_assoc]



set_option maxRecDepth 100000 in
/-- C11, witness: `5>=5` yields 1 and `5<>5` yields 0. -/
theorem C11_relational_witness :
    expression (withText initState 1000 (str "5>=5\n")) =
      some (1, { withText initState 1000 (str "5>=5\n") with
                   txtpos := 1004, table_index := RELOP_GE }) ∧
    expression (withText initState 1000 (str "5<>5\n")) =
      some (0, { withText initState 1000 (str "5<>5\n") with
                   txtpos := 1004, table_index := RELOP_NE }) :=
  ⟨(C11_relational (withText initState 1000 (str "5>=5\n")) ((Atom.num 5, []), [])
      ((Atom.num 5, []), []) RelOp.ge (by simp [SumOf.ok, Product.ok, Atom.ok]) (by simp [SumOf.ok, Product.ok, Atom.ok])
      rfl).1 (str "5>=5") (by decide)
      (by decide!) (by decide),
   (C11_relational (withText initState 1000 (str "5<>5\n")) ((Atom.num 5, []), [])
      ((Atom.num 5, []), []) RelOp.ne (by simp [SumOf.ok, Product.ok, Atom.ok]) (by simp [SumOf.ok, Product.ok, Atom.ok])
      rfl).1 (str "5<>5") (by decide)
      (by decide!) (by decide)⟩


/-! ## Wraparound arithmetic -/

/-- C12: with the 16-bit values `a` and `b` in the variables `A` and `B`, the
evaluator returns for `A+B`, `A-B` and `A*B` the sum, difference and product
reduced modulo 2^16 into `-32768..32767`, and for `-A` the negation of `a`
reduced in the same way (so `-32768` for `a = -32768`); the error flag stays 0
and the cursor ends on the newline. -/
theorem C12_wraparound (st : State) (a b : Int) (hA : rd16 st.mem variables_table = a)
    (hB : rd16 st.mem (variables_table + 2) = b) (he : st.exp_error = 0)
    (hroom : st.txtpos + 3 < MEMSIZE) :
    (Holds st.mem st.txtpos (str "A+B\n") →
      expression st = some (toShort (a + b),
        { st with txtpos := st.txtpos + 3, table_index := RELOP_UNKNOWN })) ∧
    (Holds st.mem st.txtpos (str "A-B\n") →
      expression st = some (toShort (a - b),
        { st with txtpos := st.txtpos + 3, table_index := RELOP_UNKNOWN })) ∧
    (Holds st.mem st.txtpos (str "A*B\n") →
      expression st = some (toShort (a * b),
        { st with txtpos := st.txtpos + 3, table_index := RELOP_UNKNOWN })) ∧
    (Holds st.mem st.txtpos (str "-A\n") →
      expression st = some (toShort (-a),
        { st with txtpos := st.txtpos + 2, table_index := RELOP_UNKNOWN })) ∧
    (∀ x : Int, -32768 ≤ toShort x ∧ toShort x ≤ 32767 ∧ (toShort x - x) % 65536 = 0) ∧
    toShort (-(-32768)) = -32768 := by
  have hvA : (Atom.var 0).val st.mem = a := hA
  have hvB : (Atom.var 1).val st.mem = b := hB
  refine ⟨?_, ?_, ?_, ?_, toShort_range, by decide⟩
  · intro hh
    have h := expression_sum st ((Atom.var 0, []), [(true, (Atom.var 1, []))]) hh
      (by simp [SumOf.ok, Product.ok, Atom.ok]) he hroom
    rw [h]
    simp only [SumOf.val, Product.val, List.foldl, addVal, hvA, hvB, if_true]
    rfl
  · intro hh
    have h := expression_sum st ((Atom.var 0, []), [(false, (Atom.var 1, []))]) hh
      (by simp [SumOf.ok, Product.ok, Atom.ok]) he hroom
    rw [h]
    simp only [SumOf.val, Product.val, List.foldl, addVal, hvA, hvB]
    rfl
  · intro hh
    have h := expression_sum st ((Atom.var 0, [(MulOp.mul, Atom.var 1)]), []) hh
      (by simp [SumOf.ok, Product.ok, Atom.ok]) he hroom
    rw [h]
    simp only [SumOf.val, Product.val, List.foldl, MulOp.val, hvA, hvB]
    rfl
  · intro hh
    have h := expression_neg st (Atom.var 0) hh (by decide) he (by simp [Atom.text]; omega)
    rw [h, hvA, zero_sub]
    rfl

set_option maxRecDepth 100000 in
/-- C12, witness: with 32767 in `A` and 1 in `B`, `A+B` is -32768. -/
theorem C12_wraparound_witness :
    expression (abExample 32767 1 "A+B\n") =
      some (-32768, { abExample 32767 1 "A+B\n" with
                        txtpos := 1003, table_index := RELOP_UNKNOWN }) :=
  (C12_wraparound (abExample 32767 1 "A+B\n") 32767 1 (by decide!) (by decide!) rfl
    (by decide)).1 (by decide!)


/-! ## Integer literals -/

/-- C13 (amended): for every decimal digit string that is `0` or starts with a
digit `1..9`, and for every literal made of `&H` and hexadecimal digits in
either case, when the byte after the literal is no further digit of it, `expr4`
returns the number that the digits denote, reduced modulo 2^16 to a signed
16-bit value, with the cursor after the whole literal (and the blanks that
follow it) and the error flag as it was. -/
theorem C13_literals (e : State → Option (Int × State)) (st : State) (ds : List Nat) (c : Nat)
    (hroom : st.txtpos + (ds.length + 2) < MEMSIZE) :
    (Holds st.mem st.txtpos (ds ++ [c]) → ds ≠ [] → (∀ d ∈ ds, 48 ≤ d ∧ d ≤ 57) →
      (ds = [48] ∨ ds.head? ≠ some 48) → ¬ (48 ≤ c ∧ c ≤ 57) →
      expr4 e st = some (toShort (natVal 10 (ds.map (fun d => d - 48))),
        ignore_blanks { st with txtpos := st.txtpos + ds.length })) ∧
    (Holds st.mem st.txtpos (str "&H" ++ ds ++ [c]) → (∀ d ∈ ds, IsHexChar d) →
      ¬ IsHexChar c →
      expr4 e st = some (toShort (natVal 16 (ds.map hexVal)),
        ignore_blanks { st with txtpos := st.txtpos + (2 + ds.length) })) ∧
    (∀ s : State, (ignore_blanks s).exp_error = s.exp_error) := by
  refine ⟨?_, ?_, fun _ => rfl⟩
  · intro hh hne hd hz hc
    cases ds with
    | nil => exact absurd rfl hne
    | cons d ds =>
      have h0 : st.mem st.txtpos = d := hh.1
      have hd0 := hd d (by simp)
      have hnb : ¬ (st.mem st.txtpos = SPACE ∨ st.mem st.txtpos = TAB) := by
        rw [h0]; unfold SPACE TAB; omega
      unfold expr4
      rw [ignore_blanks_stop st hnb]
      dsimp only
      by_cases h48 : d = 48
      · subst h48
        have hds : ds = [] := by
          rcases hz with hz | hz
          · simpa using hz
          · simp at hz
        subst hds
        rw [h0, if_pos rfl]
        rfl
      · simp only [List.length_cons] at hroom
        rw [h0, if_neg h48, if_pos (by omega),
          decLoop_spec st.mem ds d c _ 0 _ hh hd hc (by omega)]
        dsimp only
        rw [digitsVal_natVal10]
        rfl
  · intro hh hd hc
    have e38 : str "&H" = [38, 72] := by decide
    rw [e38] at hh
    have h0 : st.mem st.txtpos = 38 := hh.1
    have h1 : st.mem (st.txtpos + 1) = 72 := hh.2.1
    have h2 : Holds st.mem (st.txtpos + 2) (ds ++ [c]) := hh.2.2
    have hnb : ¬ (st.mem st.txtpos = SPACE ∨ st.mem st.txtpos = TAB) := by
      rw [h0]; unfold SPACE TAB; omega
    unfold expr4
    rw [ignore_blanks_stop st hnb]
    dsimp only
    rw [h0, h1, if_neg (by omega), if_neg (by omega), if_pos (Or.inl ⟨rfl, rfl⟩),
      hexLoop_chars st.mem ds c _ 0 _ h2 hd hc (by omega)]
    dsimp only
    rw [digitsVal_natVal16, Nat.add_assoc]
    rfl

set_option maxRecDepth 100000 in
/-- C13, witness: in `&HFF MOD 16` the atom parser returns 255 for `&HFF` with
the cursor on `MOD`, and the evaluator returns 15 for the whole text. -/
theorem C13_literals_witness :
    expr4 (expressionD 0) (withText initState 1000 (str "&HFF MOD 16\n")) =
      some (toShort (natVal 16 ((str "FF").map hexVal)),
        ignore_blanks { withText initState 1000 (str "&HFF MOD 16\n") with
                          txtpos := 1000 + (2 + 2) }) ∧
    (expression (withText initState 1000 (str "&HFF MOD 16\n"))).map
      (fun r => (r.1, r.2.exp_error)) = some (15, 0) :=
  ⟨(C13_literals (expressionD 0) (withText initState 1000 (str "&HFF MOD 16\n")) (str "FF") 32
      (by decide)).2.1 (by decide!) (by decide) (by decide), by decide!⟩

set_option maxRecDepth 100000 in
/-- C13, counterexample: of the decimal digit string `007` the atom parser
consumes the first byte only and returns 0, not 7. -/
theorem C13_counterexample :
    (expr4 (expressionD 0) (withText initState 1000 (str "007\n"))).map
      (fun r => (r.1, r.2.txtpos, r.2.exp_error)) = some (0, 1001, 0) ∧
    toShort (natVal 10 ((str "007").map (fun d => d - 48))) = 7 := by
  decide!



/-! ## Division by zero, arrays and the stack -/

set_option maxRecDepth 100000 in
/-- C14 (the code at the failing input): on `5/0` the evaluator sets the
error flag and goes on to the end of the text; on `5 MOD 0` it computes the
remainder by zero, for which there is no result. -/
theorem C14_mod_by_zero :
    (expression (withText initState 1000 (str "5/0\n"))).map
      (fun r => (r.2.txtpos, r.2.exp_error)) = some (1003, 1) ∧
    (expression (withText initState 1000 (str "5 MOD 0\n"))).isSome = false := by
  decide!

set_option maxRecDepth 100000 in
/-- C9 (the code at the failing input): `DIM A(16364)` typed into a fresh
interpreter lowers the stack pointer to 38, below `pgm_end` = 162, and the
only message is the syntax error that follows because the zero-fill has
erased the line; `Not enough memory!` is not written. -/
theorem C9_dim_below_program :
    (session 100000 1 { initState with inp := str "DIM A(16364)\n" }).map
      (fun r => (r.2.sp, r.2.top_sp, r.2.pgm_end, r.2.out)) =
      some (38, 38, 162, str "Syntax Error\n\n") := by
  decide!

set_option maxRecDepth 100000 in
/-- C8 (the code at the failing input): after `DIM A(16364)` the array `A`
starts at address 38, the cell of the scalar `T`: `A(0)=5` puts 5 into `T`,
and `T=7` puts 7 into `A(0)`. -/
theorem C8_array_overlaps_scalar :
    (session 100000 3 { initState with inp := str "DIM A(16364)\nA(0)=5\nPRINT T\n" }).map
      (fun r => r.2.out) = some (str "Syntax Error\n\n5\n") ∧
    (session 100000 3 { initState with inp := str "DIM A(16364)\nT=7\nPRINT A(0)\n" }).map
      (fun r => r.2.out) = some (str "Syntax Error\n\n7\n") := by
  decide!



/-! ## Array bounds -/


/-- The bounds of arrays: `DIM V(n)` with `0 <= n` and room for the array above the program
gives `V` the size `n+1` (cells `0..n`, all zero, at the new `top_sp`); with a
descriptor of size `siz`, reading `V(..)` in `expr4` and assigning to it in
`assignment` go through to the cell exactly when the index `v` that the code
has evaluated satisfies `0 <= v < siz`, and otherwise write `Bounds error`,
flag the error (`exp_error` in `expr4`, the label `invalidexpr` in
`assignment`) and leave the arena as it is. -/
theorem array_bounds_spec (i : Nat) (hi : i < 26) :
    (∀ (st st2 : State) (n : Nat), st.mem st.txtpos = 65 + i → st.mem (st.txtpos + 1) = 40 →
      expression { st with txtpos := st.txtpos + 1 } = some ((n : Int), st2) → n ≤ 32766 →
      rd16 st2.mem (array_sz + 2 * i) < n + 1 → pgm_start + 2 * (n + 1) ≤ st2.top_sp →
      st2.top_sp ≤ MEMSIZE →
      ∃ st3 l, do_dim st = some (l, st3) ∧ rd16 st3.mem (array_sz + 2 * i) = n + 1 ∧
        rd16 st3.mem (array_table + 2 * i) = st3.top_sp ∧
        st3.top_sp + 2 * (n + 1) = st2.top_sp ∧
        ∀ k, k ≤ n → rd16 st3.mem (st3.top_sp + 2 * k) = 0) ∧
    (∀ (e : State → Option (Int × State)) (st st1 : State) (v : Int),
      st.mem st.txtpos = 65 + i → st.mem (st.txtpos + 1) = 40 →
      e { st with txtpos := st.txtpos + 1 } = some (v, st1) → -32768 ≤ v ∧ v ≤ 32767 →
      0 ≤ rd16 st.mem (array_sz + 2 * i) → 0 ≤ rd16 st.mem (array_table + 2 * i) →
      rd16 st.mem (array_table + 2 * i) + 2 * rd16 st.mem (array_sz + 2 * i) ≤ MEMSIZE →
      (0 ≤ v ∧ v < rd16 st.mem (array_sz + 2 * i) →
        expr4 e st = some (rd16 st1.mem (rd16 st.mem (array_table + 2 * i) + 2 * v).toNat,
          ignore_blanks st1)) ∧
      (¬ (0 ≤ v ∧ v < rd16 st.mem (array_sz + 2 * i)) →
        expr4 e st = some (0, ignore_blanks { printmsg boundsmsg st1 with exp_error := 1 }) ∧
        (printmsg boundsmsg st1).mem = st1.mem)) ∧
    (∀ (st st1 : State) (v : Int),
      st.mem st.txtpos = 65 + i → st.mem (st.txtpos + 1) = 40 →
      expr2D MEMSIZE { st with txtpos := st.txtpos + 1 } = some (v, st1) →
      -32768 ≤ v ∧ v ≤ 32767 →
      0 ≤ rd16 st.mem (array_sz + 2 * i) → 0 ≤ rd16 st.mem (array_table + 2 * i) →
      (0 ≤ v ∧ v < rd16 st.mem (array_sz + 2 * i) →
        assignment st = asg_var (rd16 st.mem (array_table + 2 * i) + 2 * v).toNat st1) ∧
      (¬ (0 ≤ v ∧ v < rd16 st.mem (array_sz + 2 * i)) →
        assignment st = some (Lbl.invalidexpr, printmsg boundsmsg st1) ∧
        (printmsg boundsmsg st1).mem = st1.mem)) := by
  have hms : MEMSIZE = 32768 := rfl
  refine ⟨?_, ?_, ?_⟩
  · intro st st2 n h0 h1 hev hn hsz hfit htop
    obtain ⟨st3, hd, ht, _, hsize, hofs, hz, _, _⟩ :=
      dim_new st2 i (n + 1) hi (by exact_mod_cast hsz) (by omega) hfit htop
    have hib : ignore_blanks { st with txtpos := st.txtpos + 1 } =
        { st with txtpos := st.txtpos + 1 } :=
      ignore_blanks_stop _ (by dsimp only; rw [h1]; decide)
    have hu : (toUInt (n : Int) + 1) % 65536 = n + 1 := by
      unfold toUInt; omega
    refine ⟨(check_statement_end st3).2,
      if (check_statement_end st3).1 = false then Lbl.syntaxerror else Lbl.run_next_statement,
      ?_, by exact_mod_cast hsize, hofs, ht, fun k hk => hz k (by omega)⟩
    unfold do_dim
    dsimp only
    rw [h0, if_neg (by omega), hib]
    dsimp only
    rw [h1, if_neg (by decide), hev]
    dsimp only
    rw [Nat.add_sub_cancel_left, hu, hd]
    dsimp only
    split_ifs <;> rfl
  · intro e st st1 v h0 h1 hev hv hs ho hfit
    have hr := rd16_range st.mem (array_sz + 2 * i)
    have hro := rd16_range st.mem (array_table + 2 * i)
    have hb := bounds_test v _ hv ⟨hs, hr.2⟩
    have pre : expr4 e st = expr4Array e st := by
      unfold expr4
      rw [ignore_blanks_stop st (letter_not_blank _ _ _ h0)]
      dsimp only
      rw [h0, h1, if_neg (by omega), if_neg (by omega), schar_small _ (by omega),
        if_neg (by omega), if_pos (by omega), if_pos rfl]
    rw [pre]
    unfold expr4Array
    dsimp only
    rw [h0, Nat.add_sub_cancel_left, hev]
    dsimp only
    constructor
    · intro hin
      rw [if_neg (by rw [hb]; exact not_not.mpr hin)]
      have e1 : toUInt (rd16 st.mem (array_table + 2 * i)) + 2 * toUInt v =
          (rd16 st.mem (array_table + 2 * i) + 2 * v).toNat := by
        unfold toUInt; omega
      rw [e1, if_pos (by omega)]
      rfl
    · intro hout
      rw [if_pos (hb.mpr hout)]
      exact ⟨rfl, rfl⟩
  · intro st st1 v h0 h1 hev hv hs ho
    have hr := rd16_range st.mem (array_sz + 2 * i)
    have hro := rd16_range st.mem (array_table + 2 * i)
    have hb := bounds_test v _ hv ⟨hs, hr.2⟩
    unfold assignment
    dsimp only
    rw [h0, if_neg (by omega), h1, if_pos rfl, Nat.add_sub_cancel_left, hev]
    dsimp only
    constructor
    · intro hin
      rw [if_neg (by rw [hb]; exact not_not.mpr hin)]
      have e1 : toUInt (rd16 st.mem (array_table + 2 * i)) + toUInt v * VAR_SIZE =
          (rd16 st.mem (array_table + 2 * i) + 2 * v).toNat := by
        unfold toUInt VAR_SIZE; omega
      rw [e1]
    · intro hout
      rw [if_pos (hb.mpr hout)]
      exact ⟨rfl, rfl⟩



set_option maxRecDepth 100000 in
/-- An instance of `array_bounds_spec`: `DIM A(0)` in a fresh interpreter gives `A` one cell; with that
array, `A(0)` is read from its cell, and `A(1)` is a bounds error both when
read and when assigned to. -/
theorem array_bounds_example :
    (∃ st3 l, do_dim dimExample = some (l, st3) ∧ rd16 st3.mem (array_sz + 2 * 0) = 0 + 1 ∧
        rd16 st3.mem (array_table + 2 * 0) = st3.top_sp ∧
        st3.top_sp + 2 * (0 + 1) = MEMSIZE ∧
        ∀ k, k ≤ 0 → rd16 st3.mem (st3.top_sp + 2 * k) = 0) ∧
    expr4 (expressionD 9) (arrExample "A(0)\n") =
      some (rd16 (arrExample "A(0)\n").mem 32766,
        ignore_blanks { arrExample "A(0)\n" with txtpos := 1004, table_index := RELOP_UNKNOWN }) ∧
    expr4 (expressionD 9) (arrExample "A(1)\n") =
      some (0, ignore_blanks { printmsg boundsmsg { arrExample "A(1)\n" with
        txtpos := 1004, table_index := RELOP_UNKNOWN } with exp_error := 1 }) ∧
    assignment (arrExample "A(1)=7\n") =
      some (Lbl.invalidexpr, printmsg boundsmsg { arrExample "A(1)=7\n" with
        txtpos := 1004, table_index := RELOP_UNKNOWN }) :=
  ⟨(array_bounds_spec 0 (by decide)).1 dimExample
      { dimExample with txtpos := 1004, table_index := RELOP_UNKNOWN } 0 (by decide!)
      (by decide!) rfl (by decide) (by decide!) (by decide) (by decide),
   ((array_bounds_spec 0 (by decide)).2.1 (expressionD 9) (arrExample "A(0)\n")
      { arrExample "A(0)\n" with txtpos := 1004, table_index := RELOP_UNKNOWN } 0 (by decide!)
      (by decide!) rfl (by decide) (by decide!) (by decide!) (by decide!)).1 (by decide!),
   (((array_bounds_spec 0 (by decide)).2.1 (expressionD 9) (arrExample "A(1)\n")
      { arrExample "A(1)\n" with txtpos := 1004, table_index := RELOP_UNKNOWN } 1 (by decide!)
      (by decide!) rfl (by decide) (by decide!) (by decide!) (by decide!)).2 (by decide!)).1,
   (((array_bounds_spec 0 (by decide)).2.2 (arrExample "A(1)=7\n")
      { arrExample "A(1)=7\n" with txtpos := 1004, table_index := RELOP_UNKNOWN } 1 (by decide!)
      (by decide!) rfl (by decide) (by decide!) (by decide!)).2 (by decide!)).1⟩



/-! ## Programs at the failing inputs -/

set_option maxRecDepth 100000 in
/-- C7 (the code at the failing input): after `DIM A(0)` and `A(0)=7`, the
statement `PRINT A(0)+1` reports a bounds error although the index 0 is valid:
`expr4` calls `expression()` at the opening parenthesis, which takes `(0)+1`
as the index; `PRINT A(0)` prints 7. -/
theorem C7_read_index_overrun :
    sessionOut 3 "DIM A(0)\nA(0)=7\nPRINT A(0)+1\n" =
      some (str "Bounds error\nInvalid expression\n") ∧
    sessionOut 3 "DIM A(0)\nA(0)=7\nPRINT A(0)\n" = some (str "7\n") := by
  decide!

set_option maxRecDepth 100000 in
/-- C15 (the code at the failing input): with a blank after the variable in
`30 NEXT I ` the frame walk compares the blank (`txtpos[-1]` after
`check_statement_end` has skipped it) with the variable of the frame, finds no
frame and ends in a syntax error after the first turn of the loop; without
the blank the loop runs for `I` = 1, 2. -/
theorem C15_next_trailing_blank :
    sessionOut 4 "10 FOR I=1 TO 2\n20 PRINT I\n30 NEXT I \nRUN\n" =
      some (str "1\nSyntax Error\n30 NEXT I \n\n") ∧
    sessionOut 4 "10 FOR I=1 TO 2\n20 PRINT I\n30 NEXT I\nRUN\n" = some (str "1\n2\nOK\n") := by
  decide!

set_option maxRecDepth 100000 in
/-- C16, counterexample: the body of `FOR I=1 TO 0` is executed once. -/
theorem C16_counterexample :
    sessionOut 4 "10 FOR I=1 TO 0\n20 PRINT I\n30 NEXT I\nRUN\n" = some (str "1\nOK\n") := by
  decide!

set_option maxRecDepth 100000 in
/-- C17 (the code at the failing input): the subroutine at line 100 opens a
`FOR` loop and returns; `RETURN` adds the size of a gosub frame to the stack
pointer as it is, not to the address of the frame found, so `FRE(0)` after the
`GOSUB` is 24 bytes less than before it.  Without an open loop the claim's
program prints `SUB` and `DONE`. -/
theorem C17_return_leaves_for_frame :
    sessionOut 7 ("10 PRINT FRE(0)\n20 GOSUB 100\n30 PRINT FRE(0)\n40 END\n" ++
        "100 FOR I=1 TO 5\n110 RETURN\nRUN\n") = some (str "32528\n32504\nOK\n") ∧
    sessionOut 6 ("10 GOSUB 100\n20 PRINT \"DONE\"\n30 END\n100 PRINT \"SUB\"\n" ++
        "110 RETURN\nRUN\n") = some (str "SUB\nDONE\nOK\n") := by
  decide!

set_option maxRecDepth 100000 in
/-- C18, counterexample: a `FOR` that a colon follows is a syntax error, so
the statement after it on the line is not executed. -/
theorem C18_counterexample :
    sessionOut 2 "10 FOR I=1 TO 3: PRINT I: NEXT I\nRUN\n" =
      some (str "Syntax Error\n10 FOR I=1 TO 3^ PRINT I: NEXT I\n\n") := by
  decide!

set_option maxRecDepth 100000 in
/-- C19 (the code at the failing input): `INPUT A` accepts the line `x12` and
stores 7212, because the first byte is taken as a digit without a test; and
after the rejected line `-1x` the accepted line `5` stores -5, because the
sign of the rejected line is kept. -/
theorem C19_input_accepts_letter :
    sessionOut 2 "INPUT A\nx12\nPRINT A\n" = some (str "?7212\n") ∧
    sessionOut 3 "10 INPUT A\n20 PRINT A\nRUN\n-1x\n5\n" =
      some (str "?\nBad number\n?-5\nOK\n") := by
  decide!

set_option maxRecDepth 100000 in
/-- C20 (the code at the failing input): in the line `print "it's":print 1`
the apostrophe inside the string becomes the open quote, the closing `"`
opens a string again, and the second `print` is left in lower case. -/
theorem C20_other_quote_reopens :
    ((getln 0 { initState with inp := str "print \"it's\":print 1\n" }).bind
        (fun r => toUppercaseBuffer r.2)).map (fun s => rd s.mem (s.pgm_end + 2) 21) =
      some (str "PRINT \"it's\":print 1\n") := by
  decide!


/-! ## Listing from a running program; line input; the frame walk -/

/-- The function `printpgm` lists the records from the first one whose number is at least
the global `linenum` on, whatever its parameter is. -/
theorem printpgm_from_linenum (st : State) (recs : List (Nat × List Nat)) (x : Nat)
    (hwf : WF st recs) (hnl : ∀ r ∈ recs, NL ∉ r.2) (hroom : st.pgm_end + 5 ≤ st.sp) :
    ∃ m2, printpgm x st =
        some { st with mem := m2, list_line := st.pgm_end,
                       out := st.out ++ listing st.linux
                         (recs.dropWhile (fun r => decide (r.1 < st.linenum))) } ∧
      (∀ a, a + 5 < st.sp ∨ st.sp ≤ a → m2 a = st.mem a) := by
  obtain ⟨⟨hok, hs, hpe, hh⟩, hsp⟩ := hwf
  have hcnt := progBytes_length_ge recs
  have hsplit := List.takeWhile_append_dropWhile (fun r => decide (r.1 < st.linenum)) recs
  have hfind : findline st = some (pgm_start +
      (progBytes (recs.takeWhile (fun r => decide (r.1 < st.linenum)))).length) := by
    unfold findline
    exact findlineLoop_spec recs st.mem st.pgm_end st.linenum MEMSIZE pgm_start hok hh hpe
      (by unfold MEMSIZE at *; omega)
  have hh2 := hh
  rw [← hsplit, progBytes_append, holds_append] at hh2
  have hlen : (progBytes recs).length =
      (progBytes (recs.takeWhile (fun r => decide (r.1 < st.linenum)))).length +
      (progBytes (recs.dropWhile (fun r => decide (r.1 < st.linenum)))).length := by
    conv_lhs => rw [← hsplit, progBytes_append, List.length_append]
  have hdl : (recs.dropWhile (fun r => decide (r.1 < st.linenum))).length ≤ recs.length := by
    conv_rhs => rw [← hsplit, List.length_append]
    omega
  unfold printpgm
  rw [hfind]
  dsimp only
  exact printpgmLoop_spec (recs.dropWhile (fun r => decide (r.1 < st.linenum)))
    { st with list_line := pgm_start +
        (progBytes (recs.takeWhile (fun r => decide (r.1 < st.linenum)))).length } MEMSIZE
    (fun r hr => hok r ((List.dropWhile_sublist _).subset hr))
    (fun r hr => hnl r ((List.dropWhile_sublist _).subset hr)) hh2.2
    (by dsimp only; omega) hroom hsp (by unfold MEMSIZE at *; omega)

set_option maxRecDepth 100000 in
/-- Claim C21, failing input: the program `10 GOTO 30`, `20 PRINT 2`,
`30 SAVE "F"` is run.  When control reaches the `SAVE` of line 30 (five
passages of the statement loop after `RUN`), the global `linenum` is 30, left
there by `GOTO 30`; `printpgm(0)` - the call that `SAVE` makes - then writes
line 30 only, and not the three lines of the program: the body of `printpgm`
does not use its parameter, `findline()` reads the global `linenum`. -/
theorem C21_printpgm_ignores_parameter :
    atSave.1 = Lbl.interperateAtTxtpos ∧
    rd atSave.2.mem atSave.2.txtpos 9 = str "SAVE \"F\"\n" ∧
    (scantable keywords atSave.2).table_index = KW_SAVE ∧
    WF atSave.2 saveRecords ∧ atSave.2.linenum = 30 ∧
    (printpgm 0 { atSave.2 with out := [] }).map (fun s => s.out) =
      some (str "30 SAVE \"F\"\n") ∧
    listing atSave.2.linux saveRecords = str "10 GOTO 30\n20 PRINT 2\n30 SAVE \"F\"\n" := by
  decide!

set_option maxRecDepth 100000 in
/-- Claim C28, failing input: a backspace received on an empty line buffer
moves the cursor of `getln` below the start of the buffer (the test is
`txtpos == pgm_end`, the buffer starts at `pgm_end + 2`) and echoes the erase
sequence: after `BACKSPACE`, `A`, newline the letter lies at `pgm_end + 1` and
the line handed on at `pgm_end + 2` is empty; and the line
`BACKSPACE BACKSPACE XXPRINT 7` is run as `PRINT 7`. -/
theorem C28_backspace_below_buffer :
    (getln 0 { initState with inp := [CTRLH, 65, NL] }).map
        (fun r => (r.1, r.2.txtpos, rd r.2.mem pgm_start 4, r.2.out)) =
      some (1, pgm_start + 2, [0, 65, NL, 0], [8, 32, 8]) ∧
    (getln 0 { initState with inp := [65, NL] }).map
        (fun r => (r.1, r.2.txtpos, rd r.2.mem pgm_start 4, r.2.out)) =
      some (1, pgm_start + 3, [0, 0, 65, NL], []) ∧
    (session 1000 1 { initState with inp := [CTRLH, CTRLH] ++ str "XXPRINT 7\n" }).map
        (fun r => r.2.out) = some ([8, 32, 8, 8, 32, 8] ++ str "7\n") := by
  decide!

set_option maxRecDepth 100000 in
/-- Claim C29, failing input: the frame walk runs up to the end of `memory`,
not to `top_sp`.  Without an array a `RETURN` with no frame on the stack is a
syntax error; after `DIM A(0)` the walk reads the first byte of the array as a
frame type and `RETURN` ends in `Stack is stuffed!`, and so does `NEXT I`;
after `DIM A(11)` and `A(0)=18247` (both bytes 71, the gosub flag) the 24 bytes
of the array are taken for a gosub frame and `RETURN` reads the line and the
cursor from the cells `A(4)` to `A(11)`: they hold null pointers, which the
code goes on to dereference, so the session has no result. -/
theorem C29_walk_reads_array_storage :
    sessionOut 1 "RETURN\n" = some (str "Syntax Error\n\n") ∧
    sessionOut 2 "DIM A(0)\nRETURN\n" = some (str "Stack is stuffed!\n\nOK\n") ∧
    sessionOut 2 "DIM A(0)\nNEXT I\n" = some (str "Stack is stuffed!\n\nOK\n") ∧
    (session 1000 2 { initState with inp := str "DIM A(11)\nA(0)=18247\nRETURN\n" }).map
        (fun r => (r.2.sp, r.2.top_sp, rd r.2.mem r.2.top_sp 2,
          rdLine r.2.mem (r.2.top_sp + FRAME_LINE), rdTxtpos r.2.mem (r.2.top_sp + FRAME_TXTPOS))) =
      some (MEMSIZE - 24, MEMSIZE - 24, [71, 71], some 0, none) ∧
    (session 1000 3 { initState with inp := str "DIM A(11)\nA(0)=18247\nRETURN\n" }).isNone = true := by
  decide!

/-! ## The accepted range of `testnum` -/

theorem ignoreBlanksLoop_blanks (m : Mem) (bs : List Nat) (c : Nat) (fuel p : Nat)
    (hh : Holds m p (bs ++ [c])) (hb : ∀ b ∈ bs, b = SPACE ∨ b = TAB)
    (hc : ¬ (c = SPACE ∨ c = TAB)) (hfuel : bs.length ≤ fuel) :
    ignoreBlanksLoop m fuel p = p + bs.length := by
  induction bs generalizing fuel p with
  | nil =>
    simp only [List.nil_append] at hh
    rw [ignoreBlanksLoop_stop _ _ _ (by rw [hh.1]; exact hc)]
    rfl
  | cons x xs ih =>
    obtain ⟨f, rfl⟩ : ∃ f, fuel = f + 1 := ⟨fuel - 1, by simp at hfuel; omega⟩
    simp only [List.length_cons] at hfuel
    rw [List.cons_append, holds_cons] at hh
    rw [ignoreBlanksLoop, if_pos (by rw [hh.1]; exact hb x (by simp)),
      ih f (p + 1) hh.2 (fun b hb2 => hb b (by simp [hb2])) (by omega)]
    simp only [List.length_cons]
    omega

theorem foldl_digits_ge (ds : List Nat) (a : Nat) :
    a ≤ ds.foldl (fun a d => a * 10 + d) a := by
  induction ds generalizing a with
  | nil => exact Nat.le_refl _
  | cons d ds ih =>
    simp only [List.foldl_cons]
    exact Nat.le_trans (by omega) (ih _)

theorem testnumLoop_digits (m : Mem) (ds : List Nat) (c : Nat) (fuel num p : Nat)
    (hh : Holds m p (ds ++ [c])) (hd : ∀ d ∈ ds, 48 ≤ d ∧ d ≤ 57) (hc : ¬ (48 ≤ c ∧ c ≤ 57))
    (hv : (ds.map (fun d => d - 48)).foldl (fun a d => a * 10 + d) num ≤ 65000)
    (hfuel : ds.length < fuel) :
    testnumLoop m fuel num p =
      ((ds.map (fun d => d - 48)).foldl (fun a d => a * 10 + d) num, p + ds.length) := by
  induction ds generalizing fuel num p with
  | nil =>
    obtain ⟨f, rfl⟩ : ∃ f, fuel = f + 1 := ⟨fuel - 1, by simp at hfuel; omega⟩
    simp only [List.nil_append] at hh
    rw [testnumLoop, if_neg (by rw [hh.1]; exact hc)]
    rfl
  | cons x xs ih =>
    obtain ⟨f, rfl⟩ : ∃ f, fuel = f + 1 := ⟨fuel - 1, by simp at hfuel; omega⟩
    simp only [List.length_cons] at hfuel
    rw [List.cons_append, holds_cons] at hh
    have hx := hd x (by simp)
    simp only [List.map_cons, List.foldl_cons] at hv ⊢
    have hge := foldl_digits_ge (xs.map (fun d => d - 48)) (num * 10 + (x - 48))
    have e : (num * 10 + x - 48) % 65536 = num * 10 + (x - 48) := by omega
    rw [testnumLoop, if_pos (by rw [hh.1]; exact hx),
      if_neg (by unfold MAXLINENUM; omega), hh.1, e,
      ih f (num * 10 + (x - 48)) (p + 1) hh.2 (fun d hd2 => hd d (by simp [hd2])) hv (by omega)]
    simp only [List.length_cons]
    congr 1
    omega

/-- Claim C25: when the text at the cursor is a run of blanks, then a maximal
run of decimal digits (leading zeros allowed, possibly empty) whose value is at
most 65000, then a byte that is no digit, `testnum` returns exactly that value
and leaves the cursor on the byte after the digits; with no digit it returns 0
and the cursor has passed the blanks only. -/
theorem C25_testnum_accepted (st : State) (bs ds : List Nat) (c : Nat)
    (hh : Holds st.mem st.txtpos (bs ++ ds ++ [c]))
    (hb : ∀ b ∈ bs, b = SPACE ∨ b = TAB) (hd : ∀ d ∈ ds, 48 ≤ d ∧ d ≤ 57)
    (hc : ¬ (48 ≤ c ∧ c ≤ 57)) (hcb : ds = [] → ¬ (c = SPACE ∨ c = TAB))
    (hv : natVal 10 (ds.map (fun d => d - 48)) ≤ 65000)
    (hroom : st.txtpos + bs.length + ds.length < MEMSIZE) :
    testnum st = (natVal 10 (ds.map (fun d => d - 48)),
      { st with txtpos := st.txtpos + bs.length + ds.length }) ∧
    (ds = [] → natVal 10 (ds.map (fun d => d - 48)) = 0) := by
  refine ⟨?_, fun h => by subst h; rfl⟩
  have hh2 := hh
  rw [List.append_assoc, holds_append] at hh2
  obtain ⟨hbs, hds⟩ := hh2
  have hfirst : ¬ ((ds ++ [c]).headD 0 = SPACE ∨ (ds ++ [c]).headD 0 = TAB) := by
    cases ds with
    | nil => simpa using hcb rfl
    | cons d ds =>
      have := hd d (by simp)
      simp only [List.cons_append, List.headD_cons, SPACE, TAB]
      omega
  have hskip : ignoreBlanksLoop st.mem (MEMSIZE - st.txtpos) st.txtpos = st.txtpos + bs.length := by
    have hh3 : Holds st.mem st.txtpos (bs ++ [(ds ++ [c]).headD 0]) := by
      rw [holds_append]
      refine ⟨hbs, ?_, trivial⟩
      cases ds with
      | nil => exact hds.1
      | cons d ds => exact hds.1
    exact ignoreBlanksLoop_blanks st.mem bs _ _ _ hh3 hb hfirst (by omega)
  unfold testnum ignore_blanks
  dsimp only
  rw [hskip, testnumLoop_digits st.mem ds c _ 0 _ hds hd hc hv (by omega)]
  rfl

/-- C25, witness: `  0042X` gives 42 with the cursor on the `X`. -/
theorem C25_testnum_accepted_witness :
    testnum (withText initState 1000 (str "  0042X")) =
      (natVal 10 ((str "0042").map (fun d => d - 48)),
        { withText initState 1000 (str "  0042X") with
          txtpos := (withText initState 1000 (str "  0042X")).txtpos + (str "  ").length
            + (str "0042").length }) ∧
    ((str "0042") = [] → natVal 10 ((str "0042").map (fun d => d - 48)) = 0) :=
  C25_testnum_accepted (withText initState 1000 (str "  0042X")) (str "  ") (str "0042") 88
    (by decide) (by decide) (by decide) (by decide) (by decide) (by decide) (by decide)

/-! ## `findline` -/

theorem takeWhile_dropWhile_head (recs : List (Nat × List Nat)) (n : Nat) :
    (∀ r ∈ recs.takeWhile (fun r => decide (r.1 < n)), r.1 < n) ∧
    (∀ r ∈ (recs.dropWhile (fun r => decide (r.1 < n))).head?, n ≤ r.1) := by
  constructor
  · intro r hr
    simpa using List.mem_takeWhile_imp hr
  · intro r hr
    induction recs with
    | nil => simp at hr
    | cons x xs ih =>
      by_cases hx : x.1 < n
      · rw [List.dropWhile_cons_of_pos (by simpa using hx)] at hr
        exact ih hr
      · rw [List.dropWhile_cons_of_neg (by simpa using hx)] at hr
        simp at hr
        subst hr
        omega

/-- Claim C24: on a well-formed sorted program region, `findline` returns
(with the fuel of the model, so it terminates) the address of the first record
in storage order whose line number is at least the global `linenum`: the
records split into those before that address, all with a smaller number, and
those from it on, the first of which has a number at least `linenum`; the
address is `pgm_end` when no record is left, and it is `pgm_start` for an
empty program or for `linenum = 0`. -/
theorem C24_findline (st : State) (recs : List (Nat × List Nat)) (hwf : WF st recs)
    (hpe : st.pgm_end ≤ MEMSIZE) :
    ∃ pre post, recs = pre ++ post ∧ (∀ r ∈ pre, r.1 < st.linenum) ∧
      (∀ r ∈ post.head?, st.linenum ≤ r.1) ∧
      findline st = some (pgm_start + (progBytes pre).length) ∧
      Holds st.mem (pgm_start + (progBytes pre).length) (progBytes post) ∧
      (post = [] → pgm_start + (progBytes pre).length = st.pgm_end) ∧
      (recs = [] ∨ st.linenum = 0 → pre = [] ∧ findline st = some pgm_start) := by
  obtain ⟨⟨hok, hs, hpe2, hh⟩, hsp⟩ := hwf
  have hcnt := progBytes_length_ge recs
  obtain ⟨h1, h2⟩ := takeWhile_dropWhile_head recs st.linenum
  refine ⟨recs.takeWhile (fun r => decide (r.1 < st.linenum)),
    recs.dropWhile (fun r => decide (r.1 < st.linenum)),
    (List.takeWhile_append_dropWhile _ _).symm, h1, h2, ?_, ?_, ?_, ?_⟩
  · unfold findline
    exact findlineLoop_spec recs st.mem st.pgm_end st.linenum MEMSIZE pgm_start hok hh hpe2
      (by unfold MEMSIZE at *; omega)
  · have := hh
    rw [← List.takeWhile_append_dropWhile (fun r => decide (r.1 < st.linenum)) recs,
      progBytes_append, holds_append] at this
    exact this.2
  · intro hnil
    have := List.takeWhile_append_dropWhile (fun r => decide (r.1 < st.linenum)) recs
    rw [hnil, List.append_nil] at this
    rw [this, hpe2]
  · intro h
    have hpre : recs.takeWhile (fun r => decide (r.1 < st.linenum)) = [] := by
      rcases h with h | h
      · subst h; rfl
      · rw [h]
        cases recs <;> simp [List.takeWhile]
    refine ⟨hpre, ?_⟩
    unfold findline
    rw [findlineLoop_spec recs st.mem st.pgm_end st.linenum MEMSIZE pgm_start hok hh hpe2
      (by unfold MEMSIZE at *; omega), hpre]
    rfl

set_option maxRecDepth 100000 in
/-- C24, witness: the program of the lines 10, 20 and 30 with `linenum` at 30. -/
theorem C24_findline_witness :
    ∃ pre post, gotoRecords = pre ++ post ∧ (∀ r ∈ pre, r.1 < gotoProgram.linenum) ∧
      (∀ r ∈ post.head?, gotoProgram.linenum ≤ r.1) ∧
      findline gotoProgram = some (pgm_start + (progBytes pre).length) ∧
      Holds gotoProgram.mem (pgm_start + (progBytes pre).length) (progBytes post) ∧
      (post = [] → pgm_start + (progBytes pre).length = gotoProgram.pgm_end) ∧
      (gotoRecords = [] ∨ gotoProgram.linenum = 0 →
        pre = [] ∧ findline gotoProgram = some pgm_start) :=
  C24_findline gotoProgram gotoRecords (by decide!) (by decide!)

/-! ## `printnum` -/

theorem natVal_snoc (b : Nat) (ds : List Nat) (d : Nat) :
    natVal b (ds ++ [d]) = natVal b ds * b + d := by
  simp [natVal, List.foldl_append]

theorem natVal_decimal (n : Nat) : natVal 10 ((decimal n).map (fun d => d - 48)) = n := by
  induction n using Nat.strong_induction_on with
  | _ n ih =>
    by_cases h : n < 10
    · rw [decimal_small n h]
      simp [natVal]
    · rw [decimal_step n h, List.map_append, List.map_singleton, natVal_snoc, ih (n / 10) (by omega)]
      omega

theorem decimal_head_zero (n : Nat) (h : (decimal n).head? = some 48) : n = 0 := by
  by_contra hn
  obtain ⟨d, ds, e, hd, -⟩ := decimal_head n (by omega)
  rw [e] at h
  simp at h
  omega

theorem printnum_neg (v : Int) (st : State) (h : v < 0) :
    printnum v st = printnum ((-v).toNat : Int) { st with out := st.out ++ [45] } := by
  unfold printnum
  have h2 : ¬ (((-v).toNat : Int) < 0) := by omega
  simp only [if_pos h, if_neg h2, Int.toNat_ofNat]

/-- Claim C27: for every value from -32768 to 65535, `printnum` (with room
for five bytes below the stack pointer) writes a `-` exactly when the value is
negative, then the decimal digits of its absolute value, most significant
first, with no leading zero (the digit `0` alone for 0), and returns with the
stack pointer it was entered with; only the five bytes below the stack
pointer are written. -/
theorem C27_printnum (v : Int) (st : State) (hlo : -32768 ≤ v) (hhi : v ≤ 65535)
    (hsp : 5 ≤ st.sp) :
    ∃ m2 ds, printnum v st =
        { st with mem := m2, out := st.out ++ (if v < 0 then [45] else []) ++ ds } ∧
      (printnum v st).sp = st.sp ∧
      ds ≠ [] ∧ (∀ d ∈ ds, 48 ≤ d ∧ d ≤ 57) ∧ natVal 10 (ds.map (fun d => d - 48)) = v.natAbs ∧
      (ds.head? = some 48 → v = 0 ∧ ds = [48]) ∧
      (∀ a, a + 5 < st.sp ∨ st.sp ≤ a → m2 a = st.mem a) := by
  have key : ∀ (n : Nat) (s : State), n < 100000 → 5 ≤ s.sp →
      ∃ m2, printnum (n : Int) s = { s with mem := m2, out := s.out ++ decimal n } ∧
        (∀ a, a + 5 < s.sp ∨ s.sp ≤ a → m2 a = s.mem a) := by
    intro n s hn hs
    have hl := decimal_length_le n hn
    obtain ⟨m2, e, fr⟩ := printnum_spec n s (by omega)
    exact ⟨m2, e, fun a ha => fr a (by omega)⟩
  have hprops : ∀ n : Nat, decimal n ≠ [] ∧ (∀ d ∈ decimal n, 48 ≤ d ∧ d ≤ 57) ∧
      natVal 10 ((decimal n).map (fun d => d - 48)) = n ∧
      ((decimal n).head? = some 48 → n = 0 ∧ decimal n = [48]) := by
    intro n
    refine ⟨decimal_ne_nil n, decimal_digits n, natVal_decimal n, fun h => ?_⟩
    have := decimal_head_zero n h
    subst this
    exact ⟨rfl, rfl⟩
  by_cases hv : v < 0
  · obtain ⟨m2, e, fr⟩ := key (-v).toNat { st with out := st.out ++ [45] } (by omega) hsp
    obtain ⟨p1, p2, p3, p4⟩ := hprops (-v).toNat
    rw [printnum_neg v st hv]
    refine ⟨m2, decimal (-v).toNat, ?_, by rw [e], p1, p2, ?_, ?_, fr⟩
    · rw [e, if_pos hv]
    · rw [p3]; omega
    · intro h
      have := (p4 h).1
      omega
  · obtain ⟨m2, e, fr⟩ := key v.toNat st (by omega) hsp
    obtain ⟨p1, p2, p3, p4⟩ := hprops v.toNat
    have hc : ((v.toNat : Nat) : Int) = v := by omega
    rw [hc] at e
    refine ⟨m2, decimal v.toNat, ?_, by rw [e], p1, p2, ?_, ?_, fr⟩
    · rw [e, if_neg hv]
      simp
    · rw [p3]; omega
    · intro h
      obtain ⟨q1, q2⟩ := p4 h
      exact ⟨by omega, q2⟩

/-- C27, witness: the value -32768 in a fresh interpreter. -/
theorem C27_printnum_witness :
    ∃ m2 ds, printnum (-32768) initState =
        { initState with mem := m2,
                         out := initState.out ++ (if (-32768 : Int) < 0 then [45] else []) ++ ds } ∧
      (printnum (-32768) initState).sp = initState.sp ∧
      ds ≠ [] ∧ (∀ d ∈ ds, 48 ≤ d ∧ d ≤ 57) ∧
      natVal 10 (ds.map (fun d => d - 48)) = (-32768 : Int).natAbs ∧
      (ds.head? = some 48 → (-32768 : Int) = 0 ∧ ds = [48]) ∧
      (∀ a, a + 5 < initState.sp ∨ initState.sp ≤ a → m2 a = initState.mem a) :=
  C27_printnum (-32768) initState (by decide) (by decide) (by decide)

/-! ## `rand` -/

theorem schrage (s : Int) (h1 : 1 ≤ s) (h2 : s ≤ 2147483646) :
    (if 16807 * (s % 127773) - 2836 * (s / 127773) > 0
      then 16807 * (s % 127773) - 2836 * (s / 127773)
      else 16807 * (s % 127773) - 2836 * (s / 127773) + 2147483647) =
    (16807 * s) % 2147483647 := by
  obtain ⟨hi, hhi⟩ : ∃ hi, hi = s / 127773 := ⟨_, rfl⟩
  obtain ⟨lo, hlo⟩ : ∃ lo, lo = s % 127773 := ⟨_, rfl⟩
  rw [← hhi, ← hlo]
  have e : 16807 * s = (16807 * lo - 2836 * hi) + 2147483647 * hi := by omega
  have b1 : 16807 * lo - 2836 * hi < 2147483647 := by omega
  have b2 : -2147483647 < 16807 * lo - 2836 * hi := by omega
  have b3 : 16807 * lo - 2836 * hi ≠ 0 := by omega
  rw [e, Int.add_mul_emod_self_left]
  split
  · rw [Int.emod_eq_of_lt (by omega) b1]
  · rw [← Int.add_mul_emod_self_left _ 2147483647 1, mul_one,
      Int.emod_eq_of_lt (by omega) (by omega)]

theorem schrage_range (s : Int) (h1 : 1 ≤ s) (h2 : s ≤ 2147483646) :
    1 ≤ (16807 * s) % 2147483647 ∧ (16807 * s) % 2147483647 ≤ 2147483646 := by
  have := schrage s h1 h2
  split at this <;> omega

/-- Claim C22: for a seed `s` in `1..2^31-2` and an amount `n` in `1..65535`,
one call `rand(n)` replaces the seed by `(16807 * s) mod (2^31 - 1)`, which is
again in `1..2^31-2`, and returns the new seed modulo `n`, a value below `n`;
the products `16807 * lo` and `2836 * hi` of the decomposition by `q = 127773`
and `r = 2836`, their difference and the difference plus the modulus (taken
when it is not positive) all lie in the signed 32-bit range; from the seed 1 the
call returns `16807 mod n`. -/
theorem C22_rand (st : State) (n : Nat) (h1 : 1 ≤ st.seed) (h2 : st.seed ≤ 2147483646)
    (hn1 : 1 ≤ n) (hn2 : n ≤ 65535) :
    rand n st = some (((16807 * st.seed) % 2147483647 % (n : Int)).toNat,
      { st with seed := (16807 * st.seed) % 2147483647 }) ∧
    1 ≤ (16807 * st.seed) % 2147483647 ∧ (16807 * st.seed) % 2147483647 ≤ 2147483646 ∧
    ((16807 * st.seed) % 2147483647 % (n : Int)).toNat < n ∧
    (0 ≤ 16807 * Int.tmod st.seed 127773 ∧ 16807 * Int.tmod st.seed 127773 ≤ 2147483647) ∧
    (0 ≤ 2836 * Int.tdiv st.seed 127773 ∧ 2836 * Int.tdiv st.seed 127773 ≤ 2147483647) ∧
    (-2147483648 ≤ 16807 * Int.tmod st.seed 127773 - 2836 * Int.tdiv st.seed 127773 ∧
      16807 * Int.tmod st.seed 127773 - 2836 * Int.tdiv st.seed 127773 ≤ 2147483647) ∧
    (16807 * Int.tmod st.seed 127773 - 2836 * Int.tdiv st.seed 127773 ≤ 0 →
      0 ≤ 16807 * Int.tmod st.seed 127773 - 2836 * Int.tdiv st.seed 127773 + 2147483647) ∧
    (st.seed = 1 → rand n st = some (16807 % n, { st with seed := 16807 })) := by
  have hd : Int.tdiv st.seed 127773 = st.seed / 127773 :=
    Int.tdiv_eq_ediv (by omega) (by omega)
  have hm : Int.tmod st.seed 127773 = st.seed % 127773 :=
    Int.tmod_eq_emod (by omega) (by omega)
  have hs := schrage st.seed h1 h2
  obtain ⟨r1, r2⟩ := schrage_range st.seed h1 h2
  have hn0 : (0 : Int) < n := by omega
  have hr0 : 0 ≤ (16807 * st.seed) % 2147483647 % (n : Int) := Int.emod_nonneg _ (by omega)
  have hr1 : (16807 * st.seed) % 2147483647 % (n : Int) < n := Int.emod_lt_of_pos _ hn0
  have hrand : rand n st = some (((16807 * st.seed) % 2147483647 % (n : Int)).toNat,
      { st with seed := (16807 * st.seed) % 2147483647 }) := by
    unfold rand
    simp only [hd, hm, hs]
    rw [if_neg (by omega)]
    have e : Int.tmod ((16807 * st.seed) % 2147483647) (n : Int) =
        (16807 * st.seed) % 2147483647 % (n : Int) := Int.tmod_eq_emod (by omega) (by omega)
    rw [e]
    unfold toUShort
    congr 3
    omega
  refine ⟨hrand, r1, r2, by omega, ?_, ?_, ?_, ?_, ?_⟩
  · rw [hm]; omega
  · rw [hd]; omega
  · rw [hm, hd]; omega
  · rw [hm, hd]; omega
  · intro h
    rw [hrand, h]
    congr 2
/-- C22, witness: the first call in a fresh interpreter (seed 1), with the
amount 100. -/
theorem C22_rand_witness :
    rand 100 initState = some (((16807 * initState.seed) % 2147483647 % ((100 : Nat) : Int)).toNat,
      { initState with seed := (16807 * initState.seed) % 2147483647 }) ∧
    (initState.seed = 1 → rand 100 initState = some (16807 % 100, { initState with seed := 16807 })) :=
  ⟨(C22_rand initState 100 (by decide) (by decide) (by decide) (by decide)).1,
    (C22_rand initState 100 (by decide) (by decide) (by decide) (by decide)).2.2.2.2.2.2.2.2⟩

/-! ## `scantable` -/

theorem kwBytes_length (b : List Nat) : (kwBytes b).length = b.length := by
  induction b with
  | nil => rfl
  | cons c cs ih =>
    cases cs with
    | nil => rfl
    | cons d ds => simp only [kwBytes, List.length_cons] at ih ⊢; omega

theorem kwBytes_skip (b : List Nat) (rest : List Nat) (hb : b ≠ []) (hc : ∀ c ∈ b, c < 128) :
    ((kwBytes b ++ rest).dropWhile (fun x => decide (x < 128))).tail = rest := by
  induction b with
  | nil => exact absurd rfl hb
  | cons c cs ih =>
    cases cs with
    | nil =>
      simp only [kwBytes, List.singleton_append]
      rw [List.dropWhile_cons_of_neg (by simp)]
      rfl
    | cons d ds =>
      simp only [kwBytes, List.cons_append]
      rw [List.dropWhile_cons_of_pos (by simpa using hc c (by simp))]
      exact ih (by simp) (fun x hx => hc x (by simp [hx]))

theorem scan_entry (m : Mem) (p B : Nat) (h7 : ∀ j, j < B → m (p + j) < 128) (rest : List Nat)
    (b : List Nat) (hb : b ≠ []) (hc : ∀ c ∈ b, 1 ≤ c ∧ c < 128) (i idx fuel : Nat)
    (hf : b.length ≤ fuel) (hB : i + b.length ≤ B) :
    (Holds m (p + i) b →
      scantableLoop m p fuel (kwBytes b ++ rest) i idx = (some (i + b.length), idx)) ∧
    (¬ Holds m (p + i) b → ∃ f2, fuel ≤ f2 + b.length ∧
      scantableLoop m p fuel (kwBytes b ++ rest) i idx = scantableLoop m p f2 rest 0 (idx + 1)) := by
  induction b generalizing i fuel with
  | nil => exact absurd rfl hb
  | cons c cs ih =>
    obtain ⟨f, rfl⟩ : ∃ f, fuel = f + 1 := ⟨fuel - 1, by simp at hf; omega⟩
    have hc1 := hc c (by simp)
    have hm := h7 i (by simp only [List.length_cons] at hB; omega)
    have hs : schar (m (p + i)) = (m (p + i) : Int) := schar_small _ hm
    have hmod : m (p + i) % 256 = m (p + i) := Nat.mod_eq_of_lt (by omega)
    cases cs with
    | nil =>
      simp only [kwBytes, List.singleton_append, List.length_singleton]
      constructor
      · intro hh
        exact scantableLoop_last m p f _ rest i idx (by omega) (by rw [hmod]; omega)
          (by rw [hs, hh.1]; push_cast; rfl)
      · intro hh
        have hne : m (p + i) ≠ c := fun e => hh ⟨e, trivial⟩
        refine ⟨f, by omega, ?_⟩
        rw [scantableLoop_skip m p f _ rest i idx (by omega) (by rw [hmod]; omega)
          (by rw [hs]; push_cast; omega)]
        rw [List.dropWhile_cons_of_neg (by simp)]
        rfl
    | cons d ds =>
      simp only [List.length_cons] at hf
      have ih2 := ih (by simp) (fun x hx => hc x (by simp [hx])) (i + 1) f
        (by simp only [List.length_cons]; omega)
        (by simp only [List.length_cons] at hB ⊢; omega)
      simp only [kwBytes, List.cons_append, List.length_cons]
      by_cases hmc : m (p + i) = c
      · have step := scantableLoop_match m p f c (kwBytes (d :: ds) ++ rest) i idx (by omega)
          (by rw [hmod]; exact hmc)
        constructor
        · intro hh
          rw [step, ih2.1 (by rw [← Nat.add_assoc]; exact hh.2)]
          simp only [List.length_cons]
          congr 2
          omega
        · intro hh
          have hh2 : ¬ Holds m (p + (i + 1)) (d :: ds) := fun h =>
            hh ⟨hmc, by rw [← Nat.add_assoc] at h; exact h⟩
          obtain ⟨f2, hf2, e⟩ := ih2.2 hh2
          simp only [List.length_cons] at hf2
          exact ⟨f2, by omega, by rw [step, e]⟩
      · constructor
        · intro hh
          exact absurd hh.1 hmc
        · intro _
          refine ⟨f, by omega, ?_⟩
          rw [scantableLoop_skip m p f c (kwBytes (d :: ds) ++ rest) i idx (by omega)
            (by rw [hmod]; exact hmc) (by rw [hs]; omega)]
          have := kwBytes_skip (c :: d :: ds) rest (by simp) (fun x hx => (hc x hx).2)
          simp only [kwBytes, List.cons_append] at this
          rw [this]

theorem tableOf_length (ks : List (List Nat)) :
    (tableOf ks).length = (ks.map List.length).sum + 1 := by
  induction ks with
  | nil => rfl
  | cons k ks ih =>
    simp only [tableOf, List.length_append, kwBytes_length, ih, List.map_cons, List.sum_cons]
    omega

theorem scan_table_found (m : Mem) (p B : Nat) (h7 : ∀ j, j < B → m (p + j) < 128)
    (ks : List (List Nat)) (hw : ∀ k ∈ ks, k ≠ [] ∧ ∀ c ∈ k, 1 ≤ c ∧ c < 128)
    (hlen : ∀ k ∈ ks, k.length ≤ B)
    (i : Nat) (k : List Nat) (hk : ks.get? i = some k) (hh : Holds m p k)
    (hfirst : ∀ j k2, j < i → ks.get? j = some k2 → ¬ Holds m p k2)
    (idx fuel : Nat) (hf : (tableOf ks).length ≤ fuel) :
    scantableLoop m p fuel (tableOf ks) 0 idx = (some k.length, idx + i) := by
  induction ks generalizing i idx fuel with
  | nil => simp at hk
  | cons k0 ks ih =>
    obtain ⟨hk0, hc0⟩ := hw k0 (by simp)
    simp only [tableOf, List.length_append, kwBytes_length] at hf ⊢
    have se := scan_entry m p B h7 (tableOf ks) k0 hk0 hc0 0 idx fuel (by omega)
      (by have := hlen k0 (by simp); omega)
    cases i with
    | zero =>
      simp only [List.get?_cons_zero, Option.some.injEq] at hk
      subst hk
      rw [se.1 hh]
      simp
    | succ i =>
      simp only [List.get?_cons_succ] at hk
      obtain ⟨f2, hf2, e⟩ := se.2 (hfirst 0 k0 (by omega) rfl)
      rw [e, ih (fun x hx => hw x (by simp [hx])) (fun x hx => hlen x (by simp [hx])) i hk
        (fun j k2 hj hk2 => hfirst (j + 1) k2 (by omega) (by simpa using hk2)) (idx + 1) f2
        (by omega)]
      congr 1
      omega

theorem scan_table_none (m : Mem) (p B : Nat) (h7 : ∀ j, j < B → m (p + j) < 128)
    (ks : List (List Nat)) (hw : ∀ k ∈ ks, k ≠ [] ∧ ∀ c ∈ k, 1 ≤ c ∧ c < 128)
    (hlen : ∀ k ∈ ks, k.length ≤ B)
    (hnone : ∀ k ∈ ks, ¬ Holds m p k)
    (idx fuel : Nat) (hf : (tableOf ks).length ≤ fuel) :
    scantableLoop m p fuel (tableOf ks) 0 idx = (none, idx + ks.length) := by
  induction ks generalizing idx fuel with
  | nil =>
    obtain ⟨f, rfl⟩ : ∃ f, fuel = f + 1 := ⟨fuel - 1, by simp [tableOf] at hf; omega⟩
    simp [tableOf, scantableLoop]
  | cons k0 ks ih =>
    obtain ⟨hk0, hc0⟩ := hw k0 (by simp)
    simp only [tableOf, List.length_append, kwBytes_length] at hf ⊢
    have se := scan_entry m p B h7 (tableOf ks) k0 hk0 hc0 0 idx fuel (by omega)
      (by have := hlen k0 (by simp); omega)
    obtain ⟨f2, hf2, e⟩ := se.2 (hnone k0 (by simp))
    rw [e, ih (fun x hx => hw x (by simp [hx])) (fun x hx => hlen x (by simp [hx]))
      (fun x hx => hnone x (by simp [hx])) (idx + 1) f2
      (by omega)]
    simp only [List.length_cons]
    congr 1
    omega

theorem keywordTables_words (T : List Nat) (ks : List (List Nat)) (hT : (T, ks) ∈ keywordTables) :
    T = tableOf ks ∧ ks.length < 256 ∧ (∀ k ∈ ks, k ≠ [] ∧ ∀ c ∈ k, 1 ≤ c ∧ c < 128) ∧
      ∀ k ∈ ks, k.length ≤ 6 := by
  simp only [keywordTables, List.mem_cons, Prod.mk.injEq, List.mem_singleton, List.not_mem_nil,
    or_false] at hT
  rcases hT with ⟨rfl, rfl⟩ | ⟨rfl, rfl⟩ | ⟨rfl, rfl⟩ | ⟨rfl, rfl⟩ | ⟨rfl, rfl⟩ <;>
    exact ⟨by decide, by decide, by decide, by decide⟩

theorem holds_prefix (m : Mem) (p : Nat) (k k2 : List Nat) (h1 : Holds m p k) (h2 : Holds m p k2) :
    k <+: k2 ∨ k2 <+: k := by
  induction k generalizing k2 p with
  | nil => exact Or.inl ( List.nil_prefix)
  | cons c cs ih =>
    cases k2 with
    | nil => exact Or.inr ( List.nil_prefix)
    | cons d ds =>
      have e : c = d := by rw [← h1.1, ← h2.1]
      subst e
      rcases ih (p + 1) ds h1.2 h2.2 with h | h
      · exact Or.inl ((List.prefix_cons_inj c).mpr h)
      · exact Or.inr ((List.prefix_cons_inj c).mpr h)

theorem statementWords_apart :
    statementWords.Pairwise (fun a b => ¬ a <+: b ∧ ¬ b <+: a) := by decide

theorem scantable_found (T : List Nat) (ks : List (List Nat)) (hT : (T, ks) ∈ keywordTables)
    (st : State) (h7 : ∀ j, j < 6 → st.mem ((ignore_blanks st).txtpos + j) < 128)
    (i : Nat) (k : List Nat) (hk : ks.get? i = some k)
    (hh : Holds st.mem (ignore_blanks st).txtpos k)
    (hfirst : ∀ j k2, j < i → ks.get? j = some k2 → ¬ Holds st.mem (ignore_blanks st).txtpos k2) :
    scantable T st = ignore_blanks { st with txtpos := (ignore_blanks st).txtpos + k.length,
                                             table_index := i } := by
  obtain ⟨rfl, hlen, hw, hle⟩ := keywordTables_words T ks hT
  have hi : i < ks.length := by
    rcases List.get?_eq_some.mp hk with ⟨h, -⟩
    exact h
  unfold scantable
  dsimp only
  have e := scan_table_found (ignore_blanks st).mem (ignore_blanks st).txtpos 6 h7 ks hw hle i k
    hk hh hfirst 0 ((tableOf ks).length + 1) (by omega)
  rw [e]
  dsimp only
  rw [Nat.zero_add, Nat.mod_eq_of_lt (by omega)]
  rfl

theorem scantable_none (T : List Nat) (ks : List (List Nat)) (hT : (T, ks) ∈ keywordTables)
    (st : State) (h7 : ∀ j, j < 6 → st.mem ((ignore_blanks st).txtpos + j) < 128)
    (hnone : ∀ k ∈ ks, ¬ Holds st.mem (ignore_blanks st).txtpos k) :
    scantable T st = { st with txtpos := (ignore_blanks st).txtpos, table_index := ks.length } := by
  obtain ⟨rfl, hlen, hw, hle⟩ := keywordTables_words T ks hT
  unfold scantable
  dsimp only
  have e := scan_table_none (ignore_blanks st).mem (ignore_blanks st).txtpos 6 h7 ks hw hle hnone
    0 ((tableOf ks).length + 1) (by omega)
  rw [e]
  dsimp only
  rw [Nat.zero_add, Nat.mod_eq_of_lt (by omega)]
  rfl

/-- A text that starts with a statement keyword: `table_index` is the index
of the keyword. -/
theorem scantable_statement (st : State)
    (h7 : ∀ j, j < 6 → st.mem ((ignore_blanks st).txtpos + j) < 128) (i : Nat) (k : List Nat)
    (hk : statementWords.get? i = some k) (hh : Holds st.mem (ignore_blanks st).txtpos k) :
    scantable keywords st = ignore_blanks { st with txtpos := (ignore_blanks st).txtpos + k.length,
                                                    table_index := i } := by
  obtain ⟨hi, hki⟩ := List.get?_eq_some.mp hk
  refine scantable_found keywords statementWords (by decide) st h7 i k hk hh ?_
  intro j k2 hj hk2 h2
  obtain ⟨hj2, hkj⟩ := List.get?_eq_some.mp hk2
  have hp := List.pairwise_iff_get.mp statementWords_apart ⟨j, hj2⟩ ⟨i, hi⟩ hj
  rw [hkj, hki] at hp
  rcases holds_prefix _ _ k k2 hh h2 with h | h
  · exact hp.2 h
  · exact hp.1 h

/-- Claim C26: for each of the five keyword tables and a text that is 7-bit
from the first byte after the leading blanks on, `scantable` skips the blanks
and sets `table_index` to the index of the first word of the table, in table
order, that is a prefix of the text, with the cursor after that word and the
blanks that follow it; when no word is a prefix, `table_index` is the number
of words of the table (24, 7, 1, 1, 6) and the cursor is on the first byte
that is no blank.  A text that starts with a statement keyword gives the `KW_`
constant of that keyword. -/
theorem C26_scantable (T : List Nat) (ks : List (List Nat)) (hT : (T, ks) ∈ keywordTables)
    (st : State) (h7 : ∀ j, st.mem ((ignore_blanks st).txtpos + j) < 128) :
    (∀ i k, ks.get? i = some k → Holds st.mem (ignore_blanks st).txtpos k →
      (∀ j k2, j < i → ks.get? j = some k2 → ¬ Holds st.mem (ignore_blanks st).txtpos k2) →
      scantable T st = ignore_blanks { st with txtpos := (ignore_blanks st).txtpos + k.length,
                                               table_index := i }) ∧
    ((∀ k ∈ ks, ¬ Holds st.mem (ignore_blanks st).txtpos k) →
      scantable T st = { st with txtpos := (ignore_blanks st).txtpos, table_index := ks.length }) ∧
    T = tableOf ks ∧
    keywordTables.map (fun t => t.2.length) = [24, 7, 1, 1, 6] ∧
    (∀ i k, statementWords.get? i = some k → Holds st.mem (ignore_blanks st).txtpos k →
      statementConstants.get? i = some i ∧
      scantable keywords st = ignore_blanks { st with txtpos := (ignore_blanks st).txtpos + k.length,
                                                      table_index := i }) := by
  refine ⟨fun i k hk hh hfirst => scantable_found T ks hT st (fun j _ => h7 j) i k hk hh hfirst,
    fun hnone => scantable_none T ks hT st (fun j _ => h7 j) hnone,
    (keywordTables_words T ks hT).1, by decide, fun i k hk hh => ?_⟩
  obtain ⟨hi, hki⟩ := List.get?_eq_some.mp hk
  constructor
  · have : ∀ n, n < 24 → statementConstants.get? n = some n := by decide
    exact this i hi
  · exact scantable_statement st (fun j _ => h7 j) i k hk hh

theorem withText_7bit (st : State) (a : Nat) (xs : List Nat) (hx : ∀ x ∈ xs, x < 128)
    (hm : ∀ i, st.mem i < 128) (i : Nat) : (withText st a xs).mem i < 128 := by
  unfold withText
  dsimp only
  split
  · rename_i h
    rw [List.getD_eq_getElem _ _ (by omega)]
    exact hx _ (List.getElem_mem _)
  · exact hm i

set_option maxRecDepth 100000 in
/-- C26, witness: the texts ` 12` (no keyword) and ` PRINT 1` against the table
of the statement keywords. -/
theorem C26_scantable_witness :
    (∀ k ∈ statementWords, ¬ Holds (withText initState 1000 (str " 12\n")).mem
        (ignore_blanks (withText initState 1000 (str " 12\n"))).txtpos k) ∧
    scantable keywords (withText initState 1000 (str " 12\n")) =
      { withText initState 1000 (str " 12\n") with
        txtpos := (ignore_blanks (withText initState 1000 (str " 12\n"))).txtpos,
        table_index := statementWords.length } ∧
    (Holds (withText initState 1000 (str " PRINT 1\n")).mem
        (ignore_blanks (withText initState 1000 (str " PRINT 1\n"))).txtpos (str "PRINT") ∧
      scantable keywords (withText initState 1000 (str " PRINT 1\n")) =
        ignore_blanks { withText initState 1000 (str " PRINT 1\n") with
          txtpos := (ignore_blanks (withText initState 1000 (str " PRINT 1\n"))).txtpos
            + (str "PRINT").length,
          table_index := KW_PRINT }) :=
  ⟨by decide!,
   (C26_scantable keywords statementWords (by decide) (withText initState 1000 (str " 12\n"))
      (fun _ => withText_7bit _ _ _ (by decide) (fun _ => (by decide : (0 : Nat) < 128)) _)).2.1 (by decide!),
   by decide!,
   ((C26_scantable keywords statementWords (by decide) (withText initState 1000 (str " PRINT 1\n"))
      (fun _ => withText_7bit _ _ _ (by decide) (fun _ => (by decide : (0 : Nat) < 128)) _)).2.2.2.2
      KW_PRINT (str "PRINT") (by decide) (by decide!)).2⟩

/-! ## The evaluator writes nothing -/

theorem agree_refl (a : State) : Agree a a := ⟨rfl, rfl, rfl, rfl, rfl, rfl, rfl⟩

theorem keeps_refl (a : State) : Keeps a a :=
  ⟨rfl, rfl, rfl, rfl, rfl, rfl, rfl, rfl, rfl, rfl, rfl, rfl, rfl, rfl⟩

theorem keeps_trans (a b c : State) (h1 : Keeps a b) (h2 : Keeps b c) : Keeps a c := by
  unfold Keeps at *
  simp_all

theorem agree_ib (a b : State) (h : Agree a b) : Agree (ignore_blanks a) (ignore_blanks b) := by
  obtain ⟨h1, h2, h3, h4, h5, h6, h7⟩ := h
  refine ⟨h1, ?_, h3, h4, h5, h6, h7⟩
  show ignoreBlanksLoop a.mem _ _ = ignoreBlanksLoop b.mem _ _
  rw [h1, h2]

theorem keeps_ib (a b : State) (h : Keeps a b) : Keeps a (ignore_blanks b) := h

theorem agree_txtpos (a b : State) (h : Agree a b) (p : Nat) :
    Agree { a with txtpos := p } { b with txtpos := p } := by
  obtain ⟨h1, h2, h3, h4, h5, h6, h7⟩ := h
  exact ⟨h1, rfl, h3, h4, h5, h6, h7⟩

theorem keeps_txtpos (a b : State) (h : Keeps a b) (p : Nat) : Keeps a { b with txtpos := p } := h

theorem agree_error (a b : State) (h : Agree a b) (e : Nat) :
    Agree { a with exp_error := e } { b with exp_error := e } := by
  obtain ⟨h1, h2, h3, h4, h5, h6, h7⟩ := h
  exact ⟨h1, h2, rfl, h4, h5, h6, h7⟩

theorem keeps_error (a b : State) (h : Keeps a b) (e : Nat) : Keeps a { b with exp_error := e } := h

theorem agree_printnnl (a b : State) (h : Agree a b) (x y : List Nat) :
    Agree (printnnl x a) (printnnl y b) := h

theorem keeps_printnnl (a b : State) (h : Keeps a b) (x : List Nat) : Keeps a (printnnl x b) := h

theorem agree_put_nl (a b : State) (h : Agree a b) : Agree (put_nl a) (put_nl b) := h

theorem keeps_put_nl (a b : State) (h : Keeps a b) : Keeps a (put_nl b) := h

theorem agree_scantable (T : List Nat) (a b : State) (h : Agree a b) :
    Agree (scantable T a) (scantable T b) ∧
      (scantable T a).table_index = (scantable T b).table_index := by
  have hi := agree_ib a b h
  obtain ⟨h1, h2, h3, h4, h5, h6, h7⟩ := hi
  have key : scantableLoop (ignore_blanks a).mem (ignore_blanks a).txtpos (T.length + 1) T 0 0 =
      scantableLoop (ignore_blanks b).mem (ignore_blanks b).txtpos (T.length + 1) T 0 0 := by
    rw [h1, h2]
  unfold scantable
  dsimp only
  rw [key]
  split
  · exact ⟨⟨h1, h2, h3, h4, h5, h6, h7⟩, rfl⟩
  · refine ⟨agree_ib _ _ ⟨h1, ?_, h3, h4, h5, h6, h7⟩, rfl⟩
    show _ + _ = _ + _
    rw [h2]

theorem keeps_scantable (T : List Nat) (a b : State) (h : Keeps a b) :
    Keeps a (scantable T b) := by
  unfold scantable
  dsimp only
  split
  · exact h
  · exact h

theorem same_success (a a1 b1 : State) (v : Int) (h : Agree a1 b1) (k : Keeps a a1) :
    SameResult a (expr4Success v a1) (expr4Success v b1) :=
  Or.inr ⟨v, _, _, rfl, rfl, agree_ib _ _ h, k⟩

theorem same_error (a a1 b1 : State) (v : Int) (h : Agree a1 b1) (k : Keeps a a1) :
    SameResult a (expr4Error v a1) (expr4Error v b1) :=
  Or.inr ⟨v, _, _, rfl, rfl, agree_ib _ _ (agree_error _ _ h 1), k⟩

/-- What a call of a respecting function gives on two states that agree. -/
theorem respects_cases (e : State → Option (Int × State)) (he : Respects e) (a b : State)
    (h : Agree a b) :
    (e a = none ∧ e b = none) ∨
    ∃ v a1 b1, e a = some (v, a1) ∧ e b = some (v, b1) ∧ Agree a1 b1 ∧ Keeps a a1 :=
  he a b h

theorem same_none (a : State) : SameResult a none none := Or.inl ⟨rfl, rfl⟩

theorem same_ite (a0 : State) (c : Prop) [Decidable c] (x y x2 y2 : Option (Int × State))
    (h1 : c → SameResult a0 x x2) (h2 : ¬ c → SameResult a0 y y2) :
    SameResult a0 (if c then x else y) (if c then x2 else y2) := by
  by_cases h : c
  · rw [if_pos h, if_pos h]; exact h1 h
  · rw [if_neg h, if_neg h]; exact h2 h

theorem respects_array (e : State → Option (Int × State)) (he : Respects e) (a0 a b : State)
    (h : Agree a b) (k : Keeps a0 a) : SameResult a0 (expr4Array e a) (expr4Array e b) := by
  have hm := h.1
  have ht := h.2.1
  unfold expr4Array
  dsimp only
  rcases respects_cases e he _ _ (agree_txtpos a b h (a.txtpos + 1)) with ⟨ea, eb⟩ | ⟨v, a1, b1, ea, eb, h1, k1⟩
  · rw [← ht, ea, eb]
    exact same_none a0
  · rw [← ht, ea, eb]
    dsimp only
    have k2 : Keeps a0 a1 := keeps_trans _ _ _ k k1
    rw [← hm, ← h1.1]
    apply same_ite
    · intro _
      exact same_error a0 _ _ 0 (agree_put_nl _ _ (agree_printnnl _ _ h1 _ _))
        (keeps_put_nl _ _ (keeps_printnnl _ _ k2 _))
    · intro _
      apply same_ite
      · intro _
        exact same_success a0 _ _ _ h1 k2
      · intro _
        exact same_none a0

theorem agree_mk (a b : State) (h1 : a.mem = b.mem) (h2 : a.txtpos = b.txtpos)
    (h3 : a.exp_error = b.exp_error) (h4 : a.sp = b.sp) (h5 : a.pgm_end = b.pgm_end)
    (h6 : a.seed = b.seed) (h7 : a.linux = b.linux) : Agree a b := ⟨h1, h2, h3, h4, h5, h6, h7⟩

theorem agree_step (a b : State) (h : Agree a b) (n : Nat) :
    Agree { a with txtpos := a.txtpos + n } { b with txtpos := b.txtpos + n } := by
  obtain ⟨h1, h2, h3, h4, h5, h6, h7⟩ := h
  refine ⟨h1, ?_, h3, h4, h5, h6, h7⟩
  show _ + _ = _ + _
  rw [h2]

theorem respects_func (e : State → Option (Int × State)) (he : Respects e) (a0 a b : State)
    (h : Agree a b) (k : Keeps a0 a) : SameResult a0 (expr4Func e a) (expr4Func e b) := by
  obtain ⟨hA, hti⟩ := agree_scantable func_tab a b h
  have ks := keeps_scantable func_tab a0 a k
  unfold expr4Func
  dsimp only
  generalize scantable func_tab a = a1 at hA hti ks ⊢
  generalize scantable func_tab b = b1 at hA hti ⊢
  have hr := he _ _ (agree_step a1 b1 hA 1)
  obtain ⟨m1, t1, e1, s1, p1, sd1, l1⟩ := hA
  generalize e { a1 with txtpos := a1.txtpos + 1 } = ra at hr ⊢
  generalize e { b1 with txtpos := b1.txtpos + 1 } = rb at hr ⊢
  rw [← hti, ← m1, ← t1]
  have hA : Agree a1 b1 := ⟨m1, t1, e1, s1, p1, sd1, l1⟩
  apply same_ite
  · intro _; exact same_error a0 _ _ 0 hA ks
  intro _
  apply same_ite
  · intro _; exact same_success a0 _ _ 1 hA ks
  intro _
  apply same_ite
  · intro _; exact same_success a0 _ _ 0 hA ks
  intro _
  apply same_ite
  · intro _; exact same_error a0 _ _ 0 hA ks
  intro _
  rcases hr with ⟨rfl, rfl⟩ | ⟨v, a2, b2, rfl, rfl, h2, k2⟩
  · dsimp only
    exact same_none a0
  dsimp only
  have k3 : Keeps a0 a2 := keeps_trans _ _ _ ks k2
  obtain ⟨m2, t2, e2, s2, p2, sd2, l2⟩ := h2
  have hA2 : Agree a2 b2 := ⟨m2, t2, e2, s2, p2, sd2, l2⟩
  rw [← m2, ← t2, ← e2, ← s2, ← p2, ← sd2, ← l2]
  apply same_ite
  · intro _; exact same_error a0 _ _ v hA2 k3
  intro _
  apply same_ite
  · intro _
    unfold peek
    dsimp only
    by_cases c : toUShort v < MEMSIZE
    · rw [if_pos c]; exact same_success a0 _ _ _ ⟨rfl, rfl, rfl, rfl, rfl, rfl, rfl⟩ k3
    · rw [if_neg c]; exact same_none a0
  intro _
  apply same_ite
  · intro _; exact same_success a0 _ _ _ ⟨rfl, rfl, rfl, rfl, rfl, rfl, rfl⟩ k3
  intro _
  apply same_ite
  · intro _
    unfold inp
    dsimp only
    by_cases c : a2.linux = true
    · rw [if_pos c, if_pos c]
      dsimp only
      exact same_success a0 _ _ _ ⟨rfl, rfl, rfl, rfl, rfl, rfl, rfl⟩ k3
    · rw [if_neg c, if_neg c]
      dsimp only
      exact same_none a0
  intro _
  apply same_ite
  · intro _
    exact same_success a0 _ _ _ ⟨rfl, rfl, rfl, rfl, rfl, rfl, rfl⟩ k3
  intro _
  unfold rand
  dsimp only
  by_cases c : toUShort v = 0
  · rw [if_pos c, if_pos c]
    dsimp only
    exact same_none a0
  · rw [if_neg c, if_neg c]
    dsimp only
    exact same_success a0 _ _ _ ⟨rfl, rfl, rfl, rfl, rfl, rfl, rfl⟩ k3

theorem respects_expr4 (e : State → Option (Int × State)) (he : Respects e) (a0 a b : State)
    (h : Agree a b) (k : Keeps a0 a) : SameResult a0 (expr4 e a) (expr4 e b) := by
  have hA := agree_ib a b h
  have ks : Keeps a0 (ignore_blanks a) := k
  unfold expr4
  dsimp only
  generalize ignore_blanks a = a1 at hA ks ⊢
  generalize ignore_blanks b = b1 at hA ⊢
  have hr := he _ _ (agree_step a1 b1 hA 1)
  have harr := respects_array e he a0 a1 b1 hA ks
  have hfun := respects_func e he a0 a1 b1 hA ks
  obtain ⟨m1, t1, e1, s1, p1, sd1, l1⟩ := hA
  generalize e { a1 with txtpos := a1.txtpos + 1 } = ra at hr ⊢
  generalize e { b1 with txtpos := b1.txtpos + 1 } = rb at hr ⊢
  generalize expr4Array e a1 = xa at harr ⊢
  generalize expr4Array e b1 = xb at harr ⊢
  generalize expr4Func e a1 = fa at hfun ⊢
  generalize expr4Func e b1 = fb at hfun ⊢
  have hA : Agree a1 b1 := ⟨m1, t1, e1, s1, p1, sd1, l1⟩
  rw [← m1, ← t1, ← e1, ← s1, ← p1, ← sd1, ← l1]
  apply same_ite
  · intro _; exact same_success a0 _ _ _ ⟨rfl, rfl, rfl, rfl, rfl, rfl, rfl⟩ ks
  intro _
  apply same_ite
  · intro _; exact same_success a0 _ _ _ ⟨rfl, rfl, rfl, rfl, rfl, rfl, rfl⟩ ks
  intro _
  apply same_ite
  · intro _; exact same_success a0 _ _ _ ⟨rfl, rfl, rfl, rfl, rfl, rfl, rfl⟩ ks
  intro _
  apply same_ite
  · intro _
    apply same_ite
    · intro _; exact harr
    intro _
    apply same_ite
    · intro _; exact same_success a0 _ _ _ ⟨rfl, rfl, rfl, rfl, rfl, rfl, rfl⟩ ks
    · intro _; exact hfun
  intro _
  apply same_ite
  · intro _
    rcases hr with ⟨rfl, rfl⟩ | ⟨v, a2, b2, rfl, rfl, h2, k2⟩
    · dsimp only
      exact same_none a0
    dsimp only
    have k3 : Keeps a0 a2 := keeps_trans _ _ _ ks k2
    obtain ⟨m2, t2, e2, s2, p2, sd2, l2⟩ := h2
    have hA2 : Agree a2 b2 := ⟨m2, t2, e2, s2, p2, sd2, l2⟩
    rw [← m2, ← t2, ← e2, ← s2, ← p2, ← sd2, ← l2]
    apply same_ite
    · intro _; exact same_error a0 _ _ v hA2 k3
    · intro _; exact same_success a0 _ _ _ ⟨rfl, rfl, rfl, rfl, rfl, rfl, rfl⟩ k3
  · intro _; exact same_error a0 _ _ 0 hA ks

/-- The property of `Respects` relative to a base state. -/
theorem respects_base (f : State → Option (Int × State)) (hf : Respects f) (a0 a b : State)
    (h : Agree a b) (k : Keeps a0 a) : SameResult a0 (f a) (f b) := by
  rcases hf a b h with ⟨ea, eb⟩ | ⟨v, a1, b1, ea, eb, h1, k1⟩
  · exact Or.inl ⟨ea, eb⟩
  · exact Or.inr ⟨v, a1, b1, ea, eb, h1, keeps_trans _ _ _ k k1⟩

theorem respects_expr3Loop (e4 : State → Option (Int × State)) (he : Respects e4) (a0 : State)
    (fuel : Nat) (acc : Int) (a b : State) (h : Agree a b) (k : Keeps a0 a) :
    SameResult a0 (expr3Loop e4 fuel acc a) (expr3Loop e4 fuel acc b) := by
  induction fuel generalizing acc a b with
  | zero => exact same_none a0
  | succ f ih =>
    rw [expr3Loop, expr3Loop]
    have hr1 := respects_base e4 he a0 _ _ (agree_step a b h 1) k
    have hr3 := respects_base e4 he a0 _ _ (agree_step a b h 3) k
    obtain ⟨m1, t1, e1, s1, p1, sd1, l1⟩ := h
    generalize e4 { a with txtpos := a.txtpos + 1 } = ra at hr1 ⊢
    generalize e4 { b with txtpos := b.txtpos + 1 } = rb at hr1 ⊢
    generalize e4 { a with txtpos := a.txtpos + 3 } = ra3 at hr3 ⊢
    generalize e4 { b with txtpos := b.txtpos + 3 } = rb3 at hr3 ⊢
    have hA : Agree a b := ⟨m1, t1, e1, s1, p1, sd1, l1⟩
    rw [← m1, ← t1]
    apply same_ite
    · intro _
      rcases hr1 with ⟨rfl, rfl⟩ | ⟨v, a2, b2, rfl, rfl, h2, k2⟩
      · dsimp only
        exact same_none a0
      · dsimp only
        exact ih _ a2 b2 h2 k2
    intro _
    apply same_ite
    · intro _
      rcases hr1 with ⟨rfl, rfl⟩ | ⟨v, a2, b2, rfl, rfl, h2, k2⟩
      · dsimp only
        exact same_none a0
      · dsimp only
        apply same_ite
        · intro _; exact ih _ a2 b2 h2 k2
        · intro _; exact ih _ _ _ (agree_error a2 b2 h2 1) k2
    intro _
    apply same_ite
    · intro _
      rcases hr3 with ⟨rfl, rfl⟩ | ⟨v, a2, b2, rfl, rfl, h2, k2⟩
      · dsimp only
        exact same_none a0
      · dsimp only
        apply same_ite
        · intro _; exact same_none a0
        · intro _; exact ih _ a2 b2 h2 k2
    · intro _
      exact Or.inr ⟨acc, a, b, rfl, rfl, hA, k⟩

theorem respects_expr3 (e4 : State → Option (Int × State)) (he : Respects e4) :
    Respects (expr3 e4) := by
  intro a b h
  unfold expr3
  rcases he a b h with ⟨ea, eb⟩ | ⟨v, a1, b1, ea, eb, h1, k1⟩
  · rw [ea, eb]
    exact same_none a
  · rw [ea, eb]
    exact respects_expr3Loop e4 he a MEMSIZE v a1 b1 h1 k1

theorem respects_expr2Loop (e3 : State → Option (Int × State)) (he : Respects e3) (a0 : State)
    (fuel : Nat) (acc : Int) (a b : State) (h : Agree a b) (k : Keeps a0 a) :
    SameResult a0 (expr2Loop e3 fuel acc a) (expr2Loop e3 fuel acc b) := by
  induction fuel generalizing acc a b with
  | zero => exact same_none a0
  | succ f ih =>
    rw [expr2Loop, expr2Loop]
    have hr1 := respects_base e3 he a0 _ _ (agree_step a b h 1) k
    obtain ⟨m1, t1, e1, s1, p1, sd1, l1⟩ := h
    generalize e3 { a with txtpos := a.txtpos + 1 } = ra at hr1 ⊢
    generalize e3 { b with txtpos := b.txtpos + 1 } = rb at hr1 ⊢
    have hA : Agree a b := ⟨m1, t1, e1, s1, p1, sd1, l1⟩
    rw [← m1, ← t1]
    apply same_ite
    · intro _
      rcases hr1 with ⟨rfl, rfl⟩ | ⟨v, a2, b2, rfl, rfl, h2, k2⟩
      · dsimp only
        exact same_none a0
      · dsimp only
        exact ih _ a2 b2 h2 k2
    intro _
    apply same_ite
    · intro _
      rcases hr1 with ⟨rfl, rfl⟩ | ⟨v, a2, b2, rfl, rfl, h2, k2⟩
      · dsimp only
        exact same_none a0
      · dsimp only
        exact ih _ a2 b2 h2 k2
    · intro _
      exact Or.inr ⟨acc, a, b, rfl, rfl, hA, k⟩

theorem respects_expr2 (e3 : State → Option (Int × State)) (he : Respects e3) :
    Respects (expr2 e3) := by
  intro a b h
  unfold expr2
  have hl := respects_expr2Loop e3 he a MEMSIZE 0 a b h (keeps_refl a)
  rw [← h.1, ← h.2.1]
  apply same_ite
  · intro _; exact hl
  · intro _
    rcases he a b h with ⟨ea, eb⟩ | ⟨v, a1, b1, ea, eb, h1, k1⟩
    · rw [ea, eb]
      exact same_none a
    · rw [ea, eb]
      exact respects_expr2Loop e3 he a MEMSIZE v a1 b1 h1 k1

theorem respects_body (e2 : State → Option (Int × State)) (he : Respects e2) :
    Respects (expressionBody e2) := by
  intro a b h
  unfold expressionBody
  rcases he a b h with ⟨ea, eb⟩ | ⟨v, a1, b1, ea, eb, h1, k1⟩
  · rw [ea, eb]
    exact same_none a
  rw [ea, eb]
  dsimp only
  obtain ⟨hs, hti⟩ := agree_scantable relop_tab a1 b1 h1
  have ks := keeps_scantable relop_tab a a1 k1
  have hr := respects_base e2 he a _ _ hs ks
  generalize scantable relop_tab a1 = a2 at hs hti ks hr ⊢
  generalize scantable relop_tab b1 = b2 at hs hti hr ⊢
  generalize e2 a2 = ra at hr ⊢
  generalize e2 b2 = rb at hr ⊢
  rw [← h1.2.2.1, ← hti]
  apply same_ite
  · intro _; exact Or.inr ⟨v, a1, b1, rfl, rfl, h1, k1⟩
  intro _
  apply same_ite
  · intro _; exact Or.inr ⟨v, a2, b2, rfl, rfl, hs, ks⟩
  intro _
  rcases hr with ⟨rfl, rfl⟩ | ⟨w, a3, b3, rfl, rfl, h3, k3⟩
  · dsimp only
    exact same_none a
  · dsimp only
    exact Or.inr ⟨_, a3, b3, rfl, rfl, h3, k3⟩

theorem respects_expressionD (d : Nat) : Respects (expressionD d) := by
  induction d with
  | zero => intro a b _; exact same_none a
  | succ d ih =>
    intro a b h
    rw [expressionD, expressionD]
    exact respects_body _ (respects_expr2 _ (respects_expr3 _
      (fun x y hxy => respects_expr4 _ ih x x y hxy (keeps_refl x)))) a b h

theorem respects_expression : Respects expression := respects_expressionD MEMSIZE

/-- Claim C23: an evaluation of an expression that returns writes no byte of
the arena and leaves `pgm_end`, `sp` and `top_sp` (and every variable other
than the cursor, the error flag, `table_index`, the output and the seed) as
they were; an evaluation from any state with the same arena, cursor, error
flag, `sp`, `pgm_end`, seed and build returns the same value, the same final
cursor and the same error flag; and when the seed has not moved (no `RAND` was
called), so does a second evaluation started in the state that the first one
left, with the cursor and the error flag put back. -/
theorem C23_evaluator_purity (st st1 : State) (v : Int) (h : expression st = some (v, st1)) :
    (st1.mem = st.mem ∧ st1.pgm_end = st.pgm_end ∧ st1.sp = st.sp ∧ st1.top_sp = st.top_sp) ∧
    Keeps st st1 ∧
    (∀ st2, Agree st st2 → ∃ st3, expression st2 = some (v, st3) ∧
      st3.txtpos = st1.txtpos ∧ st3.exp_error = st1.exp_error) ∧
    (st1.seed = st.seed →
      ∃ st3, expression { st1 with txtpos := st.txtpos, exp_error := st.exp_error } = some (v, st3) ∧
        st3.txtpos = st1.txtpos ∧ st3.exp_error = st1.exp_error) := by
  have hk : Keeps st st1 := by
    rcases respects_expression st st (agree_refl st) with ⟨ea, -⟩ | ⟨w, a1, b1, ea, -, -, k1⟩
    · rw [h] at ea; exact absurd ea (by simp)
    · rw [h] at ea
      simp only [Option.some.injEq, Prod.mk.injEq] at ea
      obtain ⟨-, rfl⟩ := ea
      exact k1
  have hsame : ∀ st2, Agree st st2 → ∃ st3, expression st2 = some (v, st3) ∧
      st3.txtpos = st1.txtpos ∧ st3.exp_error = st1.exp_error := by
    intro st2 hag
    rcases respects_expression st st2 hag with ⟨ea, -⟩ | ⟨w, a1, b1, ea, eb, h1, -⟩
    · rw [h] at ea; exact absurd ea (by simp)
    · rw [h] at ea
      simp only [Option.some.injEq, Prod.mk.injEq] at ea
      obtain ⟨rfl, rfl⟩ := ea
      exact ⟨b1, eb, h1.2.1.symm, h1.2.2.1.symm⟩
  refine ⟨⟨hk.1, hk.2.1, hk.2.2.1, hk.2.2.2.1⟩, hk, hsame, fun hseed => hsame _ ?_⟩
  obtain ⟨k1, k2, k3, k4, -, -, -, -, -, -, -, -, -, k14⟩ := hk
  exact ⟨k1.symm, rfl, rfl, k3.symm, k2.symm, hseed.symm, k14.symm⟩

/-- C23, witness: the text `1+2` in a fresh interpreter. -/
theorem C23_evaluator_purity_witness :
    expression (withText initState 1000 (str "1+2\n")) =
      some (3, { withText initState 1000 (str "1+2\n") with
                 txtpos := 1003, table_index := RELOP_UNKNOWN }) ∧
    ∃ st3, expression { ({ withText initState 1000 (str "1+2\n") with
                 txtpos := 1003, table_index := RELOP_UNKNOWN } : State) with
               txtpos := (withText initState 1000 (str "1+2\n")).txtpos,
               exp_error := (withText initState 1000 (str "1+2\n")).exp_error } = some (3, st3) ∧
        st3.txtpos = 1003 ∧ st3.exp_error = 0 :=
  ⟨rfl, (C23_evaluator_purity (withText initState 1000 (str "1+2\n"))
    { withText initState 1000 (str "1+2\n") with txtpos := 1003, table_index := RELOP_UNKNOWN }
    3 rfl).2.2.2 rfl⟩

/-! ## Passages of the statement loop -/

theorem stepN_step (autorun : Bool) (n : Nat) (l : Lbl) (s : State) (r : Lbl × State)
    (h : step autorun l s = some r) : stepN autorun (n + 1) (l, s) = stepN autorun n r := by
  rw [stepN]
  dsimp only
  rw [h]
  rfl

theorem stepN_add (autorun : Bool) (n k : Nat) (r : Lbl × State) :
    stepN autorun (n + k) r = (stepN autorun n r).bind (stepN autorun k) := by
  induction n generalizing r with
  | zero => rw [Nat.zero_add]; rfl
  | succ n ih =>
    rw [Nat.add_right_comm, stepN, stepN]
    cases step autorun r.1 r.2 with
    | none => rfl
    | some r2 => exact ih r2

theorem atom_val_range (m : Mem) (x : Atom) : -32768 ≤ x.val m ∧ x.val m ≤ 32767 := by
  cases x with
  | var i => exact rd16_range m _
  | num n => exact ⟨(toShort_range _).1, (toShort_range _).2.1⟩
  | hex ds =>
    cases ds with
    | nil =>
      show (-32768 : Int) ≤ 0 ∧ (0 : Int) ≤ 32767
      omega
    | cons d ds =>
      have e := digitsVal_toShort 16 0 (d :: ds) (by simp)
      have r := toShort_range (digitsVal 16 0 (d :: ds))
      rw [e] at r
      exact ⟨r.1, r.2.1⟩

theorem rd16_congr (m1 m2 : Mem) (a : Nat) (h0 : m1 a = m2 a) (h1 : m1 (a + 1) = m2 (a + 1)) :
    rd16 m1 a = rd16 m2 a := by
  unfold rd16
  rw [h0, h1]

theorem run_next_nl (st : State) (h : st.mem st.txtpos = NL) :
    run_next_statement st = (Lbl.execnextline, st) := by
  unfold run_next_statement
  rw [skipColons_stop _ _ _ (by rw [h]; decide)]
  rw [ignore_blanks_stop _ (by dsimp only; rw [h]; decide)]
  dsimp only
  rw [if_pos h]

theorem statementWords_first (k : List Nat) (hk : k ∈ statementWords) :
    ∃ c rest, k = c :: rest ∧ c ≠ 32 ∧ c ≠ 9 := by
  have h : ∀ k ∈ statementWords, k.headD 32 ≠ 32 ∧ k.headD 32 ≠ 9 := by decide
  cases k with
  | nil => exact absurd rfl (h [] hk).1
  | cons c rest => exact ⟨c, rest, rfl, h _ hk⟩

/-- The keyword dispatch of `interperateAtTxtpos` on a statement keyword that
one blank and a byte that is no blank follow: the cursor is on that byte. -/
theorem keyword_dispatch (st : State) (i : Nat) (k : List Nat) (c : Nat)
    (hk : statementWords.get? i = some k) (hh : Holds st.mem st.txtpos (k ++ [32, c]))
    (h7 : ∀ j, j < 6 → st.mem (st.txtpos + j) < 128) (hc : c ≠ 32 ∧ c ≠ 9)
    (hroom : st.txtpos + k.length < MEMSIZE) :
    ignore_blanks (scantable keywords st) =
      { st with txtpos := st.txtpos + k.length + 1, table_index := i } := by
  obtain ⟨k0, kt, hk0, hne⟩ := statementWords_first k (List.mem_iff_get?.mpr ⟨i, hk⟩)
  rw [holds_append] at hh
  obtain ⟨hkey, hb, hcc, -⟩ := hh
  have h0 : st.mem st.txtpos = k0 := by
    rw [hk0] at hkey
    exact hkey.1
  have hib : ignore_blanks st = st :=
    ignore_blanks_stop st (by rw [h0]; unfold SPACE TAB; omega)
  rw [scantable_statement st (by rw [hib]; exact h7) i k hk (by rw [hib]; exact hkey), hib,
    ignore_blanks_idem]
  exact ignore_blanks_skip _ hb (by dsimp only; rw [hcc]; unfold SPACE TAB; omega) hroom

theorem interperate_for (st : State) (c : Nat)
    (hh : Holds st.mem st.txtpos [70, 79, 82, 32, c])
    (h7 : ∀ j, j < 6 → st.mem (st.txtpos + j) < 128) (hc : c ≠ 32 ∧ c ≠ 9)
    (hroom : st.txtpos + 3 < MEMSIZE) :
    interperateAtTxtpos st = forloop { st with txtpos := st.txtpos + 4, table_index := KW_FOR } := by
  have e := keyword_dispatch st 12 [70, 79, 82] c (by decide) hh h7 hc hroom
  unfold interperateAtTxtpos
  dsimp only
  rw [e]
  rfl

theorem interperate_next (st : State) (c : Nat)
    (hh : Holds st.mem st.txtpos [78, 69, 88, 84, 32, c])
    (h7 : ∀ j, j < 6 → st.mem (st.txtpos + j) < 128) (hc : c ≠ 32 ∧ c ≠ 9)
    (hroom : st.txtpos + 4 < MEMSIZE) :
    interperateAtTxtpos st = next { st with txtpos := st.txtpos + 5, table_index := KW_NEXT } := by
  have e := keyword_dispatch st 5 [78, 69, 88, 84] c (by decide) hh h7 hc hroom
  unfold interperateAtTxtpos
  dsimp only
  rw [e]
  rfl

theorem getD_of_isSome {α : Type} (o : Option α) (d : α) (h : o.isSome = true) :
    o = some (o.getD d) := by
  cases o with
  | none => simp at h
  | some r => rfl

theorem pair_of_fst (r : Lbl × State) (l : Lbl) (h : r.1 = l) : r = (l, r.2) := by
  cases r
  cases h
  rfl

/-! ## The empty range of `FOR` -/

/-- C16 (amended): `FOR V=x TO y` with default step, on a program line that
another line follows, makes no test.  Whatever the values of `x` and `y`, four
passages of the statement loop later control is at the first statement of the
next line, with the frame pushed, `V` equal to `x` and the program text as it
was.  When control then comes, after any number `k` of passages, to a statement
`NEXT V` with that frame still on top and unchanged and `V` still equal to `x`,
where `x` is above `y` and below 32767, that `NEXT` adds 1 to `V`, drops the
frame and goes on after itself: the run from the `FOR` to the statement after
the `NEXT` is these `4 + k + 1` passages, so the statements in between have
been executed once, not zero times. -/
theorem C16_for_body_once (st : State) (V : Nat) (x y : Atom) (len : Nat)
    (hV : 65 ≤ V ∧ V ≤ 90) (hx : x.ok) (hy : y.ok)
    (hh : Holds st.mem st.txtpos
      (str "FOR " ++ ([V, 61] ++ x.text ++ str " TO " ++ y.text ++ [NL])))
    (hline : pgm_start ≤ st.current_line) (hcur : st.current_line + 3 ≤ st.txtpos)
    (hlen : st.mem (st.current_line + 2) = len) (hl : len < 128)
    (hend : st.current_line + len ≠ st.pgm_end)
    (hsl : st.stack_limit = 0)
    (hsp : st.txtpos + (x.text.length + y.text.length + 10) + SFF_SIZE < st.sp)
    (htop : st.sp ≤ MEMSIZE) :
    ∃ s1, stepN false 4 (Lbl.interperateAtTxtpos, st) = some (Lbl.interperateAtTxtpos, s1) ∧
      s1.current_line = st.current_line + len ∧ s1.txtpos = st.current_line + len + 3 ∧
      s1.sp + SFF_SIZE = st.sp ∧ s1.out = st.out ∧
      rd16 s1.mem (variables_table + 2 * (V - 65)) = x.val st.mem ∧
      (∀ a, pgm_start ≤ a → a < s1.sp → s1.mem a = st.mem a) ∧
      ∀ (k : Nat) (s2 : State),
        stepN false k (Lbl.interperateAtTxtpos, s1) = some (Lbl.interperateAtTxtpos, s2) →
        Holds s2.mem s2.txtpos (str "NEXT " ++ [V, NL]) → s2.txtpos + 4 < MEMSIZE →
        s2.sp = s1.sp → (∀ a, s1.sp ≤ a → a < s1.sp + SFF_SIZE → s2.mem a = s1.mem a) →
        rd16 s2.mem (variables_table + 2 * (V - 65)) = x.val st.mem →
        y.val st.mem < x.val st.mem → x.val st.mem < 32767 →
        stepN false (4 + k + 1) (Lbl.interperateAtTxtpos, st) =
          some (Lbl.run_next_statement,
            { s2 with txtpos := s2.txtpos + 6, table_index := KW_NEXT,
                      mem := wr16 s2.mem (variables_table + 2 * (V - 65)) (x.val st.mem + 1),
                      sp := st.sp, tempsp := s2.sp }) := by
  have hps : pgm_start = 162 := rfl
  have hvt : variables_table = 0 := rfl
  have hsf : SFF_SIZE = 24 := rfl
  have hms : MEMSIZE = 32768 := rfl
  have eF : str "FOR " = [70, 79, 82, 32] := by decide
  have eT : str " TO " = [32, 84, 79, 32] := by decide
  have eN : str "NEXT " = [78, 69, 88, 84, 32] := by decide
  rw [eF, eT, holds_append] at hh
  obtain ⟨hfor, htxt⟩ := hh
  have hV0 : st.mem (st.txtpos + 4) = V := htxt.1
  have hV1 : st.mem (st.txtpos + 5) = 61 := htxt.2.1
  have hnl : st.mem (st.txtpos + 4 + (x.text.length + y.text.length + 6)) = NL := by
    have h2 := htxt
    rw [holds_append, holds_append] at h2
    have h3 := h2.2.1
    simp only [List.length_append, List.length_cons, List.length_nil] at h3
    rw [← h3]
    congr 1
    dsimp only [List.length]
    omega
  -- the keyword
  have d1 := interperate_for st V
    ⟨hfor.1, hfor.2.1, hfor.2.2.1, hfor.2.2.2.1, hV0, trivial⟩
    (by
      obtain ⟨a0, a1, a2, a3, -⟩ := hfor
      intro j hj
      have e1 : st.txtpos + 1 + 1 = st.txtpos + 2 := rfl
      have e2 : st.txtpos + 2 + 1 = st.txtpos + 3 := rfl
      rw [e1] at a2 a3
      rw [e2] at a3
      interval_cases j
      · rw [Nat.add_zero, a0]; decide
      · rw [a1]; decide
      · rw [a2]; decide
      · rw [a3]; decide
      · rw [hV0]; omega
      · rw [hV1]; decide)
    (by omega) (by omega)
  have d2 := forloop_atoms { st with txtpos := st.txtpos + 4, table_index := KW_FOR } V x y hV hx hy
    htxt (by dsimp only; omega)
  have d3 := pushFor_spec V (x.val st.mem) (y.val st.mem) 1
    { st with txtpos := st.txtpos + 4 + (x.text.length + y.text.length + 6), exp_error := 0,
              table_index := 1 } hsl (by dsimp only; omega)
  have hm := pushFor_mem V (x.val st.mem) (y.val st.mem) 1 st.mem (st.sp - SFF_SIZE)
    (st.txtpos + 4 + (x.text.length + y.text.length + 6)) st.current_line hV (by omega)
  dsimp only at hm d2 d3
  obtain ⟨hf0, hf1, hterm, hstep, hvar, hoth⟩ := hm
  obtain ⟨sA, hA, hAtx, hAcl, hAsp, hAout, hApe, gf0, gf1, gterm, gstep, gvar, goth⟩ :
      ∃ sA : State, interperateAtTxtpos st = some (Lbl.run_next_statement, sA) ∧
        sA.txtpos = st.txtpos + 4 + (x.text.length + y.text.length + 6) ∧
        sA.current_line = st.current_line ∧ sA.sp = st.sp - SFF_SIZE ∧ sA.out = st.out ∧
        sA.pgm_end = st.pgm_end ∧
        sA.mem (st.sp - SFF_SIZE) = STACK_FOR_FLAG ∧ sA.mem (st.sp - SFF_SIZE + 1) = V ∧
        rd16 sA.mem (st.sp - SFF_SIZE + 2) = toShort (y.val st.mem) ∧
        rd16 sA.mem (st.sp - SFF_SIZE + 4) = toShort 1 ∧
        rd16 sA.mem (variables_table + 2 * (V - 65)) = toShort (x.val st.mem) ∧
        (∀ b, (b < st.sp - SFF_SIZE ∨ st.sp - SFF_SIZE + SFF_SIZE ≤ b) →
          (b < variables_table + 2 * (V - 65) ∨ variables_table + 2 * (V - 65) + 2 ≤ b) →
          sA.mem b = st.mem b) :=
    ⟨_, d1.trans (d2.trans d3), rfl, rfl, rfl, rfl, rfl, hf0, hf1, hterm, hstep, hvar, hoth⟩
  clear d1 d2 d3 hf0 hf1 hterm hstep hvar hoth
  have rx := atom_val_range st.mem x
  have ry := atom_val_range st.mem y
  rw [toShort_id _ rx] at gvar
  rw [toShort_id _ ry] at gterm
  rw [toShort_id _ (by omega)] at gstep
  have t2 : run_next_statement sA = (Lbl.execnextline, sA) :=
    run_next_nl sA (by rw [hAtx, goth _ (by omega) (by omega)]; exact hnl)
  have t3 : execnextline sA =
      some (Lbl.execline, { sA with current_line := st.current_line + len }) := by
    unfold execnextline
    rw [if_neg (by rw [hAcl]; omega)]
    dsimp only
    rw [hAcl, goth _ (by omega) (by omega), hlen, schar_small _ hl, if_neg (by omega)]
    have e : ((st.current_line : Int) + (len : Int)).toNat = st.current_line + len := by omega
    rw [e]
  have t4 : execline { sA with current_line := st.current_line + len } =
      (Lbl.interperateAtTxtpos,
        { sA with current_line := st.current_line + len,
                  txtpos := st.current_line + len + 3 }) := by
    unfold execline
    rw [if_neg (by dsimp only; rw [hApe]; exact hend)]
  have h4 : stepN false 4 (Lbl.interperateAtTxtpos, st) =
      some (Lbl.interperateAtTxtpos,
        { sA with current_line := st.current_line + len,
                  txtpos := st.current_line + len + 3 }) := by
    rw [stepN_step false 3 Lbl.interperateAtTxtpos st _ hA,
      stepN_step false 2 Lbl.run_next_statement sA _ (congrArg some t2),
      stepN_step false 1 Lbl.execnextline sA _ t3,
      stepN_step false 0 Lbl.execline _ _ (congrArg some t4)]
    rfl
  refine ⟨_, h4, rfl, rfl, ?_, hAout, gvar, ?_, ?_⟩
  · show sA.sp + SFF_SIZE = st.sp
    rw [hAsp]; omega
  · intro a ha1 ha2
    have ha3 : a < st.sp - SFF_SIZE := by rw [← hAsp]; exact ha2
    exact goth a (Or.inl ha3) (by omega)
  · intro k s2 hk hN hroom2 hsp2 hfr hv hlt hmax
    have hsp3 : s2.sp = st.sp - SFF_SIZE := by rw [hsp2]; exact hAsp
    have hfr2 : ∀ a, st.sp - SFF_SIZE ≤ a → a < st.sp - SFF_SIZE + SFF_SIZE →
        s2.mem a = sA.mem a := by
      intro a h1 h2
      exact hfr a (by show sA.sp ≤ a; rw [hAsp]; exact h1)
        (by show a < sA.sp + SFF_SIZE; rw [hAsp]; exact h2)
    rw [eN] at hN
    obtain ⟨n0, n1, n2, n3, n4, n5, n6, -⟩ := hN
    have e1 : s2.txtpos + 1 + 1 = s2.txtpos + 2 := rfl
    have e2 : s2.txtpos + 2 + 1 = s2.txtpos + 3 := rfl
    have e3 : s2.txtpos + 3 + 1 = s2.txtpos + 4 := rfl
    have e4 : s2.txtpos + 4 + 1 = s2.txtpos + 5 := rfl
    have e5 : s2.txtpos + 5 + 1 = s2.txtpos + 6 := rfl
    rw [e1] at n2 n3 n4 n5 n6
    rw [e2] at n3 n4 n5 n6
    rw [e3] at n4 n5 n6
    rw [e4] at n5 n6
    rw [e5] at n6
    have c1 := interperate_next s2 V ⟨n0, n1, n2, n3, n4, n5, trivial⟩
      (by
        intro j hj
        interval_cases j
        · rw [Nat.add_zero, n0]; decide
        · rw [n1]; decide
        · rw [n2]; decide
        · rw [n3]; decide
        · rw [n4]; decide
        · rw [n5]; omega)
      (by omega) hroom2
    have c2 := next_leave { s2 with txtpos := s2.txtpos + 5, table_index := KW_NEXT } V hV n5
      (Or.inl n6) rfl (by dsimp only; rw [hsp3]; omega) (by dsimp only; rw [hsp3]; omega)
      (by dsimp only; rw [hsp3, hfr2 _ (by omega) (by omega)]; exact gf0)
      (by dsimp only; rw [hsp3, hfr2 _ (by omega) (by omega)]; exact gf1)
      (by
        dsimp only
        rw [hsp3, hv,
          rd16_congr s2.mem sA.mem _ (hfr2 _ (by omega) (by omega)) (hfr2 _ (by omega) (by omega)),
          rd16_congr s2.mem sA.mem (st.sp - SFF_SIZE + 2) (hfr2 _ (by omega) (by omega))
            (hfr2 _ (by omega) (by omega)),
          gstep, gterm, toShort_id _ (by omega)]
        omega)
    dsimp only at c2
    rw [hv, hsp3,
      rd16_congr s2.mem sA.mem _ (hfr2 _ (by omega) (by omega)) (hfr2 _ (by omega) (by omega)),
      gstep, toShort_id _ (by omega)] at c2
    have e6 : st.sp - SFF_SIZE + SFF_SIZE = st.sp := by omega
    rw [e6] at c2
    rw [Nat.add_assoc, stepN_add, h4]
    show stepN false (k + 1) _ = _
    rw [stepN_add, hk]
    show (interperateAtTxtpos s2).bind (stepN false 0) = _
    rw [c1, hsp3, c2]
    rfl

set_option maxRecDepth 100000 in
/-- C16, witness: in the program `10 FOR I=1 TO 0`, `20 PRINT I`, `30 NEXT I`
control is at the `PRINT` four passages after the `FOR`, at the `NEXT` four
passages later with `1` printed, and one passage later after the `NEXT`, with
the frame dropped and `I` = 2. -/
theorem C16_for_body_once_witness :
    atFor.1 = Lbl.interperateAtTxtpos ∧
    rd atFor.2.mem atFor.2.txtpos 13 = str "FOR I=1 TO 0\n" ∧
    stepN false 4 atFor = some atBody ∧ stepN false 4 atBody = some atNext ∧
    rd atBody.2.mem atBody.2.txtpos 8 = str "PRINT I\n" ∧
    rd atNext.2.mem atNext.2.txtpos 7 = str "NEXT I\n" ∧
    atBody.2.out = atFor.2.out ∧ atNext.2.out = atFor.2.out ++ str "1\n" ∧
    stepN false (4 + 4 + 1) (Lbl.interperateAtTxtpos, atFor.2) =
      some (Lbl.run_next_statement,
        { atNext.2 with txtpos := atNext.2.txtpos + 6, table_index := KW_NEXT,
                        mem := wr16 atNext.2.mem (variables_table + 2 * (73 - 65))
                          ((Atom.num 1).val atFor.2.mem + 1),
                        sp := atFor.2.sp, tempsp := atNext.2.sp }) := by
  have H : atFor.1 = Lbl.interperateAtTxtpos ∧ atBody.1 = Lbl.interperateAtTxtpos ∧
      atNext.1 = Lbl.interperateAtTxtpos ∧
      (stepN false 4 atFor).isSome = true ∧ (stepN false 4 atBody).isSome = true ∧
      rd atFor.2.mem atFor.2.txtpos 13 = str "FOR I=1 TO 0\n" ∧
      rd atBody.2.mem atBody.2.txtpos 8 = str "PRINT I\n" ∧
      rd atNext.2.mem atNext.2.txtpos 7 = str "NEXT I\n" ∧
      atBody.2.out = atFor.2.out ∧ atNext.2.out = atFor.2.out ++ str "1\n" ∧
      atFor.2.current_line = pgm_start ∧ atFor.2.txtpos = pgm_start + 3 ∧
      atFor.2.mem (pgm_start + 2) = 16 ∧ atFor.2.pgm_end = pgm_start + 37 ∧
      atFor.2.stack_limit = 0 ∧ atFor.2.sp = MEMSIZE ∧
      atNext.2.txtpos = pgm_start + 30 ∧ atNext.2.sp = atBody.2.sp ∧
      atBody.2.sp = MEMSIZE - SFF_SIZE ∧
      (∀ a, a < SFF_SIZE →
        atNext.2.mem (MEMSIZE - SFF_SIZE + a) = atBody.2.mem (MEMSIZE - SFF_SIZE + a)) ∧
      rd16 atNext.2.mem (variables_table + 2 * (73 - 65)) = (Atom.num 1).val atFor.2.mem ∧
      (Atom.num 0).val atFor.2.mem < (Atom.num 1).val atFor.2.mem ∧
      (Atom.num 1).val atFor.2.mem < 32767 := by
    decide!
  obtain ⟨a1, a2, a3, i1, i2, t1, t2, t3, o1, o2, f1, f2, f3, f4, f5, f6, n1, n2, n3, n4, n5,
    n6, n7⟩ := H
  have e1 : stepN false 4 atFor = some atBody := getD_of_isSome _ _ i1
  have e2 : stepN false 4 atBody = some atNext := getD_of_isSome _ _ i2
  have p1 : atFor = (Lbl.interperateAtTxtpos, atFor.2) := pair_of_fst _ _ a1
  have p2 : atBody = (Lbl.interperateAtTxtpos, atBody.2) := pair_of_fst _ _ a2
  have p3 : atNext = (Lbl.interperateAtTxtpos, atNext.2) := pair_of_fst _ _ a3
  refine ⟨a1, t1, e1, e2, t2, t3, o1, o2, ?_⟩
  obtain ⟨s1, h4, -, -, -, -, -, -, hB⟩ := C16_for_body_once atFor.2 73 (Atom.num 1) (Atom.num 0) 16
    (by decide) trivial trivial
    (by rw [holds_rd]; exact t1)
    (by rw [f1]) (by rw [f1, f2]) (by rw [f1]; exact f3) (by decide)
    (by rw [f1, f4]; decide) f5 (by rw [f2, f6]; decide) (by rw [f6])
  have h5 : some (Lbl.interperateAtTxtpos, s1) = some atBody :=
    h4.symm.trans ((congrArg (stepN false 4) p1.symm).trans e1)
  have hs : s1 = atBody.2 := congrArg Prod.snd (Option.some.inj h5)
  rw [hs] at hB
  refine hB 4 atNext.2 ((congrArg (stepN false 4) p2.symm).trans (e2.trans (congrArg some p3)))
    (by rw [holds_rd]; exact t3) (by rw [n1]; decide) n2 ?_ n5 n6 n7
  intro a h1 h2
  rw [n3] at h1 h2
  obtain ⟨b, rfl⟩ : ∃ b, a = MEMSIZE - SFF_SIZE + b := ⟨a - (MEMSIZE - SFF_SIZE), by omega⟩
  exact n4 b (by omega)

/-! ## Statement sequencing -/

theorem expression_keeps (st st1 : State) (v : Int) (h : expression st = some (v, st1)) :
    Keeps st st1 := by
  rcases respects_expression st st (agree_refl st) with ⟨ea, -⟩ | ⟨w, a1, b1, ea, -, -, k1⟩
  · rw [h] at ea; exact absurd ea (by simp)
  · rw [h] at ea
    simp only [Option.some.injEq, Prod.mk.injEq] at ea
    obtain ⟨-, rfl⟩ := ea
    exact k1

theorem expr2D_keeps (d : Nat) (st st1 : State) (v : Int) (h : expr2D d st = some (v, st1)) :
    Keeps st st1 := by
  have hr : Respects (expr2D d) :=
    respects_expr2 _ (respects_expr3 _
      (fun x y hxy => respects_expr4 _ (respects_expressionD d) x x y hxy (keeps_refl x)))
  rcases hr st st (agree_refl st) with ⟨ea, -⟩ | ⟨w, a1, b1, ea, -, -, k1⟩
  · rw [h] at ea; exact absurd ea (by simp)
  · rw [h] at ea
    simp only [Option.some.injEq, Prod.mk.injEq] at ea
    obtain ⟨-, rfl⟩ := ea
    exact k1

theorem scantable_keeps (T : List Nat) (st : State) : Keeps st (scantable T st) :=
  keeps_scantable T st st (keeps_refl st)

theorem skipColons_colons (m : Mem) (cs : List Nat) (fuel p : Nat) (hh : Holds m p cs)
    (hc : ∀ x ∈ cs, x = 58) (hn : m (p + cs.length) ≠ 58) (hfuel : cs.length ≤ fuel) :
    skipColons m fuel p = p + cs.length := by
  induction cs generalizing fuel p with
  | nil => exact skipColons_stop _ _ _ hn
  | cons x xs ih =>
    obtain ⟨f, rfl⟩ : ∃ f, fuel = f + 1 := ⟨fuel - 1, by simp at hfuel; omega⟩
    simp only [List.length_cons] at hfuel hn ⊢
    rw [skipColons, if_pos (by rw [hh.1]; exact hc x (by simp)),
      ih f (p + 1) hh.2 (fun b hb2 => hc b (by simp [hb2]))
        (by rw [show p + 1 + xs.length = p + (xs.length + 1) by omega]; exact hn) (by omega)]
    omega

/-- The label `run_next_statement` on colons and blanks that a further
statement follows. -/
theorem run_next_colons (st : State) (cs bs : List Nat) (c : Nat)
    (hh : Holds st.mem st.txtpos (cs ++ bs ++ [c])) (hcs : ∀ x ∈ cs, x = 58)
    (hbs : ∀ b ∈ bs, b = 32 ∨ b = 9) (hc : c ≠ 58 ∧ c ≠ 32 ∧ c ≠ 9 ∧ c ≠ NL)
    (hroom : st.txtpos + cs.length + bs.length < MEMSIZE) :
    run_next_statement st =
      (Lbl.interperateAtTxtpos, { st with txtpos := st.txtpos + cs.length + bs.length }) := by
  rw [List.append_assoc, holds_append] at hh
  obtain ⟨h1, h2⟩ := hh
  have h3 := h2
  rw [holds_append] at h3
  have hnext : st.mem (st.txtpos + cs.length) ≠ 58 := by
    cases bs with
    | nil =>
      have := h2.1
      rw [this]
      exact hc.1
    | cons b bt =>
      have := h2.1
      rw [this]
      rcases hbs b (by simp) with e | e <;> rw [e] <;> decide
  unfold run_next_statement
  rw [skipColons_colons st.mem cs _ _ h1 hcs hnext (by omega)]
  unfold ignore_blanks
  dsimp only
  rw [ignoreBlanksLoop_blanks st.mem bs c _ _ h2 hbs (by unfold SPACE TAB; omega) (by omega),
    h3.2.1, if_neg hc.2.2.2]

theorem printnumPush_line (f n d : Nat) (st : State) :
    (printnumPush f n d st).2.current_line = st.current_line := by
  induction f generalizing n d st with
  | zero => rfl
  | succ f ih =>
    rw [printnumPush]
    split
    · rw [ih]; rfl
    · rfl

theorem printnumPop_line (d : Nat) (st : State) :
    (printnumPop d st).current_line = st.current_line := by
  induction d generalizing st with
  | zero => rfl
  | succ d ih => rw [printnumPop, ih]; rfl

theorem printnum_line (v : Int) (st : State) :
    (printnum v st).current_line = st.current_line := by
  unfold printnum
  dsimp only
  rw [printnumPop_line, printnumPush_line]

theorem asg_var_end (var : Nat) (st st2 : State)
    (h : asg_var var st = some (Lbl.run_next_statement, st2)) :
    st2.current_line = st.current_line ∧ (st.mem st2.txtpos = 58 ∨ st.mem st2.txtpos = NL) ∧
      ∃ value, st2.mem = wr16 st.mem var value := by
  unfold asg_var at h
  dsimp only at h
  split at h
  · simp at h
  · cases hE : expression
        { ignore_blanks { ignore_blanks st with txtpos := (ignore_blanks st).txtpos + 1 } with
            exp_error := 0 } with
    | none => rw [hE] at h; simp at h
    | some r =>
      obtain ⟨value, st1⟩ := r
      rw [hE] at h
      dsimp only at h
      have hk := expression_keeps _ _ _ hE
      have hm : st1.mem = st.mem := hk.1
      have hl : st1.current_line = st.current_line := hk.2.2.2.2.2.2.2.1
      split at h
      · simp at h
      · split at h
        · simp at h
        · rename_i hce
          split at h
          · simp only [Option.some.injEq, Prod.mk.injEq, true_and] at h
            subst h
            unfold check_statement_end at hce ⊢
            simp only [Bool.decide_eq_false, Bool.not_eq_true, decide_eq_false_iff_not,
              not_not] at hce
            refine ⟨hl, ?_, value, ?_⟩
            · show st.mem (ignore_blanks st1).txtpos = 58 ∨ st.mem (ignore_blanks st1).txtpos = NL
              rw [← hm]
              exact hce.symm
            · show wr16 st1.mem var value = _
              rw [hm]
          · simp at h

theorem assignment_end (st st2 : State)
    (h : assignment st = some (Lbl.run_next_statement, st2)) :
    st2.current_line = st.current_line ∧ (st.mem st2.txtpos = 58 ∨ st.mem st2.txtpos = NL) ∧
      ∃ var value, st2.mem = wr16 st.mem var value := by
  unfold assignment at h
  dsimp only at h
  split at h
  · simp at h
  · split at h
    · cases hE : expr2D MEMSIZE { st with txtpos := st.txtpos + 1 } with
      | none => rw [hE] at h; simp at h
      | some r =>
        obtain ⟨v, st1⟩ := r
        rw [hE] at h
        dsimp only at h
        have hk := expr2D_keeps _ _ _ _ hE
        have hm : st1.mem = st.mem := hk.1
        have hl : st1.current_line = st.current_line := hk.2.2.2.2.2.2.2.1
        split at h
        · simp at h
        · obtain ⟨a1, a2, value, a3⟩ := asg_var_end _ _ _ h
          rw [hm] at a2 a3
          exact ⟨a1.trans hl, a2, _, value, a3⟩
    · obtain ⟨a1, a2, value, a3⟩ := asg_var_end _ _ _ h
      exact ⟨a1, a2, _, value, a3⟩

theorem dim_line (name size : Nat) (st st3 : State) (h : dim name size st = some st3) :
    st3.current_line = st.current_line := by
  unfold dim at h
  split at h
  · simp only [Option.some.injEq] at h
    rw [← h]
  · split at h
    · simp at h
    · simp only [Option.some.injEq] at h
      rw [← h]

theorem do_dim_end (st st2 : State) (h : do_dim st = some (Lbl.run_next_statement, st2)) :
    st2.current_line = st.current_line ∧ (st2.mem st2.txtpos = 58 ∨ st2.mem st2.txtpos = NL) := by
  unfold do_dim at h
  dsimp only at h
  split at h
  · simp at h
  · split at h
    · simp at h
    · cases hE : expression (ignore_blanks { st with txtpos := st.txtpos + 1 }) with
      | none => rw [hE] at h; simp at h
      | some r =>
        obtain ⟨v, s2⟩ := r
        rw [hE] at h
        dsimp only at h
        have hk := expression_keeps _ _ _ hE
        have hl : s2.current_line = st.current_line := hk.2.2.2.2.2.2.2.1
        cases hD : dim (st.mem st.txtpos - 65) ((toUInt v + 1) % 65536) s2 with
        | none => rw [hD] at h; simp at h
        | some s3 =>
          rw [hD] at h
          dsimp only at h
          have hl3 := dim_line _ _ _ _ hD
          split at h
          · simp at h
          · rename_i hce
            simp only [Option.some.injEq, Prod.mk.injEq, true_and] at h
            subst h
            unfold check_statement_end at hce ⊢
            simp only [Bool.decide_eq_false, Bool.not_eq_true, decide_eq_false_iff_not,
              not_not] at hce
            exact ⟨hl3.trans hl, hce.symm⟩

theorem pokeLike_end (store : Nat → Int → State → Option State)
    (hstore : ∀ x y s s2, store x y s = some s2 → s2.current_line = s.current_line)
    (st st2 : State) (h : pokeLike store st = some (Lbl.run_next_statement, st2)) :
    st2.current_line = st.current_line ∧ (st2.mem st2.txtpos = 58 ∨ st2.mem st2.txtpos = NL) := by
  unfold pokeLike at h
  cases hE : expression { st with exp_error := 0 } with
  | none => rw [hE] at h; simp at h
  | some r =>
    obtain ⟨address, s1⟩ := r
    rw [hE] at h
    dsimp only at h
    have hl1 : s1.current_line = st.current_line := (expression_keeps _ _ _ hE).2.2.2.2.2.2.2.1
    split at h
    · simp at h
    · split at h
      · simp at h
      · cases hE2 : expression
            { ignore_blanks { ignore_blanks s1 with txtpos := (ignore_blanks s1).txtpos + 1 } with
                exp_error := 0 } with
        | none => rw [hE2] at h; simp at h
        | some r2 =>
          obtain ⟨value, s3⟩ := r2
          rw [hE2] at h
          dsimp only at h
          have hl3 : s3.current_line = s1.current_line :=
            (expression_keeps _ _ _ hE2).2.2.2.2.2.2.2.1
          split at h
          · simp at h
          · cases hS : store (toUShort address) (toSChar value) s3 with
            | none => rw [hS] at h; simp at h
            | some s4 =>
              rw [hS] at h
              dsimp only at h
              have hl4 := hstore _ _ _ _ hS
              split at h
              · simp at h
              · rename_i hce
                simp only [Option.some.injEq, Prod.mk.injEq, true_and] at h
                subst h
                unfold check_statement_end at hce ⊢
                simp only [Bool.decide_eq_false, Bool.not_eq_true, decide_eq_false_iff_not,
                  not_not] at hce
                exact ⟨hl4.trans (hl3.trans hl1), hce.symm⟩

theorem poke_line (x : Nat) (y : Int) (s s2 : State) (h : poke x y s = some s2) :
    s2.current_line = s.current_line := by
  unfold poke at h
  split at h
  · simp only [Option.some.injEq] at h
    rw [← h]
  · simp at h

theorem outp_line (x : Nat) (y : Int) (s s2 : State) (h : outp x y s = some s2) :
    s2.current_line = s.current_line := by
  unfold outp at h
  split at h
  · simp only [Option.some.injEq] at h
    rw [← h]
    rfl
  · simp at h

theorem sleep_end (st st2 : State) (h : sleep st = some (Lbl.run_next_statement, st2)) :
    st2.current_line = st.current_line ∧ st2.mem = st.mem := by
  unfold sleep at h
  cases hE : expression { st with exp_error := 0 } with
  | none => rw [hE] at h; simp at h
  | some r =>
    obtain ⟨v, s1⟩ := r
    rw [hE] at h
    dsimp only at h
    have hk := expression_keeps _ _ _ hE
    split at h
    · simp at h
    · simp only [Option.some.injEq, Prod.mk.injEq, true_and] at h
      subst h
      exact ⟨hk.2.2.2.2.2.2.2.1, hk.1⟩

theorem print_quoted_string_line (st st2 : State) (b : Bool)
    (h : print_quoted_string st = some (b, st2)) : st2.current_line = st.current_line := by
  unfold print_quoted_string at h
  dsimp only at h
  split at h
  · simp only [Option.some.injEq, Prod.mk.injEq] at h
    rw [← h.2]
  · split at h
    · simp at h
    · simp only [Option.some.injEq, Prod.mk.injEq] at h
      rw [← h.2]
    · simp only [Option.some.injEq, Prod.mk.injEq] at h
      rw [← h.2]
      rfl

theorem printItem_line (st st4 : State) (h : printItem st = some (none, st4)) :
    st4.current_line = st.current_line := by
  unfold printItem at h
  cases hQ : print_quoted_string st with
  | none => rw [hQ] at h; simp at h
  | some r =>
    obtain ⟨b, s2⟩ := r
    have hq := print_quoted_string_line _ _ _ hQ
    rw [hQ] at h
    cases b with
    | true =>
      simp only [Option.some.injEq, Prod.mk.injEq, true_and] at h
      rw [← h]; exact hq
    | false =>
      dsimp only at h
      split at h
      · simp at h
      · cases hE : expression { s2 with exp_error := 0 } with
        | none => rw [hE] at h; simp at h
        | some r2 =>
          obtain ⟨e, s3⟩ := r2
          rw [hE] at h
          dsimp only at h
          have hl3 : s3.current_line = s2.current_line :=
            (expression_keeps _ _ _ hE).2.2.2.2.2.2.2.1
          split at h
          · simp at h
          · simp only [Option.some.injEq, Prod.mk.injEq, true_and] at h
            rw [← h, printnum_line]
            exact hl3.trans hq

theorem printLoop_end (f : Nat) (st st2 : State)
    (h : printLoop f st = some (Lbl.run_next_statement, st2)) :
    st2.current_line = st.current_line ∧ (st2.mem st2.txtpos = 58 ∨ st2.mem st2.txtpos = NL) := by
  induction f generalizing st with
  | zero => simp [printLoop] at h
  | succ f ih =>
    rw [printLoop] at h
    cases hI : printItem (ignore_blanks st) with
    | none => rw [hI] at h; simp at h
    | some r =>
      obtain ⟨ol, s4⟩ := r
      rw [hI] at h
      cases ol with
      | some l =>
        have := printItem_label _ _ _ hI
        simp only [Option.some.injEq, Prod.mk.injEq] at h
        rw [h.1] at this
        rcases this with e | e <;> exact absurd e (by decide)
      | none =>
        have hl4 : s4.current_line = st.current_line := printItem_line (ignore_blanks st) _ hI
        dsimp only at h
        split at h
        · obtain ⟨a1, a2⟩ := ih _ h
          exact ⟨a1.trans hl4, a2⟩
        · split at h
          · rename_i hsemi
            simp only [Option.some.injEq, Prod.mk.injEq, true_and] at h
            subst h
            exact ⟨hl4, hsemi.2.symm⟩
          · split at h
            · rename_i hce
              simp only [Option.some.injEq, Prod.mk.injEq, true_and] at h
              subst h
              unfold check_statement_end at hce ⊢
              simp only [decide_eq_true_eq] at hce
              exact ⟨hl4, hce.symm⟩
            · simp at h

theorem print_end (st st2 : State) (h : print st = some (Lbl.run_next_statement, st2)) :
    st2.current_line = st.current_line ∧
      (st2.mem st2.txtpos = 58 ∨ st2.mem st2.txtpos = NL ∨
        (st.mem st.txtpos = 58 ∧ st2.txtpos = st.txtpos + 1 ∧ st2.mem = st.mem)) := by
  unfold print at h
  split at h
  · rename_i hc
    simp only [Option.some.injEq, Prod.mk.injEq, true_and] at h
    subst h
    exact ⟨rfl, Or.inr (Or.inr ⟨hc, rfl, rfl⟩)⟩
  · split at h
    · simp at h
    · obtain ⟨a1, a2⟩ := printLoop_end _ _ _ h
      exact ⟨a1, by tauto⟩

theorem interperate_let (st : State)
    (h : (scantable keywords st).table_index = KW_LET ∨
      (scantable keywords st).table_index = KW_DEFAULT) :
    interperateAtTxtpos st = assignment (ignore_blanks (scantable keywords st)) := by
  unfold interperateAtTxtpos
  dsimp only
  rcases h with h | h
  · have hk : (ignore_blanks (scantable keywords st)).table_index = KW_LET := h
    simp only [hk]
    rfl
  · have hk : (ignore_blanks (scantable keywords st)).table_index = KW_DEFAULT := h
    simp only [hk]
    rfl

theorem interperate_print (st : State) (h : (scantable keywords st).table_index = KW_PRINT) :
    interperateAtTxtpos st = print (ignore_blanks (scantable keywords st)) := by
  have hk : (ignore_blanks (scantable keywords st)).table_index = KW_PRINT := h
  unfold interperateAtTxtpos
  dsimp only
  simp only [hk]
  rfl

theorem interperate_poke (st : State) (h : (scantable keywords st).table_index = KW_POKE) :
    interperateAtTxtpos st = pokeLike poke (ignore_blanks (scantable keywords st)) := by
  have hk : (ignore_blanks (scantable keywords st)).table_index = KW_POKE := h
  unfold interperateAtTxtpos
  dsimp only
  simp only [hk]
  rfl

theorem interperate_out (st : State) (h : (scantable keywords st).table_index = KW_OUT) :
    interperateAtTxtpos st = pokeLike outp (ignore_blanks (scantable keywords st)) := by
  have hk : (ignore_blanks (scantable keywords st)).table_index = KW_OUT := h
  unfold interperateAtTxtpos
  dsimp only
  simp only [hk]
  rfl

theorem interperate_sleep (st : State) (h : (scantable keywords st).table_index = KW_SLEEP) :
    interperateAtTxtpos st = sleep (ignore_blanks (scantable keywords st)) := by
  have hk : (ignore_blanks (scantable keywords st)).table_index = KW_SLEEP := h
  unfold interperateAtTxtpos
  dsimp only
  simp only [hk]
  rfl

theorem interperate_dim (st : State) (h : (scantable keywords st).table_index = KW_DIM) :
    interperateAtTxtpos st = do_dim (ignore_blanks (scantable keywords st)) := by
  have hk : (ignore_blanks (scantable keywords st)).table_index = KW_DIM := h
  unfold interperateAtTxtpos
  dsimp only
  simp only [hk]
  rfl

theorem interperate_forloop (st : State) (h : (scantable keywords st).table_index = KW_FOR) :
    interperateAtTxtpos st = forloop (ignore_blanks (scantable keywords st)) := by
  have hk : (ignore_blanks (scantable keywords st)).table_index = KW_FOR := h
  unfold interperateAtTxtpos
  dsimp only
  simp only [hk]
  rfl

theorem expression_sum_end (st : State) (s : SumOf) (c : Nat) (hc : SumEnd c)
    (hr : c < 128 ∧ c ≠ 60 ∧ c ≠ 61 ∧ c ≠ 62)
    (hh : Holds st.mem st.txtpos (SumOf.text s ++ [c])) (hok : SumOf.ok st.mem s)
    (he : st.exp_error = 0) (hroom : st.txtpos + (SumOf.text s).length < MEMSIZE) :
    expression st = some (SumOf.val st.mem s,
      { st with txtpos := st.txtpos + (SumOf.text s).length, table_index := RELOP_UNKNOWN }) := by
  rw [expression_unfold]
  unfold expressionBody
  rw [expr2_sum _ st s c hc hh hok hroom]
  dsimp only
  rw [if_neg (by rw [he]; decide)]
  have hnl : st.mem (st.txtpos + (SumOf.text s).length) = c := by
    rw [holds_append] at hh
    exact hh.2.1
  rw [scantable_relop_none _ c hnl ⟨hr.1, hc.1.2.1, hc.1.2.2.1, hr.2.1, hr.2.2.1, hr.2.2.2⟩]
  dsimp only
  rw [if_pos rfl]

theorem sum_head (s : SumOf) (hok : s.1.1.ok) :
    ∃ h t, SumOf.text s = h :: t ∧ (h = 38 ∨ 48 ≤ h) := by
  obtain ⟨a0, at0, ea, ha⟩ := atom_head s.1.1 hok
  refine ⟨a0, at0 ++ opsText s.1.2 ++ termsText s.2, ?_, ha⟩
  rw [sum_text_eq, product_text_eq, ea]
  simp

theorem scantable_step_none (st : State) (c : Nat) (h0 : st.mem st.txtpos = c)
    (hc : c < 128 ∧ c ≠ 32 ∧ c ≠ 9 ∧ c ≠ 83) :
    scantable step_tab st = { st with table_index := 1 } := by
  unfold scantable
  rw [ignore_blanks_stop st (by rw [h0]; unfold SPACE TAB; omega), step_tab_eq]
  dsimp only
  have e : scantableLoop st.mem st.txtpos ([83, 84, 69, 208, 0].length + 1)
      [83, 84, 69, 208, 0] 0 0 = (none, 1) := by
    show scantableLoop st.mem st.txtpos (5 + 1) _ 0 0 = _
    rw [scantableLoop_skip _ _ _ _ _ _ _ (by decide)
      (by rw [Nat.add_zero, h0, Nat.mod_eq_of_lt (by omega)]; exact hc.2.2.2)
      (by rw [Nat.add_zero, h0, schar_small c hc.1]; omega)]
    rfl
  rw [e]
  rfl

theorem check_statement_end_colon (st : State) (h0 : st.mem st.txtpos = 58) :
    check_statement_end st = (true, st) := by
  unfold check_statement_end
  rw [ignore_blanks_stop st (by rw [h0]; decide)]
  simp [h0]

/-- The handler of `FOR` on `V=x TO y` that a colon follows: a syntax error
with the cursor on the colon. -/
theorem forloop_colon (st : State) (V : Nat) (x y : Atom) (hV : 65 ≤ V ∧ V ≤ 90) (hx : x.ok)
    (hy : y.ok)
    (hh : Holds st.mem st.txtpos ([V, 61] ++ x.text ++ [32, 84, 79, 32] ++ y.text ++ [58]))
    (hroom : st.txtpos + (x.text.length + y.text.length + 6) < MEMSIZE) :
    forloop st = some (Lbl.syntaxerror,
      { st with txtpos := st.txtpos + (x.text.length + y.text.length + 6), exp_error := 0,
                table_index := 1 }) := by
  obtain ⟨x0, xt, ex, hx0⟩ := atom_head_class x hx
  obtain ⟨y0, yt, ey, hy0⟩ := atom_head_class y hy
  have hh' := hh
  simp only [List.append_assoc, List.cons_append, List.nil_append] at hh'
  obtain ⟨h0, h1, hrest⟩ := hh'
  rw [holds_append] at hrest
  obtain ⟨hxs, hr2⟩ := hrest
  obtain ⟨hb1, hT, hO, hb2, hr3⟩ := hr2
  rw [holds_append] at hr3
  obtain ⟨hys, hnl, -⟩ := hr3
  have e1 : st.txtpos + 1 + 1 = st.txtpos + 2 := rfl
  rw [e1] at hxs hb1 hT hO hb2 hys hnl
  have hxh : st.mem (st.txtpos + 2) = x0 := by
    have := hxs; rw [ex] at this; exact this.1
  have hyh : st.mem (st.txtpos + 2 + x.text.length + 1 + 1 + 1 + 1) = y0 := by
    have := hys; rw [ey] at this; exact this.1
  have s1 := scantable_relop_op { st with txtpos := st.txtpos + 1 } RelOp.eq x0
    ⟨by omega, by omega, by omega, by omega⟩ (by omega) ⟨h1, hxh, trivial⟩
  have s2 := expression_atom_blank
    { st with txtpos := st.txtpos + 2, table_index := RELOP_EQ, exp_error := 0 } x 84 hx
    (by
      dsimp only
      rw [holds_append]
      exact ⟨hxs, hb1, hT, trivial⟩)
    (by decide) rfl (by dsimp only; omega)
  have s3 := scantable_to
    { st with txtpos := st.txtpos + 2 + x.text.length + 1, table_index := RELOP_UNKNOWN,
              exp_error := 0 } y0
    ⟨hT, hO, hb2, hyh, trivial⟩ (by omega) (by dsimp only; omega)
  have et : SumOf.text ((y, []), []) = y.text := by simp [SumOf.text, Product.text]
  have s4 := expression_sum_end
    { st with txtpos := st.txtpos + 2 + x.text.length + 1 + 3, table_index := 0,
              exp_error := 0 } ((y, []), []) 58 (by decide) (by decide)
    (by
      dsimp only
      rw [et, holds_append]
      exact ⟨hys, hnl, trivial⟩)
    (by simp [SumOf.ok, Product.ok, hy]) rfl (by dsimp only; rw [et]; omega)
  rw [et] at s4
  have ev : SumOf.val st.mem ((y, []), []) = y.val st.mem := rfl
  have s5 := scantable_step_none
    { st with txtpos := st.txtpos + 2 + x.text.length + 1 + 3 + y.text.length,
              table_index := RELOP_UNKNOWN, exp_error := 0 } 58 hnl (by decide)
  have s6 := check_statement_end_colon
    { st with txtpos := st.txtpos + 2 + x.text.length + 1 + 3 + y.text.length,
              table_index := 1, exp_error := 0 } hnl
  have s1' : scantable relop_tab { st with txtpos := st.txtpos + 1 } =
      { st with txtpos := st.txtpos + 2, table_index := RELOP_EQ } := s1
  dsimp only at s2 s3 s4 s5 s6
  have hv : ¬ (V < 65 ∨ V > 90) := by omega
  have e2 : st.txtpos + 2 + x.text.length + 1 + 3 + y.text.length =
      st.txtpos + (x.text.length + y.text.length + 6) := by omega
  have hne : (58 : Nat) ≠ NL := by decide
  unfold forloop
  simp only [h0, hv, if_false, s1', s2, s3, s4, s5, s6, ne_eq, not_true_eq_false,
    not_false_eq_true, if_true, hnl, and_self, reduceCtorEq, Bool.true_eq_false,
    OfNat.ofNat_ne_zero, one_ne_zero, hne, and_false]
  rw [e2]

theorem pushFor_end (var : Nat) (initial terminal step : Int) (st st2 : State)
    (h : pushFor var initial terminal step st = some (Lbl.run_next_statement, st2)) :
    st2.current_line = st.current_line ∧ st2.txtpos = st.txtpos := by
  unfold pushFor at h
  split at h
  · simp at h
  · split at h
    · simp at h
    · simp only [Option.some.injEq, Prod.mk.injEq, true_and] at h
      rw [← h]
      exact ⟨rfl, rfl⟩

theorem forloop_end (st st2 : State) (h : forloop st = some (Lbl.run_next_statement, st2)) :
    st2.current_line = st.current_line ∧ st.mem st2.txtpos = NL := by
  unfold forloop at h
  dsimp only at h
  split at h
  · simp at h
  have k1 := scantable_keeps relop_tab { st with txtpos := st.txtpos + 1 }
  generalize scantable relop_tab { st with txtpos := st.txtpos + 1 } = s1 at h k1
  split at h
  · simp at h
  cases hE : expression { s1 with exp_error := 0 } with
  | none => rw [hE] at h; simp at h
  | some r =>
    obtain ⟨initial, s2⟩ := r
    rw [hE] at h
    dsimp only at h
    have k2 := expression_keeps _ _ _ hE
    split at h
    · simp at h
    have k3 := scantable_keeps to_tab s2
    generalize scantable to_tab s2 = s3 at h k3
    split at h
    · simp at h
    cases hE2 : expression s3 with
    | none => rw [hE2] at h; simp at h
    | some r2 =>
      obtain ⟨terminal, s4⟩ := r2
      rw [hE2] at h
      dsimp only at h
      have k4 := expression_keeps _ _ _ hE2
      split at h
      · simp at h
      have k5 := scantable_keeps step_tab s4
      generalize scantable step_tab s4 = s5 at h k5
      have hm5 : s5.mem = st.mem :=
        k5.1.trans (k4.1.trans (k3.1.trans (k2.1.trans k1.1)))
      have hl5 : s5.current_line = st.current_line :=
        k5.2.2.2.2.2.2.2.1.trans (k4.2.2.2.2.2.2.2.1.trans (k3.2.2.2.2.2.2.2.1.trans
          (k2.2.2.2.2.2.2.2.1.trans k1.2.2.2.2.2.2.2.1)))
      have key : ∀ (step : Int) (s6 : State), s6.mem = st.mem →
          s6.current_line = st.current_line →
          (if s6.exp_error ≠ 0 then some (Lbl.invalidexpr, s6)
            else if (check_statement_end s6).1 = false then
              some (Lbl.syntaxerror, (check_statement_end s6).2)
            else if (check_statement_end s6).2.exp_error = 0 ∧
                (check_statement_end s6).2.mem (check_statement_end s6).2.txtpos = NL then
              pushFor (st.mem st.txtpos) initial terminal step (check_statement_end s6).2
            else some (Lbl.syntaxerror, (check_statement_end s6).2)) =
            some (Lbl.run_next_statement, st2) →
          st2.current_line = st.current_line ∧ st.mem st2.txtpos = NL := by
        intro step s6 hm6 hl6 h6
        split at h6
        · simp at h6
        · split at h6
          · simp at h6
          · split at h6
            · rename_i hnl
              obtain ⟨p1, p2⟩ := pushFor_end _ _ _ _ _ _ h6
              refine ⟨p1.trans hl6, ?_⟩
              rw [p2, ← hm6]
              exact hnl.2
            · simp at h6
      by_cases hst : s5.table_index = 0
      · rw [if_pos hst] at h
        cases hE3 : expression s5 with
        | none => rw [hE3] at h; simp at h
        | some r3 =>
          obtain ⟨step, s6⟩ := r3
          rw [hE3] at h
          dsimp only at h
          have k6 := expression_keeps _ _ _ hE3
          exact key step s6 (k6.1.trans hm5) (k6.2.2.2.2.2.2.2.1.trans hl5) h
      · rw [if_neg hst] at h
        dsimp only at h
        exact key 1 s5 hm5 hl5 h

/-- The statement `SLEEP` on a sum of products of atoms that a colon follows:
it ends at `run_next_statement` with the cursor on the colon. -/
theorem sleep_colon (st : State) (s : SumOf)
    (hh : Holds st.mem st.txtpos (str "SLEEP " ++ (SumOf.text s ++ [58])))
    (hok : SumOf.ok st.mem s) (hroom : st.txtpos + 6 + (SumOf.text s).length < MEMSIZE) :
    interperateAtTxtpos st = some (Lbl.run_next_statement,
      { st with txtpos := st.txtpos + 6 + (SumOf.text s).length, exp_error := 0,
                table_index := RELOP_UNKNOWN }) := by
  have eS : str "SLEEP " = [83, 76, 69, 69, 80, 32] := by decide
  rw [eS, holds_append] at hh
  obtain ⟨⟨a0, a1, a2, a3, a4, a5, -⟩, hsum⟩ := hh
  have e1 : st.txtpos + 1 + 1 = st.txtpos + 2 := rfl
  have e2 : st.txtpos + 2 + 1 = st.txtpos + 3 := rfl
  have e3 : st.txtpos + 3 + 1 = st.txtpos + 4 := rfl
  have e4 : st.txtpos + 4 + 1 = st.txtpos + 5 := rfl
  rw [e1] at a2 a3 a4 a5
  rw [e2] at a3 a4 a5
  rw [e3] at a4 a5
  rw [e4] at a5
  obtain ⟨h, t, eh, hh0⟩ := sum_head s hok.1.1
  have hhead : st.mem (st.txtpos + 6) = h := by
    have := hsum
    rw [eh] at this
    exact this.1
  have d := keyword_dispatch st 20 [83, 76, 69, 69, 80] h (by decide)
    ⟨a0, a1, a2, a3, a4, a5, hhead, trivial⟩
    (by
      intro j hj
      interval_cases j
      · rw [Nat.add_zero, a0]; decide
      · rw [a1]; decide
      · rw [a2]; decide
      · rw [a3]; decide
      · rw [a4]; decide
      · rw [a5]; decide)
    (by omega) (by show st.txtpos + 5 < MEMSIZE; omega)
  have d2 : ignore_blanks (scantable keywords st) =
      { st with txtpos := st.txtpos + 6, table_index := 20 } := d
  have hk : (scantable keywords st).table_index = KW_SLEEP := by
    show (ignore_blanks (scantable keywords st)).table_index = KW_SLEEP
    rw [d2]
    rfl
  rw [interperate_sleep st hk, d2]
  unfold sleep
  have ex := expression_sum_end
    { st with txtpos := st.txtpos + 6, table_index := 20, exp_error := 0 } s 58
    (by decide) (by decide) hsum hok rfl (by show st.txtpos + 6 + _ < MEMSIZE; exact hroom)
  dsimp only at ex ⊢
  rw [ex]
  rfl

/-- The statement `FOR V=x TO y` that a colon follows: a syntax error. -/
theorem for_colon (st : State) (V : Nat) (x y : Atom) (hV : 65 ≤ V ∧ V ≤ 90) (hx : x.ok)
    (hy : y.ok)
    (hh : Holds st.mem st.txtpos
      (str "FOR " ++ ([V, 61] ++ x.text ++ str " TO " ++ y.text ++ [58])))
    (hroom : st.txtpos + (x.text.length + y.text.length + 10) < MEMSIZE) :
    interperateAtTxtpos st = some (Lbl.syntaxerror,
      { st with txtpos := st.txtpos + 4 + (x.text.length + y.text.length + 6), exp_error := 0,
                table_index := 1 }) := by
  have eF : str "FOR " = [70, 79, 82, 32] := by decide
  have eT : str " TO " = [32, 84, 79, 32] := by decide
  rw [eF, eT, holds_append] at hh
  obtain ⟨hfor, htxt⟩ := hh
  have hV0 : st.mem (st.txtpos + 4) = V := htxt.1
  have hV1 : st.mem (st.txtpos + 5) = 61 := htxt.2.1
  have d1 := interperate_for st V
    ⟨hfor.1, hfor.2.1, hfor.2.2.1, hfor.2.2.2.1, hV0, trivial⟩
    (by
      obtain ⟨a0, a1, a2, a3, -⟩ := hfor
      intro j hj
      have e1 : st.txtpos + 1 + 1 = st.txtpos + 2 := rfl
      have e2 : st.txtpos + 2 + 1 = st.txtpos + 3 := rfl
      rw [e1] at a2 a3
      rw [e2] at a3
      interval_cases j
      · rw [Nat.add_zero, a0]; decide
      · rw [a1]; decide
      · rw [a2]; decide
      · rw [a3]; decide
      · rw [hV0]; omega
      · rw [hV1]; decide)
    (by omega) (by omega)
  rw [d1]
  exact forloop_colon { st with txtpos := st.txtpos + 4, table_index := KW_FOR } V x y hV hx hy
    htxt (by dsimp only; omega)

/-- C18 (amended): statement sequencing on a line.  (1) At `run_next_statement`
colons and blanks that a further statement follows lead to that statement as
the next one executed, on the same line.  (2) An assignment, `PRINT`, `DIM`,
`POKE`, `OUT`, `SLEEP` or `CLEAR` that returns ends at `run_next_statement`
or in an error (a `PRINT` that a newline follows at once goes on to the next
line).  (3) When such a statement ends at `run_next_statement` the current
line is the same and the cursor is at the end of the statement: `DIM`, `POKE`
and `OUT` leave it on a colon or a newline; so does `PRINT`, or just after the
colon that follows `PRINT` at once; an assignment leaves it on what was a colon
or a newline before the value was stored; `SLEEP` leaves the arena as it was
and `CLEAR` the cursor after its keyword; a `FOR` ends there only with the
cursor on the newline of its line.  (4) `SLEEP` with a sum of products of
atoms that a colon follows ends at `run_next_statement` with the cursor on
that colon.  (5) `FOR V=x TO y` that a colon follows is a syntax error, with
the cursor on the colon. -/
theorem C18_sequencing :
    (∀ (st : State) (cs bs : List Nat) (c : Nat),
      Holds st.mem st.txtpos (cs ++ bs ++ [c]) → (∀ x ∈ cs, x = 58) →
      (∀ b ∈ bs, b = 32 ∨ b = 9) → c ≠ 58 ∧ c ≠ 32 ∧ c ≠ 9 ∧ c ≠ NL →
      st.txtpos + cs.length + bs.length < MEMSIZE →
      step false Lbl.run_next_statement st =
        some (Lbl.interperateAtTxtpos,
          { st with txtpos := st.txtpos + cs.length + bs.length })) ∧
    (∀ (st st2 : State) (l : Lbl), interperateAtTxtpos st = some (l, st2) →
      (scantable keywords st).table_index ∈
        [KW_LET, KW_DEFAULT, KW_PRINT, KW_DIM, KW_POKE, KW_OUT, KW_SLEEP, KW_CLEAR] →
      l = Lbl.run_next_statement ∨ l = Lbl.syntaxerror ∨ l = Lbl.invalidexpr ∨
        (l = Lbl.execnextline ∧ (scantable keywords st).table_index = KW_PRINT)) ∧
    (∀ (st st2 : State), interperateAtTxtpos st = some (Lbl.run_next_statement, st2) →
      ((scantable keywords st).table_index ∈ [KW_DIM, KW_POKE, KW_OUT] →
        st2.current_line = st.current_line ∧
        (st2.mem st2.txtpos = 58 ∨ st2.mem st2.txtpos = NL)) ∧
      ((scantable keywords st).table_index = KW_PRINT →
        st2.current_line = st.current_line ∧
        (st2.mem st2.txtpos = 58 ∨ st2.mem st2.txtpos = NL ∨
          (0 < st2.txtpos ∧ st2.mem (st2.txtpos - 1) = 58))) ∧
      ((scantable keywords st).table_index ∈ [KW_LET, KW_DEFAULT] →
        st2.current_line = st.current_line ∧
        (st.mem st2.txtpos = 58 ∨ st.mem st2.txtpos = NL) ∧
        ∃ var value, st2.mem = wr16 st.mem var value) ∧
      ((scantable keywords st).table_index = KW_SLEEP →
        st2.current_line = st.current_line ∧ st2.mem = st.mem) ∧
      ((scantable keywords st).table_index = KW_CLEAR →
        st2.current_line = st.current_line ∧
        st2.txtpos = (ignore_blanks (scantable keywords st)).txtpos) ∧
      ((scantable keywords st).table_index = KW_FOR →
        st2.current_line = st.current_line ∧ st.mem st2.txtpos = NL)) ∧
    (∀ (st : State) (s : SumOf),
      Holds st.mem st.txtpos (str "SLEEP " ++ (SumOf.text s ++ [58])) → SumOf.ok st.mem s →
      st.txtpos + 6 + (SumOf.text s).length < MEMSIZE →
      interperateAtTxtpos st = some (Lbl.run_next_statement,
        { st with txtpos := st.txtpos + 6 + (SumOf.text s).length, exp_error := 0,
                  table_index := RELOP_UNKNOWN })) ∧
    (∀ (st : State) (V : Nat) (x y : Atom), 65 ≤ V ∧ V ≤ 90 → x.ok → y.ok →
      Holds st.mem st.txtpos
        (str "FOR " ++ ([V, 61] ++ x.text ++ str " TO " ++ y.text ++ [58])) →
      st.txtpos + (x.text.length + y.text.length + 10) < MEMSIZE →
      interperateAtTxtpos st = some (Lbl.syntaxerror,
        { st with txtpos := st.txtpos + 4 + (x.text.length + y.text.length + 6),
                  exp_error := 0, table_index := 1 })) := by
  have hml : ∀ st : State, (ignore_blanks (scantable keywords st)).mem = st.mem :=
    fun st => (scantable_keeps keywords st).1
  have hcl : ∀ st : State,
      (ignore_blanks (scantable keywords st)).current_line = st.current_line :=
    fun st => (scantable_keeps keywords st).2.2.2.2.2.2.2.1
  refine ⟨?_, ?_, ?_, sleep_colon, for_colon⟩
  · intro st cs bs c hh hcs hbs hc hroom
    show some (run_next_statement st) = _
    rw [run_next_colons st cs bs c hh hcs hbs hc hroom]
  · intro st st2 l h hk
    simp only [List.mem_cons, List.mem_singleton, List.not_mem_nil, or_false] at hk
    rcases hk with hk | hk | hk | hk | hk | hk | hk | hk
    · rw [interperate_let st (Or.inl hk)] at h
      have := assignment_label _ _ _ h; tauto
    · rw [interperate_let st (Or.inr hk)] at h
      have := assignment_label _ _ _ h; tauto
    · rw [interperate_print st hk] at h
      have := print_label _ _ _ h; tauto
    · rw [interperate_dim st hk] at h
      have := do_dim_label _ _ _ h; tauto
    · rw [interperate_poke st hk] at h
      have := pokeLike_label _ _ _ _ h; tauto
    · rw [interperate_out st hk] at h
      have := pokeLike_label _ _ _ _ h; tauto
    · rw [interperate_sleep st hk] at h
      have := sleep_label _ _ _ h; tauto
    · rw [interperate_clear st hk] at h
      simp only [Option.some.injEq, Prod.mk.injEq] at h
      exact Or.inl h.1.symm
  · intro st st2 h
    refine ⟨?_, ?_, ?_, ?_, ?_, ?_⟩
    · intro hk
      simp only [List.mem_cons, List.mem_singleton, List.not_mem_nil, or_false] at hk
      rcases hk with hk | hk | hk
      · rw [interperate_dim st hk] at h
        obtain ⟨a1, a2⟩ := do_dim_end _ _ h
        exact ⟨a1.trans (hcl st), a2⟩
      · rw [interperate_poke st hk] at h
        obtain ⟨a1, a2⟩ := pokeLike_end poke poke_line _ _ h
        exact ⟨a1.trans (hcl st), a2⟩
      · rw [interperate_out st hk] at h
        obtain ⟨a1, a2⟩ := pokeLike_end outp outp_line _ _ h
        exact ⟨a1.trans (hcl st), a2⟩
    · intro hk
      rw [interperate_print st hk] at h
      obtain ⟨a1, a2⟩ := print_end _ _ h
      refine ⟨a1.trans (hcl st), ?_⟩
      rcases a2 with a2 | a2 | ⟨b1, b2, b3⟩
      · exact Or.inl a2
      · exact Or.inr (Or.inl a2)
      · refine Or.inr (Or.inr ⟨by omega, ?_⟩)
        rw [b2, b3, Nat.add_sub_cancel]
        exact b1
    · intro hk
      simp only [List.mem_cons, List.mem_singleton, List.not_mem_nil, or_false] at hk
      rw [interperate_let st hk] at h
      obtain ⟨a1, a2, var, value, a3⟩ := assignment_end _ _ h
      rw [hml st] at a2 a3
      exact ⟨a1.trans (hcl st), a2, var, value, a3⟩
    · intro hk
      rw [interperate_sleep st hk] at h
      obtain ⟨a1, a2⟩ := sleep_end _ _ h
      exact ⟨a1.trans (hcl st), a2.trans (hml st)⟩
    · intro hk
      rw [interperate_clear st hk] at h
      simp only [Option.some.injEq, Prod.mk.injEq, true_and] at h
      rw [← h]
      exact ⟨hcl st, rfl⟩
    · intro hk
      rw [interperate_forloop st hk] at h
      obtain ⟨a1, a2⟩ := forloop_end _ _ h
      rw [hml st] at a2
      exact ⟨a1.trans (hcl st), a2⟩

set_option maxRecDepth 100000 in
/-- C18, witness: on the text `SLEEP 1:B=2` the statement `SLEEP 1` ends at
`run_next_statement` with the cursor on the colon, on the same line and with
the arena as it was, and the next passage puts control on `B=2`; the text
`FOR I=1 TO 3: PRINT I` is a syntax error; and the lines
`10 A=1: PRINT A: B=2: PRINT B`, `10 SLEEP 1: PRINT 5` and
`10 DIM A(3): POKE 1000,7: CLEAR : PRINT : PRINT 4;: PRINT 5` print 1 and 2,
5, and an empty line and 45. -/
theorem C18_sequencing_witness :
    interperateAtTxtpos sleepExample = some (Lbl.run_next_statement,
      { sleepExample with
          txtpos := sleepExample.txtpos + 6 + (SumOf.text ((Atom.num 1, []), [])).length,
          exp_error := 0, table_index := RELOP_UNKNOWN }) ∧
    (Lbl.run_next_statement = Lbl.run_next_statement ∨
      Lbl.run_next_statement = Lbl.syntaxerror ∨ Lbl.run_next_statement = Lbl.invalidexpr ∨
      (Lbl.run_next_statement = Lbl.execnextline ∧
        (scantable keywords sleepExample).table_index = KW_PRINT)) ∧
    (({ sleepExample with
          txtpos := sleepExample.txtpos + 6 + (SumOf.text ((Atom.num 1, []), [])).length,
          exp_error := 0, table_index := RELOP_UNKNOWN } : State).current_line =
        sleepExample.current_line ∧
      ({ sleepExample with
          txtpos := sleepExample.txtpos + 6 + (SumOf.text ((Atom.num 1, []), [])).length,
          exp_error := 0, table_index := RELOP_UNKNOWN } : State).mem = sleepExample.mem) ∧
    step false Lbl.run_next_statement
        { sleepExample with
            txtpos := sleepExample.txtpos + 6 + (SumOf.text ((Atom.num 1, []), [])).length,
            exp_error := 0, table_index := RELOP_UNKNOWN } =
      some (Lbl.interperateAtTxtpos,
        { ({ sleepExample with
            txtpos := sleepExample.txtpos + 6 + (SumOf.text ((Atom.num 1, []), [])).length,
            exp_error := 0, table_index := RELOP_UNKNOWN } : State) with
          txtpos := sleepExample.txtpos + 6 + (SumOf.text ((Atom.num 1, []), [])).length +
            [58].length + ([] : List Nat).length }) ∧
    interperateAtTxtpos forColonExample = some (Lbl.syntaxerror,
      { forColonExample with
          txtpos := forColonExample.txtpos + 4 +
            ((Atom.num 1).text.length + (Atom.num 3).text.length + 6),
          exp_error := 0, table_index := 1 }) ∧
    sessionOut 2 "10 A=1: PRINT A: B=2: PRINT B\nRUN\n" = some (str "1\n2\nOK\n") ∧
    sessionOut 2 "10 SLEEP 1: PRINT 5\nRUN\n" = some (str "5\nOK\n") ∧
    sessionOut 2 "10 DIM A(3): POKE 1000,7: CLEAR : PRINT : PRINT 4;: PRINT 5\nRUN\n" =
      some (str "\n45\nOK\n") := by
  have hS := C18_sequencing.2.2.2.1 sleepExample ((Atom.num 1, []), []) (by decide!)
    (by simp [SumOf.ok, Product.ok, Atom.ok]) (by decide)
  refine ⟨hS, C18_sequencing.2.1 _ _ _ hS (by decide!),
    (C18_sequencing.2.2.1 _ _ hS).2.2.2.1 (by decide!),
    C18_sequencing.1 _ [58] [] 66 (by decide!) (by decide) (by decide) (by decide) (by decide),
    C18_sequencing.2.2.2.2 forColonExample 73 (Atom.num 1) (Atom.num 3) (by decide) trivial
      trivial (by decide!) (by decide), ?_⟩
  decide!
end TBasic
